import Mathlib

/-!
# Kernel-Simulator: a verification development

The two schedulers of the repository are embedded here, and the list operations of
the second one a second time on a heap.

* `Tick` embeds `main.c`: the PCB array, the intrusive FIFO queue
  (`new_queue`, `isEmpty`, `enqueue`, `dequeue`) and the loop of `kernelSim`.
  A `PCB *` is the index of the PCB in the `processes` array; `none` is `NULL`.
  The `next` link lives inside the PCB, exactly as in the C struct, so one PCB
  carries the same link through every queue it visits.  `kernelSim` is a machine
  with one control step per evaluation of a loop test, so that a loop that does
  not end is a run that never reaches `Pc.finished`.
* `Skip` embeds `priority.c`: `push_node`, `remove_node`,
  `get_time_to_next_event`, `get_next_process` and the do-while loop of `main`.
  `read_proc_from_file` allocates one node per process; a list head is the
  sequence of the nodes linked from it.
* `Links` embeds `push_node` and `remove_node` of `priority.c` once more, on a heap of
  `struct node` with explicit `next` pointers, and relates them to the sequences that
  `Skip` works with.

C `int` values are integers (`Int`).  Each engine is given in two arithmetics.
The definitions of `Tick` and `Skip` compute on the integers: a sum is the sum.
`Tick.Int32` and `Skip.Int32` are the same loops in the arithmetic of a 32-bit
two's-complement `int`: every `int` addition and subtraction of the source is
wrapped into the range of `int` (`wrapInt`).  The two agree as long as no result
leaves that range: for input rows of `int` fields (`IntRows`) within the ranges
of the data model, a run in `int` arithmetic is in the same state as the run on
the integers while the clock is at most `INT_MAX` (`Skip.passes_agree`,
`Skip.mainLoop_agree`, `Tick.kernelSim_agree`; for `Tick`, whose queue sizes are
`int` counters as well, while fewer than `INT_MAX - 1` records have been
written).  The theorems about computed times and timers are stated within these
bounds and name the run in `int` arithmetic; beyond them the two runs part, and
the theorems that show it evaluate the `Int32` definitions.  A dereference of
`NULL` is the result `none` (`Skip`), the control point `Pc.crashed` (`Tick`) or
the error `Fault.null_deref` (`Links`).

The file has two halves: the definitions of `Tick`, `Skip` and `Links`, then
the theorems about `Tick`, `Skip` and `Links`.
-/

namespace Tick

/-- The five state names that `kernelSim` prints. -/
inductive StateName where
  | New | Ready | Running | Waiting | Terminated
deriving DecidableEq, Repr

/-- The C struct `PCB`.  `next` is a pointer to a PCB of the `processes` array. -/
structure PCB where
  PID : Int
  arrivalTime : Int
  CPUTime : Int
  freq : Int
  duration : Int
  remainingCPUTime : Int
  waitStartTime : Int
  next : Option Nat
deriving DecidableEq, Repr

/-- The C struct `queue_t`. -/
structure queue_t where
  front : Option Nat
  rear : Option Nat
  size : Int
deriving DecidableEq, Repr

/-- The memory holding the `processes` array: `mem i` is `processes[i]`. -/
abbrev Mem := Nat → PCB

/-- One line written by `outputTransition`. -/
structure Transition where
  clk : Int
  PID : Int
  oldState : StateName
  newState : StateName
deriving DecidableEq, Repr

/-- `isEmpty`: `queue->size == 0`. -/
def isEmpty (queue : queue_t) : Bool :=
  queue.size == 0

/-- `new_queue`: front and rear `NULL`, size 0. -/
def new_queue : queue_t :=
  { front := none, rear := none, size := 0 }

/-- `enqueue`.  Writes `queue->rear->next` when `queue->front` is not `NULL`;
the result is `none` when that write would go through a `NULL` rear.
The `next` link of `pcb` itself is not touched. -/
def enqueue (mem : Mem) (queue : queue_t) (pcb : Nat) : Option (Mem × queue_t) :=
  match queue.front with
  | none =>
    some (mem, { front := some pcb, rear := some pcb, size := queue.size + 1 })
  | some _ =>
    match queue.rear with
    | none => none
    | some r =>
      some (Function.update mem r { mem r with next := some pcb },
            { front := queue.front, rear := some pcb, size := queue.size + 1 })

/-- `dequeue`.  The outer `Option` is `none` when the code dereferences a
`NULL` front (size not 0 but front `NULL`); the inner `Option` is the returned
pointer.  The memory is only read. -/
def dequeue (mem : Mem) (queue : queue_t) : Option (Option Nat × queue_t) :=
  if queue.size = 0 then
    some (none, queue)
  else
    match queue.front with
    | none => none
    | some temp =>
      some (some temp, { front := (mem temp).next, rear := queue.rear, size := queue.size - 1 })

/-- Control points of `kernelSim`. -/
inductive Pc where
  /-- about to test `terminated->size < num_processes` -/
  | loopHead
  /-- about to test `i < num_processes` in the arrival loop -/
  | arrivals (i : Nat)
  /-- at `dequeue(ready)`, up to and including `clk++` -/
  | execute
  /-- about to test `currentIOProcess != NULL`, with `currentIOProcess = waiting->front` -/
  | ioScan
  /-- the while loop has been left -/
  | finished
  /-- a `NULL` pointer was dereferenced -/
  | crashed
deriving DecidableEq, Repr

/-- The variables of `kernelSim`, the memory of the PCB array and the output written so far. -/
structure KState where
  processes : Mem
  num_processes : Nat
  clk : Int
  ready : queue_t
  waiting : queue_t
  terminated : queue_t
  log : List Transition
  pc : Pc

/-- State of `kernelSim` on entry to the while loop. -/
def kernelInit (processes : Mem) (num_processes : Nat) : KState :=
  { processes := processes, num_processes := num_processes, clk := 0,
    ready := new_queue, waiting := new_queue, terminated := new_queue,
    log := [], pc := Pc.loopHead }

/-- Body of the arrival `for` loop for index `i`. -/
def arriveOne (s : KState) (i : Nat) : KState :=
  if (s.processes i).arrivalTime = s.clk then
    match enqueue s.processes s.ready i with
    | none => { s with
        log := s.log ++ [⟨s.clk, (s.processes i).PID, .New, .Ready⟩],
        pc := Pc.crashed }
    | some (m, q) => { s with
        log := s.log ++ [⟨s.clk, (s.processes i).PID, .New, .Ready⟩],
        processes := m, ready := q, pc := Pc.arrivals (i + 1) }
  else
    { s with pc := Pc.arrivals (i + 1) }

/-- Lines 195-214 of `main.c`: `dequeue(ready)`, the dispatch decision and `clk++`. -/
def executeStep (s : KState) : KState :=
  match dequeue s.processes s.ready with
  | none => { s with pc := Pc.crashed }
  | some (none, q) => { s with ready := q, clk := s.clk + 1, pc := Pc.ioScan }
  | some (some cur, q) =>
    let p := s.processes cur
    let log1 := s.log ++ [⟨s.clk, p.PID, .Ready, .Running⟩]
    if p.remainingCPUTime ≤ p.freq then
      let log2 := log1 ++ [⟨s.clk, p.PID, .Running, .Terminated⟩]
      let mem1 := Function.update s.processes cur { p with remainingCPUTime := 0 }
      match enqueue mem1 s.terminated cur with
      | none => { s with ready := q, log := log2, processes := mem1, pc := Pc.crashed }
      | some (m, t) =>
        { s with ready := q, log := log2, processes := m, terminated := t,
                 clk := s.clk + 1, pc := Pc.ioScan }
    else
      let log2 := log1 ++ [⟨s.clk, p.PID, .Running, .Waiting⟩]
      let mem1 := Function.update s.processes cur
        { p with waitStartTime := s.clk, remainingCPUTime := p.remainingCPUTime - p.freq }
      match enqueue mem1 s.waiting cur with
      | none => { s with ready := q, log := log2, processes := mem1, pc := Pc.crashed }
      | some (m, w) =>
        { s with ready := q, log := log2, processes := m, waiting := w,
                 clk := s.clk + 1, pc := Pc.ioScan }

/-- One evaluation of the I/O-completion `while` test and, when it holds, its body. -/
def ioScanStep (s : KState) : KState :=
  match s.waiting.front with
  | none => { s with pc := Pc.loopHead }
  | some cur =>
    let p := s.processes cur
    if s.clk - p.waitStartTime = p.duration then
      let log1 := s.log ++ [⟨s.clk, p.PID, .Waiting, .Ready⟩]
      match enqueue s.processes s.ready cur with
      | none => { s with log := log1, pc := Pc.crashed }
      | some (m, r) =>
        match dequeue m s.waiting with
        | none => { s with log := log1, processes := m, ready := r, pc := Pc.crashed }
        | some (_, w) =>
          { s with log := log1, processes := m, ready := r, waiting := w, pc := Pc.ioScan }
    else
      { s with pc := Pc.loopHead }

/-- One control step of `kernelSim`. -/
def step (s : KState) : KState :=
  match s.pc with
  | Pc.loopHead =>
    if s.terminated.size < (s.num_processes : Int) then { s with pc := Pc.arrivals 0 }
    else { s with pc := Pc.finished }
  | Pc.arrivals i =>
    if i < s.num_processes then arriveOne s i else { s with pc := Pc.execute }
  | Pc.execute => executeStep s
  | Pc.ioScan => ioScanStep s
  | Pc.finished => s
  | Pc.crashed => s

/-- State after `n` control steps. -/
def runSteps : Nat → KState → KState
  | 0, s => s
  | n + 1, s => runSteps n (step s)

/-- What `getData` stores for one input row: `remainingCPUTime = CPUTime`.
`waitStartTime` and `next` are not written by `getData`; they start as
`wst0` and `NULL`. -/
def loadPCB (wst0 : Int) (row : Int × Int × Int × Int × Int) : PCB :=
  { PID := row.1, arrivalTime := row.2.1, CPUTime := row.2.2.1, freq := row.2.2.2.1,
    duration := row.2.2.2.2, remainingCPUTime := row.2.2.1, waitStartTime := wst0, next := none }

/-- Memory after `getData` on the given rows. -/
def loadMem (wst0 : Int) (rows : List (Int × Int × Int × Int × Int)) : Mem :=
  fun i => loadPCB wst0 (rows.getD i (0, 0, 0, 0, 0))

/-- `kernelSim` on the rows of an input file, run for `n` control steps. -/
def kernelSim (wst0 : Int) (rows : List (Int × Int × Int × Int × Int)) (n : Nat) : KState :=
  runSteps n (kernelInit (loadMem wst0 rows) rows.length)

/-! ### Vocabulary of the claims about the tick engine -/

/-- The transition records of process `pid`, in log order, as (old state, new state) pairs. -/
def recordsOf (pid : Int) (log : List Transition) : List (StateName × StateName) :=
  (log.filter (fun t => t.PID = pid)).map (fun t => (t.oldState, t.newState))

/-- The full life of a process that blocks for I/O `k` times:
New->Ready, `k` times (Ready->Running, Running->Waiting, Waiting->Ready),
then Ready->Running, Running->Terminated. -/
def lifecycle (k : Nat) : List (StateName × StateName) :=
  (StateName.New, StateName.Ready) ::
    ((List.replicate k
        [(StateName.Ready, StateName.Running), (StateName.Running, StateName.Waiting),
         (StateName.Waiting, StateName.Ready)]).flatten ++
      [(StateName.Ready, StateName.Running), (StateName.Running, StateName.Terminated)])

/-- Each record's old state is the new state of the record before it (`start` for the first). -/
def linked : StateName → List (StateName × StateName) → Bool
  | _, [] => true
  | start, r :: rs => (r.1 == start) && linked r.2 rs

/-- Number of Running->Terminated records of process `pid`. -/
def terminations (pid : Int) (log : List Transition) : Nat :=
  ((recordsOf pid log).filter
    (fun r => r = (StateName.Running, StateName.Terminated))).length

/-- The clock values of the Ready->Running records, in log order. -/
def dispatchTimes (log : List Transition) : List Int :=
  (log.filter (fun t => t.oldState = StateName.Ready ∧ t.newState = StateName.Running)).map
    (fun t => t.clk)

/-- How often the test of the outer `while` has been evaluated during the first `n` control steps. -/
def headVisits (s0 : KState) : Nat → Nat
  | 0 => 0
  | n + 1 => headVisits s0 n + (if (runSteps n s0).pc = Pc.loopHead then 1 else 0)

/-- A call made on one queue: `enqueue(queue, &processes[pcb])` or `dequeue(queue)`. -/
inductive QueueCall where
  | enq (pcb : Nat)
  | deq
deriving DecidableEq, Repr

/-- Make the calls in order on `queue`; the result lists what the `dequeue` calls
returned and gives the final size.  `none` when a call dereferences `NULL`. -/
def runCalls : List QueueCall → Mem → queue_t → Option (List (Option Nat) × Int)
  | [], _, queue => some ([], queue.size)
  | QueueCall.enq pcb :: cs, mem, queue =>
    match enqueue mem queue pcb with
    | none => none
    | some (m, q) => runCalls cs m q
  | QueueCall.deq :: cs, mem, queue =>
    match dequeue mem queue with
    | none => none
    | some (r, q) =>
      match runCalls cs mem q with
      | none => none
      | some (rs, size) => some (r :: rs, size)

/-- First-in-first-out reference for `runCalls`, following the specification:
`pending` holds the PCBs enqueued and not yet dequeued, earliest first; a
`dequeue` returns the earliest of them, or signals "empty". -/
def fifoCalls : List QueueCall → List Nat → List (Option Nat) × Int
  | [], pending => ([], pending.length)
  | QueueCall.enq pcb :: cs, pending => fifoCalls cs (pending ++ [pcb])
  | QueueCall.deq :: cs, pending =>
    ((pending.head?) :: (fifoCalls cs pending.tail).1, (fifoCalls cs pending.tail).2)

/-- A PCB array in which every `next` link is `NULL`. -/
def blankMem : Mem :=
  fun _ => { PID := 0, arrivalTime := 0, CPUTime := 0, freq := 0, duration := 0,
             remainingCPUTime := 0, waitStartTime := 0, next := none }

/-- The queue reached from `new_queue` by the given calls (with the memory), if no call faults. -/
def afterCalls : List QueueCall → Mem → queue_t → Option (Mem × queue_t)
  | [], mem, queue => some (mem, queue)
  | QueueCall.enq pcb :: cs, mem, queue =>
    match enqueue mem queue pcb with
    | none => none
    | some (m, q) => afterCalls cs m q
  | QueueCall.deq :: cs, mem, queue =>
    match dequeue mem queue with
    | none => none
    | some (_, q) => afterCalls cs mem q

/-- The input rows meet the data model of the tick engine: arrival >= 0, CPU time > 0,
frequency > 0, duration > 0, and no PID occurs twice. -/
def ValidInput (rows : List (Int × Int × Int × Int × Int)) : Prop :=
  (∀ row ∈ rows, 0 ≤ row.2.1 ∧ 0 < row.2.2.1 ∧ 0 < row.2.2.2.1 ∧ 0 < row.2.2.2.2) ∧
  (rows.map (fun row => row.1)).Nodup

instance decidableValidInput (rows : List (Int × Int × Int × Int × Int)) :
    Decidable (ValidInput rows) := by
  unfold ValidInput
  infer_instance

/-! ### Predicates used in the proofs about the tick engine -/

/-- Input rows (PID, arrival, CPU time, frequency, duration) on which the I/O scan of
`kernelSim` never ends. -/
def rowsCycle : List (Int × Int × Int × Int × Int) := [(1, 2, 3, 2, 3), (2, 1, 3, 1, 2)]

/-- Input rows on which PID 1 is overtaken in the waiting queue and never leaves it. -/
def rowsBlocked : List (Int × Int × Int × Int × Int) := [(1, 2, 3, 2, 1), (2, 1, 3, 2, 3)]

/-- The log of `rowsBlocked` once PID 2 has terminated. -/
def logBlocked : List Transition :=
  [⟨1, 2, StateName.New, StateName.Ready⟩, ⟨1, 2, StateName.Ready, StateName.Running⟩,
   ⟨1, 2, StateName.Running, StateName.Waiting⟩,
   ⟨2, 1, StateName.New, StateName.Ready⟩, ⟨2, 1, StateName.Ready, StateName.Running⟩,
   ⟨2, 1, StateName.Running, StateName.Waiting⟩,
   ⟨4, 2, StateName.Waiting, StateName.Ready⟩, ⟨4, 2, StateName.Ready, StateName.Running⟩,
   ⟨4, 2, StateName.Running, StateName.Terminated⟩]

/-- The situation `kernelSim` is in from clock 5 on, for `rowsBlocked`: PID 1 heads the
waiting queue with its completion time (clock 3) already passed. -/
structure Blocked (s : KState) : Prop where
  num : s.num_processes = 2
  term : s.terminated.size = 1
  ready : s.ready.size = 0
  front : s.waiting.front = some 0
  wst : (s.processes 0).waitStartTime = 2
  dur : (s.processes 0).duration = 1
  arr0 : (s.processes 0).arrivalTime = 2
  arr1 : (s.processes 1).arrivalTime = 1
  clk : 4 ≤ s.clk
  log : s.log = logBlocked
  pc : s.pc = Pc.loopHead ∨ (∃ i, s.pc = Pc.arrivals i) ∨ s.pc = Pc.execute ∨ s.pc = Pc.ioScan

/-- Calls after which `dequeue` hands out a PCB that is not in the queue. -/
def callsStale : List QueueCall :=
  [QueueCall.enq 0, QueueCall.enq 1, QueueCall.deq, QueueCall.deq, QueueCall.enq 0,
   QueueCall.deq, QueueCall.enq 2, QueueCall.deq]

/-- Calls after which the queue has size 1 and a `NULL` front. -/
def callsNullFront : List QueueCall :=
  [QueueCall.enq 0, QueueCall.enq 1, QueueCall.deq, QueueCall.deq, QueueCall.enq 0,
   QueueCall.deq, QueueCall.enq 2, QueueCall.enq 3, QueueCall.deq]

/-- The clock values of a log are in non-decreasing order and none exceeds `c`. -/
def TimeOK (log : List Transition) (c : Int) : Prop :=
  (log.map (fun t => t.clk)).Pairwise (fun a b => a ≤ b) ∧ ∀ t ∈ log, t.clk ≤ c

/-- A queue whose rear is `NULL` has never been enqueued to: its front is `NULL` and its size 0. -/
def RearOK (q : queue_t) : Prop :=
  q.rear = none → q.front = none ∧ q.size = 0

/-- `RearOK` for the three queues of `kernelSim`. -/
def QueuesOK (s : KState) : Prop :=
  RearOK s.ready ∧ RearOK s.waiting ∧ RearOK s.terminated

/-- The dispatch times are strictly increasing and, unless the run has crashed, all
lie before the current clock. -/
def DispatchOK (s : KState) : Prop :=
  (dispatchTimes s.log).Pairwise (fun a b => a < b) ∧
  (s.pc ≠ Pc.crashed → ∀ c ∈ dispatchTimes s.log, c < s.clk)

/-- Relation between the clock and the number `visits` of evaluations of the outer loop test
made so far. -/
def ClockOK (s : KState) (visits : Nat) : Prop :=
  match s.pc with
  | Pc.loopHead => s.clk = visits
  | Pc.arrivals _ => s.clk + 1 = visits
  | Pc.execute => s.clk + 1 = visits
  | Pc.ioScan => s.clk = visits
  | Pc.finished => True
  | Pc.crashed => True

/-! ### Runs on one process -/

/-- `processes[0]` in a run on the one input row `row`, with the two fields that
`kernelSim` writes. -/
def soloPCB (row : Int × Int × Int × Int × Int) (remaining wst : Int) : PCB :=
  { PID := row.1, arrivalTime := row.2.1, CPUTime := row.2.2.1, freq := row.2.2.2.1,
    duration := row.2.2.2.2, remainingCPUTime := remaining, waitStartTime := wst,
    next := none }

/-- The memory in such a run. -/
def soloMem (wst0 : Int) (row : Int × Int × Int × Int × Int) (remaining wst : Int) : Mem :=
  Function.update (loadMem wst0 [row]) 0 (soloPCB row remaining wst)

/-- At the test of the outer loop with clock `c`, before the process has arrived. -/
def soloIdle (wst0 : Int) (row : Int × Int × Int × Int × Int) (c : Int) : KState :=
  { processes := soloMem wst0 row row.2.2.1 wst0, num_processes := 1, clk := c,
    ready := new_queue, waiting := new_queue, terminated := new_queue, log := [],
    pc := Pc.loopHead }

/-- At `dequeue(ready)` with clock `c`, the process alone in the ready queue. -/
def soloReady (wst0 : Int) (row : Int × Int × Int × Int × Int) (c remaining wst : Int)
    (wrear : Option Nat) (log : List Transition) : KState :=
  { processes := soloMem wst0 row remaining wst, num_processes := 1, clk := c,
    ready := ⟨some 0, some 0, 1⟩, waiting := ⟨none, wrear, 0⟩, terminated := new_queue,
    log := log, pc := Pc.execute }

/-- At the I/O scan with clock `c0 + j`, the process alone in the waiting queue since
clock `c0`. -/
def soloWaiting (wst0 : Int) (row : Int × Int × Int × Int × Int) (c0 j remaining : Int)
    (log : List Transition) : KState :=
  { processes := soloMem wst0 row remaining c0, num_processes := 1, clk := c0 + j,
    ready := ⟨none, some 0, 0⟩, waiting := ⟨some 0, some 0, 1⟩, terminated := new_queue,
    log := log, pc := Pc.ioScan }

/-- After the loop, the process alone in the terminated queue. -/
def soloDone (wst0 : Int) (row : Int × Int × Int × Int × Int) (c wst : Int)
    (wrear : Option Nat) (log : List Transition) : KState :=
  { processes := soloMem wst0 row 0 wst, num_processes := 1, clk := c,
    ready := ⟨none, some 0, 0⟩, waiting := ⟨none, wrear, 0⟩, terminated := ⟨some 0, some 0, 1⟩,
    log := log, pc := Pc.finished }

/-- The number of I/O waits of a process with total CPU time `T` and frequency `f`, as the
specification gives it: `ceil(T / f) - 1`. -/
def waitCount (T f : Int) : Nat :=
  ((T + f - 1) / f - 1).toNat

/-- The records of the first `k` I/O cycles of a process that arrives at `a` and waits
`d` ticks per I/O: for `i = 0 .. k-1`, Ready->Running and Running->Waiting at `a + i*d` and
Waiting->Ready at `a + (i+1)*d`. -/
def ioCycles (pid a d : Int) (k : Nat) : List Transition :=
  ((List.range k).map (fun (i : Nat) =>
    [(⟨a + (i : Int) * d, pid, StateName.Ready, StateName.Running⟩ : Transition),
     ⟨a + (i : Int) * d, pid, StateName.Running, StateName.Waiting⟩,
     ⟨a + ((i : Int) + 1) * d, pid, StateName.Waiting, StateName.Ready⟩])).flatten

/-- The log of a run on one process with `k` I/O waits, as the specification gives it:
New->Ready at `a`, the `k` I/O cycles, then Ready->Running and Running->Terminated at
`a + k*d`. -/
def soloLog (pid a d : Int) (k : Nat) : List Transition :=
  ⟨a, pid, StateName.New, StateName.Ready⟩ :: ioCycles pid a d k ++
    [⟨a + (k : Int) * d, pid, StateName.Ready, StateName.Running⟩,
     ⟨a + (k : Int) * d, pid, StateName.Running, StateName.Terminated⟩]

/-- The log of `rowsCycle` when the I/O scan of clock 5 has handed PID 1, PID 2 and PID 1
again to the ready queue. -/
def logCycle : List Transition :=
  [⟨1, 2, StateName.New, StateName.Ready⟩, ⟨1, 2, StateName.Ready, StateName.Running⟩,
   ⟨1, 2, StateName.Running, StateName.Waiting⟩,
   ⟨2, 1, StateName.New, StateName.Ready⟩, ⟨2, 1, StateName.Ready, StateName.Running⟩,
   ⟨2, 1, StateName.Running, StateName.Waiting⟩,
   ⟨3, 2, StateName.Waiting, StateName.Ready⟩, ⟨3, 2, StateName.Ready, StateName.Running⟩,
   ⟨3, 2, StateName.Running, StateName.Waiting⟩,
   ⟨5, 1, StateName.Waiting, StateName.Ready⟩, ⟨5, 2, StateName.Waiting, StateName.Ready⟩,
   ⟨5, 1, StateName.Waiting, StateName.Ready⟩]

/-- The record that the I/O scan of clock 5 goes on writing for `rowsCycle`. -/
def lineCycle : Transition := ⟨5, 1, StateName.Waiting, StateName.Ready⟩

/-- The situation `kernelSim` is in for `rowsCycle` at the `n`-th further test of the I/O
scan of clock 5: the waiting queue has size 0, so `dequeue(waiting)` returns `NULL` and
leaves `waiting->front` where it is, on PID 1 (`processes[0]`), whose wait of 3 ticks ends
at this clock.  The clock stays at 5 and nothing is in the terminated queue. -/
structure Spinning (n : Nat) (s : KState) : Prop where
  pc : s.pc = Pc.ioScan
  clk : s.clk = 5
  front : s.waiting.front = some 0
  size : s.waiting.size = 0
  rfront : s.ready.front = some 0
  rrear : s.ready.rear = some 0
  pid : (s.processes 0).PID = 1
  wst : (s.processes 0).waitStartTime = 2
  dur : (s.processes 0).duration = 3
  term : s.terminated.size = 0
  log : s.log = logCycle ++ List.replicate n lineCycle

/-! ### The range of the type `int` -/

/-- `INT_MAX` of `limits.h` for a 32-bit `int`, the type of `clk`, of the queue sizes and
of the numeric fields of a PCB. -/
def INT_MAX : Int := 2147483647

/-- `INT_MIN` of `limits.h` for a 32-bit `int`. -/
def INT_MIN : Int := -2147483648

/-- The value is one that a variable of type `int` holds. -/
def FitsInt (x : Int) : Prop := INT_MIN ≤ x ∧ x ≤ INT_MAX

instance decidableFitsInt (x : Int) : Decidable (FitsInt x) := by
  unfold FitsInt
  infer_instance

/-- The input is one that `getData` holds in `int` variables: the number of rows is an
`int` (`num_processes`), and so is every field of every row, as `fscanf` with `%d` stores
it. -/
def IntRows (rows : List (Int × Int × Int × Int × Int)) : Prop :=
  (rows.length : Int) ≤ INT_MAX ∧
  ∀ row ∈ rows, FitsInt row.1 ∧ FitsInt row.2.1 ∧ FitsInt row.2.2.1 ∧ FitsInt row.2.2.2.1 ∧
    FitsInt row.2.2.2.2

instance decidableIntRows (rows : List (Int × Int × Int × Int × Int)) :
    Decidable (IntRows rows) := by
  unfold IntRows
  infer_instance

/-- The ranges of the data model of the tick engine: arrival >= 0, CPU time > 0,
frequency > 0, duration > 0. -/
def ValidRows (rows : List (Int × Int × Int × Int × Int)) : Prop :=
  ∀ row ∈ rows, 0 ≤ row.2.1 ∧ 0 < row.2.2.1 ∧ 0 < row.2.2.2.1 ∧ 0 < row.2.2.2.2

instance decidableValidRows (rows : List (Int × Int × Int × Int × Int)) :
    Decidable (ValidRows rows) := by
  unfold ValidRows
  infer_instance

/-- The numeric fields of a PCB are within the ranges that the loop of `kernelSim` keeps
them in: the frequency is not negative, the remaining CPU time lies between 0 and the
CPU time, and the CPU time is an `int`. -/
def RangedPCB (p : PCB) : Prop :=
  0 ≤ p.freq ∧ 0 ≤ p.remainingCPUTime ∧ p.remainingCPUTime ≤ p.CPUTime ∧ p.CPUTime ≤ INT_MAX

/-- Every PCB of the array is `RangedPCB`. -/
def Ranged (s : KState) : Prop :=
  ∀ i, RangedPCB (s.processes i)

/-! ### The `next` field before the first `enqueue` -/

/-- What `processes[i]` holds when `getData` returns, for a PCB array whose `next` fields
come out of `malloc` holding `next0`: `loadPCB` with that link.  `getData` writes neither
`waitStartTime` nor `next`. -/
def loadPCBFrom (wst0 : Int) (next0 : Option Nat) (row : Int × Int × Int × Int × Int) : PCB :=
  { loadPCB wst0 row with next := next0 }

/-- Memory after `getData` on the given rows, over such an array. -/
def loadMemFrom (wst0 : Int) (next0 : Option Nat) (rows : List (Int × Int × Int × Int × Int)) :
    Mem :=
  fun i => loadPCBFrom wst0 next0 (rows.getD i (0, 0, 0, 0, 0))

/-- `kernelSim` on the rows of an input file over such an array, run for `n` control
steps. -/
def kernelSimFrom (wst0 : Int) (next0 : Option Nat) (rows : List (Int × Int × Int × Int × Int))
    (n : Nat) : KState :=
  runSteps n (kernelInit (loadMemFrom wst0 next0 rows) rows.length)

/-! ### `kernelSim` in the arithmetic of a 32-bit `int`

The definitions above compute on the integers.  The compiled program computes on 32-bit
two's-complement `int` values: a sum or difference that leaves the range of `int` wraps
around (the C standard leaves signed overflow undefined).  The definitions of this
section are those of the queue operations and of the loop once more, with every `int`
addition and subtraction of `main.c` wrapped: `queue->size += 1`, `queue->size -= 1`,
`remainingCPUTime -= freq`, `clk++` and `clk - waitStartTime`.  The counter `i` of the
arrival loop stays below `num_processes` and is kept as a natural number. -/

/-- The value a 32-bit two's-complement `int` holds for the result `x`. -/
def wrapInt (x : Int) : Int :=
  (x + 2147483648) % 4294967296 - 2147483648

namespace Int32

/-- `enqueue` with `queue->size += 1` computed in `int`. -/
def enqueue (mem : Mem) (queue : queue_t) (pcb : Nat) : Option (Mem × queue_t) :=
  match queue.front with
  | none =>
    some (mem, { front := some pcb, rear := some pcb, size := wrapInt (queue.size + 1) })
  | some _ =>
    match queue.rear with
    | none => none
    | some r =>
      some (Function.update mem r { mem r with next := some pcb },
            { front := queue.front, rear := some pcb, size := wrapInt (queue.size + 1) })

/-- `dequeue` with `queue->size -= 1` computed in `int`. -/
def dequeue (mem : Mem) (queue : queue_t) : Option (Option Nat × queue_t) :=
  if queue.size = 0 then
    some (none, queue)
  else
    match queue.front with
    | none => none
    | some temp =>
      some (some temp,
        { front := (mem temp).next, rear := queue.rear, size := wrapInt (queue.size - 1) })

/-- `arriveOne` over the `int` queue operations. -/
def arriveOne (s : KState) (i : Nat) : KState :=
  if (s.processes i).arrivalTime = s.clk then
    match enqueue s.processes s.ready i with
    | none => { s with
        log := s.log ++ [⟨s.clk, (s.processes i).PID, .New, .Ready⟩],
        pc := Pc.crashed }
    | some (m, q) => { s with
        log := s.log ++ [⟨s.clk, (s.processes i).PID, .New, .Ready⟩],
        processes := m, ready := q, pc := Pc.arrivals (i + 1) }
  else
    { s with pc := Pc.arrivals (i + 1) }

/-- `executeStep` with `remainingCPUTime -= freq` and `clk++` computed in `int`. -/
def executeStep (s : KState) : KState :=
  match dequeue s.processes s.ready with
  | none => { s with pc := Pc.crashed }
  | some (none, q) => { s with ready := q, clk := wrapInt (s.clk + 1), pc := Pc.ioScan }
  | some (some cur, q) =>
    let p := s.processes cur
    let log1 := s.log ++ [⟨s.clk, p.PID, .Ready, .Running⟩]
    if p.remainingCPUTime ≤ p.freq then
      let log2 := log1 ++ [⟨s.clk, p.PID, .Running, .Terminated⟩]
      let mem1 := Function.update s.processes cur { p with remainingCPUTime := 0 }
      match enqueue mem1 s.terminated cur with
      | none => { s with ready := q, log := log2, processes := mem1, pc := Pc.crashed }
      | some (m, t) =>
        { s with ready := q, log := log2, processes := m, terminated := t,
                 clk := wrapInt (s.clk + 1), pc := Pc.ioScan }
    else
      let log2 := log1 ++ [⟨s.clk, p.PID, .Running, .Waiting⟩]
      let mem1 := Function.update s.processes cur
        { p with waitStartTime := s.clk,
                 remainingCPUTime := wrapInt (p.remainingCPUTime - p.freq) }
      match enqueue mem1 s.waiting cur with
      | none => { s with ready := q, log := log2, processes := mem1, pc := Pc.crashed }
      | some (m, w) =>
        { s with ready := q, log := log2, processes := m, waiting := w,
                 clk := wrapInt (s.clk + 1), pc := Pc.ioScan }

/-- `ioScanStep` with `clk - waitStartTime` computed in `int`. -/
def ioScanStep (s : KState) : KState :=
  match s.waiting.front with
  | none => { s with pc := Pc.loopHead }
  | some cur =>
    let p := s.processes cur
    if wrapInt (s.clk - p.waitStartTime) = p.duration then
      let log1 := s.log ++ [⟨s.clk, p.PID, .Waiting, .Ready⟩]
      match enqueue s.processes s.ready cur with
      | none => { s with log := log1, pc := Pc.crashed }
      | some (m, r) =>
        match dequeue m s.waiting with
        | none => { s with log := log1, processes := m, ready := r, pc := Pc.crashed }
        | some (_, w) =>
          { s with log := log1, processes := m, ready := r, waiting := w, pc := Pc.ioScan }
    else
      { s with pc := Pc.loopHead }

/-- One control step of `kernelSim` in `int` arithmetic. -/
def step (s : KState) : KState :=
  match s.pc with
  | Pc.loopHead =>
    if s.terminated.size < (s.num_processes : Int) then { s with pc := Pc.arrivals 0 }
    else { s with pc := Pc.finished }
  | Pc.arrivals i =>
    if i < s.num_processes then arriveOne s i else { s with pc := Pc.execute }
  | Pc.execute => executeStep s
  | Pc.ioScan => ioScanStep s
  | Pc.finished => s
  | Pc.crashed => s

/-- State after `n` control steps in `int` arithmetic. -/
def runSteps : Nat → KState → KState
  | 0, s => s
  | n + 1, s => runSteps n (step s)

/-- `kernelSim` in `int` arithmetic on the rows of an input file, over a PCB array whose
`next` fields hold `next0` when `getData` returns, run for `n` control steps. -/
def kernelSim (wst0 : Int) (next0 : Option Nat) (rows : List (Int × Int × Int × Int × Int))
    (n : Nat) : KState :=
  runSteps n (kernelInit (loadMemFrom wst0 next0 rows) rows.length)

end Int32

/-- The numeric fields of every PCB are values that the program can hold: `RangedPCB`,
a frequency and a duration of at most `INT_MAX`, a duration that is not negative and a
`waitStartTime` that is a value of an `int`. -/
def MemOK (mem : Mem) : Prop :=
  ∀ i, RangedPCB (mem i) ∧ (mem i).freq ≤ INT_MAX ∧ 0 ≤ (mem i).duration ∧
    (mem i).duration ≤ INT_MAX ∧ FitsInt (mem i).waitStartTime

/-- What the loop of `kernelSim` keeps true as long as the clock is an `int`: the clock
and the queue sizes are not negative, no queue holds more PCBs than records have been
written, and the fields of the PCBs are in range (`MemOK`). -/
structure Sound (s : KState) : Prop where
  clk : 0 ≤ s.clk
  ready : 0 ≤ s.ready.size ∧ s.ready.size ≤ s.log.length
  waiting : 0 ≤ s.waiting.size ∧ s.waiting.size ≤ s.log.length
  terminated : 0 ≤ s.terminated.size ∧ s.terminated.size ≤ s.log.length
  mem : MemOK s.processes

end Tick

namespace Skip

/-- The C enum `STATE`. -/
inductive STATE where
  | STATE_NEW | STATE_READY | STATE_RUNNING | STATE_WAITING | STATE_TERMINATED
deriving DecidableEq, Repr

open STATE

/-- The C struct `process`. -/
structure process where
  pid : Int
  arrival_time : Int
  total_cpu_time : Int
  cpu_time_remaining : Int
  io_frequency : Int
  io_duration : Int
  io_time_remaining : Int
  s : STATE
deriving DecidableEq, Repr

/-- `create_proc`. -/
def create_proc (pid arrival_time total_cpu_time io_frequency io_duration : Int) : process :=
  { pid := pid, arrival_time := arrival_time, total_cpu_time := total_cpu_time,
    cpu_time_remaining := total_cpu_time, io_frequency := io_frequency,
    io_duration := io_duration, io_time_remaining := io_frequency, s := STATE_NEW }

/-- The process store: `procs i` is the struct that node `i` points to (`node->p`).
`read_proc_from_file` creates one node per process, so nodes and processes are
numbered alike. -/
abbrev Procs := Nat → process

/-- A `node_t` list head, as the sequence of nodes reached from it through `next`;
the empty sequence is `NULL`. -/
abbrev NodeList := List Nat

/-- One line printed by the simulation loop.  `time`, `pid`, `old_state` and
`new_state` are the four printed fields.  `node` and `was` are not printed: they
record which node the line is about and the value of its `s` field just before
the loop assigned the new state. -/
structure Line where
  time : Int
  pid : Int
  old_state : STATE
  new_state : STATE
  node : Nat
  was : STATE
deriving DecidableEq, Repr

/-- `INT_MAX` of `limits.h` for a 32-bit `int`. -/
def INT_MAX : Int := 2147483647

/-- The macro `min(a, b)`: `((a) < (b)) ? (a) : (b)`. -/
def cmin (a b : Int) : Int := if a < b then a else b

/-- `push_node`: append `temp` behind the last node. -/
def push_node (head : NodeList) (temp : Nat) : NodeList :=
  match head with
  | [] => [temp]
  | h :: rest => h :: rest ++ [temp]

/-- The `while(temp->next != NULL)` loop of `remove_node`, on the nodes after `temp`:
`some l` when `to_be_removed` was found and unlinked, `none` when the end was reached. -/
def remove_node_scan (to_be_removed : Nat) : NodeList → Option NodeList
  | [] => none
  | n :: rest =>
    if n = to_be_removed then some rest
    else match remove_node_scan to_be_removed rest with
      | some rest1 => some (n :: rest1)
      | none => none

/-- `remove_node`: the returned `int` and the new value of `*head`.
With `*head == NULL` the code dereferences `NULL` (either `(*head)->next` or
`temp->next`); that is the result `none`. -/
def remove_node (head : NodeList) (to_be_removed : Nat) : Option (Int × NodeList) :=
  match head with
  | [] => none
  | h :: rest =>
    if to_be_removed = h then some (1, rest)
    else match remove_node_scan to_be_removed rest with
      | some rest1 => some (1, h :: rest1)
      | none => some (-1, h :: rest)

/-- `get_time_to_next_event`. -/
def get_time_to_next_event (procs : Procs) (cpu_clock : Int) (running : Option Nat)
    (new_list waiting_list : NodeList) : Int :=
  let next_exit := match running with
    | some r => (procs r).cpu_time_remaining
    | none => INT_MAX
  let next_block := match running with
    | some r => (procs r).io_time_remaining
    | none => INT_MAX
  let next_arrival := new_list.foldl
    (fun acc temp => cmin ((procs temp).arrival_time - cpu_clock) acc) INT_MAX
  let next_io := waiting_list.foldl
    (fun acc temp => cmin (procs temp).io_time_remaining acc) INT_MAX
  let min_time := cmin (cmin next_exit next_block) (cmin next_arrival next_io)
  if min_time = 0 then 1 else min_time

/-- `get_next_process`: `none` is `NULL`. -/
def get_next_process (procs : Procs) (ready_list : NodeList) : Option Nat :=
  match ready_list with
  | [] => none
  | h :: rest =>
    some ((h :: rest).foldl
      (fun next_process current =>
        if (procs current).total_cpu_time < (procs next_process).total_cpu_time
        then current else next_process) h)

/-- The variables of `main` during the simulation loop, the process store and
the lines printed so far. -/
structure Sim where
  procs : Procs
  next_step : Int
  cpu_clock : Int
  ready_list : NodeList
  new_list : NodeList
  waiting_list : NodeList
  terminated : NodeList
  running : Option Nat
  log : List Line

/-- Lines 355-376: advance the I/O timers of the waiting nodes and move the
finished ones to the ready list.  The first argument is the part of the waiting
list from `node` on. -/
def scanWaiting : NodeList → Sim → Option Sim
  | [], st => some st
  | node :: rest, st =>
    let p := st.procs node
    let p1 : process := { p with io_time_remaining := p.io_time_remaining - st.next_step }
    if p1.io_time_remaining ≤ 0 then
      let p2 : process := { p1 with s := STATE_READY, io_time_remaining := p1.io_frequency }
      match remove_node st.waiting_list node with
      | none => none
      | some (_, wl) =>
        scanWaiting rest { st with
          procs := Function.update st.procs node p2,
          waiting_list := wl,
          ready_list := push_node st.ready_list node,
          log := st.log ++ [⟨st.cpu_clock, p.pid, STATE_WAITING, STATE_READY, node, p.s⟩] }
    else
      scanWaiting rest { st with procs := Function.update st.procs node p1 }

/-- Lines 379-394 (and again 407-424): move the nodes of the new list whose
arrival time is the current clock to the ready list.  The first argument is the
part of the new list from `node` on. -/
def scanNew : NodeList → Sim → Option Sim
  | [], st => some st
  | node :: rest, st =>
    let p := st.procs node
    if p.arrival_time = st.cpu_clock then
      match remove_node st.new_list node with
      | none => none
      | some (_, nl) =>
        scanNew rest { st with
          procs := Function.update st.procs node { p with s := STATE_READY },
          new_list := nl,
          ready_list := push_node st.ready_list node,
          log := st.log ++ [⟨st.cpu_clock, p.pid, STATE_NEW, STATE_READY, node, p.s⟩] }
    else
      scanNew rest st

/-- Make `r` the running node: set its state, unlink it from the ready list, print. -/
def startRunning (st : Sim) (r : Nat) : Option Sim :=
  let p := st.procs r
  match remove_node st.ready_list r with
  | none => none
  | some (_, rl) =>
    some { st with
      running := some r,
      procs := Function.update st.procs r { p with s := STATE_RUNNING },
      ready_list := rl,
      log := st.log ++ [⟨st.cpu_clock, p.pid, STATE_READY, STATE_RUNNING, r, p.s⟩] }

/-- Lines 396-470: "make sure the CPU is running a process". -/
def cpuStep (st : Sim) : Option Sim :=
  match st.running with
  | none =>
    match get_next_process st.procs st.ready_list with
    | some r => startRunning st r
    | none =>
      match scanNew st.new_list st with
      | none => none
      | some st1 => some { st1 with running := none }
  | some run =>
    let p := st.procs run
    let p1 : process :=
      { p with cpu_time_remaining := p.cpu_time_remaining - st.next_step,
               io_time_remaining := p.io_time_remaining - st.next_step }
    if p1.cpu_time_remaining ≤ 0 then
      let st1 : Sim := { st with
        procs := Function.update st.procs run { p1 with s := STATE_TERMINATED },
        terminated := push_node st.terminated run,
        log := st.log ++ [⟨st.cpu_clock, p.pid, STATE_RUNNING, STATE_TERMINATED, run, p.s⟩] }
      match get_next_process st1.procs st1.ready_list with
      | some r => startRunning st1 r
      | none => some { st1 with running := none }
    else if p1.io_time_remaining ≤ 0 then
      let st1 : Sim := { st with
        procs := Function.update st.procs run
          { p1 with io_time_remaining := p1.io_duration, s := STATE_WAITING },
        waiting_list := push_node st.waiting_list run,
        log := st.log ++ [⟨st.cpu_clock, p.pid, STATE_RUNNING, STATE_WAITING, run, p.s⟩] }
      match st1.ready_list with
      | r :: _ => startRunning st1 r
      | [] => some { st1 with running := none }
    else
      some { st with procs := Function.update st.procs run p1 }

/-- One pass through the body of the do-while loop (lines 351-473). -/
def loopBody (st : Sim) : Option Sim :=
  let st0 : Sim := { st with cpu_clock := st.cpu_clock + st.next_step }
  match scanWaiting st0.waiting_list st0 with
  | none => none
  | some st1 =>
    match scanNew st1.new_list st1 with
    | none => none
    | some st2 =>
      match cpuStep st2 with
      | none => none
      | some st3 =>
        some { st3 with next_step :=
          get_time_to_next_event st3.procs st3.cpu_clock st3.running st3.new_list st3.waiting_list }

/-- The loop condition's `simulation_completed` (line 497). -/
def simulation_completed (st : Sim) : Bool :=
  st.ready_list.isEmpty && st.new_list.isEmpty && st.waiting_list.isEmpty && st.running.isNone

/-- The do-while loop with a bound on the number of passes: `some st` is the
state on leaving the loop; `none` when the bound is used up or a `NULL` was
dereferenced. -/
def mainLoop : Nat → Sim → Option Sim
  | 0, _ => none
  | fuel + 1, st =>
    match loopBody st with
    | none => none
    | some st1 => if simulation_completed st1 then some st1 else mainLoop fuel st1

/-- State after at most `k` passes of the loop body (fewer when the loop has
been left before). -/
def passes : Nat → Sim → Option Sim
  | 0, st => some st
  | k + 1, st =>
    match loopBody st with
    | none => none
    | some st1 => if simulation_completed st1 then some st1 else passes k st1

/-- The store built by `read_proc_from_file` from the data rows
`(pid, arrival_time, total_cpu_time, io_frequency, io_duration)`. -/
def loadProcs (rows : List (Int × Int × Int × Int × Int)) : Procs :=
  fun i =>
    let row := rows.getD i (0, 0, 0, 0, 0)
    create_proc row.1 row.2.1 row.2.2.1 row.2.2.2.1 row.2.2.2.2

/-- State of `main` on entry to the do-while loop. -/
def initSim (rows : List (Int × Int × Int × Int × Int)) : Sim :=
  { procs := loadProcs rows, next_step := 0, cpu_clock := 0,
    ready_list := [], new_list := List.range rows.length, waiting_list := [],
    terminated := [], running := none, log := [] }

/-! ### Reference definitions for the claims about the event-skip engine -/

/-- The lines about node `i`, in log order. -/
def linesOf (i : Nat) (log : List Line) : List Line :=
  log.filter (fun r => r.node = i)

/-- The printed (old state, new state) pairs of a list of lines. -/
def moves (l : List Line) : List (STATE × STATE) :=
  l.map (fun r => (r.old_state, r.new_state))

/-- The full life of a process that blocks for I/O `k` times:
NEW->READY, `k` times (READY->RUNNING, RUNNING->WAITING, WAITING->READY),
then READY->RUNNING, RUNNING->TERMINATED. -/
def lifecycle (k : Nat) : List (STATE × STATE) :=
  (STATE_NEW, STATE_READY) ::
    ((List.replicate k
        [(STATE_READY, STATE_RUNNING), (STATE_RUNNING, STATE_WAITING),
         (STATE_WAITING, STATE_READY)]).flatten ++
      [(STATE_READY, STATE_RUNNING), (STATE_RUNNING, STATE_TERMINATED)])

/-- The five transitions of the process life cycle. -/
def legalMove : STATE → STATE → Bool
  | STATE_NEW, STATE_READY => true
  | STATE_READY, STATE_RUNNING => true
  | STATE_RUNNING, STATE_WAITING => true
  | STATE_WAITING, STATE_READY => true
  | STATE_RUNNING, STATE_TERMINATED => true
  | _, _ => false

/-- Each line's printed old state is the new state of the line before it (`start` for
the first), is the value the `s` field had before the assignment, and the move is one of
the five legal ones. -/
def linkedFrom : STATE → List Line → Bool
  | _, [] => true
  | start, r :: rs =>
    (r.old_state == start) && (r.was == start) && legalMove r.old_state r.new_state &&
      linkedFrom r.new_state rs

/-- The state a process is in after the given lines, having started in `start`. -/
def endState : STATE → List Line → STATE
  | start, [] => start
  | _, r :: rs => endState r.new_state rs

/-- The life cycle from READY with `k` I/O blocks still to come. -/
def readyLife : Nat → List (STATE × STATE)
  | 0 => [(STATE_READY, STATE_RUNNING), (STATE_RUNNING, STATE_TERMINATED)]
  | k + 1 =>
    (STATE_READY, STATE_RUNNING) :: (STATE_RUNNING, STATE_WAITING) ::
      (STATE_WAITING, STATE_READY) :: readyLife k

/-- The rest of a life cycle from state `s` with `k` I/O blocks still to come. -/
def lifeFrom : STATE → Nat → List (STATE × STATE)
  | STATE_NEW, k => (STATE_NEW, STATE_READY) :: readyLife k
  | STATE_READY, k => readyLife k
  | STATE_RUNNING, k => (readyLife k).tail
  | STATE_WAITING, k => (STATE_WAITING, STATE_READY) :: readyLife k
  | STATE_TERMINATED, _ => []

/-- The input rows meet the data model: arrival >= 0, total CPU time > 0,
I/O frequency > 0, I/O duration > 0. -/
def ValidRows (rows : List (Int × Int × Int × Int × Int)) : Prop :=
  ∀ row ∈ rows, 0 ≤ row.2.1 ∧ 0 < row.2.2.1 ∧ 0 < row.2.2.2.1 ∧ 0 < row.2.2.2.2

/-! ### Invariants of the event-skip loop -/

/-- Line 353: advance the clock by `next_step`. -/
def advance (st : Sim) : Sim :=
  { st with cpu_clock := st.cpu_clock + st.next_step }

/-- An upper bound on the number of transitions a process still has to make. -/
def workLeft (p : process) : Nat :=
  match p.s with
  | STATE_NEW => 3 * p.cpu_time_remaining.toNat + 2
  | STATE_READY => 3 * p.cpu_time_remaining.toNat + 1
  | STATE_RUNNING => 3 * p.cpu_time_remaining.toNat
  | STATE_WAITING => 3 * p.cpu_time_remaining.toNat + 2
  | STATE_TERMINATED => 0

/-- `workLeft` summed over the `n` processes of the store. -/
def totalWork (n : Nat) (procs : Procs) : Nat :=
  ((List.range n).map (fun i => workLeft (procs i))).sum

/-- The time fields of a log are in non-decreasing order and none exceeds `c`. -/
def TimeOK (log : List Line) (c : Int) : Prop :=
  (log.map (fun r => r.time)).Pairwise (fun a b => a ≤ b) ∧ ∀ r ∈ log, r.time ≤ c

/-- The descriptor fields of node `i` are those read from the input. -/
def Static (rows : List (Int × Int × Int × Int × Int)) (p : process) (i : Nat) : Prop :=
  p.pid = (loadProcs rows i).pid ∧
  p.arrival_time = (loadProcs rows i).arrival_time ∧
  p.total_cpu_time = (loadProcs rows i).total_cpu_time ∧
  p.io_frequency = (loadProcs rows i).io_frequency ∧
  p.io_duration = (loadProcs rows i).io_duration ∧
  0 ≤ p.arrival_time ∧ 0 < p.total_cpu_time ∧ 0 < p.io_frequency ∧ 0 < p.io_duration

/-- Node `i` is in the container that its state field names, and in no other. -/
def Placed (st : Sim) (i : Nat) : Prop :=
  (i ∈ st.new_list ↔ (st.procs i).s = STATE_NEW) ∧
  (i ∈ st.ready_list ↔ (st.procs i).s = STATE_READY) ∧
  (i ∈ st.waiting_list ↔ (st.procs i).s = STATE_WAITING) ∧
  (i ∈ st.terminated ↔ (st.procs i).s = STATE_TERMINATED) ∧
  (st.running = some i ↔ (st.procs i).s = STATE_RUNNING)

/-- The timers of node `i`, by state.  `wt` and `nt` are the waiting and new nodes the
current pass has not looked at yet, `rt` tells whether the running node's timers are
still to be advanced. -/
def Timers (st : Sim) (wt nt : NodeList) (rt : Bool) (i : Nat) : Prop :=
  let p := st.procs i
  p.cpu_time_remaining ≤ p.total_cpu_time ∧
  match p.s with
  | STATE_NEW =>
    p.cpu_time_remaining = p.total_cpu_time ∧ p.io_time_remaining = p.io_frequency ∧
    st.cpu_clock ≤ p.arrival_time ∧ (i ∉ nt → st.cpu_clock < p.arrival_time)
  | STATE_READY => 1 ≤ p.cpu_time_remaining ∧ p.io_time_remaining = p.io_frequency
  | STATE_RUNNING =>
    1 ≤ p.cpu_time_remaining ∧ 1 ≤ p.io_time_remaining ∧ p.io_time_remaining ≤ p.io_frequency ∧
    (rt = true → st.next_step ≤ p.cpu_time_remaining ∧ st.next_step ≤ p.io_time_remaining)
  | STATE_WAITING =>
    1 ≤ p.cpu_time_remaining ∧ 1 ≤ p.io_time_remaining ∧ p.io_time_remaining ≤ p.io_duration ∧
    (i ∈ wt → st.next_step ≤ p.io_time_remaining)
  | STATE_TERMINATED => True

/-- The lines about node `i` are linked from NEW and end in its current state. -/
def Logged (st : Sim) (i : Nat) : Prop :=
  linkedFrom STATE_NEW (linesOf i st.log) = true ∧
  endState STATE_NEW (linesOf i st.log) = (st.procs i).s

/-- Everything the loop maintains about node `i`. -/
def NodeInv (rows : List (Int × Int × Int × Int × Int)) (st : Sim) (wt nt : NodeList)
    (rt : Bool) (i : Nat) : Prop :=
  Static rows (st.procs i) i ∧ Placed st i ∧ Timers st wt nt rt i ∧ Logged st i

/-- The time until the next event of a node that is not on the CPU or ready for it: for
a NEW node the time to its arrival, for a WAITING node the rest of its I/O wait.  For the
waiting nodes in `wt`, which the current pass has not visited yet, the step of the pass
is already taken off. -/
def waitLeft (st : Sim) (wt : NodeList) (i : Nat) : Nat :=
  match (st.procs i).s with
  | STATE_NEW => ((st.procs i).arrival_time - st.cpu_clock).toNat
  | STATE_WAITING =>
    if i ∈ wt then ((st.procs i).io_time_remaining - st.next_step).toNat
    else (st.procs i).io_time_remaining.toNat
  | _ => 0

/-- `waitLeft` summed over the `n` nodes. -/
def totalWait (n : Nat) (st : Sim) (wt : NodeList) : Nat :=
  ((List.range n).map (fun i => waitLeft st wt i)).sum

/-- State of the loop in the middle of a pass, after the clock has been advanced.
`m0` and `d0` are the total work and the total wait at the start of the pass.  When
`strict` holds the step of the pass is at least 1, and the pass has reduced the work, or
has reduced the wait, or still has the running node's timers to advance. -/
structure Mid (rows : List (Int × Int × Int × Int × Int)) (m0 d0 : Nat) (strict : Bool)
    (wt nt : NodeList) (rt : Bool) (st : Sim) : Prop where
  step_nonneg : 0 ≤ st.next_step
  clock_nonneg : 0 ≤ st.cpu_clock
  nd_new : st.new_list.Nodup
  nd_ready : st.ready_list.Nodup
  nd_waiting : st.waiting_list.Nodup
  nd_term : st.terminated.Nodup
  wt_sub : ∀ i ∈ wt, i ∈ st.waiting_list
  wt_nd : wt.Nodup
  nt_sub : ∀ i ∈ nt, i ∈ st.new_list
  nt_nd : nt.Nodup
  lt_new : ∀ i ∈ st.new_list, i < rows.length
  lt_ready : ∀ i ∈ st.ready_list, i < rows.length
  lt_waiting : ∀ i ∈ st.waiting_list, i < rows.length
  lt_term : ∀ i ∈ st.terminated, i < rows.length
  lt_run : ∀ i, st.running = some i → i < rows.length
  node : ∀ i, i < rows.length → NodeInv rows st wt nt rt i
  time : TimeOK st.log st.cpu_clock
  work_le : totalWork rows.length st.procs ≤ m0
  strict_step : strict = true → 1 ≤ st.next_step
  progress : strict = true →
    totalWork rows.length st.procs < m0 ∨ totalWait rows.length st wt < d0 ∨
      (rt = true ∧ st.running ≠ none)

/-- The loop invariant at the top of the loop body. -/
def HeadInv (rows : List (Int × Int × Int × Int × Int)) (strict : Bool) (st : Sim) : Prop :=
  Mid rows (totalWork rows.length st.procs) (totalWait rows.length st []) strict
    st.waiting_list st.new_list true (advance st)

/-- What one change of state of node `j` leaves alone: the other nodes' structs and
their membership in the four lists and the running slot, the clock and the step. -/
structure Frame (j : Nat) (st st1 : Sim) : Prop where
  procs : ∀ i, i ≠ j → st1.procs i = st.procs i
  new_list : ∀ i, i ≠ j → (i ∈ st1.new_list ↔ i ∈ st.new_list)
  ready_list : ∀ i, i ≠ j → (i ∈ st1.ready_list ↔ i ∈ st.ready_list)
  waiting_list : ∀ i, i ≠ j → (i ∈ st1.waiting_list ↔ i ∈ st.waiting_list)
  terminated : ∀ i, i ≠ j → (i ∈ st1.terminated ↔ i ∈ st.terminated)
  running : ∀ i, i ≠ j → (st1.running = some i ↔ st.running = some i)
  cpu_clock : st1.cpu_clock = st.cpu_clock
  next_step : st1.next_step = st.next_step

/-! ### Inputs used to evaluate the event-skip engine -/

/-- Input rows (pid, arrival, total CPU time, I/O frequency, I/O duration) on which the
re-dispatch after an I/O block does not pick the shortest ready process. -/
def rowsHeadPick : List (Int × Int × Int × Int × Int) :=
  [(1, 0, 10, 5, 4), (2, 1, 20, 30, 1), (3, 2, 3, 30, 1)]

/-- Input rows with one process that blocks for I/O once. -/
def rowsOneBlock : List (Int × Int × Int × Int × Int) := [(1, 0, 10, 5, 4)]

instance decidableValidRows (rows : List (Int × Int × Int × Int × Int)) :
    Decidable (ValidRows rows) := by
  unfold ValidRows
  infer_instance

/-! ### Containers and the CPU, on every input -/

/-- The number of references to node `i`: its occurrences in the four lists, plus one
when it is in the running slot. -/
def holders (st : Sim) (i : Nat) : Nat :=
  st.new_list.count i + st.ready_list.count i + st.waiting_list.count i +
    st.terminated.count i + (if st.running = some i then 1 else 0)

/-- The part of the loop invariant that needs nothing of the input: the lists have no
node twice, hold nodes of the input only, and every node is in the container its state
field names.  `wt` and `nt` are the waiting and new nodes still to be visited. -/
structure Housed (n : Nat) (wt nt : NodeList) (st : Sim) : Prop where
  nd_new : st.new_list.Nodup
  nd_ready : st.ready_list.Nodup
  nd_waiting : st.waiting_list.Nodup
  nd_term : st.terminated.Nodup
  wt_sub : ∀ i ∈ wt, i ∈ st.waiting_list
  wt_nd : wt.Nodup
  nt_sub : ∀ i ∈ nt, i ∈ st.new_list
  nt_nd : nt.Nodup
  lt_new : ∀ i ∈ st.new_list, i < n
  lt_ready : ∀ i ∈ st.ready_list, i < n
  lt_waiting : ∀ i ∈ st.waiting_list, i < n
  lt_term : ∀ i ∈ st.terminated, i < n
  lt_run : ∀ i, st.running = some i → i < n
  placed : ∀ i, i < n → Placed st i

/-- A READY->RUNNING line. -/
def dispatches (r : Line) : Bool :=
  r.old_state == STATE_READY && r.new_state == STATE_RUNNING

/-- A RUNNING->WAITING or RUNNING->TERMINATED line. -/
def releases (r : Line) : Bool :=
  r.old_state == STATE_RUNNING &&
    (r.new_state == STATE_WAITING || r.new_state == STATE_TERMINATED)

/-- Who holds the CPU after the lines of a log, read from the log alone, when `cur`
held it before: a READY->RUNNING line takes a free CPU, a RUNNING->WAITING or
RUNNING->TERMINATED line of the holder frees it.  The result is `none` when a line takes
a CPU that is held, or frees one that its node does not hold. -/
def onCpu : Option Nat → List Line → Option (Option Nat)
  | cur, [] => some cur
  | cur, r :: rs =>
    if dispatches r then
      match cur with
      | none => onCpu (some r.node) rs
      | some _ => none
    else if releases r then
      if cur = some r.node then onCpu none rs else none
    else onCpu cur rs

/-- The lines written between two states take the CPU from the running slot of the first
to that of the second. -/
def Handed (st st1 : Sim) : Prop :=
  ∃ new, st1.log = st.log ++ new ∧ onCpu st.running new = some st1.running

/-! ### CPU time, read from the log -/

/-- The time a process has spent in RUNNING according to its lines `l`, once it is off
the CPU: the times of its RUNNING->WAITING and RUNNING->TERMINATED lines, minus the times
of its READY->RUNNING lines. -/
def cpuTime (l : List Line) : Int :=
  ((l.filter releases).map (fun r => r.time)).sum -
    ((l.filter dispatches).map (fun r => r.time)).sum

/-- CPU-time accounting of the loop, between two passes: no `cpu_time_remaining` is
negative, that of a TERMINATED process is 0, and for every process the time spent in
RUNNING so far (up to the current clock when it is on the CPU) and its
`cpu_time_remaining` add up to its `total_cpu_time`. -/
def Metered (rows : List (Int × Int × Int × Int × Int)) (st : Sim) : Prop :=
  ∀ p, p < rows.length →
    0 ≤ (st.procs p).cpu_time_remaining ∧
    ((st.procs p).s = STATE_TERMINATED → (st.procs p).cpu_time_remaining = 0) ∧
    cpuTime (linesOf p st.log) + (if st.running = some p then st.cpu_clock else 0) +
      (st.procs p).cpu_time_remaining = (loadProcs rows p).total_cpu_time

/-- Input rows with two processes; the second one blocks for I/O. -/
def rowsTwo : List (Int × Int × Int × Int × Int) := [(1, 0, 4, 9, 5), (2, 0, 10, 3, 2)]

/-! ### Shortest total CPU time first -/

/-- Process `i` comes before process `j` in the order "smallest `total_cpu_time` first,
equal values in insertion order". -/
def Shorter (rows : List (Int × Int × Int × Int × Int)) (i j : Nat) : Prop :=
  (loadProcs rows i).total_cpu_time < (loadProcs rows j).total_cpu_time ∨
  ((loadProcs rows i).total_cpu_time = (loadProcs rows j).total_cpu_time ∧ i < j)

/-- The nodes of `l` with the times at which they end when they run one after the other
from time `t`, each for its `total_cpu_time`: the `j`-th entry is the `j`-th node with `t`
plus the sum of the `total_cpu_time` of the first `j` nodes. -/
def finishTimes (rows : List (Int × Int × Int × Int × Int)) : Int → NodeList → List (Nat × Int)
  | _, [] => []
  | t, x :: xs =>
    (x, t + (loadProcs rows x).total_cpu_time) ::
      finishTimes rows (t + (loadProcs rows x).total_cpu_time) xs

/-- The sum of the `total_cpu_time` of the nodes of `l`. -/
def totalOf (rows : List (Int × Int × Int × Int × Int)) (l : NodeList) : Int :=
  (l.map (fun i => (loadProcs rows i).total_cpu_time)).sum

/-- The processes all arrive at `a` and none of them calls for I/O before it ends
(`total_cpu_time ≤ io_frequency`); `a` and the `total_cpu_time` are values of type `int`. -/
def NoIoRows (rows : List (Int × Int × Int × Int × Int)) (a : Int) : Prop :=
  0 ≤ a ∧ a ≤ INT_MAX ∧
  ∀ row ∈ rows, row.2.1 = a ∧ 0 < row.2.2.1 ∧ row.2.2.1 ≤ row.2.2.2.1 ∧ row.2.2.1 ≤ INT_MAX

instance decidableNoIoRows (rows : List (Int × Int × Int × Int × Int)) (a : Int) :
    Decidable (NoIoRows rows a) := by
  unfold NoIoRows
  infer_instance

/-- State of the loop between two passes of a run without I/O in which all processes
have arrived: `D` have terminated, in this order, `m` is running and will end at the next
pass, `R` are ready. -/
structure Sjf (rows : List (Int × Int × Int × Int × Int)) (a : Int) (D R : NodeList) (m : Nat)
    (st : Sim) : Prop where
  new_nil : st.new_list = []
  waiting_nil : st.waiting_list = []
  term : st.terminated = D
  ready : st.ready_list = R
  running : st.running = some m
  step : st.next_step = (loadProcs rows m).total_cpu_time
  clock : st.cpu_clock = a + totalOf rows D
  static : ∀ i, (st.procs i).total_cpu_time = (loadProcs rows i).total_cpu_time
  fresh : ∀ i, i = m ∨ i ∈ R →
    (st.procs i).cpu_time_remaining = (loadProcs rows i).total_cpu_time ∧
    (loadProcs rows i).total_cpu_time ≤ (st.procs i).io_time_remaining ∧
    (st.procs i).io_time_remaining = (loadProcs rows i).io_time_remaining
  bound : ∀ i, i = m ∨ i ∈ R →
    0 < (loadProcs rows i).total_cpu_time ∧ (loadProcs rows i).total_cpu_time ≤ INT_MAX
  sorted : (D ++ [m]).Pairwise (Shorter rows)
  ahead : ∀ x ∈ D ++ [m], ∀ y ∈ R, Shorter rows x y
  ready_sorted : R.Pairwise (fun i j => i < j)
  perm : (D ++ m :: R).Perm (List.range rows.length)
  log_term : ((st.log.filter (fun r => r.new_state = STATE_TERMINATED)).map
    (fun r => (r.node, r.time))) = finishTimes rows a D
  log_disp : (st.log.filter dispatches).map (fun r => r.node) = D ++ [m]
  log_wait : ∀ r ∈ st.log, r.new_state ≠ STATE_WAITING

/-- What `Sjf` leaves when the last process has terminated: the loop condition fails, the
terminated list holds every process once, in the order `Shorter`; the RUNNING->TERMINATED
lines are those of `finishTimes` from the arrival time, the READY->RUNNING lines are in the
same order, no line enters WAITING, and the clock is the arrival time plus the sum of the
totals. -/
def SjfDone (rows : List (Int × Int × Int × Int × Int)) (a : Int) (st : Sim) : Prop :=
  simulation_completed st = true ∧
  st.terminated.Perm (List.range rows.length) ∧
  st.terminated.Pairwise (Shorter rows) ∧
  ((st.log.filter (fun r => r.new_state = STATE_TERMINATED)).map
    (fun r => (r.node, r.time))) = finishTimes rows a st.terminated ∧
  (st.log.filter dispatches).map (fun r => r.node) = st.terminated ∧
  (∀ r ∈ st.log, r.new_state ≠ STATE_WAITING) ∧
  st.cpu_clock = a + totalOf rows st.terminated

/-- Two processes with totals 10 and 5 that arrive together. -/
def rowsLongShort : List (Int × Int × Int × Int × Int) := [(1, 0, 10, 20, 1), (2, 0, 5, 20, 1)]

/-- The same two processes in the other order. -/
def rowsShortLong : List (Int × Int × Int × Int × Int) := [(2, 0, 5, 20, 1), (1, 0, 10, 20, 1)]

/-! ### A return from I/O that meets an arrival -/

/-- Input rows on which, at clock 5, the first process comes back from I/O and the second
one arrives, while the third one holds the CPU. -/
def rowsMeet : List (Int × Int × Int × Int × Int) :=
  [(1, 0, 10, 2, 3), (2, 5, 4, 9, 1), (3, 0, 20, 30, 1)]

/-! ### I/O waits and arrivals, read from the log -/

/-- The I/O waits of node `p` so far, read from its lines: the line that follows one ending
in WAITING comes `io_duration` after it; and when the last line ends in WAITING, so that
the wait is not over, its time plus `io_duration` is the clock plus what
`io_time_remaining` says is left of the wait. -/
def Waited (rows : List (Int × Int × Int × Int × Int)) (st : Sim) (p : Nat) : Prop :=
  (linesOf p st.log).Chain'
    (fun r w => r.new_state = STATE_WAITING →
      w.time = r.time + (loadProcs rows p).io_duration) ∧
  ∀ r ∈ (linesOf p st.log).getLast?, r.new_state = STATE_WAITING →
    r.time + (loadProcs rows p).io_duration = st.cpu_clock + (st.procs p).io_time_remaining

/-- Every line that leaves NEW carries the arrival time of its process. -/
def Admitted (rows : List (Int × Int × Int × Int × Int)) (st : Sim) : Prop :=
  ∀ r ∈ st.log, r.old_state = STATE_NEW → r.time = (loadProcs rows r.node).arrival_time

/-! ### The range of the type `int` -/

/-- `INT_MIN` of `limits.h` for a 32-bit `int`. -/
def INT_MIN : Int := -2147483648

/-- The value is one that a variable of type `int` holds. -/
def FitsInt (x : Int) : Prop := INT_MIN ≤ x ∧ x ≤ INT_MAX

instance decidableFitsInt (x : Int) : Decidable (FitsInt x) := by
  unfold FitsInt
  infer_instance

/-- Every field of every input row is an `int`, as `atoi` returns it. -/
def IntRows (rows : List (Int × Int × Int × Int × Int)) : Prop :=
  ∀ row ∈ rows, FitsInt row.1 ∧ FitsInt row.2.1 ∧ FitsInt row.2.2.1 ∧ FitsInt row.2.2.2.1 ∧
    FitsInt row.2.2.2.2

instance decidableIntRows (rows : List (Int × Int × Int × Int × Int)) :
    Decidable (IntRows rows) := by
  unfold IntRows
  infer_instance

/-- The clock is not negative and every line written so far carries a time between 0 and
the clock. -/
def Stamped (st : Sim) : Prop :=
  0 ≤ st.cpu_clock ∧ ∀ r ∈ st.log, 0 ≤ r.time ∧ r.time ≤ st.cpu_clock

/-! ### The loop in the arithmetic of a 32-bit `int`

The definitions above compute on the integers.  The compiled program computes on 32-bit
two's-complement `int` values: a sum or difference that leaves the range of `int` wraps
around (the C standard leaves signed overflow undefined).  The definitions of this
section are those of the loop once more, with every `int` addition and subtraction of
`priority.c` wrapped; the parts of the loop that do no arithmetic (`scanNew`,
`startRunning`, `get_next_process`, the list operations) are used as they are. -/

/-- The value a 32-bit two's-complement `int` holds for the result `x`. -/
def wrapInt (x : Int) : Int :=
  (x + 2147483648) % 4294967296 - 2147483648

namespace Int32

/-- `get_time_to_next_event` with `arrival_time - cpu_clock` computed in `int`. -/
def get_time_to_next_event (procs : Procs) (cpu_clock : Int) (running : Option Nat)
    (new_list waiting_list : NodeList) : Int :=
  let next_exit := match running with
    | some r => (procs r).cpu_time_remaining
    | none => INT_MAX
  let next_block := match running with
    | some r => (procs r).io_time_remaining
    | none => INT_MAX
  let next_arrival := new_list.foldl
    (fun acc temp => cmin (wrapInt ((procs temp).arrival_time - cpu_clock)) acc) INT_MAX
  let next_io := waiting_list.foldl
    (fun acc temp => cmin (procs temp).io_time_remaining acc) INT_MAX
  let min_time := cmin (cmin next_exit next_block) (cmin next_arrival next_io)
  if min_time = 0 then 1 else min_time

/-- `scanWaiting` (lines 355-376) with `io_time_remaining -= next_step` computed in
`int`. -/
def scanWaiting : NodeList → Sim → Option Sim
  | [], st => some st
  | node :: rest, st =>
    let p := st.procs node
    let p1 : process :=
      { p with io_time_remaining := wrapInt (p.io_time_remaining - st.next_step) }
    if p1.io_time_remaining ≤ 0 then
      let p2 : process := { p1 with s := STATE_READY, io_time_remaining := p1.io_frequency }
      match remove_node st.waiting_list node with
      | none => none
      | some (_, wl) =>
        scanWaiting rest { st with
          procs := Function.update st.procs node p2,
          waiting_list := wl,
          ready_list := push_node st.ready_list node,
          log := st.log ++ [⟨st.cpu_clock, p.pid, STATE_WAITING, STATE_READY, node, p.s⟩] }
    else
      scanWaiting rest { st with procs := Function.update st.procs node p1 }

/-- `cpuStep` (lines 396-470) with `cpu_time_remaining -= next_step` and
`io_time_remaining -= next_step` computed in `int`. -/
def cpuStep (st : Sim) : Option Sim :=
  match st.running with
  | none =>
    match get_next_process st.procs st.ready_list with
    | some r => startRunning st r
    | none =>
      match scanNew st.new_list st with
      | none => none
      | some st1 => some { st1 with running := none }
  | some run =>
    let p := st.procs run
    let p1 : process :=
      { p with cpu_time_remaining := wrapInt (p.cpu_time_remaining - st.next_step),
               io_time_remaining := wrapInt (p.io_time_remaining - st.next_step) }
    if p1.cpu_time_remaining ≤ 0 then
      let st1 : Sim := { st with
        procs := Function.update st.procs run { p1 with s := STATE_TERMINATED },
        terminated := push_node st.terminated run,
        log := st.log ++ [⟨st.cpu_clock, p.pid, STATE_RUNNING, STATE_TERMINATED, run, p.s⟩] }
      match get_next_process st1.procs st1.ready_list with
      | some r => startRunning st1 r
      | none => some { st1 with running := none }
    else if p1.io_time_remaining ≤ 0 then
      let st1 : Sim := { st with
        procs := Function.update st.procs run
          { p1 with io_time_remaining := p1.io_duration, s := STATE_WAITING },
        waiting_list := push_node st.waiting_list run,
        log := st.log ++ [⟨st.cpu_clock, p.pid, STATE_RUNNING, STATE_WAITING, run, p.s⟩] }
      match st1.ready_list with
      | r :: _ => startRunning st1 r
      | [] => some { st1 with running := none }
    else
      some { st with procs := Function.update st.procs run p1 }

/-- `loopBody` (lines 351-473) with `cpu_clock += next_step` computed in `int`. -/
def loopBody (st : Sim) : Option Sim :=
  let st0 : Sim := { st with cpu_clock := wrapInt (st.cpu_clock + st.next_step) }
  match scanWaiting st0.waiting_list st0 with
  | none => none
  | some st1 =>
    match scanNew st1.new_list st1 with
    | none => none
    | some st2 =>
      match cpuStep st2 with
      | none => none
      | some st3 =>
        some { st3 with next_step :=
          get_time_to_next_event st3.procs st3.cpu_clock st3.running st3.new_list st3.waiting_list }

/-- `mainLoop` over the `int` loop body. -/
def mainLoop : Nat → Sim → Option Sim
  | 0, _ => none
  | fuel + 1, st =>
    match loopBody st with
    | none => none
    | some st1 => if simulation_completed st1 then some st1 else mainLoop fuel st1

/-- `passes` over the `int` loop body. -/
def passes : Nat → Sim → Option Sim
  | 0, st => some st
  | k + 1, st =>
    match loopBody st with
    | none => none
    | some st1 => if simulation_completed st1 then some st1 else passes k st1

end Int32

/-- Input rows that meet the data model and on which the clock leaves the range of `int`:
PID 1 ends at clock 1, PID 2 then needs `INT_MAX` units of CPU time. -/
def rowsLong : List (Int × Int × Int × Int × Int) :=
  [(1, 0, 1, 5, 1), (2, 0, 2147483647, 2147483647, 1)]

/-- Input row that meets the data model and on which an I/O wait ends past `INT_MAX`. -/
def rowsLongWait : List (Int × Int × Int × Int × Int) := [(1, 0, 2, 1, 2147483647)]

end Skip

namespace Links

/-- The C struct `node`: `p` is the address of the process, `next` the link
(`none` is `NULL`). -/
structure node where
  p : Nat
  next : Option Nat
deriving DecidableEq, Repr

/-- The nodes on the heap, by address. -/
abbrev Nodes := Nat → node

/-- Why a call did not return: it dereferenced `NULL`, or the bound on the number of loop
iterations was used up. -/
inductive Fault where
  | null_deref | out_of_fuel
deriving DecidableEq, Repr

/-- The `while(prev->next != NULL) prev = prev->next;` loop of `push_node`. -/
def push_node_loop : Nat → Nodes → Nat → Except Fault Nat
  | 0, _, _ => Except.error Fault.out_of_fuel
  | fuel + 1, nodes, prev =>
    match (nodes prev).next with
    | none => Except.ok prev
    | some nx => push_node_loop fuel nodes nx

/-- `push_node`, on the heap: the new heap and the returned head. -/
def push_node (fuel : Nat) (nodes : Nodes) (head temp : Option Nat) :
    Except Fault (Nodes × Option Nat) :=
  match head with
  | none =>
    match temp with
    | none => Except.error Fault.null_deref
    | some t => Except.ok (Function.update nodes t { (nodes t) with next := none }, temp)
  | some h =>
    match push_node_loop fuel nodes h with
    | Except.error e => Except.error e
    | Except.ok prev =>
      let nodes1 : Nodes := Function.update nodes prev { (nodes prev) with next := temp }
      match temp with
      | none => Except.error Fault.null_deref
      | some t => Except.ok (Function.update nodes1 t { (nodes1 t) with next := none }, head)

/-- The `while(temp->next != NULL)` loop of `remove_node`: the returned `int` and the new
heap. -/
def remove_node_loop : Nat → Nodes → Nat → Option Nat → Except Fault (Int × Nodes)
  | 0, _, _, _ => Except.error Fault.out_of_fuel
  | fuel + 1, nodes, temp, to_be_removed =>
    match (nodes temp).next with
    | none => Except.ok (-1, nodes)
    | some nx =>
      if some nx = to_be_removed then
        let nodes1 : Nodes :=
          Function.update nodes temp { (nodes temp) with next := (nodes nx).next }
        Except.ok (1, Function.update nodes1 nx { (nodes1 nx) with next := none })
      else remove_node_loop fuel nodes nx to_be_removed

/-- `remove_node`, on the heap: the returned `int`, the new heap and the new `*head`. -/
def remove_node (fuel : Nat) (nodes : Nodes) (head to_be_removed : Option Nat) :
    Except Fault (Int × Nodes × Option Nat) :=
  if to_be_removed = head then
    match head with
    | none => Except.error Fault.null_deref
    | some h =>
      Except.ok (1, Function.update nodes h { (nodes h) with next := none }, (nodes h).next)
  else
    match head with
    | none => Except.error Fault.null_deref
    | some h =>
      match remove_node_loop fuel nodes h to_be_removed with
      | Except.error e => Except.error e
      | Except.ok (r, nodes1) => Except.ok (r, nodes1, head)

/-- The nodes reached from `head` through `next`, up to `NULL`, are `l` in this order. -/
def IsList (nodes : Nodes) : Option Nat → List Nat → Prop
  | head, [] => head = none
  | head, x :: xs => head = some x ∧ IsList nodes (nodes x).next xs

/-- A heap of four nodes: 1 -> 2 -> 3 -> NULL, and node 4 with a stale link to 2. -/
def heapThree : Nodes := fun i =>
  if i = 1 then ⟨11, some 2⟩ else if i = 2 then ⟨12, some 3⟩
  else if i = 3 then ⟨13, none⟩ else ⟨14, some 2⟩

end Links

namespace Tick

/-! ### Stepping lemmas -/

theorem runSteps_add (m n : Nat) (s : KState) :
    runSteps (m + n) s = runSteps n (runSteps m s) := by
  induction m generalizing s with
  | zero => simp [runSteps]
  | succ m ih =>
    have h : m + 1 + n = (m + n) + 1 := by omega
    rw [h]
    simp only [runSteps]
    exact ih (step s)

theorem runSteps_succ_last (n : Nat) (s : KState) :
    runSteps (n + 1) s = step (runSteps n s) := by
  rw [runSteps_add n 1 s]
  rfl

/-- A property of the start state that every control step keeps holds after any number of steps. -/
theorem runSteps_invariant (P : KState → Prop) (hstep : ∀ s, P s → P (step s))
    (s : KState) (h0 : P s) (n : Nat) : P (runSteps n s) := by
  induction n with
  | zero => exact h0
  | succ n ih =>
    rw [runSteps_succ_last]
    exact hstep _ ih

theorem step_finished (s : KState) (h : s.pc = Pc.finished) : step s = s := by
  simp [step, h]

theorem runSteps_finished (n : Nat) (s : KState) (h : s.pc = Pc.finished) :
    runSteps n s = s := by
  induction n with
  | zero => rfl
  | succ n ih => simp [runSteps, step_finished s h, ih]

/-- Once the loop has been left it stays left. -/
theorem finished_stays (s : KState) (m n : Nat) (hmn : m ≤ n)
    (h : (runSteps m s).pc = Pc.finished) : (runSteps n s).pc = Pc.finished := by
  obtain ⟨d, rfl⟩ := Nat.exists_eq_add_of_le hmn
  rw [runSteps_add, runSteps_finished d _ h]
  exact h


open StateName QueueCall


theorem timeOK_snoc {log : List Transition} {c : Int} (h : TimeOK log c)
    (pid : Int) (o n : StateName) : TimeOK (log ++ [⟨c, pid, o, n⟩]) c := by
  obtain ⟨h1, h2⟩ := h
  constructor
  · rw [List.map_append, List.pairwise_append]
    refine ⟨h1, by simp, ?_⟩
    intro a ha b hb
    simp at hb
    subst hb
    obtain ⟨t, ht, rfl⟩ := List.mem_map.mp ha
    exact h2 t ht
  · intro t ht
    rcases List.mem_append.mp ht with ht | ht
    · exact h2 t ht
    · simp at ht
      subst ht
      exact le_refl _

theorem timeOK_mono {log : List Transition} {c d : Int} (h : TimeOK log c) (hcd : c ≤ d) :
    TimeOK log d :=
  ⟨h.1, fun t ht => le_trans (h.2 t ht) hcd⟩

theorem timeOK_step (s : KState) (h : TimeOK s.log s.clk) : TimeOK (step s).log (step s).clk := by
  unfold step
  split
  · split <;> exact h
  · split
    · unfold arriveOne
      split
      · split
        · exact timeOK_snoc h _ _ _
        · exact timeOK_snoc h _ _ _
      · exact h
    · exact h
  · unfold executeStep
    split
    · exact h
    · exact timeOK_mono h (by simp)
    · simp only
      split
      · split
        · exact timeOK_snoc (timeOK_snoc h _ _ _) _ _ _
        · exact timeOK_mono (timeOK_snoc (timeOK_snoc h _ _ _) _ _ _) (by simp)
      · split
        · exact timeOK_snoc (timeOK_snoc h _ _ _) _ _ _
        · exact timeOK_mono (timeOK_snoc (timeOK_snoc h _ _ _) _ _ _) (by simp)
  · unfold ioScanStep
    split
    · exact h
    · simp only
      split
      · split
        · exact timeOK_snoc h _ _ _
        · split
          · exact timeOK_snoc h _ _ _
          · exact timeOK_snoc h _ _ _
      · exact h
  · exact h
  · exact h

/-- Tick engine: at every point of every run the clock values of the log are non-decreasing. -/
theorem tick_log_times_sorted (wst0 : Int) (rows : List (Int × Int × Int × Int × Int)) (n : Nat) :
    ((kernelSim wst0 rows n).log.map (fun t => t.clk)).Pairwise (fun a b => a ≤ b) :=
  (runSteps_invariant (fun s => TimeOK s.log s.clk) timeOK_step _
    (by simp [TimeOK, kernelInit]) n).1

theorem rearOK_new : RearOK new_queue := by
  intro _
  simp [new_queue]

theorem enqueue_some (mem : Mem) (q : queue_t) (pcb : Nat) (h : RearOK q) :
    ∃ m q1, enqueue mem q pcb = some (m, q1) := by
  unfold enqueue
  cases hf : q.front with
  | none => exact ⟨_, _, rfl⟩
  | some f =>
    cases hr : q.rear with
    | none => have := (h hr).1; rw [hf] at this; simp at this
    | some r => exact ⟨_, _, rfl⟩

theorem enqueue_rearOK {mem m : Mem} {q q1 : queue_t} {pcb : Nat}
    (h : enqueue mem q pcb = some (m, q1)) : RearOK q1 ∧ q1.rear = some pcb ∧ q1.size = q.size + 1 := by
  unfold enqueue at h
  cases hf : q.front with
  | none =>
    rw [hf] at h
    simp at h
    obtain ⟨-, rfl⟩ := h
    exact ⟨by intro h'; simp at h', rfl, rfl⟩
  | some f =>
    rw [hf] at h
    cases hr : q.rear with
    | none => rw [hr] at h; simp at h
    | some r =>
      rw [hr] at h
      simp at h
      obtain ⟨-, rfl⟩ := h
      exact ⟨by intro h'; simp at h', rfl, rfl⟩

/-- `enqueue` writes nothing but `next` links. -/
theorem enqueue_fields {mem m : Mem} {q q1 : queue_t} {pcb : Nat}
    (h : enqueue mem q pcb = some (m, q1)) (i : Nat) :
    (m i).remainingCPUTime = (mem i).remainingCPUTime ∧
    (m i).waitStartTime = (mem i).waitStartTime := by
  unfold enqueue at h
  cases hf : q.front with
  | none =>
    rw [hf] at h
    simp at h
    obtain ⟨rfl, -⟩ := h
    exact ⟨rfl, rfl⟩
  | some f =>
    rw [hf] at h
    cases hr : q.rear with
    | none => rw [hr] at h; simp at h
    | some r =>
      rw [hr] at h
      simp at h
      obtain ⟨rfl, -⟩ := h
      by_cases hir : i = r
      · subst hir; simp
      · simp [Function.update_noteq hir]

theorem dequeue_rearOK {mem : Mem} {q q1 : queue_t} {r : Option Nat}
    (h : dequeue mem q = some (r, q1)) (hq : RearOK q) : RearOK q1 := by
  unfold dequeue at h
  by_cases h0 : q.size = 0
  · simp [h0] at h
    obtain ⟨-, rfl⟩ := h
    exact hq
  · simp only [h0, if_false] at h
    cases hf : q.front with
    | none => rw [hf] at h; simp at h
    | some f =>
      rw [hf] at h
      simp at h
      obtain ⟨-, rfl⟩ := h
      intro hr
      exact absurd (hq hr).2 h0

theorem queuesOK_step (s : KState) (h : QueuesOK s) : QueuesOK (step s) := by
  obtain ⟨hr, hw, ht⟩ := h
  unfold step
  split
  · split <;> exact ⟨hr, hw, ht⟩
  · split
    · unfold arriveOne
      split
      · split
        · exact ⟨hr, hw, ht⟩
        · next m q he => exact ⟨(enqueue_rearOK he).1, hw, ht⟩
      · exact ⟨hr, hw, ht⟩
    · exact ⟨hr, hw, ht⟩
  · unfold executeStep
    split
    · exact ⟨hr, hw, ht⟩
    · next q hd => exact ⟨dequeue_rearOK hd hr, hw, ht⟩
    · next cur q hd =>
      simp only
      split
      · split
        · exact ⟨dequeue_rearOK hd hr, hw, ht⟩
        · next m t he => exact ⟨dequeue_rearOK hd hr, hw, (enqueue_rearOK he).1⟩
      · split
        · exact ⟨dequeue_rearOK hd hr, hw, ht⟩
        · next m t he => exact ⟨dequeue_rearOK hd hr, (enqueue_rearOK he).1, ht⟩
  · unfold ioScanStep
    split
    · exact ⟨hr, hw, ht⟩
    · simp only
      split
      · split
        · exact ⟨hr, hw, ht⟩
        · next m r he =>
          split
          · exact ⟨(enqueue_rearOK he).1, hw, ht⟩
          · next x w hd => exact ⟨(enqueue_rearOK he).1, dequeue_rearOK hd hw, ht⟩
      · exact ⟨hr, hw, ht⟩
  · exact ⟨hr, hw, ht⟩
  · exact ⟨hr, hw, ht⟩

theorem queuesOK_kernelSim (wst0 : Int) (rows : List (Int × Int × Int × Int × Int)) (n : Nat) :
    QueuesOK (kernelSim wst0 rows n) :=
  runSteps_invariant QueuesOK queuesOK_step _ ⟨rearOK_new, rearOK_new, rearOK_new⟩ n

/-- What `executeStep` does when `dequeue(ready)` returns a process whose remaining
time is at most its frequency. -/
theorem executeStep_terminates (s : KState) (p : Nat) (q : queue_t) (hq : QueuesOK s)
    (hd : dequeue s.processes s.ready = some (some p, q))
    (hle : (s.processes p).remainingCPUTime ≤ (s.processes p).freq) :
    (executeStep s).log = s.log ++
        [⟨s.clk, (s.processes p).PID, Ready, Running⟩,
         ⟨s.clk, (s.processes p).PID, Running, Terminated⟩] ∧
    ((executeStep s).processes p).remainingCPUTime = 0 ∧
    enqueue (Function.update s.processes p { (s.processes p) with remainingCPUTime := 0 })
        s.terminated p = some ((executeStep s).processes, (executeStep s).terminated) ∧
    (executeStep s).terminated.rear = some p ∧
    (executeStep s).terminated.size = s.terminated.size + 1 ∧
    (executeStep s).waiting = s.waiting ∧
    (executeStep s).ready = q ∧
    (executeStep s).clk = s.clk + 1 ∧
    (executeStep s).pc = Pc.ioScan := by
  obtain ⟨m, t, he⟩ := enqueue_some
    (Function.update s.processes p { (s.processes p) with remainingCPUTime := 0 })
    s.terminated p hq.2.2
  have hf := (enqueue_fields he p).1
  have hr := enqueue_rearOK he
  have hE : executeStep s = { s with
      ready := q,
      log := s.log ++ [⟨s.clk, (s.processes p).PID, Ready, Running⟩] ++
        [⟨s.clk, (s.processes p).PID, Running, Terminated⟩],
      processes := m, terminated := t, clk := s.clk + 1, pc := Pc.ioScan } := by
    simp only [executeStep, hd, hle, if_true, he]
  rw [hE]
  refine ⟨by simp, ?_, he, hr.2.1, hr.2.2, rfl, rfl, rfl, rfl⟩
  show (m p).remainingCPUTime = 0
  rw [hf]
  simp

/-- What `executeStep` does when `dequeue(ready)` returns a process whose remaining
time exceeds its frequency. -/
theorem executeStep_blocks (s : KState) (p : Nat) (q : queue_t) (hq : QueuesOK s)
    (hd : dequeue s.processes s.ready = some (some p, q))
    (hgt : ¬ (s.processes p).remainingCPUTime ≤ (s.processes p).freq) :
    (executeStep s).log = s.log ++
        [⟨s.clk, (s.processes p).PID, Ready, Running⟩,
         ⟨s.clk, (s.processes p).PID, Running, Waiting⟩] ∧
    ((executeStep s).processes p).waitStartTime = s.clk ∧
    ((executeStep s).processes p).remainingCPUTime =
      (s.processes p).remainingCPUTime - (s.processes p).freq ∧
    0 < ((executeStep s).processes p).remainingCPUTime ∧
    enqueue (Function.update s.processes p { (s.processes p) with waitStartTime := s.clk, remainingCPUTime := (s.processes p).remainingCPUTime - (s.processes p).freq })
        s.waiting p = some ((executeStep s).processes, (executeStep s).waiting) ∧
    (executeStep s).waiting.rear = some p ∧
    (executeStep s).waiting.size = s.waiting.size + 1 ∧
    (executeStep s).terminated = s.terminated ∧
    (executeStep s).ready = q ∧
    (executeStep s).clk = s.clk + 1 ∧
    (executeStep s).pc = Pc.ioScan := by
  obtain ⟨m, t, he⟩ := enqueue_some
    (Function.update s.processes p { (s.processes p) with waitStartTime := s.clk, remainingCPUTime := (s.processes p).remainingCPUTime - (s.processes p).freq })
    s.waiting p hq.2.1
  have hf := enqueue_fields he p
  have hr := enqueue_rearOK he
  have hE : executeStep s = { s with
      ready := q,
      log := s.log ++ [⟨s.clk, (s.processes p).PID, Ready, Running⟩] ++
        [⟨s.clk, (s.processes p).PID, Running, Waiting⟩],
      processes := m, waiting := t, clk := s.clk + 1, pc := Pc.ioScan } := by
    simp only [executeStep, hd, hgt, if_false, he]
  have h2 : (m p).remainingCPUTime =
      (s.processes p).remainingCPUTime - (s.processes p).freq := by
    rw [hf.1]; simp
  rw [hE]
  refine ⟨by simp, ?_, h2, ?_, he, hr.2.1, hr.2.2, rfl, rfl, rfl, rfl⟩
  · show (m p).waitStartTime = s.clk
    rw [hf.2]; simp
  · show 0 < (m p).remainingCPUTime
    rw [h2]; omega

theorem dispatchTimes_snoc_other (log : List Transition) (t : Transition)
    (h : ¬ (t.oldState = Ready ∧ t.newState = Running)) :
    dispatchTimes (log ++ [t]) = dispatchTimes log := by
  simp [dispatchTimes, List.filter_append, List.filter_cons, h]

theorem dispatchTimes_snoc_dispatch (log : List Transition) (c pid : Int) :
    dispatchTimes (log ++ [⟨c, pid, Ready, Running⟩]) = dispatchTimes log ++ [c] := by
  simp [dispatchTimes, List.filter_append, List.filter_cons]

theorem dispatchOK_execute_log (s : KState) (h : DispatchOK s) (hpc : s.pc = Pc.execute)
    (pid : Int) (n : StateName) :
    (dispatchTimes (s.log ++ [⟨s.clk, pid, Ready, Running⟩] ++ [⟨s.clk, pid, Running, n⟩])).Pairwise
        (fun a b => a < b) ∧
    ∀ c ∈ dispatchTimes (s.log ++ [⟨s.clk, pid, Ready, Running⟩] ++ [⟨s.clk, pid, Running, n⟩]),
      c < s.clk + 1 := by
  rw [dispatchTimes_snoc_other _ _ (by simp), dispatchTimes_snoc_dispatch]
  have h2 := h.2 (by rw [hpc]; simp)
  constructor
  · rw [List.pairwise_append]
    refine ⟨h.1, by simp, ?_⟩
    intro a ha b hb
    simp at hb
    subst hb
    exact h2 a ha
  · intro c hc
    rcases List.mem_append.mp hc with hc | hc
    · have := h2 c hc; omega
    · simp at hc; omega

theorem dispatchOK_step (s : KState) (h : DispatchOK s) : DispatchOK (step s) := by
  unfold step
  split
  · next hpc =>
    have h2 := h.2 (by rw [hpc]; simp)
    split
    · exact ⟨h.1, fun _ => h2⟩
    · exact ⟨h.1, fun _ => h2⟩
  · next i hpc =>
    have h2 := h.2 (by rw [hpc]; simp)
    split
    · unfold arriveOne
      split
      · split
        · refine ⟨?_, fun hc => absurd rfl hc⟩
          show (dispatchTimes (s.log ++ _)).Pairwise _
          rw [dispatchTimes_snoc_other _ _ (by simp)]
          exact h.1
        · refine ⟨?_, fun _ => ?_⟩
          · show (dispatchTimes (s.log ++ _)).Pairwise _
            rw [dispatchTimes_snoc_other _ _ (by simp)]
            exact h.1
          · show ∀ c ∈ dispatchTimes (s.log ++ _), c < s.clk
            rw [dispatchTimes_snoc_other _ _ (by simp)]
            exact h2
      · exact ⟨h.1, fun _ => h2⟩
    · exact ⟨h.1, fun _ => h2⟩
  · next hpc =>
    have h2 := h.2 (by rw [hpc]; simp)
    unfold executeStep
    split
    · exact ⟨h.1, fun hc => absurd rfl hc⟩
    · exact ⟨h.1, fun _ c hc => by have := h2 c hc; show c < s.clk + 1; omega⟩
    · next cur q hd =>
      simp only
      split
      · have key := dispatchOK_execute_log s h hpc (s.processes cur).PID Terminated
        split
        · exact ⟨key.1, fun hc => absurd rfl hc⟩
        · exact ⟨key.1, fun _ => key.2⟩
      · have key := dispatchOK_execute_log s h hpc (s.processes cur).PID Waiting
        split
        · exact ⟨key.1, fun hc => absurd rfl hc⟩
        · exact ⟨key.1, fun _ => key.2⟩
  · next hpc =>
    have h2 := h.2 (by rw [hpc]; simp)
    unfold ioScanStep
    split
    · exact ⟨h.1, fun _ => h2⟩
    · simp only
      split
      · have e : ∀ pid, dispatchTimes (s.log ++ [⟨s.clk, pid, Waiting, Ready⟩]) =
            dispatchTimes s.log := fun pid => dispatchTimes_snoc_other _ _ (by simp)
        split
        · refine ⟨?_, fun hc => absurd rfl hc⟩
          show (dispatchTimes (s.log ++ _)).Pairwise _
          rw [e]; exact h.1
        · split
          · refine ⟨?_, fun hc => absurd rfl hc⟩
            show (dispatchTimes (s.log ++ _)).Pairwise _
            rw [e]; exact h.1
          · refine ⟨?_, fun _ => ?_⟩
            · show (dispatchTimes (s.log ++ _)).Pairwise _
              rw [e]; exact h.1
            · show ∀ c ∈ dispatchTimes (s.log ++ _), c < s.clk
              rw [e]; exact h2
      · exact ⟨h.1, fun _ => h2⟩
  · exact h
  · exact h

theorem clockOK_step (s : KState) (v : Nat) (h : ClockOK s v) :
    ClockOK (step s) (v + (if s.pc = Pc.loopHead then 1 else 0)) := by
  unfold ClockOK at h
  cases hpc : s.pc with
  | loopHead =>
    rw [hpc] at h
    simp only at h
    simp only [step, hpc, if_true]
    split
    · simp [ClockOK, h]
    · simp [ClockOK]
  | arrivals i =>
    rw [hpc] at h
    simp only at h
    simp only [step, hpc]
    split
    · unfold arriveOne
      split
      · split
        · simp [ClockOK]
        · simpa [ClockOK] using h
      · simpa [ClockOK] using h
    · simpa [ClockOK] using h
  | execute =>
    rw [hpc] at h
    simp only at h
    simp only [step, hpc]
    unfold executeStep
    split
    · simp [ClockOK]
    · simpa [ClockOK] using h
    · simp only
      split
      · split
        · simp [ClockOK]
        · simpa [ClockOK] using h
      · split
        · simp [ClockOK]
        · simpa [ClockOK] using h
  | ioScan =>
    rw [hpc] at h
    simp only at h
    simp only [step, hpc]
    unfold ioScanStep
    split
    · simpa [ClockOK] using h
    · simp only
      split
      · split
        · simp [ClockOK]
        · split
          · simp [ClockOK]
          · simpa [ClockOK] using h
      · simpa [ClockOK] using h
  | finished => simp [step, hpc, ClockOK]
  | crashed => simp [step, hpc, ClockOK]

theorem clockOK_all (s0 : KState) (h0 : s0.pc = Pc.loopHead) (hc : s0.clk = 0) (n : Nat) :
    ClockOK (runSteps n s0) (headVisits s0 n) := by
  induction n with
  | zero => simp [ClockOK, runSteps, h0, hc, headVisits]
  | succ n ih =>
    rw [runSteps_succ_last]
    simp only [headVisits]
    exact clockOK_step _ _ ih

set_option maxRecDepth 100000 in
set_option maxHeartbeats 4000000 in
theorem rowsCycle_records (wst0 : Int) :
    recordsOf 1 (kernelSim wst0 rowsCycle 33).log =
      [(New, Ready), (Ready, Running), (Running, Waiting), (Waiting, Ready), (Waiting, Ready)] := by
  simp [kernelSim, runSteps, step, kernelInit, loadMem, loadPCB, rowsCycle, arriveOne,
    executeStep, ioScanStep, enqueue, dequeue, new_queue, Function.update_apply, recordsOf]

theorem lifecycle_zero : lifecycle 0 =
    [(New, Ready), (Ready, Running), (Running, Terminated)] := by
  simp [lifecycle]

theorem lifecycle_succ (k : Nat) : lifecycle (k + 1) =
    (New, Ready) :: (Ready, Running) :: (Running, Waiting) :: (Waiting, Ready) ::
      (lifecycle k).tail := by
  simp [lifecycle, List.replicate_succ]

theorem lifecycle_tail_head (k : Nat) : (lifecycle k).tail.head? = some (Ready, Running) := by
  cases k with
  | zero => simp [lifecycle]
  | succ k => simp [lifecycle, List.replicate_succ]

/-- C1, evaluated on the rows `(1,2,3,2,3)`, `(2,1,3,1,2)`, which meet the data model,
whatever `malloc` left in `waitStartTime`: after 33 control steps the records of PID 1 are New->Ready,
Ready->Running, Running->Waiting, Waiting->Ready, Waiting->Ready.  The fifth record has
old state Waiting although the record before it ended in Ready, so the records are
neither linked nor a prefix of any lifecycle word. -/
theorem c1_waiting_ready_emitted_twice : ValidInput rowsCycle ∧ ∀ wst0 : Int,
    recordsOf 1 (kernelSim wst0 rowsCycle 33).log =
      [(New, Ready), (Ready, Running), (Running, Waiting), (Waiting, Ready), (Waiting, Ready)] ∧
    linked New (recordsOf 1 (kernelSim wst0 rowsCycle 33).log) = false ∧
    ¬ ∃ k, recordsOf 1 (kernelSim wst0 rowsCycle 33).log <+: lifecycle k := by
  refine ⟨by decide, ?_⟩
  intro wst0
  rw [rowsCycle_records]
  refine ⟨rfl, by decide, ?_⟩
  rintro ⟨k, hk⟩
  cases k with
  | zero =>
    rw [lifecycle_zero] at hk
    have := hk.length_le
    simp at this
  | succ k =>
    rw [lifecycle_succ] at hk
    have h1 := lifecycle_tail_head k
    cases hl : (lifecycle k).tail with
    | nil => rw [hl] at h1; simp at h1
    | cons a l =>
      rw [hl] at h1 hk
      simp at h1
      subst h1
      simp [List.cons_prefix_cons] at hk

theorem blocked_step (s : KState) (h : Blocked s) : Blocked (step s) := by
  obtain ⟨hnum, hterm, hready, hfront, hwst, hdur, harr0, harr1, hclk, hlog, hpc⟩ := h
  rcases hpc with hpc | ⟨i, hpc⟩ | hpc | hpc
  · have : step s = { s with pc := Pc.arrivals 0 } := by
      simp [step, hpc, hterm, hnum]
    rw [this]
    exact ⟨hnum, hterm, hready, hfront, hwst, hdur, harr0, harr1, hclk, hlog, Or.inr (Or.inl ⟨0, rfl⟩)⟩
  · by_cases hi : i < s.num_processes
    · have hne : (s.processes i).arrivalTime ≠ s.clk := by
        rw [hnum] at hi
        interval_cases i
        · rw [harr0]; omega
        · rw [harr1]; omega
      have : step s = { s with pc := Pc.arrivals (i + 1) } := by
        simp [step, hpc, hi, arriveOne, hne]
      rw [this]
      exact ⟨hnum, hterm, hready, hfront, hwst, hdur, harr0, harr1, hclk, hlog,
        Or.inr (Or.inl ⟨i + 1, rfl⟩)⟩
    · have : step s = { s with pc := Pc.execute } := by
        simp [step, hpc, hi]
      rw [this]
      exact ⟨hnum, hterm, hready, hfront, hwst, hdur, harr0, harr1, hclk, hlog,
        Or.inr (Or.inr (Or.inl rfl))⟩
  · have : step s = { s with ready := s.ready, clk := s.clk + 1, pc := Pc.ioScan } := by
      simp [step, hpc, executeStep, dequeue, hready]
    rw [this]
    exact ⟨hnum, hterm, hready, hfront, hwst, hdur, harr0, harr1, by simp; omega, hlog,
      Or.inr (Or.inr (Or.inr rfl))⟩
  · have hne : ¬ (s.clk - (s.processes 0).waitStartTime = (s.processes 0).duration) := by
      rw [hwst, hdur]; omega
    have : step s = { s with pc := Pc.loopHead } := by
      simp [step, hpc, ioScanStep, hfront, hne]
    rw [this]
    exact ⟨hnum, hterm, hready, hfront, hwst, hdur, harr0, harr1, hclk, hlog, Or.inl rfl⟩

set_option maxRecDepth 100000 in
set_option maxHeartbeats 4000000 in
theorem blocked_reached (wst0 : Int) : Blocked (kernelSim wst0 rowsBlocked 31) := by
  constructor <;>
  simp [kernelSim, runSteps, step, kernelInit, loadMem, loadPCB, rowsBlocked, arriveOne,
    executeStep, ioScanStep, enqueue, dequeue, new_queue, Function.update_apply, logBlocked]

theorem blocked_from (wst0 : Int) (n : Nat) : Blocked (kernelSim wst0 rowsBlocked (31 + n)) := by
  unfold kernelSim
  rw [runSteps_add]
  exact runSteps_invariant Blocked blocked_step _ (blocked_reached wst0) n

/-- C8, evaluated on the calls enqueue 0, enqueue 1, dequeue, dequeue, enqueue 0, dequeue,
enqueue 2, dequeue on a new queue over PCBs with empty `next` links: the fourth `dequeue`
returns PCB 1, which was dequeued before and not enqueued again, where first-in-first-out
order gives PCB 2. -/
theorem c8_dequeue_returns_stale_pcb :
    runCalls callsStale blankMem new_queue = some ([some 0, some 1, some 0, some 1], 0) ∧
    fifoCalls callsStale [] = ([some 0, some 1, some 0, some 2], 0) := by
  decide

theorem dequeue_empty (mem : Mem) (queue : queue_t) (h : isEmpty queue = true) :
    dequeue mem queue = some (none, queue) := by
  have h0 : queue.size = 0 := by simpa [isEmpty] using h
  simp [dequeue, h0]

theorem dequeue_front (mem : Mem) (queue : queue_t) (temp : Nat)
    (h : isEmpty queue = false) (hf : queue.front = some temp) :
    dequeue mem queue =
      some (some temp, { front := (mem temp).next, rear := queue.rear, size := queue.size - 1 }) := by
  have h0 : queue.size ≠ 0 := by simpa [isEmpty] using h
  simp [dequeue, h0, hf]

/-- C9, evaluated after the calls enqueue 0, enqueue 1, dequeue, dequeue, enqueue 0,
dequeue, enqueue 2, enqueue 3, dequeue on a new queue: the queue has size 1, so `isEmpty`
does not hold, but its front is `NULL`, and `dequeue` dereferences it instead of
returning a PCB. -/
theorem c9_dequeue_dereferences_null_front :
    ∃ m q, afterCalls callsNullFront blankMem new_queue = some (m, q) ∧
      isEmpty q = false ∧ q.size = 1 ∧ q.front = none ∧ dequeue m q = none := by
  refine ⟨_, _, rfl, ?_, ?_, ?_, ?_⟩ <;> decide

/-! ### Runs on one process -/

theorem soloMem_zero (wst0 : Int) (row : Int × Int × Int × Int × Int) (remaining wst : Int) :
    soloMem wst0 row remaining wst 0 = soloPCB row remaining wst := by
  simp [soloMem]

theorem soloMem_update (wst0 : Int) (row : Int × Int × Int × Int × Int)
    (remaining wst : Int) (pcb : PCB) :
    Function.update (soloMem wst0 row remaining wst) 0 pcb =
      Function.update (loadMem wst0 [row]) 0 pcb := by
  simp [soloMem]

/-- The state on entry to the loop. -/
theorem soloIdle_init (wst0 : Int) (row : Int × Int × Int × Int × Int) :
    kernelInit (loadMem wst0 [row]) 1 = soloIdle wst0 row 0 := by
  have h : loadMem wst0 [row] = soloMem wst0 row row.2.2.1 wst0 := by
    unfold soloMem
    symm
    rw [Function.update_eq_self_iff]
    rfl
  simp only [kernelInit, soloIdle, h]

/-- A tick before the arrival: five control steps that only advance the clock. -/
theorem soloIdle_tick (wst0 : Int) (row : Int × Int × Int × Int × Int) (c : Int)
    (h : row.2.1 ≠ c) :
    runSteps 5 (soloIdle wst0 row c) = soloIdle wst0 row (c + 1) := by
  simp [runSteps, step, soloIdle, arriveOne, executeStep, ioScanStep, dequeue, new_queue,
    soloMem_zero, soloPCB, h]

/-- The tick of the arrival, up to `dequeue(ready)`. -/
theorem soloIdle_arrive (wst0 : Int) (row : Int × Int × Int × Int × Int) :
    runSteps 3 (soloIdle wst0 row row.2.1) =
      soloReady wst0 row row.2.1 row.2.2.1 wst0 none [⟨row.2.1, row.1, New, Ready⟩] := by
  simp [runSteps, step, soloIdle, soloReady, arriveOne, enqueue, new_queue,
    soloMem_zero, soloPCB]

/-- Dispatch with `remainingCPUTime ≤ freq`: the process terminates and the loop ends. -/
theorem soloReady_terminate (wst0 : Int) (row : Int × Int × Int × Int × Int)
    (c remaining wst : Int) (wrear : Option Nat) (log : List Transition)
    (h : remaining ≤ row.2.2.2.1) :
    runSteps 3 (soloReady wst0 row c remaining wst wrear log) =
      soloDone wst0 row (c + 1) wst wrear
        (log ++ [⟨c, row.1, Ready, Running⟩, ⟨c, row.1, Running, Terminated⟩]) := by
  simp [runSteps, step, soloReady, soloDone, executeStep, ioScanStep, dequeue, enqueue,
    new_queue, soloMem_zero, soloMem_update, soloPCB, h]
  rfl

/-- Dispatch with `remainingCPUTime > freq`: the process enters the waiting queue. -/
theorem soloReady_block (wst0 : Int) (row : Int × Int × Int × Int × Int)
    (c remaining wst : Int) (wrear : Option Nat) (log : List Transition)
    (h : row.2.2.2.1 < remaining) :
    runSteps 1 (soloReady wst0 row c remaining wst wrear log) =
      soloWaiting wst0 row c 1 (remaining - row.2.2.2.1)
        (log ++ [⟨c, row.1, Ready, Running⟩, ⟨c, row.1, Running, Waiting⟩]) := by
  have h1 : ¬ remaining ≤ row.2.2.2.1 := not_le.mpr h
  simp [runSteps, step, soloReady, soloWaiting, executeStep, dequeue, enqueue,
    soloMem_zero, soloMem_update, soloPCB, h1]
  rfl

/-- A tick during the wait, before the I/O is due: five control steps that only advance
the clock. -/
theorem soloWaiting_tick (wst0 : Int) (row : Int × Int × Int × Int × Int)
    (c0 j remaining : Int) (log : List Transition)
    (h : j ≠ row.2.2.2.2) (harr : row.2.1 ≠ c0 + j) :
    runSteps 5 (soloWaiting wst0 row c0 j remaining log) =
      soloWaiting wst0 row c0 (j + 1) remaining log := by
  simp [runSteps, step, soloWaiting, arriveOne, executeStep, ioScanStep, dequeue, new_queue,
    soloMem_zero, soloPCB, h, harr, add_assoc]

/-- The tick in which the I/O is due: the process returns to the ready queue and the next
iteration reaches `dequeue(ready)`. -/
theorem soloWaiting_end (wst0 : Int) (row : Int × Int × Int × Int × Int)
    (c0 remaining : Int) (log : List Transition) (harr : row.2.1 ≠ c0 + row.2.2.2.2) :
    runSteps 5 (soloWaiting wst0 row c0 row.2.2.2.2 remaining log) =
      soloReady wst0 row (c0 + row.2.2.2.2) remaining c0 (some 0)
        (log ++ [⟨c0 + row.2.2.2.2, row.1, Waiting, Ready⟩]) := by
  simp [runSteps, step, soloWaiting, soloReady, arriveOne, ioScanStep, dequeue, enqueue,
    new_queue, soloMem_zero, soloPCB, harr]

/-- The idle ticks before the arrival. -/
theorem soloIdle_run (wst0 : Int) (row : Int × Int × Int × Int × Int) (n : Nat)
    (h : (n : Int) ≤ row.2.1) :
    runSteps (5 * n) (soloIdle wst0 row 0) = soloIdle wst0 row n := by
  induction n with
  | zero => rfl
  | succ n ih =>
    have h1 : 5 * (n + 1) = 5 * n + 5 := by omega
    rw [h1, runSteps_add, ih (by push_cast at h; omega),
      soloIdle_tick wst0 row n (by push_cast at h; omega)]
    push_cast
    rfl

/-- The ticks of a wait, up to the one in which the I/O is due. -/
theorem soloWaiting_run (wst0 : Int) (row : Int × Int × Int × Int × Int)
    (c0 remaining : Int) (log : List Transition) (hc : row.2.1 ≤ c0) (n : Nat)
    (h : (n : Int) + 1 ≤ row.2.2.2.2) :
    runSteps (5 * n) (soloWaiting wst0 row c0 1 remaining log) =
      soloWaiting wst0 row c0 (n + 1) remaining log := by
  induction n with
  | zero =>
    simp only [Nat.mul_zero, runSteps, Nat.cast_zero, zero_add]
  | succ n ih =>
    have h1 : 5 * (n + 1) = 5 * n + 5 := by omega
    rw [h1, runSteps_add, ih (by push_cast at h; omega),
      soloWaiting_tick wst0 row c0 (n + 1) remaining log (by push_cast at h; omega)
        (by omega)]
    push_cast
    rfl

/-- One I/O cycle: from a dispatch with `remainingCPUTime > freq` at clock `c` to the next
dispatch, at clock `c + duration`. -/
theorem soloReady_cycle (wst0 : Int) (row : Int × Int × Int × Int × Int)
    (c remaining wst : Int) (wrear : Option Nat) (log : List Transition)
    (hc : row.2.1 ≤ c) (hd : 1 ≤ row.2.2.2.2) (h : row.2.2.2.1 < remaining) :
    ∃ n, runSteps n (soloReady wst0 row c remaining wst wrear log) =
      soloReady wst0 row (c + row.2.2.2.2) (remaining - row.2.2.2.1) c (some 0)
        (log ++ [⟨c, row.1, Ready, Running⟩, ⟨c, row.1, Running, Waiting⟩,
          ⟨c + row.2.2.2.2, row.1, Waiting, Ready⟩]) := by
  refine ⟨1 + 5 * (row.2.2.2.2 - 1).toNat + 5, ?_⟩
  rw [runSteps_add, runSteps_add, soloReady_block wst0 row c remaining wst wrear log h,
    soloWaiting_run wst0 row c _ _ hc (row.2.2.2.2 - 1).toNat (by omega)]
  have e : (((row.2.2.2.2 - 1).toNat : Nat) : Int) + 1 = row.2.2.2.2 := by omega
  rw [e, soloWaiting_end wst0 row c _ _ (by omega)]
  simp

/-- The run on one input row starts at the loop test with clock 0. -/
theorem kernelSim_solo (wst0 : Int) (row : Int × Int × Int × Int × Int) (n : Nat) :
    kernelSim wst0 [row] n = runSteps n (soloIdle wst0 row 0) := by
  unfold kernelSim
  rw [← soloIdle_init]
  rfl

/-- The run on one input row up to `dequeue(ready)` in the tick of the arrival. -/
theorem solo_arrival (wst0 : Int) (row : Int × Int × Int × Int × Int) (ha : 0 ≤ row.2.1) :
    runSteps (5 * row.2.1.toNat + 3) (soloIdle wst0 row 0) =
      soloReady wst0 row row.2.1 row.2.2.1 wst0 none [⟨row.2.1, row.1, New, Ready⟩] := by
  have e : ((row.2.1.toNat : Nat) : Int) = row.2.1 := Int.toNat_of_nonneg ha
  rw [runSteps_add, soloIdle_run wst0 row row.2.1.toNat (by omega), e, soloIdle_arrive]

/-- With `k = ceil(T / f) - 1`: `k * f < T ≤ (k + 1) * f`. -/
theorem waitCount_bounds (T f : Int) (hT : 0 < T) (hf : 0 < f) :
    (waitCount T f : Int) * f < T ∧ T ≤ ((waitCount T f : Int) + 1) * f := by
  have h1 : (T + f - 1) / f * f ≤ T + f - 1 := Int.ediv_mul_le _ (ne_of_gt hf)
  have h2 : T + f - 1 < ((T + f - 1) / f + 1) * f := Int.lt_ediv_add_one_mul_self _ hf
  have h3 : 1 ≤ (T + f - 1) / f := by
    rw [Int.le_ediv_iff_mul_le hf]
    omega
  have e : (waitCount T f : Int) = (T + f - 1) / f - 1 := by
    unfold waitCount
    omega
  rw [e]
  generalize (T + f - 1) / f = c at h1 h2 h3
  have e1 : (c - 1) * f = c * f - f := by ring
  have e2 : (c - 1 + 1) * f = c * f := by ring_nf
  have e3 : (c + 1) * f = c * f + f := by ring
  rw [e1, e2]
  rw [e3] at h2
  constructor <;> omega

theorem ioCycles_succ (pid a d : Int) (k : Nat) :
    ioCycles pid a d (k + 1) = ioCycles pid a d k ++
      [⟨a + k * d, pid, Ready, Running⟩, ⟨a + k * d, pid, Running, Waiting⟩,
       ⟨a + (k + 1) * d, pid, Waiting, Ready⟩] := by
  unfold ioCycles
  rw [List.range_succ, List.map_append, List.flatten_append]
  simp

/-- The run on one process reaches its `(i+1)`-th dispatch, for `i` up to the number of
waits, at clock `a + i*d`, with `remainingCPUTime = T - i*f` and the records of `i` I/O
cycles in the log. -/
theorem solo_dispatches (wst0 pid a T f d : Int) (ha : 0 ≤ a) (hT : 0 < T) (hf : 0 < f)
    (hd : 1 ≤ d) (i : Nat) (hi : i ≤ waitCount T f) :
    ∃ n wst wrear, runSteps n (soloIdle wst0 (pid, a, T, f, d) 0) =
      soloReady wst0 (pid, a, T, f, d) (a + i * d) (T - i * f) wst wrear
        (⟨a, pid, New, Ready⟩ :: ioCycles pid a d i) := by
  induction i with
  | zero =>
    refine ⟨5 * a.toNat + 3, wst0, none, ?_⟩
    rw [solo_arrival wst0 (pid, a, T, f, d) ha]
    simp [ioCycles]
  | succ i ih =>
    obtain ⟨n, wst, wrear, e⟩ := ih (by omega)
    obtain ⟨hb1, -⟩ := waitCount_bounds T f hT hf
    have hle : ((i : Int) + 1) * f ≤ (waitCount T f : Int) * f :=
      Int.mul_le_mul_of_nonneg_right (by exact_mod_cast hi) (le_of_lt hf)
    have e3 : ((i : Int) + 1) * f = i * f + f := by ring
    rw [e3] at hle
    have hid : 0 ≤ (i : Int) * d := Int.mul_nonneg (Int.ofNat_nonneg i) (by omega)
    obtain ⟨n2, e2⟩ := soloReady_cycle wst0 (pid, a, T, f, d) (a + i * d) (T - i * f) wst
      wrear (⟨a, pid, New, Ready⟩ :: ioCycles pid a d i) (by show a ≤ a + i * d; omega) hd
      (by show f < T - i * f; omega)
    refine ⟨n + n2, a + i * d, some 0, ?_⟩
    rw [runSteps_add, e, e2, ioCycles_succ]
    have e4 : a + (i : Int) * d + d = a + ((i : Int) + 1) * d := by ring
    have e5 : T - (i : Int) * f - f = T - ((i : Int) + 1) * f := by ring
    simp only [e4, e5, Nat.cast_add, Nat.cast_one, List.cons_append]

/-- One process with I/O, on the integers and with a `next` link that is `NULL` at the
start: a run on one process with `a ≥ 0`, `T > 0`, `f > 0`, `d ≥ 1`, for any initial
`waitStartTime`, with `k = ceil(T / f) - 1`: for every `i ≤ k` the run reaches
`dequeue(ready)` at clock `a + i*d` with `remainingCPUTime = T - i*f` and the records of
`i` I/O cycles behind the New->Ready record; and after finitely many control steps the loop
has been left with the log the specification gives, and the state does not change
afterwards. -/
theorem single_process_with_io (wst0 pid a T f d : Int) (ha : 0 ≤ a) (hT : 0 < T)
    (hf : 0 < f) (hd : 1 ≤ d) :
    (∀ i : Nat, i ≤ waitCount T f →
      ∃ n, (kernelSim wst0 [(pid, a, T, f, d)] n).pc = Pc.execute ∧
        (kernelSim wst0 [(pid, a, T, f, d)] n).clk = a + i * d ∧
        ((kernelSim wst0 [(pid, a, T, f, d)] n).processes 0).remainingCPUTime = T - i * f ∧
        (kernelSim wst0 [(pid, a, T, f, d)] n).log =
          ⟨a, pid, New, Ready⟩ :: ioCycles pid a d i) ∧
    ∃ n, (kernelSim wst0 [(pid, a, T, f, d)] n).pc = Pc.finished ∧
      (kernelSim wst0 [(pid, a, T, f, d)] n).log = soloLog pid a d (waitCount T f) ∧
      (kernelSim wst0 [(pid, a, T, f, d)] n).clk = a + (waitCount T f : Int) * d + 1 ∧
      ∀ m, n ≤ m →
        kernelSim wst0 [(pid, a, T, f, d)] m = kernelSim wst0 [(pid, a, T, f, d)] n := by
  constructor
  · intro i hi
    obtain ⟨n, wst, wrear, e⟩ := solo_dispatches wst0 pid a T f d ha hT hf hd i hi
    refine ⟨n, ?_, ?_, ?_, ?_⟩
    · rw [kernelSim_solo, e]; rfl
    · rw [kernelSim_solo, e]; rfl
    · rw [kernelSim_solo, e]
      show (soloMem wst0 (pid, a, T, f, d) (T - i * f) wst 0).remainingCPUTime = _
      rw [soloMem_zero]
      rfl
    · rw [kernelSim_solo, e]; rfl
  · obtain ⟨n, wst, wrear, e⟩ :=
      solo_dispatches wst0 pid a T f d ha hT hf hd (waitCount T f) (le_refl _)
    obtain ⟨-, hb2⟩ := waitCount_bounds T f hT hf
    have e3 : ((waitCount T f : Int) + 1) * f = (waitCount T f : Int) * f + f := by ring
    rw [e3] at hb2
    have hrun : runSteps (n + 3) (soloIdle wst0 (pid, a, T, f, d) 0) =
        soloDone wst0 (pid, a, T, f, d) (a + (waitCount T f : Int) * d + 1) wst wrear
          (soloLog pid a d (waitCount T f)) := by
      rw [runSteps_add, e,
        soloReady_terminate wst0 (pid, a, T, f, d) _ _ wst wrear _
          (by show T - (waitCount T f : Int) * f ≤ f; omega)]
      rfl
    refine ⟨n + 3, ?_, ?_, ?_, ?_⟩
    · rw [kernelSim_solo, hrun]; rfl
    · rw [kernelSim_solo, hrun]; rfl
    · rw [kernelSim_solo, hrun]; rfl
    · intro m hm
      obtain ⟨e, rfl⟩ := Nat.exists_eq_add_of_le hm
      rw [kernelSim_solo, kernelSim_solo, runSteps_add, hrun]
      exact runSteps_finished e _ rfl

/-! ### The scan of the waiting queue -/

/-- A control step only adds records to the log. -/
theorem step_log_grows (s : KState) : s.log <+: (step s).log := by
  unfold step
  split
  · split <;> exact List.prefix_refl _
  · split
    · unfold arriveOne
      split
      · split <;> exact List.prefix_append _ _
      · exact List.prefix_refl _
    · exact List.prefix_refl _
  · unfold executeStep
    split
    · exact List.prefix_refl _
    · exact List.prefix_refl _
    · simp only
      split
      · split <;> (simp only [List.append_assoc]; exact List.prefix_append _ _)
      · split <;> (simp only [List.append_assoc]; exact List.prefix_append _ _)
  · unfold ioScanStep
    split
    · exact List.prefix_refl _
    · simp only
      split
      · split
        · exact List.prefix_append _ _
        · split <;> exact List.prefix_append _ _
      · exact List.prefix_refl _
  · exact List.prefix_refl _
  · exact List.prefix_refl _

/-- The log after `m` control steps is a prefix of the log after `m + n`. -/
theorem runSteps_log_grows (n : Nat) (s : KState) : s.log <+: (runSteps n s).log := by
  induction n generalizing s with
  | zero => exact List.prefix_refl _
  | succ n ih => exact (step_log_grows s).trans (ih (step s))

/-- Every record that a run on `rowsBlocked` ever writes is one of the nine records of
`logBlocked`. -/
theorem blocked_log_subset (wst0 : Int) (n : Nat) :
    ∀ t ∈ (kernelSim wst0 rowsBlocked n).log, t ∈ logBlocked := by
  intro t ht
  have h1 : (kernelSim wst0 rowsBlocked n).log <+: (kernelSim wst0 rowsBlocked (n + 31)).log := by
    unfold kernelSim
    rw [runSteps_add]
    exact runSteps_log_grows 31 _
  have h2 := (blocked_from wst0 n).log
  rw [Nat.add_comm, h2] at h1
  exact h1.subset ht

set_option maxRecDepth 100000 in
set_option maxHeartbeats 4000000 in
/-- The run on `rowsBlocked` at the I/O scan of clock 3: PID 2 (`processes[1]`) heads the
waiting queue, PID 1 (`processes[0]`) is linked behind it. -/
theorem blocked_overtaken (wst0 : Int) :
    (kernelSim wst0 rowsBlocked 17).pc = Pc.ioScan ∧
    (kernelSim wst0 rowsBlocked 17).clk = 3 ∧
    (kernelSim wst0 rowsBlocked 17).waiting = ⟨some 1, some 0, 2⟩ ∧
    ((kernelSim wst0 rowsBlocked 17).processes 1).next = some 0 ∧
    ((kernelSim wst0 rowsBlocked 17).processes 0).waitStartTime = 2 ∧
    ((kernelSim wst0 rowsBlocked 17).processes 0).duration = 1 ∧
    ((kernelSim wst0 rowsBlocked 17).processes 1).waitStartTime = 1 ∧
    ((kernelSim wst0 rowsBlocked 17).processes 1).duration = 3 ∧
    (kernelSim wst0 rowsBlocked 17).log = logBlocked.take 6 := by
  refine ⟨?_, ?_, ?_, ?_, ?_, ?_, ?_, ?_, ?_⟩ <;>
  simp [kernelSim, runSteps, step, kernelInit, loadMem, loadPCB, rowsBlocked, arriveOne,
    executeStep, ioScanStep, enqueue, dequeue, new_queue, Function.update_apply, logBlocked]

/-- C22, evaluated on the rows `(1,2,3,2,1)`, `(2,1,3,2,3)`, which meet the data model,
whatever `malloc` left in `waitStartTime`.  After 17 control steps `kernelSim` is at the
I/O scan of clock 3; PID 1 is in the waiting queue, behind PID 2, and
`clk - waitStartTime` equals its duration (3 - 2 = 1); the scan tests the front of the
queue only (PID 2, 3 - 1 = 2, not its duration 3) and leaves the loop: the step writes no
record and leaves the queues as they are.  The log holds the record Running->Waiting of
PID 1 at time 2, and at no control step of the run does it hold a Waiting->Ready record of
PID 1, at time 3 or at any other time. -/
theorem c22_waiting_scan_tests_front_only : ValidInput rowsBlocked ∧ ∀ wst0 : Int,
    ((kernelSim wst0 rowsBlocked 17).pc = Pc.ioScan ∧
      (kernelSim wst0 rowsBlocked 17).waiting.front = some 1 ∧
      ((kernelSim wst0 rowsBlocked 17).processes 1).next = some 0 ∧
      (kernelSim wst0 rowsBlocked 17).clk -
          ((kernelSim wst0 rowsBlocked 17).processes 0).waitStartTime =
        ((kernelSim wst0 rowsBlocked 17).processes 0).duration ∧
      (kernelSim wst0 rowsBlocked 18).pc = Pc.loopHead ∧
      (kernelSim wst0 rowsBlocked 18).log = (kernelSim wst0 rowsBlocked 17).log ∧
      (kernelSim wst0 rowsBlocked 18).waiting = (kernelSim wst0 rowsBlocked 17).waiting ∧
      (kernelSim wst0 rowsBlocked 18).ready = (kernelSim wst0 rowsBlocked 17).ready) ∧
    (⟨2, 1, Running, Waiting⟩ : Transition) ∈ (kernelSim wst0 rowsBlocked 17).log ∧
    (∀ n, 17 ≤ n → (⟨2, 1, Running, Waiting⟩ : Transition) ∈ (kernelSim wst0 rowsBlocked n).log) ∧
    ∀ (n : Nat) (c : Int),
      (⟨c, 1, Waiting, Ready⟩ : Transition) ∉ (kernelSim wst0 rowsBlocked n).log := by
  refine ⟨by decide, ?_⟩
  intro wst0
  obtain ⟨h1, h2, h3, h4, h5, h6, h7, h8, h9⟩ := blocked_overtaken wst0
  have hmem : (⟨2, 1, Running, Waiting⟩ : Transition) ∈ (kernelSim wst0 rowsBlocked 17).log := by
    rw [h9]
    decide
  have hnext : kernelSim wst0 rowsBlocked 18 =
      { kernelSim wst0 rowsBlocked 17 with pc := Pc.loopHead } := by
    have e : kernelSim wst0 rowsBlocked 18 = step (kernelSim wst0 rowsBlocked 17) := by
      unfold kernelSim
      exact runSteps_succ_last 17 _
    rw [e]
    have hne : ¬ ((kernelSim wst0 rowsBlocked 17).clk -
        ((kernelSim wst0 rowsBlocked 17).processes 1).waitStartTime =
        ((kernelSim wst0 rowsBlocked 17).processes 1).duration) := by
      rw [h2, h7, h8]
      decide
    simp [step, h1, ioScanStep, h3, hne]
  refine ⟨⟨h1, by rw [h3], h4, by rw [h2, h5, h6]; rfl, ?_, ?_, ?_, ?_⟩, hmem, ?_, ?_⟩
  · rw [hnext]
  · rw [hnext]
  · rw [hnext]
  · rw [hnext]
  · intro n hn
    obtain ⟨m, rfl⟩ := Nat.exists_eq_add_of_le hn
    have hp : (kernelSim wst0 rowsBlocked 17).log <+: (kernelSim wst0 rowsBlocked (17 + m)).log := by
      unfold kernelSim
      rw [runSteps_add]
      exact runSteps_log_grows m _
    exact hp.subset hmem
  · intro n c hc
    have := blocked_log_subset wst0 n _ hc
    revert this
    simp [logBlocked]

theorem enqueue_keeps {mem m : Mem} {q q1 : queue_t} {pcb : Nat}
    (h : enqueue mem q pcb = some (m, q1)) (i : Nat) :
    (m i).freq = (mem i).freq ∧ (m i).CPUTime = (mem i).CPUTime ∧
    (m i).remainingCPUTime = (mem i).remainingCPUTime := by
  unfold enqueue at h
  cases hf : q.front with
  | none =>
    rw [hf] at h
    simp at h
    obtain ⟨rfl, -⟩ := h
    exact ⟨rfl, rfl, rfl⟩
  | some f =>
    rw [hf] at h
    cases hr : q.rear with
    | none => rw [hr] at h; simp at h
    | some r =>
      rw [hr] at h
      simp at h
      obtain ⟨rfl, -⟩ := h
      by_cases hir : i = r
      · subst hir; simp
      · simp [Function.update_noteq hir]

theorem ranged_of_enqueue {mem m : Mem} {q q1 : queue_t} {pcb : Nat}
    (h : enqueue mem q pcb = some (m, q1)) (hr : ∀ i, RangedPCB (mem i)) :
    ∀ i, RangedPCB (m i) := by
  intro i
  obtain ⟨e1, e2, e3⟩ := enqueue_keeps h i
  unfold RangedPCB
  rw [e1, e2, e3]
  exact hr i

theorem ranged_update (mem : Mem) (cur : Nat) (p : PCB) (hr : ∀ i, RangedPCB (mem i))
    (hp : RangedPCB p) : ∀ i, RangedPCB (Function.update mem cur p i) := by
  intro i
  by_cases hi : i = cur
  · subst hi
    rw [Function.update_same]
    exact hp
  · rw [Function.update_noteq hi]
    exact hr i

theorem ranged_step (s : KState) (h : Ranged s) : Ranged (step s) := by
  unfold Ranged at h ⊢
  unfold step
  split
  · split <;> exact h
  · split
    · unfold arriveOne
      split
      · split
        · exact h
        · next m q he => exact ranged_of_enqueue he h
      · exact h
    · exact h
  · unfold executeStep
    split
    · exact h
    · exact h
    · next cur q hd =>
      simp only
      have hc := h cur
      unfold RangedPCB at hc
      split
      · next hle =>
        have hm := ranged_update s.processes cur
          { s.processes cur with remainingCPUTime := 0 } h
          ⟨hc.1, le_refl _, le_trans hc.2.1 hc.2.2.1, hc.2.2.2⟩
        split
        · exact hm
        · next m t he => exact ranged_of_enqueue he hm
      · next hgt =>
        have hm := ranged_update s.processes cur
          { s.processes cur with waitStartTime := s.clk, remainingCPUTime := (s.processes cur).remainingCPUTime - (s.processes cur).freq } h
          ⟨hc.1, by show 0 ≤ _ - _; omega,
            by show _ - _ ≤ (s.processes cur).CPUTime; omega, hc.2.2.2⟩
        split
        · exact hm
        · next m t he => exact ranged_of_enqueue he hm
  · unfold ioScanStep
    split
    · exact h
    · simp only
      split
      · split
        · exact h
        · next m r he =>
          split
          · exact ranged_of_enqueue he h
          · exact ranged_of_enqueue he h
      · exact h
  · exact h
  · exact h

theorem validRows_getD (rows : List (Int × Int × Int × Int × Int)) (hv : ValidRows rows)
    (hi : IntRows rows) (i : Nat) :
    0 ≤ (rows.getD i (0, 0, 0, 0, 0)).2.2.2.1 ∧ 0 ≤ (rows.getD i (0, 0, 0, 0, 0)).2.2.1 ∧
    (rows.getD i (0, 0, 0, 0, 0)).2.2.1 ≤ INT_MAX := by
  by_cases h : i < rows.length
  · have hm : rows.getD i (0, 0, 0, 0, 0) ∈ rows := by
      rw [List.getD_eq_getElem _ _ h]
      exact List.getElem_mem h
    have h1 := hv _ hm
    have h2 := hi.2 _ hm
    exact ⟨le_of_lt h1.2.2.1, le_of_lt h1.2.1, h2.2.2.1.2⟩
  · rw [List.getD_eq_default _ _ (by omega)]
    refine ⟨le_refl _, le_refl _, ?_⟩
    decide

theorem ranged_kernelSim (wst0 : Int) (rows : List (Int × Int × Int × Int × Int))
    (hv : ValidRows rows) (hi : IntRows rows) (n : Nat) : Ranged (kernelSim wst0 rows n) := by
  unfold kernelSim
  apply runSteps_invariant Ranged ranged_step
  intro i
  have h := validRows_getD rows hv hi i
  simp only [kernelInit, loadMem, loadPCB]
  exact ⟨h.1, h.2.1, le_refl _, h.2.2⟩

theorem nonneg_snoc {log : List Transition} {c : Int} (h : 0 ≤ c ∧ ∀ t ∈ log, 0 ≤ t.clk)
    (pid : Int) (o n : StateName) : 0 ≤ c ∧ ∀ t ∈ log ++ [⟨c, pid, o, n⟩], 0 ≤ t.clk := by
  refine ⟨h.1, ?_⟩
  intro t ht
  rcases List.mem_append.mp ht with ht | ht
  · exact h.2 t ht
  · simp at ht
    subst ht
    exact h.1

theorem nonneg_next {log : List Transition} {c : Int} (h : 0 ≤ c ∧ ∀ t ∈ log, 0 ≤ t.clk) :
    0 ≤ c + 1 ∧ ∀ t ∈ log, 0 ≤ t.clk :=
  ⟨by omega, h.2⟩

theorem nonneg_step (s : KState) (h : 0 ≤ s.clk ∧ ∀ t ∈ s.log, 0 ≤ t.clk) :
    0 ≤ (step s).clk ∧ ∀ t ∈ (step s).log, 0 ≤ t.clk := by
  unfold step
  split
  · split <;> exact h
  · split
    · unfold arriveOne
      split
      · split
        · exact nonneg_snoc h _ _ _
        · exact nonneg_snoc h _ _ _
      · exact h
    · exact h
  · unfold executeStep
    split
    · exact h
    · exact nonneg_next h
    · simp only
      split
      · split
        · exact nonneg_snoc (nonneg_snoc h _ _ _) _ _ _
        · exact nonneg_next (nonneg_snoc (nonneg_snoc h _ _ _) _ _ _)
      · split
        · exact nonneg_snoc (nonneg_snoc h _ _ _) _ _ _
        · exact nonneg_next (nonneg_snoc (nonneg_snoc h _ _ _) _ _ _)
  · unfold ioScanStep
    split
    · exact h
    · simp only
      split
      · split
        · exact nonneg_snoc h _ _ _
        · split
          · exact nonneg_snoc h _ _ _
          · exact nonneg_snoc h _ _ _
      · exact h
  · exact h
  · exact h

theorem log_clk_nonneg (wst0 : Int) (rows : List (Int × Int × Int × Int × Int)) (n : Nat) :
    0 ≤ (kernelSim wst0 rows n).clk ∧ ∀ t ∈ (kernelSim wst0 rows n).log, 0 ≤ t.clk := by
  unfold kernelSim
  apply runSteps_invariant (fun s => 0 ≤ s.clk ∧ ∀ t ∈ s.log, 0 ≤ t.clk) nonneg_step
  exact ⟨le_refl _, by simp [kernelInit]⟩

theorem clk_step (s : KState) : (step s).clk = s.clk ∨ (step s).clk = s.clk + 1 := by
  unfold step
  split
  · split <;> exact Or.inl rfl
  · split
    · unfold arriveOne
      split
      · split <;> exact Or.inl rfl
      · exact Or.inl rfl
    · exact Or.inl rfl
  · unfold executeStep
    split
    · exact Or.inl rfl
    · exact Or.inr rfl
    · simp only
      split
      · split
        · exact Or.inl rfl
        · exact Or.inr rfl
      · split
        · exact Or.inl rfl
        · exact Or.inr rfl
  · unfold ioScanStep
    split
    · exact Or.inl rfl
    · simp only
      split
      · split
        · exact Or.inl rfl
        · split <;> exact Or.inl rfl
      · exact Or.inl rfl
  · exact Or.inl rfl
  · exact Or.inl rfl

theorem clk_mono (s : KState) (m n : Nat) (h : m ≤ n) : (runSteps m s).clk ≤ (runSteps n s).clk := by
  induction n with
  | zero =>
    have : m = 0 := by omega
    subst this
    exact le_refl _
  | succ n ih =>
    by_cases hm : m = n + 1
    · subst hm
      exact le_refl _
    · have h1 := ih (by omega)
      rw [runSteps_succ_last]
      rcases clk_step (runSteps n s) with e | e <;> rw [e] <;> omega

/-! ### `kernelSim` on the integers and in `int` arithmetic -/

theorem wrap_of_fits (x : Int) (h : FitsInt x) : wrapInt x = x := by
  unfold FitsInt INT_MIN INT_MAX at h
  unfold wrapInt
  omega

theorem wrap_fits (x : Int) : FitsInt (wrapInt x) := by
  unfold FitsInt INT_MIN INT_MAX wrapInt
  omega

theorem wrap_compare (c w d : Int) (hc : 0 ≤ c) (hc1 : c ≤ INT_MAX) (hw : FitsInt w)
    (hd : 0 ≤ d) (hd1 : d ≤ INT_MAX) : (wrapInt (c - w) = d ↔ c - w = d) := by
  unfold FitsInt INT_MIN INT_MAX at hw
  unfold INT_MAX at hc1 hd1
  unfold wrapInt
  constructor <;> intro h <;> omega

theorem enqueue_agree (mem : Mem) (q : queue_t) (pcb : Nat) (h0 : 0 ≤ q.size)
    (h1 : q.size + 1 ≤ INT_MAX) : Int32.enqueue mem q pcb = enqueue mem q pcb := by
  have hw : wrapInt (q.size + 1) = q.size + 1 := by
    apply wrap_of_fits
    unfold FitsInt INT_MIN
    constructor <;> omega
  cases hf : q.front <;> cases hr : q.rear <;> simp [Int32.enqueue, enqueue, hf, hr, hw]

theorem dequeue_agree (mem : Mem) (q : queue_t) (h0 : 0 ≤ q.size) (h1 : q.size ≤ INT_MAX) :
    Int32.dequeue mem q = dequeue mem q := by
  have hw : wrapInt (q.size - 1) = q.size - 1 := by
    apply wrap_of_fits
    unfold FitsInt INT_MIN
    constructor <;> omega
  cases hf : q.front <;> simp [Int32.dequeue, dequeue, hf, hw]

theorem enqueue_size {mem m : Mem} {q q1 : queue_t} {pcb : Nat}
    (h : enqueue mem q pcb = some (m, q1)) : q1.size = q.size + 1 :=
  (enqueue_rearOK h).2.2

theorem dequeue_size {mem : Mem} {q q1 : queue_t} {r : Option Nat}
    (h : dequeue mem q = some (r, q1)) (h0 : 0 ≤ q.size) :
    0 ≤ q1.size ∧ q1.size ≤ q.size := by
  unfold dequeue at h
  by_cases hz : q.size = 0
  · simp [hz] at h
    obtain ⟨-, rfl⟩ := h
    exact ⟨h0, le_refl _⟩
  · simp only [hz, if_false] at h
    cases hf : q.front with
    | none => rw [hf] at h; simp at h
    | some f =>
      rw [hf] at h
      simp at h
      obtain ⟨-, rfl⟩ := h
      simp only
      constructor <;> omega

theorem enqueue_statics {mem m : Mem} {q q1 : queue_t} {pcb : Nat}
    (h : enqueue mem q pcb = some (m, q1)) (i : Nat) :
    (m i).freq = (mem i).freq ∧ (m i).duration = (mem i).duration ∧
    (m i).waitStartTime = (mem i).waitStartTime := by
  unfold enqueue at h
  cases hf : q.front with
  | none =>
    rw [hf] at h
    simp at h
    obtain ⟨rfl, -⟩ := h
    exact ⟨rfl, rfl, rfl⟩
  | some f =>
    rw [hf] at h
    cases hr : q.rear with
    | none => rw [hr] at h; simp at h
    | some r =>
      rw [hr] at h
      simp at h
      obtain ⟨rfl, -⟩ := h
      by_cases hir : i = r
      · subst hir; simp
      · simp [Function.update_noteq hir]

theorem memOK_enqueue {mem m : Mem} {q q1 : queue_t} {pcb : Nat}
    (h : enqueue mem q pcb = some (m, q1)) (hm : MemOK mem) : MemOK m := by
  intro i
  obtain ⟨e1, e2, e3⟩ := enqueue_keeps h i
  obtain ⟨e4, e5, e6⟩ := enqueue_statics h i
  have := hm i
  unfold RangedPCB at this ⊢
  rw [e1, e2, e3, e5, e6]
  exact this

theorem memOK_update (mem : Mem) (cur : Nat) (p : PCB) (hm : MemOK mem)
    (hp : RangedPCB p ∧ p.freq ≤ INT_MAX ∧ 0 ≤ p.duration ∧ p.duration ≤ INT_MAX ∧
      FitsInt p.waitStartTime) : MemOK (Function.update mem cur p) := by
  intro i
  by_cases hi : i = cur
  · subst hi
    rw [Function.update_same]
    exact hp
  · rw [Function.update_noteq hi]
    exact hm i

theorem length_snoc_cast {α : Type} (l : List α) (x : α) :
    (((l ++ [x]).length : Nat) : Int) = (l.length : Int) + 1 := by
  simp

theorem sound_step (s : KState) (h : Sound s) (hc : s.clk ≤ INT_MAX) : Sound (step s) := by
  obtain ⟨h0, hr, hw, ht, hm⟩ := h
  unfold step
  split
  · split <;> exact ⟨h0, hr, hw, ht, hm⟩
  · split
    · unfold arriveOne
      split
      · split
        · refine ⟨h0, ⟨hr.1, ?_⟩, ⟨hw.1, ?_⟩, ⟨ht.1, ?_⟩, hm⟩ <;>
            ((try dsimp only); (try simp only [length_snoc_cast]); omega)
        · next m q he =>
          have hs := enqueue_size he
          refine ⟨h0, ⟨?_, ?_⟩, ⟨hw.1, ?_⟩, ⟨ht.1, ?_⟩, memOK_enqueue he hm⟩ <;>
            ((try dsimp only); (try simp only [length_snoc_cast]); omega)
      · exact ⟨h0, hr, hw, ht, hm⟩
    · exact ⟨h0, hr, hw, ht, hm⟩
  · unfold executeStep
    split
    · exact ⟨h0, hr, hw, ht, hm⟩
    · next q hd =>
      have hq := dequeue_size hd hr.1
      exact ⟨by show 0 ≤ s.clk + 1; omega, ⟨hq.1, by show q.size ≤ (s.log.length : Int); omega⟩,
        hw, ht, hm⟩
    · next cur q hd =>
      have hq := dequeue_size hd hr.1
      have hcur := hm cur
      have hrg := hcur.1
      unfold RangedPCB at hrg
      simp only
      split
      · next hle =>
        have hm1 : MemOK (Function.update s.processes cur
            { s.processes cur with remainingCPUTime := 0 }) :=
          memOK_update s.processes cur _ hm
            ⟨⟨hrg.1, le_refl _, le_trans hrg.2.1 hrg.2.2.1, hrg.2.2.2⟩, hcur.2.1, hcur.2.2.1,
              hcur.2.2.2.1, hcur.2.2.2.2⟩
        split
        · refine ⟨h0, ⟨hq.1, ?_⟩, ⟨hw.1, ?_⟩, ⟨ht.1, ?_⟩, hm1⟩ <;>
            ((try dsimp only); (try simp only [length_snoc_cast]); omega)
        · next m t he =>
          have hs := enqueue_size he
          refine ⟨by show 0 ≤ s.clk + 1; omega, ⟨hq.1, ?_⟩, ⟨hw.1, ?_⟩, ⟨?_, ?_⟩,
            memOK_enqueue he hm1⟩ <;>
            ((try dsimp only); (try simp only [length_snoc_cast]); omega)
      · next hgt =>
        have hm1 : MemOK (Function.update s.processes cur
            { s.processes cur with waitStartTime := s.clk, remainingCPUTime := (s.processes cur).remainingCPUTime - (s.processes cur).freq }) :=
          memOK_update s.processes cur _ hm
            ⟨⟨hrg.1, by show 0 ≤ _ - _; omega,
                by show _ - _ ≤ (s.processes cur).CPUTime; omega, hrg.2.2.2⟩,
              hcur.2.1, hcur.2.2.1, hcur.2.2.2.1,
              by
                show FitsInt s.clk
                unfold FitsInt INT_MIN
                constructor <;> omega⟩
        split
        · refine ⟨h0, ⟨hq.1, ?_⟩, ⟨hw.1, ?_⟩, ⟨ht.1, ?_⟩, hm1⟩ <;>
            ((try dsimp only); (try simp only [length_snoc_cast]); omega)
        · next m t he =>
          have hs := enqueue_size he
          refine ⟨by show 0 ≤ s.clk + 1; omega, ⟨hq.1, ?_⟩, ⟨?_, ?_⟩, ⟨ht.1, ?_⟩,
            memOK_enqueue he hm1⟩ <;>
            ((try dsimp only); (try simp only [length_snoc_cast]); omega)
  · unfold ioScanStep
    split
    · exact ⟨h0, hr, hw, ht, hm⟩
    · simp only
      split
      · split
        · refine ⟨h0, ⟨hr.1, ?_⟩, ⟨hw.1, ?_⟩, ⟨ht.1, ?_⟩, hm⟩ <;>
            ((try dsimp only); (try simp only [length_snoc_cast]); omega)
        · next m r he =>
          have hs := enqueue_size he
          split
          · refine ⟨h0, ⟨?_, ?_⟩, ⟨hw.1, ?_⟩, ⟨ht.1, ?_⟩, memOK_enqueue he hm⟩ <;>
              ((try dsimp only); (try simp only [length_snoc_cast]); omega)
          · next w hd =>
            have hq := dequeue_size hd hw.1
            refine ⟨h0, ⟨?_, ?_⟩, ⟨hq.1, ?_⟩, ⟨ht.1, ?_⟩, memOK_enqueue he hm⟩ <;>
              ((try dsimp only); (try simp only [length_snoc_cast]); omega)
      · exact ⟨h0, hr, hw, ht, hm⟩
  · exact ⟨h0, hr, hw, ht, hm⟩
  · exact ⟨h0, hr, hw, ht, hm⟩

theorem step_succ_int (n : Nat) (s : KState) :
    Int32.runSteps (n + 1) s = Int32.step (Int32.runSteps n s) := by
  induction n generalizing s with
  | zero => rfl
  | succ n ih =>
    show Int32.runSteps (n + 1) (Int32.step s) = _
    rw [ih]
    rfl

/-- A control step in `int` arithmetic is the control step on the integers as long as the
clock it leads to is at most `INT_MAX` and fewer than `INT_MAX - 1` records have been
written. -/
theorem step_agree (s : KState) (h : Sound s) (hc : (step s).clk ≤ INT_MAX)
    (hl : (s.log.length : Int) + 2 ≤ INT_MAX) : Int32.step s = step s := by
  obtain ⟨h0, hr, hw, ht, hm⟩ := h
  have hclk : s.clk ≤ INT_MAX := by
    rcases clk_step s with e | e <;> rw [e] at hc <;> omega
  have er : ∀ mem pcb, Int32.enqueue mem s.ready pcb = enqueue mem s.ready pcb :=
    fun mem pcb => enqueue_agree mem _ pcb hr.1 (by omega)
  have ew : ∀ mem pcb, Int32.enqueue mem s.waiting pcb = enqueue mem s.waiting pcb :=
    fun mem pcb => enqueue_agree mem _ pcb hw.1 (by omega)
  have et : ∀ mem pcb, Int32.enqueue mem s.terminated pcb = enqueue mem s.terminated pcb :=
    fun mem pcb => enqueue_agree mem _ pcb ht.1 (by omega)
  have dr : ∀ mem, Int32.dequeue mem s.ready = dequeue mem s.ready :=
    fun mem => dequeue_agree mem _ hr.1 (by omega)
  have dw : ∀ mem, Int32.dequeue mem s.waiting = dequeue mem s.waiting :=
    fun mem => dequeue_agree mem _ hw.1 (by omega)
  have cmpr : ∀ i, (wrapInt (s.clk - (s.processes i).waitStartTime) = (s.processes i).duration)
      = (s.clk - (s.processes i).waitStartTime = (s.processes i).duration) := by
    intro i
    obtain ⟨-, -, d0, d1, w⟩ := hm i
    exact propext (wrap_compare _ _ _ h0 hclk w d0 d1)
  have sub : ∀ i, wrapInt ((s.processes i).remainingCPUTime - (s.processes i).freq)
      = (s.processes i).remainingCPUTime - (s.processes i).freq := by
    intro i
    obtain ⟨rg, f1, -⟩ := hm i
    unfold RangedPCB at rg
    apply wrap_of_fits
    unfold FitsInt INT_MIN
    have hmax : INT_MAX = 2147483647 := rfl
    constructor <;> omega
  cases hpc : s.pc with
  | loopHead => simp [Int32.step, step, hpc]
  | arrivals i => simp [Int32.step, step, hpc, Int32.arriveOne, arriveOne, er]
  | execute =>
    have hstep : step s = executeStep s := by simp [step, hpc]
    rw [hstep] at hc ⊢
    have hint : Int32.step s = Int32.executeStep s := by simp [Int32.step, hpc]
    rw [hint]
    unfold executeStep at hc ⊢
    unfold Int32.executeStep
    rw [dr]
    cases hd : dequeue s.processes s.ready with
    | none => rfl
    | some pr =>
      obtain ⟨o, q⟩ := pr
      cases o with
      | none =>
        rw [hd] at hc
        have hc1 : s.clk + 1 ≤ INT_MAX := hc
        have hw1 : wrapInt (s.clk + 1) = s.clk + 1 := by
          apply wrap_of_fits
          unfold FitsInt INT_MIN
          constructor <;> omega
        simp only [hw1]
      | some cur =>
        rw [hd] at hc
        simp only at hc ⊢
        simp only [sub, et, ew]
        by_cases hle : (s.processes cur).remainingCPUTime ≤ (s.processes cur).freq
        · simp only [hle, if_true] at hc ⊢
          cases he : enqueue (Function.update s.processes cur { s.processes cur with remainingCPUTime := 0 }) s.terminated cur with
          | none => rfl
          | some pr2 =>
            rw [he] at hc
            have hc1 : s.clk + 1 ≤ INT_MAX := hc
            have hw1 : wrapInt (s.clk + 1) = s.clk + 1 := by
              apply wrap_of_fits
              unfold FitsInt INT_MIN
              constructor <;> omega
            simp only [hw1]
        · simp only [hle, if_false] at hc ⊢
          cases he : enqueue (Function.update s.processes cur { s.processes cur with waitStartTime := s.clk, remainingCPUTime := (s.processes cur).remainingCPUTime - (s.processes cur).freq }) s.waiting cur with
          | none => rfl
          | some pr2 =>
            rw [he] at hc
            have hc1 : s.clk + 1 ≤ INT_MAX := hc
            have hw1 : wrapInt (s.clk + 1) = s.clk + 1 := by
              apply wrap_of_fits
              unfold FitsInt INT_MIN
              constructor <;> omega
            simp only [hw1]
  | ioScan => simp [Int32.step, step, hpc, Int32.ioScanStep, ioScanStep, cmpr, er, dw]
  | finished => simp [Int32.step, step, hpc]
  | crashed => simp [Int32.step, step, hpc]

theorem step_log_length (s : KState) : s.log.length ≤ (step s).log.length :=
  (step_log_grows s).length_le

/-- A run in `int` arithmetic is the run on the integers as long as the clock is at most
`INT_MAX` and fewer than `INT_MAX - 1` records have been written. -/
theorem runSteps_agree (s0 : KState) (h : Sound s0) (n : Nat) :
    (runSteps n s0).clk ≤ INT_MAX → ((runSteps n s0).log.length : Int) + 2 ≤ INT_MAX →
    Int32.runSteps n s0 = runSteps n s0 ∧ Sound (runSteps n s0) := by
  induction n with
  | zero =>
    intro _ _
    exact ⟨rfl, h⟩
  | succ n ih =>
    intro hc hl
    rw [runSteps_succ_last] at hc hl
    have hc0 : (runSteps n s0).clk ≤ INT_MAX := by
      rcases clk_step (runSteps n s0) with e | e <;> rw [e] at hc <;> omega
    have hl0 : ((runSteps n s0).log.length : Int) + 2 ≤ INT_MAX := by
      have := step_log_length (runSteps n s0)
      omega
    obtain ⟨e, hs⟩ := ih hc0 hl0
    rw [step_succ_int, e, runSteps_succ_last]
    exact ⟨step_agree _ hs hc hl0, sound_step _ hs hc0⟩

theorem sound_init (wst0 : Int) (next0 : Option Nat)
    (rows : List (Int × Int × Int × Int × Int))
    (hw : FitsInt wst0) (hv : ValidRows rows) (hi : IntRows rows) :
    Sound (kernelInit (loadMemFrom wst0 next0 rows) rows.length) := by
  refine ⟨le_refl _, ⟨le_refl _, ?_⟩, ⟨le_refl _, ?_⟩, ⟨le_refl _, ?_⟩, ?_⟩
  · simp [kernelInit, new_queue]
  · simp [kernelInit, new_queue]
  · simp [kernelInit, new_queue]
  · have hp : ∀ row : Int × Int × Int × Int × Int, (row ∈ rows ∨ row = (0, 0, 0, 0, 0)) →
        RangedPCB (loadPCBFrom wst0 next0 row) ∧ (loadPCBFrom wst0 next0 row).freq ≤ INT_MAX ∧
        0 ≤ (loadPCBFrom wst0 next0 row).duration ∧
        (loadPCBFrom wst0 next0 row).duration ≤ INT_MAX ∧
        FitsInt (loadPCBFrom wst0 next0 row).waitStartTime := by
      intro row hrow
      simp only [loadPCBFrom, loadPCB, RangedPCB]
      rcases hrow with hm | hm
      · have h1 := hv _ hm
        have h2 := hi.2 _ hm
        exact ⟨⟨le_of_lt h1.2.2.1, le_of_lt h1.2.1, le_refl _, h2.2.2.1.2⟩, h2.2.2.2.1.2,
          le_of_lt h1.2.2.2, h2.2.2.2.2.2, hw⟩
      · subst hm
        exact ⟨⟨le_refl _, le_refl _, le_refl _, by decide⟩, by decide, le_refl _, by decide, hw⟩
    intro i
    apply hp
    by_cases h : i < rows.length
    · left
      rw [List.getD_eq_getElem _ _ h]
      exact List.getElem_mem h
    · right
      exact List.getD_eq_default _ _ (by omega)

/-- `kernelSim` in `int` arithmetic is `kernelSim` on the integers as long as the clock is
at most `INT_MAX` and fewer than `INT_MAX - 1` records have been written: for input rows
of `int` fields that meet the ranges of the data model and an initial `waitStartTime` that
is an `int`, whatever the `next` fields hold at the start, the two runs are in the same
state after `n` control steps. -/
theorem kernelSimFrom_agree (wst0 : Int) (next0 : Option Nat)
    (rows : List (Int × Int × Int × Int × Int))
    (hw : FitsInt wst0) (hv : ValidRows rows) (hi : IntRows rows) (n : Nat)
    (hc : (kernelSimFrom wst0 next0 rows n).clk ≤ INT_MAX)
    (hl : ((kernelSimFrom wst0 next0 rows n).log.length : Int) + 2 ≤ INT_MAX) :
    Int32.kernelSim wst0 next0 rows n = kernelSimFrom wst0 next0 rows n :=
  (runSteps_agree _ (sound_init wst0 next0 rows hw hv hi) n hc hl).1

/-- The same over a PCB array with `NULL` links. -/
theorem kernelSim_agree (wst0 : Int) (rows : List (Int × Int × Int × Int × Int))
    (hw : FitsInt wst0) (hv : ValidRows rows) (hi : IntRows rows) (n : Nat)
    (hc : (kernelSim wst0 rows n).clk ≤ INT_MAX)
    (hl : ((kernelSim wst0 rows n).log.length : Int) + 2 ≤ INT_MAX) :
    Int32.kernelSim wst0 none rows n = kernelSim wst0 rows n :=
  kernelSimFrom_agree wst0 none rows hw hv hi n hc hl

/-! ### Logs of runs in `int` arithmetic -/

/-- A control step in `int` arithmetic only adds records to the log. -/
theorem int_step_log_grows (s : KState) : s.log <+: (Int32.step s).log := by
  unfold Int32.step
  split
  · split <;> exact List.prefix_refl _
  · split
    · unfold Int32.arriveOne
      split
      · split <;> exact List.prefix_append _ _
      · exact List.prefix_refl _
    · exact List.prefix_refl _
  · unfold Int32.executeStep
    split
    · exact List.prefix_refl _
    · exact List.prefix_refl _
    · simp only
      split
      · split <;> (simp only [List.append_assoc]; exact List.prefix_append _ _)
      · split <;> (simp only [List.append_assoc]; exact List.prefix_append _ _)
  · unfold Int32.ioScanStep
    split
    · exact List.prefix_refl _
    · simp only
      split
      · split
        · exact List.prefix_append _ _
        · split <;> exact List.prefix_append _ _
      · exact List.prefix_refl _
  · exact List.prefix_refl _
  · exact List.prefix_refl _

/-- The log after `m` control steps in `int` arithmetic is a prefix of the log after
`m + n`. -/
theorem int_runSteps_log_grows (n : Nat) (s : KState) :
    s.log <+: (Int32.runSteps n s).log := by
  induction n generalizing s with
  | zero => exact List.prefix_refl _
  | succ n ih => exact (int_step_log_grows s).trans (ih (Int32.step s))

theorem int_runSteps_add (m n : Nat) (s : KState) :
    Int32.runSteps (m + n) s = Int32.runSteps n (Int32.runSteps m s) := by
  induction m generalizing s with
  | zero => simp [Int32.runSteps]
  | succ m ih =>
    have e : m + 1 + n = (m + n) + 1 := by omega
    rw [e]
    exact ih (Int32.step s)

/-- The logs of a run in `int` arithmetic, at two numbers of control steps. -/
theorem int_kernelSim_log_grows (wst0 : Int) (next0 : Option Nat)
    (rows : List (Int × Int × Int × Int × Int)) (m n : Nat) (h : m ≤ n) :
    (Int32.kernelSim wst0 next0 rows m).log <+: (Int32.kernelSim wst0 next0 rows n).log := by
  obtain ⟨k, rfl⟩ := Nat.exists_eq_add_of_le h
  unfold Int32.kernelSim
  rw [int_runSteps_add]
  exact int_runSteps_log_grows k _

theorem fits_snoc {log : List Transition} {c : Int}
    (h : FitsInt c ∧ ∀ t ∈ log, FitsInt t.clk) (pid : Int) (o n : StateName) :
    FitsInt c ∧ ∀ t ∈ log ++ [⟨c, pid, o, n⟩], FitsInt t.clk := by
  refine ⟨h.1, ?_⟩
  intro t ht
  rcases List.mem_append.mp ht with ht | ht
  · exact h.2 t ht
  · simp at ht
    subst ht
    exact h.1

theorem fits_next {log : List Transition} {c : Int}
    (h : FitsInt c ∧ ∀ t ∈ log, FitsInt t.clk) :
    FitsInt (wrapInt (c + 1)) ∧ ∀ t ∈ log, FitsInt t.clk :=
  ⟨wrap_fits _, h.2⟩

/-- A control step in `int` arithmetic keeps the clock and the times of the records in
the range of `int`. -/
theorem int_fits_step (s : KState) (h : FitsInt s.clk ∧ ∀ t ∈ s.log, FitsInt t.clk) :
    FitsInt (Int32.step s).clk ∧ ∀ t ∈ (Int32.step s).log, FitsInt t.clk := by
  unfold Int32.step
  split
  · split <;> exact h
  · split
    · unfold Int32.arriveOne
      split
      · split
        · exact fits_snoc h _ _ _
        · exact fits_snoc h _ _ _
      · exact h
    · exact h
  · unfold Int32.executeStep
    split
    · exact h
    · exact fits_next h
    · simp only
      split
      · split
        · exact fits_snoc (fits_snoc h _ _ _) _ _ _
        · exact fits_next (fits_snoc (fits_snoc h _ _ _) _ _ _)
      · split
        · exact fits_snoc (fits_snoc h _ _ _) _ _ _
        · exact fits_next (fits_snoc (fits_snoc h _ _ _) _ _ _)
  · unfold Int32.ioScanStep
    split
    · exact h
    · simp only
      split
      · split
        · exact fits_snoc h _ _ _
        · split
          · exact fits_snoc h _ _ _
          · exact fits_snoc h _ _ _
      · exact h
  · exact h
  · exact h

theorem int_fits_run (n : Nat) (s : KState) (h : FitsInt s.clk ∧ ∀ t ∈ s.log, FitsInt t.clk) :
    FitsInt (Int32.runSteps n s).clk ∧ ∀ t ∈ (Int32.runSteps n s).log, FitsInt t.clk := by
  induction n generalizing s with
  | zero => exact h
  | succ n ih => exact ih (Int32.step s) (int_fits_step s h)

/-- Every time that a run in `int` arithmetic writes is a value of an `int`. -/
theorem int_log_fits (wst0 : Int) (next0 : Option Nat)
    (rows : List (Int × Int × Int × Int × Int)) (n : Nat) :
    FitsInt (Int32.kernelSim wst0 next0 rows n).clk ∧
      ∀ t ∈ (Int32.kernelSim wst0 next0 rows n).log, FitsInt t.clk := by
  unfold Int32.kernelSim
  apply int_fits_run
  have h0 : FitsInt 0 := by decide
  exact ⟨h0, by simp [kernelInit]⟩

/-! ### Invariants of the loop in `int` arithmetic -/

theorem int_runSteps_invariant (P : KState → Prop) (hstep : ∀ s, P s → P (Int32.step s))
    (s : KState) (h : P s) (n : Nat) : P (Int32.runSteps n s) := by
  induction n generalizing s with
  | zero => exact h
  | succ n ih => exact ih (Int32.step s) (hstep s h)

/-- `enqueue` in `int` arithmetic differs from `enqueue` on the integers in the new size
only. -/
theorem int_enqueue_of {mem m : Mem} {q q1 : queue_t} {pcb : Nat}
    (h : Int32.enqueue mem q pcb = some (m, q1)) :
    ∃ q0, enqueue mem q pcb = some (m, q0) ∧ q1.front = q0.front ∧ q1.rear = q0.rear := by
  unfold Int32.enqueue at h
  unfold enqueue
  cases hf : q.front with
  | none =>
    rw [hf] at h
    simp only [Option.some.injEq, Prod.mk.injEq] at h
    obtain ⟨rfl, rfl⟩ := h
    exact ⟨_, rfl, rfl, rfl⟩
  | some f =>
    rw [hf] at h
    cases hr : q.rear with
    | none => rw [hr] at h; simp at h
    | some r =>
      rw [hr] at h
      simp only [Option.some.injEq, Prod.mk.injEq] at h
      obtain ⟨rfl, rfl⟩ := h
      exact ⟨_, rfl, rfl, rfl⟩

theorem int_enqueue_some (mem : Mem) (q : queue_t) (pcb : Nat) (h : RearOK q) :
    ∃ m q1, Int32.enqueue mem q pcb = some (m, q1) := by
  unfold Int32.enqueue
  cases hf : q.front with
  | none => exact ⟨_, _, rfl⟩
  | some f =>
    cases hr : q.rear with
    | none => have := (h hr).1; rw [hf] at this; simp at this
    | some r => exact ⟨_, _, rfl⟩

theorem int_enqueue_rearOK {mem m : Mem} {q q1 : queue_t} {pcb : Nat}
    (h : Int32.enqueue mem q pcb = some (m, q1)) : RearOK q1 ∧ q1.rear = some pcb := by
  obtain ⟨q0, e, -, er⟩ := int_enqueue_of h
  have h0 := (enqueue_rearOK e).2.1
  refine ⟨?_, er.trans h0⟩
  intro hn
  rw [er, h0] at hn
  cases hn

theorem int_dequeue_rearOK {mem : Mem} {q q1 : queue_t} {r : Option Nat}
    (h : Int32.dequeue mem q = some (r, q1)) (hq : RearOK q) : RearOK q1 := by
  unfold Int32.dequeue at h
  by_cases h0 : q.size = 0
  · simp [h0] at h
    obtain ⟨-, rfl⟩ := h
    exact hq
  · simp only [h0, if_false] at h
    cases hf : q.front with
    | none => rw [hf] at h; simp at h
    | some f =>
      rw [hf] at h
      simp at h
      obtain ⟨-, rfl⟩ := h
      intro hr
      exact absurd (hq hr).2 h0

theorem int_queuesOK_step (s : KState) (h : QueuesOK s) : QueuesOK (Int32.step s) := by
  obtain ⟨hr, hw, ht⟩ := h
  unfold Int32.step
  split
  · split <;> exact ⟨hr, hw, ht⟩
  · split
    · unfold Int32.arriveOne
      split
      · split
        · exact ⟨hr, hw, ht⟩
        · next m q he => exact ⟨(int_enqueue_rearOK he).1, hw, ht⟩
      · exact ⟨hr, hw, ht⟩
    · exact ⟨hr, hw, ht⟩
  · unfold Int32.executeStep
    split
    · exact ⟨hr, hw, ht⟩
    · next q hd => exact ⟨int_dequeue_rearOK hd hr, hw, ht⟩
    · next cur q hd =>
      simp only
      split
      · split
        · exact ⟨int_dequeue_rearOK hd hr, hw, ht⟩
        · next m t he => exact ⟨int_dequeue_rearOK hd hr, hw, (int_enqueue_rearOK he).1⟩
      · split
        · exact ⟨int_dequeue_rearOK hd hr, hw, ht⟩
        · next m t he => exact ⟨int_dequeue_rearOK hd hr, (int_enqueue_rearOK he).1, ht⟩
  · unfold Int32.ioScanStep
    split
    · exact ⟨hr, hw, ht⟩
    · simp only
      split
      · split
        · exact ⟨hr, hw, ht⟩
        · next m r he =>
          split
          · exact ⟨(int_enqueue_rearOK he).1, hw, ht⟩
          · next x w hd => exact ⟨(int_enqueue_rearOK he).1, int_dequeue_rearOK hd hw, ht⟩
      · exact ⟨hr, hw, ht⟩
  · exact ⟨hr, hw, ht⟩
  · exact ⟨hr, hw, ht⟩

/-- In every run in `int` arithmetic a queue whose rear is `NULL` is empty, whatever the
`next` fields held at the start. -/
theorem int_queuesOK_kernelSim (wst0 : Int) (next0 : Option Nat)
    (rows : List (Int × Int × Int × Int × Int)) (n : Nat) :
    QueuesOK (Int32.kernelSim wst0 next0 rows n) :=
  int_runSteps_invariant QueuesOK int_queuesOK_step _ ⟨rearOK_new, rearOK_new, rearOK_new⟩ n

theorem int_ranged_of_enqueue {mem m : Mem} {q q1 : queue_t} {pcb : Nat}
    (h : Int32.enqueue mem q pcb = some (m, q1)) (hr : ∀ i, RangedPCB (mem i)) :
    ∀ i, RangedPCB (m i) := by
  obtain ⟨q0, e, -, -⟩ := int_enqueue_of h
  exact ranged_of_enqueue e hr

theorem int_ranged_step (s : KState) (h : Ranged s) : Ranged (Int32.step s) := by
  unfold Ranged at h ⊢
  unfold Int32.step
  split
  · split <;> exact h
  · split
    · unfold Int32.arriveOne
      split
      · split
        · exact h
        · next m q he => exact int_ranged_of_enqueue he h
      · exact h
    · exact h
  · unfold Int32.executeStep
    split
    · exact h
    · exact h
    · next cur q hd =>
      simp only
      have hc := h cur
      unfold RangedPCB at hc
      split
      · next hle =>
        have hm := ranged_update s.processes cur
          { s.processes cur with remainingCPUTime := 0 } h
          ⟨hc.1, le_refl _, le_trans hc.2.1 hc.2.2.1, hc.2.2.2⟩
        split
        · exact hm
        · next m t he => exact int_ranged_of_enqueue he hm
      · next hgt =>
        have hfit : FitsInt ((s.processes cur).remainingCPUTime - (s.processes cur).freq) := by
          unfold FitsInt INT_MIN
          have hmax : INT_MAX = 2147483647 := rfl
          constructor <;> omega
        have hm := ranged_update s.processes cur
          { s.processes cur with waitStartTime := s.clk, remainingCPUTime := wrapInt ((s.processes cur).remainingCPUTime - (s.processes cur).freq) } h
          ⟨hc.1, by show 0 ≤ wrapInt _; rw [wrap_of_fits _ hfit]; omega,
            by show wrapInt _ ≤ (s.processes cur).CPUTime; rw [wrap_of_fits _ hfit]; omega,
            hc.2.2.2⟩
        split
        · exact hm
        · next m t he => exact int_ranged_of_enqueue he hm
  · unfold Int32.ioScanStep
    split
    · exact h
    · simp only
      split
      · split
        · exact h
        · next m r he =>
          split
          · exact int_ranged_of_enqueue he h
          · exact int_ranged_of_enqueue he h
      · exact h
  · exact h
  · exact h

/-- On rows of `int` fields within the ranges of the data model, every run in `int`
arithmetic keeps the remaining CPU time of every PCB between 0 and its CPU time, whatever
the `next` fields held at the start and however far the clock has gone. -/
theorem int_ranged_kernelSim (wst0 : Int) (next0 : Option Nat)
    (rows : List (Int × Int × Int × Int × Int))
    (hv : ValidRows rows) (hi : IntRows rows) (n : Nat) :
    Ranged (Int32.kernelSim wst0 next0 rows n) := by
  unfold Int32.kernelSim
  apply int_runSteps_invariant Ranged int_ranged_step
  intro i
  have h := validRows_getD rows hv hi i
  simp only [kernelInit, loadMemFrom, loadPCBFrom, loadPCB]
  exact ⟨h.1, h.2.1, le_refl _, h.2.2⟩

/-- What `executeStep` does in `int` arithmetic when `dequeue(ready)` returns a process
whose remaining time is at most its frequency. -/
theorem int_executeStep_terminates (s : KState) (p : Nat) (q : queue_t) (hq : QueuesOK s)
    (hd : Int32.dequeue s.processes s.ready = some (some p, q))
    (hle : (s.processes p).remainingCPUTime ≤ (s.processes p).freq) :
    (Int32.executeStep s).log = s.log ++
        [⟨s.clk, (s.processes p).PID, Ready, Running⟩,
         ⟨s.clk, (s.processes p).PID, Running, Terminated⟩] ∧
    ((Int32.executeStep s).processes p).remainingCPUTime = 0 ∧
    Int32.enqueue (Function.update s.processes p { (s.processes p) with remainingCPUTime := 0 })
        s.terminated p
      = some ((Int32.executeStep s).processes, (Int32.executeStep s).terminated) ∧
    (Int32.executeStep s).terminated.rear = some p ∧
    (Int32.executeStep s).waiting = s.waiting ∧
    (Int32.executeStep s).ready = q ∧
    (Int32.executeStep s).clk = wrapInt (s.clk + 1) ∧
    (Int32.executeStep s).pc = Pc.ioScan := by
  obtain ⟨m, t, he⟩ := int_enqueue_some
    (Function.update s.processes p { (s.processes p) with remainingCPUTime := 0 })
    s.terminated p hq.2.2
  obtain ⟨q0, e0, -, -⟩ := int_enqueue_of he
  have hf := (enqueue_fields e0 p).1
  have hr := int_enqueue_rearOK he
  have hE : Int32.executeStep s = { s with
      ready := q,
      log := s.log ++ [⟨s.clk, (s.processes p).PID, Ready, Running⟩] ++
        [⟨s.clk, (s.processes p).PID, Running, Terminated⟩],
      processes := m, terminated := t, clk := wrapInt (s.clk + 1), pc := Pc.ioScan } := by
    simp only [Int32.executeStep, hd, hle, if_true, he]
  rw [hE]
  refine ⟨by simp, ?_, he, hr.2, rfl, rfl, rfl, rfl⟩
  show (m p).remainingCPUTime = 0
  rw [hf]
  simp

/-- What `executeStep` does in `int` arithmetic when `dequeue(ready)` returns a process
whose remaining time exceeds its frequency. -/
theorem int_executeStep_blocks (s : KState) (p : Nat) (q : queue_t) (hq : QueuesOK s)
    (hd : Int32.dequeue s.processes s.ready = some (some p, q))
    (hgt : ¬ (s.processes p).remainingCPUTime ≤ (s.processes p).freq) :
    (Int32.executeStep s).log = s.log ++
        [⟨s.clk, (s.processes p).PID, Ready, Running⟩,
         ⟨s.clk, (s.processes p).PID, Running, Waiting⟩] ∧
    ((Int32.executeStep s).processes p).waitStartTime = s.clk ∧
    ((Int32.executeStep s).processes p).remainingCPUTime =
      wrapInt ((s.processes p).remainingCPUTime - (s.processes p).freq) ∧
    Int32.enqueue (Function.update s.processes p { (s.processes p) with waitStartTime := s.clk, remainingCPUTime := wrapInt ((s.processes p).remainingCPUTime - (s.processes p).freq) })
        s.waiting p = some ((Int32.executeStep s).processes, (Int32.executeStep s).waiting) ∧
    (Int32.executeStep s).waiting.rear = some p ∧
    (Int32.executeStep s).terminated = s.terminated ∧
    (Int32.executeStep s).ready = q ∧
    (Int32.executeStep s).clk = wrapInt (s.clk + 1) ∧
    (Int32.executeStep s).pc = Pc.ioScan := by
  obtain ⟨m, t, he⟩ := int_enqueue_some
    (Function.update s.processes p { (s.processes p) with waitStartTime := s.clk, remainingCPUTime := wrapInt ((s.processes p).remainingCPUTime - (s.processes p).freq) })
    s.waiting p hq.2.1
  obtain ⟨q0, e0, -, -⟩ := int_enqueue_of he
  have hf := enqueue_fields e0 p
  have hr := int_enqueue_rearOK he
  have hE : Int32.executeStep s = { s with
      ready := q,
      log := s.log ++ [⟨s.clk, (s.processes p).PID, Ready, Running⟩] ++
        [⟨s.clk, (s.processes p).PID, Running, Waiting⟩],
      processes := m, waiting := t, clk := wrapInt (s.clk + 1), pc := Pc.ioScan } := by
    simp only [Int32.executeStep, hd, hgt, if_false, he]
  have h2 : (m p).remainingCPUTime =
      wrapInt ((s.processes p).remainingCPUTime - (s.processes p).freq) := by
    rw [hf.1]; simp
  rw [hE]
  refine ⟨by simp, ?_, h2, he, hr.2, rfl, rfl, rfl, rfl⟩
  show (m p).waitStartTime = s.clk
  rw [hf.2]; simp

/-! ### Runs on one process in `int` arithmetic -/

theorem wrap_one : wrapInt 1 = 1 := by decide

theorem wrap_zero : wrapInt 0 = 0 := by decide

/-- A tick before the arrival, in `int` arithmetic. -/
theorem int_soloIdle_tick (wst0 : Int) (row : Int × Int × Int × Int × Int) (c : Int)
    (h : row.2.1 ≠ c) (hc : FitsInt (c + 1)) :
    Int32.runSteps 5 (soloIdle wst0 row c) = soloIdle wst0 row (c + 1) := by
  have hw := wrap_of_fits _ hc
  simp [Int32.runSteps, Int32.step, soloIdle, Int32.arriveOne, Int32.executeStep,
    Int32.ioScanStep, Int32.dequeue, new_queue, soloMem_zero, soloPCB, h, hw]

/-- The tick of the arrival, up to `dequeue(ready)`, in `int` arithmetic. -/
theorem int_soloIdle_arrive (wst0 : Int) (row : Int × Int × Int × Int × Int) :
    Int32.runSteps 3 (soloIdle wst0 row row.2.1) =
      soloReady wst0 row row.2.1 row.2.2.1 wst0 none [⟨row.2.1, row.1, New, Ready⟩] := by
  simp [Int32.runSteps, Int32.step, soloIdle, soloReady, Int32.arriveOne, Int32.enqueue,
    new_queue, soloMem_zero, soloPCB, wrap_one]

/-- Dispatch with `remainingCPUTime ≤ freq`, in `int` arithmetic. -/
theorem int_soloReady_terminate (wst0 : Int) (row : Int × Int × Int × Int × Int)
    (c remaining wst : Int) (wrear : Option Nat) (log : List Transition)
    (h : remaining ≤ row.2.2.2.1) :
    Int32.runSteps 3 (soloReady wst0 row c remaining wst wrear log) =
      soloDone wst0 row (wrapInt (c + 1)) wst wrear
        (log ++ [⟨c, row.1, Ready, Running⟩, ⟨c, row.1, Running, Terminated⟩]) := by
  simp [Int32.runSteps, Int32.step, soloReady, soloDone, Int32.executeStep, Int32.ioScanStep,
    Int32.dequeue, Int32.enqueue, new_queue, soloMem_zero, soloMem_update, soloPCB, h,
    wrap_one, wrap_zero]
  rfl

/-- Dispatch with `remainingCPUTime > freq`, in `int` arithmetic. -/
theorem int_soloReady_block (wst0 : Int) (row : Int × Int × Int × Int × Int)
    (c remaining wst : Int) (wrear : Option Nat) (log : List Transition)
    (h : row.2.2.2.1 < remaining) (hc : FitsInt (c + 1))
    (hr : FitsInt (remaining - row.2.2.2.1)) :
    Int32.runSteps 1 (soloReady wst0 row c remaining wst wrear log) =
      soloWaiting wst0 row c 1 (remaining - row.2.2.2.1)
        (log ++ [⟨c, row.1, Ready, Running⟩, ⟨c, row.1, Running, Waiting⟩]) := by
  have h1 : ¬ remaining ≤ row.2.2.2.1 := not_le.mpr h
  have hw := wrap_of_fits _ hc
  have hw2 := wrap_of_fits _ hr
  simp [Int32.runSteps, Int32.step, soloReady, soloWaiting, Int32.executeStep, Int32.dequeue,
    Int32.enqueue, soloMem_zero, soloMem_update, soloPCB, h1, hw, hw2, wrap_one, wrap_zero]
  rfl

/-- A tick during the wait, before the I/O is due, in `int` arithmetic. -/
theorem int_soloWaiting_tick (wst0 : Int) (row : Int × Int × Int × Int × Int)
    (c0 j remaining : Int) (log : List Transition)
    (h : j ≠ row.2.2.2.2) (harr : row.2.1 ≠ c0 + j) (hj : FitsInt j)
    (hc : FitsInt (c0 + j + 1)) :
    Int32.runSteps 5 (soloWaiting wst0 row c0 j remaining log) =
      soloWaiting wst0 row c0 (j + 1) remaining log := by
  have hw : wrapInt (c0 + (j + 1)) = c0 + (j + 1) := by
    rw [← add_assoc]; exact wrap_of_fits _ hc
  have hw2 : wrapInt j = j := wrap_of_fits _ hj
  simp [Int32.runSteps, Int32.step, soloWaiting, Int32.arriveOne, Int32.executeStep,
    Int32.ioScanStep, Int32.dequeue, new_queue, soloMem_zero, soloPCB, h, harr, hw, hw2,
    add_assoc]

/-- The tick in which the I/O is due, in `int` arithmetic. -/
theorem int_soloWaiting_end (wst0 : Int) (row : Int × Int × Int × Int × Int)
    (c0 remaining : Int) (log : List Transition) (harr : row.2.1 ≠ c0 + row.2.2.2.2)
    (hj : FitsInt row.2.2.2.2) :
    Int32.runSteps 5 (soloWaiting wst0 row c0 row.2.2.2.2 remaining log) =
      soloReady wst0 row (c0 + row.2.2.2.2) remaining c0 (some 0)
        (log ++ [⟨c0 + row.2.2.2.2, row.1, Waiting, Ready⟩]) := by
  have hw2 : wrapInt row.2.2.2.2 = row.2.2.2.2 := wrap_of_fits _ hj
  simp [Int32.runSteps, Int32.step, soloWaiting, soloReady, Int32.arriveOne, Int32.ioScanStep,
    Int32.dequeue, Int32.enqueue, new_queue, soloMem_zero, soloPCB, harr, hw2, wrap_one,
    wrap_zero]

theorem int_runSteps_finished (n : Nat) (s : KState) (h : s.pc = Pc.finished) :
    Int32.runSteps n s = s := by
  induction n with
  | zero => rfl
  | succ n ih =>
    have e : Int32.step s = s := by simp [Int32.step, h]
    show Int32.runSteps n (Int32.step s) = s
    rw [e, ih]

/-- The idle ticks before the arrival, in `int` arithmetic. -/
theorem int_soloIdle_run (wst0 : Int) (row : Int × Int × Int × Int × Int) (n : Nat)
    (h : (n : Int) ≤ row.2.1) (ha : row.2.1 ≤ INT_MAX) :
    Int32.runSteps (5 * n) (soloIdle wst0 row 0) = soloIdle wst0 row n := by
  induction n with
  | zero => rfl
  | succ n ih =>
    have h1 : 5 * (n + 1) = 5 * n + 5 := by omega
    have hfit : FitsInt ((n : Int) + 1) := by
      unfold FitsInt INT_MIN
      push_cast at h
      constructor <;> omega
    rw [h1, int_runSteps_add, ih (by push_cast at h; omega),
      int_soloIdle_tick wst0 row n (by push_cast at h; omega) hfit]
    push_cast
    rfl

/-- The ticks of a wait, up to the one in which the I/O is due, in `int` arithmetic. -/
theorem int_soloWaiting_run (wst0 : Int) (row : Int × Int × Int × Int × Int)
    (c0 remaining : Int) (log : List Transition) (hc : row.2.1 ≤ c0) (h0 : 0 ≤ c0)
    (hmax : c0 + row.2.2.2.2 ≤ INT_MAX) (n : Nat)
    (h : (n : Int) + 1 ≤ row.2.2.2.2) :
    Int32.runSteps (5 * n) (soloWaiting wst0 row c0 1 remaining log) =
      soloWaiting wst0 row c0 (n + 1) remaining log := by
  induction n with
  | zero =>
    simp only [Nat.mul_zero, Int32.runSteps, Nat.cast_zero, zero_add]
  | succ n ih =>
    have h1 : 5 * (n + 1) = 5 * n + 5 := by omega
    have hj : FitsInt ((n : Int) + 1) := by
      unfold FitsInt INT_MIN
      push_cast at h
      constructor <;> omega
    have hc1 : FitsInt (c0 + ((n : Int) + 1) + 1) := by
      unfold FitsInt INT_MIN
      push_cast at h
      constructor <;> omega
    rw [h1, int_runSteps_add, ih (by push_cast at h; omega),
      int_soloWaiting_tick wst0 row c0 (n + 1) remaining log (by push_cast at h; omega)
        (by omega) hj hc1]
    push_cast
    rfl

/-- One I/O cycle in `int` arithmetic: from a dispatch with `remainingCPUTime > freq` at
clock `c` to the next dispatch, at clock `c + duration`, when `c + duration` is at most
`INT_MAX`. -/
theorem int_soloReady_cycle (wst0 : Int) (row : Int × Int × Int × Int × Int)
    (c remaining wst : Int) (wrear : Option Nat) (log : List Transition)
    (hc : row.2.1 ≤ c) (h0 : 0 ≤ c) (hmax : c + row.2.2.2.2 ≤ INT_MAX)
    (hd : 1 ≤ row.2.2.2.2) (h : row.2.2.2.1 < remaining)
    (hr : FitsInt (remaining - row.2.2.2.1)) :
    ∃ n, Int32.runSteps n (soloReady wst0 row c remaining wst wrear log) =
      soloReady wst0 row (c + row.2.2.2.2) (remaining - row.2.2.2.1) c (some 0)
        (log ++ [⟨c, row.1, Ready, Running⟩, ⟨c, row.1, Running, Waiting⟩,
          ⟨c + row.2.2.2.2, row.1, Waiting, Ready⟩]) ∧
      runSteps n (soloReady wst0 row c remaining wst wrear log) =
      soloReady wst0 row (c + row.2.2.2.2) (remaining - row.2.2.2.1) c (some 0)
        (log ++ [⟨c, row.1, Ready, Running⟩, ⟨c, row.1, Running, Waiting⟩,
          ⟨c + row.2.2.2.2, row.1, Waiting, Ready⟩]) := by
  have hc1 : FitsInt (c + 1) := by
    unfold FitsInt INT_MIN
    constructor <;> omega
  have hdf : FitsInt row.2.2.2.2 := by
    unfold FitsInt INT_MIN
    constructor <;> omega
  have e : (((row.2.2.2.2 - 1).toNat : Nat) : Int) + 1 = row.2.2.2.2 := by omega
  refine ⟨1 + 5 * (row.2.2.2.2 - 1).toNat + 5, ?_, ?_⟩
  · rw [int_runSteps_add, int_runSteps_add,
      int_soloReady_block wst0 row c remaining wst wrear log h hc1 hr,
      int_soloWaiting_run wst0 row c _ _ hc h0 hmax (row.2.2.2.2 - 1).toNat (by omega)]
    rw [e, int_soloWaiting_end wst0 row c _ _ (by omega) hdf]
    simp
  · rw [runSteps_add, runSteps_add, soloReady_block wst0 row c remaining wst wrear log h,
      soloWaiting_run wst0 row c _ _ hc (row.2.2.2.2 - 1).toNat (by omega)]
    rw [e, soloWaiting_end wst0 row c _ _ (by omega)]
    simp

/-- The run on one input row in `int` arithmetic starts at the loop test with clock 0. -/
theorem int_kernelSim_solo (wst0 : Int) (row : Int × Int × Int × Int × Int) (n : Nat) :
    Int32.kernelSim wst0 none [row] n = Int32.runSteps n (soloIdle wst0 row 0) := by
  unfold Int32.kernelSim
  rw [← soloIdle_init]
  rfl

/-- The run on one process, on the integers and in `int` arithmetic, reaches its
`(i+1)`-th dispatch after the same number of control steps, at clock `a + i*d`, as long
as `a + i*d` is at most `INT_MAX`. -/
theorem int_solo_dispatches (wst0 pid a T f d : Int) (ha : 0 ≤ a) (hT : 0 < T) (hf : 0 < f)
    (hd : 1 ≤ d) (hTm : T ≤ INT_MAX) (i : Nat) (hi : i ≤ waitCount T f)
    (hclk : a + (i : Int) * d ≤ INT_MAX) :
    ∃ n wst wrear,
      Int32.runSteps n (soloIdle wst0 (pid, a, T, f, d) 0) =
        soloReady wst0 (pid, a, T, f, d) (a + i * d) (T - i * f) wst wrear
          (⟨a, pid, New, Ready⟩ :: ioCycles pid a d i) ∧
      runSteps n (soloIdle wst0 (pid, a, T, f, d) 0) =
        soloReady wst0 (pid, a, T, f, d) (a + i * d) (T - i * f) wst wrear
          (⟨a, pid, New, Ready⟩ :: ioCycles pid a d i) := by
  induction i with
  | zero =>
    have hmax : INT_MAX = 2147483647 := rfl
    have ham : a ≤ INT_MAX := by simpa using hclk
    have e : ((a.toNat : Nat) : Int) = a := Int.toNat_of_nonneg ha
    refine ⟨5 * a.toNat + 3, wst0, none, ?_, ?_⟩
    · rw [int_runSteps_add, int_soloIdle_run wst0 (pid, a, T, f, d) a.toNat
        (by show ((a.toNat : Nat) : Int) ≤ a; omega) ham, e]
      have h := int_soloIdle_arrive wst0 (pid, a, T, f, d)
      simp only [ioCycles] at h ⊢
      simpa using h
    · rw [solo_arrival wst0 (pid, a, T, f, d) ha]
      simp [ioCycles]
  | succ i ih =>
    have hid : 0 ≤ (i : Int) * d := Int.mul_nonneg (Int.ofNat_nonneg i) (by omega)
    have e6 : (((i + 1 : Nat) : Int)) * d = (i : Int) * d + d := by push_cast; ring
    rw [e6] at hclk
    obtain ⟨n, wst, wrear, e, e0⟩ := ih (by omega) (by omega)
    obtain ⟨hb1, -⟩ := waitCount_bounds T f hT hf
    have hle : ((i : Int) + 1) * f ≤ (waitCount T f : Int) * f :=
      Int.mul_le_mul_of_nonneg_right (by exact_mod_cast hi) (le_of_lt hf)
    have e3 : ((i : Int) + 1) * f = i * f + f := by ring
    rw [e3] at hle
    have hif : 0 ≤ (i : Int) * f := Int.mul_nonneg (Int.ofNat_nonneg i) (by omega)
    have hr : FitsInt (T - (i : Int) * f - f) := by
      unfold FitsInt INT_MIN
      have hmax : INT_MAX = 2147483647 := rfl
      constructor <;> omega
    obtain ⟨n2, e2, e20⟩ := int_soloReady_cycle wst0 (pid, a, T, f, d) (a + i * d) (T - i * f)
      wst wrear (⟨a, pid, New, Ready⟩ :: ioCycles pid a d i)
      (by show a ≤ a + i * d; omega) (by omega) (by show a + i * d + d ≤ INT_MAX; omega) hd
      (by show f < T - i * f; omega) hr
    refine ⟨n + n2, a + i * d, some 0, ?_, ?_⟩
    · rw [int_runSteps_add, e, e2, ioCycles_succ]
      have e4 : a + (i : Int) * d + d = a + ((i : Int) + 1) * d := by ring
      have e5 : T - (i : Int) * f - f = T - ((i : Int) + 1) * f := by ring
      simp only [e4, e5, Nat.cast_add, Nat.cast_one, List.cons_append]
    · rw [runSteps_add, e0, e20, ioCycles_succ]
      have e4 : a + (i : Int) * d + d = a + ((i : Int) + 1) * d := by ring
      have e5 : T - (i : Int) * f - f = T - ((i : Int) + 1) * f := by ring
      simp only [e4, e5, Nat.cast_add, Nat.cast_one, List.cons_append]

theorem spinning_step (n : Nat) (s : KState) (h : Spinning n s) : Spinning (n + 1) (step s) := by
  obtain ⟨hpc, hclk, hfront, hsize, hrf, hrr, hpid, hwst, hdur, hterm, hlog⟩ := h
  have hc : s.clk - (s.processes 0).waitStartTime = (s.processes 0).duration := by
    rw [hclk, hwst, hdur]; rfl
  have e : step s = { s with
      log := s.log ++ [⟨s.clk, (s.processes 0).PID, .Waiting, .Ready⟩],
      processes := Function.update s.processes 0 { s.processes 0 with next := some 0 },
      ready := { front := s.ready.front, rear := some 0, size := s.ready.size + 1 },
      waiting := s.waiting, pc := Pc.ioScan } := by
    simp [step, hpc, ioScanStep, hfront, hc, enqueue, hrf, hrr, dequeue, hsize]
  rw [e]
  refine ⟨rfl, hclk, hfront, hsize, hrf, rfl, ?_, ?_, ?_, hterm, ?_⟩
  · simpa using hpid
  · simpa using hwst
  · simpa using hdur
  · show s.log ++ [⟨s.clk, (s.processes 0).PID, .Waiting, .Ready⟩] = _
    rw [hlog, hclk, hpid, List.replicate_succ', ← List.append_assoc]
    rfl

set_option maxRecDepth 100000 in
set_option maxHeartbeats 4000000 in
theorem spinning_reached (wst0 : Int) : Spinning 0 (kernelSim wst0 rowsCycle 33) := by
  constructor <;>
  simp [kernelSim, runSteps, step, kernelInit, loadMem, loadPCB, rowsCycle, arriveOne,
    executeStep, ioScanStep, enqueue, dequeue, new_queue, Function.update_apply, logCycle]

theorem spinning_from (wst0 : Int) (n : Nat) :
    Spinning n (kernelSim wst0 rowsCycle (33 + n)) := by
  induction n with
  | zero => exact spinning_reached wst0
  | succ n ih =>
    have e : kernelSim wst0 rowsCycle (33 + (n + 1)) = step (kernelSim wst0 rowsCycle (33 + n)) := by
      unfold kernelSim
      rw [← Nat.add_assoc, runSteps_succ_last]
    rw [e]
    exact spinning_step n _ ih

theorem terminations_none (pid : Int) (log : List Transition)
    (h : ∀ t ∈ log, t.newState ≠ StateName.Terminated) : terminations pid log = 0 := by
  unfold terminations recordsOf
  rw [List.length_eq_zero, List.filter_eq_nil_iff]
  intro r hr
  obtain ⟨t, ht, rfl⟩ := List.mem_map.mp hr
  have h1 := h t (List.mem_of_mem_filter ht)
  simp only [decide_eq_true_eq, Prod.mk.injEq, not_and]
  intro _
  exact h1

theorem int_spinning_step (n : Nat) (s : KState) (h : Spinning n s) :
    Spinning (n + 1) (Int32.step s) := by
  obtain ⟨hpc, hclk, hfront, hsize, hrf, hrr, hpid, hwst, hdur, hterm, hlog⟩ := h
  have hc : wrapInt (s.clk - (s.processes 0).waitStartTime) = (s.processes 0).duration := by
    rw [hclk, hwst, hdur]; decide
  have e : Int32.step s = { s with
      log := s.log ++ [⟨s.clk, (s.processes 0).PID, .Waiting, .Ready⟩],
      processes := Function.update s.processes 0 { s.processes 0 with next := some 0 },
      ready := { front := s.ready.front, rear := some 0, size := wrapInt (s.ready.size + 1) },
      waiting := s.waiting, pc := Pc.ioScan } := by
    simp [Int32.step, hpc, Int32.ioScanStep, hfront, hc, Int32.enqueue, hrf, hrr,
      Int32.dequeue, hsize]
  rw [e]
  refine ⟨rfl, hclk, hfront, hsize, hrf, rfl, ?_, ?_, ?_, hterm, ?_⟩
  · simpa using hpid
  · simpa using hwst
  · simpa using hdur
  · show s.log ++ [⟨s.clk, (s.processes 0).PID, .Waiting, .Ready⟩] = _
    rw [hlog, hclk, hpid, List.replicate_succ', ← List.append_assoc]
    rfl

set_option maxRecDepth 100000 in
set_option maxHeartbeats 4000000 in
theorem int_spinning_reached (wst0 : Int) :
    Spinning 0 (Int32.kernelSim wst0 none rowsCycle 33) := by
  constructor <;>
  simp [Int32.kernelSim, Int32.runSteps, Int32.step, kernelInit, loadMemFrom, loadPCBFrom,
    loadPCB, rowsCycle, Int32.arriveOne, Int32.executeStep, Int32.ioScanStep, Int32.enqueue,
    Int32.dequeue, new_queue, Function.update_apply, logCycle, wrapInt]

theorem int_spinning_from (wst0 : Int) (n : Nat) :
    Spinning n (Int32.kernelSim wst0 none rowsCycle (33 + n)) := by
  induction n with
  | zero => exact int_spinning_reached wst0
  | succ n ih =>
    have e : Int32.kernelSim wst0 none rowsCycle (33 + (n + 1)) =
        Int32.step (Int32.kernelSim wst0 none rowsCycle (33 + n)) := by
      unfold Int32.kernelSim
      rw [← Nat.add_assoc, step_succ_int]
    rw [e]
    exact int_spinning_step n _ ih

/-- C3, evaluated on the rows `(1,2,3,2,3)`, `(2,1,3,1,2)`, which meet the data model,
over a PCB array with `NULL` links and whatever `malloc` left in `waitStartTime`: the loop
of `kernelSim` is never left.  From control step 33 on the run stays inside the I/O scan
of clock 5: every further test of `currentIOProcess != NULL` holds and writes one more
`5 1 Waiting Ready` record, the clock stays at 5, the terminated queue stays empty and no
process ever has a Running->Terminated record.  This holds of the run in `int`
arithmetic, in which the size of the ready queue, the only quantity that grows, wraps
around, and of the run on the integers alike. -/
theorem c3_io_scan_never_ends : ValidInput rowsCycle ∧ ∀ (wst0 : Int) (n : Nat),
    ((Int32.kernelSim wst0 none rowsCycle n).pc ≠ Pc.finished ∧
     (Int32.kernelSim wst0 none rowsCycle (33 + n)).pc = Pc.ioScan ∧
     (Int32.kernelSim wst0 none rowsCycle (33 + n)).clk = 5 ∧
     (Int32.kernelSim wst0 none rowsCycle (33 + n)).waiting.front = some 0 ∧
     (Int32.kernelSim wst0 none rowsCycle (33 + n)).waiting.size = 0 ∧
     (Int32.kernelSim wst0 none rowsCycle (33 + n)).terminated.size = 0 ∧
     (Int32.kernelSim wst0 none rowsCycle (33 + n)).log =
       logCycle ++ List.replicate n lineCycle ∧
     ∀ pid, terminations pid (Int32.kernelSim wst0 none rowsCycle (33 + n)).log = 0) ∧
    (kernelSim wst0 rowsCycle n).pc ≠ Pc.finished ∧
    (kernelSim wst0 rowsCycle (33 + n)).pc = Pc.ioScan ∧
    (kernelSim wst0 rowsCycle (33 + n)).clk = 5 ∧
    (kernelSim wst0 rowsCycle (33 + n)).waiting.front = some 0 ∧
    (kernelSim wst0 rowsCycle (33 + n)).waiting.size = 0 ∧
    (kernelSim wst0 rowsCycle (33 + n)).terminated.size = 0 ∧
    (kernelSim wst0 rowsCycle (33 + n)).log = logCycle ++ List.replicate n lineCycle ∧
    ∀ pid, terminations pid (kernelSim wst0 rowsCycle (33 + n)).log = 0 := by
  refine ⟨by decide, ?_⟩
  intro wst0 n
  have hb := spinning_from wst0 n
  have hi := int_spinning_from wst0 n
  have hnone : ∀ (pid : Int) (log : List Transition),
      log = logCycle ++ List.replicate n lineCycle → terminations pid log = 0 := by
    intro pid log hl
    apply terminations_none
    rw [hl]
    intro t ht
    rcases List.mem_append.mp ht with h | h
    · have hall : ∀ u ∈ logCycle, u.newState ≠ StateName.Terminated := by decide
      exact hall t h
    · rw [List.eq_of_mem_replicate h]
      decide
  refine ⟨⟨?_, hi.pc, hi.clk, hi.front, hi.size, hi.term, hi.log, fun pid => hnone pid _ hi.log⟩,
    ?_, hb.pc, hb.clk, hb.front, hb.size, hb.term, hb.log, fun pid => hnone pid _ hb.log⟩
  · intro hfin
    have e : Int32.kernelSim wst0 none rowsCycle (33 + n) =
        Int32.kernelSim wst0 none rowsCycle n := by
      have e1 : 33 + n = n + 33 := by omega
      unfold Int32.kernelSim at hfin ⊢
      rw [e1, int_runSteps_add]
      exact int_runSteps_finished 33 _ hfin
    have hpc := hi.pc
    rw [e, hfin] at hpc
    simp at hpc
  · intro hfin
    have := finished_stays _ n (33 + n) (by omega) hfin
    have hpc := hb.pc
    unfold kernelSim at hpc
    rw [this] at hpc
    simp at hpc

/-- C7, as amended: for input rows of `int` fields that meet the ranges of the data model
(arrival >= 0, CPU time > 0, frequency > 0, duration > 0), an initial `waitStartTime`
that is an `int` and whatever the `next` fields hold at the start, in the run of
`kernelSim` in `int` arithmetic: at every `dequeue(ready)` that returns a process `p` with
remaining time `r` and frequency `f` at a clock `clk` below `INT_MAX`: if `r <= f` the step
writes Ready->Running and Running->Terminated at `clk`, sets `p.remainingCPUTime` to 0 and
enqueues `p` into `terminated`; otherwise it writes Ready->Running and Running->Waiting
at `clk`, sets `p.waitStartTime = clk` and `p.remainingCPUTime = r - f`, which is greater
than 0 and an `int`, and enqueues `p` into `waiting`.  In both cases the clock goes up by 1
and is still an `int`.  At every control step up to which the clock has not passed
`INT_MAX` and fewer than `INT_MAX - 1` records have been written (no queue size exceeds
that number), the run is in the same state as the run on the integers, the clock values
of the Ready->Running records written so far are strictly increasing (at most one
dispatch per tick) and lie in the range of `int`, and when the loop test is evaluated the
clock equals the number of earlier evaluations (one clock unit per iteration). -/
theorem c7_dispatch_step (wst0 : Int) (next0 : Option Nat)
    (rows : List (Int × Int × Int × Int × Int)) (n p : Nat) (q : queue_t)
    (hw : FitsInt wst0) (hv : ValidRows rows) (hi : IntRows rows)
    (hclk : (Int32.kernelSim wst0 next0 rows n).clk < INT_MAX)
    (hpc : (Int32.kernelSim wst0 next0 rows n).pc = Pc.execute)
    (hd : Int32.dequeue (Int32.kernelSim wst0 next0 rows n).processes (Int32.kernelSim wst0 next0 rows n).ready
      = some (some p, q)) :
    (((Int32.kernelSim wst0 next0 rows n).processes p).remainingCPUTime
        ≤ ((Int32.kernelSim wst0 next0 rows n).processes p).freq →
      (Int32.kernelSim wst0 next0 rows (n + 1)).log = (Int32.kernelSim wst0 next0 rows n).log ++
        [⟨(Int32.kernelSim wst0 next0 rows n).clk, ((Int32.kernelSim wst0 next0 rows n).processes p).PID, Ready, Running⟩,
         ⟨(Int32.kernelSim wst0 next0 rows n).clk, ((Int32.kernelSim wst0 next0 rows n).processes p).PID, Running, Terminated⟩] ∧
      ((Int32.kernelSim wst0 next0 rows (n + 1)).processes p).remainingCPUTime = 0 ∧
      Int32.enqueue (Function.update (Int32.kernelSim wst0 next0 rows n).processes p { ((Int32.kernelSim wst0 next0 rows n).processes p) with remainingCPUTime := 0 })
          (Int32.kernelSim wst0 next0 rows n).terminated p
        = some ((Int32.kernelSim wst0 next0 rows (n + 1)).processes, (Int32.kernelSim wst0 next0 rows (n + 1)).terminated) ∧
      (Int32.kernelSim wst0 next0 rows (n + 1)).terminated.rear = some p ∧
      (Int32.kernelSim wst0 next0 rows (n + 1)).waiting = (Int32.kernelSim wst0 next0 rows n).waiting) ∧
    (¬ ((Int32.kernelSim wst0 next0 rows n).processes p).remainingCPUTime
        ≤ ((Int32.kernelSim wst0 next0 rows n).processes p).freq →
      (Int32.kernelSim wst0 next0 rows (n + 1)).log = (Int32.kernelSim wst0 next0 rows n).log ++
        [⟨(Int32.kernelSim wst0 next0 rows n).clk, ((Int32.kernelSim wst0 next0 rows n).processes p).PID, Ready, Running⟩,
         ⟨(Int32.kernelSim wst0 next0 rows n).clk, ((Int32.kernelSim wst0 next0 rows n).processes p).PID, Running, Waiting⟩] ∧
      ((Int32.kernelSim wst0 next0 rows (n + 1)).processes p).waitStartTime = (Int32.kernelSim wst0 next0 rows n).clk ∧
      ((Int32.kernelSim wst0 next0 rows (n + 1)).processes p).remainingCPUTime =
        ((Int32.kernelSim wst0 next0 rows n).processes p).remainingCPUTime - ((Int32.kernelSim wst0 next0 rows n).processes p).freq ∧
      0 < ((Int32.kernelSim wst0 next0 rows (n + 1)).processes p).remainingCPUTime ∧
      FitsInt (((Int32.kernelSim wst0 next0 rows n).processes p).remainingCPUTime - ((Int32.kernelSim wst0 next0 rows n).processes p).freq) ∧
      Int32.enqueue (Function.update (Int32.kernelSim wst0 next0 rows n).processes p { ((Int32.kernelSim wst0 next0 rows n).processes p) with waitStartTime := (Int32.kernelSim wst0 next0 rows n).clk, remainingCPUTime := ((Int32.kernelSim wst0 next0 rows n).processes p).remainingCPUTime - ((Int32.kernelSim wst0 next0 rows n).processes p).freq })
          (Int32.kernelSim wst0 next0 rows n).waiting p
        = some ((Int32.kernelSim wst0 next0 rows (n + 1)).processes, (Int32.kernelSim wst0 next0 rows (n + 1)).waiting) ∧
      (Int32.kernelSim wst0 next0 rows (n + 1)).waiting.rear = some p ∧
      (Int32.kernelSim wst0 next0 rows (n + 1)).terminated = (Int32.kernelSim wst0 next0 rows n).terminated) ∧
    (Int32.kernelSim wst0 next0 rows (n + 1)).ready = q ∧
    (Int32.kernelSim wst0 next0 rows (n + 1)).clk = (Int32.kernelSim wst0 next0 rows n).clk + 1 ∧
    FitsInt ((Int32.kernelSim wst0 next0 rows n).clk + 1) ∧
    (∀ m, (kernelSimFrom wst0 next0 rows m).clk ≤ INT_MAX →
      ((kernelSimFrom wst0 next0 rows m).log.length : Int) + 2 ≤ INT_MAX →
      Int32.kernelSim wst0 next0 rows m = kernelSimFrom wst0 next0 rows m ∧
      (dispatchTimes (Int32.kernelSim wst0 next0 rows m).log).Pairwise (fun a b => a < b) ∧
      (∀ c ∈ dispatchTimes (Int32.kernelSim wst0 next0 rows m).log, FitsInt c) ∧
      ((Int32.kernelSim wst0 next0 rows m).pc = Pc.loopHead →
        (Int32.kernelSim wst0 next0 rows m).clk =
          headVisits (kernelInit (loadMemFrom wst0 next0 rows) rows.length) m)) := by
  have hq := int_queuesOK_kernelSim wst0 next0 rows n
  have hrg := int_ranged_kernelSim wst0 next0 rows hv hi n p
  have hfc := (int_log_fits wst0 next0 rows n).1
  have hmax : INT_MAX = 2147483647 := rfl
  have hc1 : FitsInt ((Int32.kernelSim wst0 next0 rows n).clk + 1) := by
    unfold FitsInt at hfc ⊢
    constructor <;> omega
  have hnext : Int32.kernelSim wst0 next0 rows (n + 1) =
      Int32.executeStep (Int32.kernelSim wst0 next0 rows n) := by
    unfold Int32.kernelSim
    rw [step_succ_int]
    unfold Int32.kernelSim at hpc
    simp only [Int32.step, hpc]
  rw [hnext]
  refine ⟨?_, ?_, ?_, ?_, hc1, ?_⟩
  · intro hle
    have h := int_executeStep_terminates _ p q hq hd hle
    exact ⟨h.1, h.2.1, h.2.2.1, h.2.2.2.1, h.2.2.2.2.1⟩
  · intro hgt
    have h := int_executeStep_blocks _ p q hq hd hgt
    unfold RangedPCB at hrg
    have hfit : FitsInt (((Int32.kernelSim wst0 next0 rows n).processes p).remainingCPUTime - ((Int32.kernelSim wst0 next0 rows n).processes p).freq) := by
      unfold FitsInt INT_MIN
      constructor <;> omega
    have hwr := wrap_of_fits _ hfit
    rw [hwr] at h
    refine ⟨h.1, h.2.1, h.2.2.1, ?_, hfit, h.2.2.2.1, h.2.2.2.2.1, h.2.2.2.2.2.1⟩
    rw [h.2.2.1]
    omega
  · by_cases hle : ((Int32.kernelSim wst0 next0 rows n).processes p).remainingCPUTime
        ≤ ((Int32.kernelSim wst0 next0 rows n).processes p).freq
    · exact (int_executeStep_terminates _ p q hq hd hle).2.2.2.2.2.1
    · exact (int_executeStep_blocks _ p q hq hd hle).2.2.2.2.2.2.1
  · rw [← wrap_of_fits _ hc1]
    by_cases hle : ((Int32.kernelSim wst0 next0 rows n).processes p).remainingCPUTime
        ≤ ((Int32.kernelSim wst0 next0 rows n).processes p).freq
    · exact (int_executeStep_terminates _ p q hq hd hle).2.2.2.2.2.2.1
    · exact (int_executeStep_blocks _ p q hq hd hle).2.2.2.2.2.2.2.1
  · intro m hm hlm
    have hag := kernelSimFrom_agree wst0 next0 rows hw hv hi m hm hlm
    rw [hag]
    have hD := runSteps_invariant DispatchOK dispatchOK_step
      (kernelInit (loadMemFrom wst0 next0 rows) rows.length)
      (by simp [DispatchOK, kernelInit, dispatchTimes]) m
    have hT := runSteps_invariant (fun s => TimeOK s.log s.clk) timeOK_step
      (kernelInit (loadMemFrom wst0 next0 rows) rows.length) (by simp [TimeOK, kernelInit]) m
    have hN := runSteps_invariant (fun s => 0 ≤ s.clk ∧ ∀ t ∈ s.log, 0 ≤ t.clk) nonneg_step
      (kernelInit (loadMemFrom wst0 next0 rows) rows.length)
      ⟨le_refl _, by simp [kernelInit]⟩ m
    refine ⟨rfl, hD.1, ?_, ?_⟩
    · intro c hc
      unfold dispatchTimes at hc
      obtain ⟨t, ht, rfl⟩ := List.mem_map.mp hc
      have htl : t ∈ (kernelSimFrom wst0 next0 rows m).log := List.mem_of_mem_filter ht
      have hle : t.clk ≤ (kernelSimFrom wst0 next0 rows m).clk := hT.2 t htl
      have hge : 0 ≤ t.clk := hN.2 t htl
      unfold FitsInt INT_MIN
      constructor <;> omega
    · intro hpm
      have h := clockOK_all (kernelInit (loadMemFrom wst0 next0 rows) rows.length) rfl rfl m
      unfold kernelSimFrom at hpm
      unfold ClockOK at h
      rw [hpm] at h
      exact h

/-- C7 as amended, at the single row `(1, 0, 20, 5, 3)` over a PCB array with `NULL` links,
control step 3: `dequeue(ready)` returns the process, whose remaining time 20 exceeds its
frequency 5; it is sent to Waiting at clock 0 with 15 left, and the clock becomes 1. -/
theorem c7_dispatch_step_witness :
    FitsInt 0 ∧ ValidRows [(1, 0, 20, 5, 3)] ∧ IntRows [(1, 0, 20, 5, 3)] ∧
    (Int32.kernelSim 0 none [(1, 0, 20, 5, 3)] 3).clk < INT_MAX ∧
    (Int32.kernelSim 0 none [(1, 0, 20, 5, 3)] 3).pc = Pc.execute ∧
    Int32.dequeue (Int32.kernelSim 0 none [(1, 0, 20, 5, 3)] 3).processes
        (Int32.kernelSim 0 none [(1, 0, 20, 5, 3)] 3).ready
      = some (some 0, { front := none, rear := some 0, size := 0 }) ∧
    (Int32.kernelSim 0 none [(1, 0, 20, 5, 3)] 4).log =
      [⟨0, 1, New, Ready⟩, ⟨0, 1, Ready, Running⟩, ⟨0, 1, Running, Waiting⟩] ∧
    ((Int32.kernelSim 0 none [(1, 0, 20, 5, 3)] 4).processes 0).waitStartTime = 0 ∧
    ((Int32.kernelSim 0 none [(1, 0, 20, 5, 3)] 4).processes 0).remainingCPUTime = 15 ∧
    (Int32.kernelSim 0 none [(1, 0, 20, 5, 3)] 4).clk = 1 := by
  have h := c7_dispatch_step 0 none [(1, 0, 20, 5, 3)] 3 0
    { front := none, rear := some 0, size := 0 }
    (by decide) (by decide) (by decide) (by decide) (by decide) (by decide)
  have h2 := h.2.1 (by decide)
  refine ⟨by decide, by decide, by decide, by decide, by decide, by decide, ?_, ?_, ?_, ?_⟩
  · rw [h2.1]; decide
  · rw [h2.2.1]; decide
  · rw [h2.2.2.1]; decide
  · rw [h.2.2.2.1]; decide

/-- C7 fails in `int` arithmetic.  On the one row `(1, 2147483647, 1, 1, 1)`, which meets
the ranges of the data model, the process arrives at clock `INT_MAX`: after
`5 * 2147483647 + 3` control steps `dequeue(ready)` returns it at clock 2147483647, and
the `clk++` of that iteration leaves the clock at -2147483648, not at 2147483648.  On the
one row `(1, 0, 2147483647, -1, 1)`, of frequency -1, the first dispatch finds
`remainingCPUTime = 2147483647 > freq` and `remainingCPUTime -= freq` leaves
-2147483648, which is neither `r - f` nor positive. -/
theorem c7_clock_wraps_at_int_max :
    ValidRows [(1, 2147483647, 1, 1, 1)] ∧ IntRows [(1, 2147483647, 1, 1, 1)] ∧
    (Int32.kernelSim 0 none [(1, 2147483647, 1, 1, 1)] (5 * 2147483647 + 3)).pc = Pc.execute ∧
    Int32.dequeue (Int32.kernelSim 0 none [(1, 2147483647, 1, 1, 1)] (5 * 2147483647 + 3)).processes
        (Int32.kernelSim 0 none [(1, 2147483647, 1, 1, 1)] (5 * 2147483647 + 3)).ready
      = some (some 0, { front := none, rear := some 0, size := 0 }) ∧
    (Int32.kernelSim 0 none [(1, 2147483647, 1, 1, 1)] (5 * 2147483647 + 3)).clk = 2147483647 ∧
    (Int32.kernelSim 0 none [(1, 2147483647, 1, 1, 1)] (5 * 2147483647 + 3 + 1)).clk
      = -2147483648 ∧
    (Int32.kernelSim 0 none [(1, 0, 2147483647, -1, 1)] 3).pc = Pc.execute ∧
    Int32.dequeue (Int32.kernelSim 0 none [(1, 0, 2147483647, -1, 1)] 3).processes
        (Int32.kernelSim 0 none [(1, 0, 2147483647, -1, 1)] 3).ready
      = some (some 0, { front := none, rear := some 0, size := 0 }) ∧
    ((Int32.kernelSim 0 none [(1, 0, 2147483647, -1, 1)] 3).processes 0).remainingCPUTime
      = 2147483647 ∧
    ((Int32.kernelSim 0 none [(1, 0, 2147483647, -1, 1)] 3).processes 0).freq = -1 ∧
    ((Int32.kernelSim 0 none [(1, 0, 2147483647, -1, 1)] 4).processes 0).remainingCPUTime
      = -2147483648 := by
  have hs : kernelSim 0 [(1, 2147483647, 1, 1, 1)] (5 * 2147483647 + 3) =
      soloReady 0 (1, 2147483647, 1, 1, 1) 2147483647 1 0 none
        [⟨2147483647, 1, New, Ready⟩] := by
    rw [kernelSim_solo]
    exact solo_arrival 0 (1, 2147483647, 1, 1, 1) (by decide)
  have e : Int32.kernelSim 0 none [(1, 2147483647, 1, 1, 1)] (5 * 2147483647 + 3) =
      soloReady 0 (1, 2147483647, 1, 1, 1) 2147483647 1 0 none
        [⟨2147483647, 1, New, Ready⟩] := by
    rw [← hs]
    apply kernelSim_agree 0 _ (by decide) (by decide) (by decide)
    · rw [hs]; decide
    · rw [hs]; decide
  have e1 : Int32.kernelSim 0 none [(1, 2147483647, 1, 1, 1)] (5 * 2147483647 + 3 + 1) =
      Int32.step (soloReady 0 (1, 2147483647, 1, 1, 1) 2147483647 1 0 none
        [⟨2147483647, 1, New, Ready⟩]) := by
    rw [← e]
    exact step_succ_int _ _
  rw [e, e1]
  refine ⟨by decide, by decide, by decide, by decide, by decide, by decide, by decide,
    by decide, by decide, by decide, by decide⟩

theorem kernelSimFrom_null (wst0 : Int) (rows : List (Int × Int × Int × Int × Int)) (n : Nat) :
    kernelSimFrom wst0 none rows n = kernelSim wst0 rows n :=
  rfl

/-- C18, as amended: a run on one process with `int` fields, `a ≥ 0`, `T > 0`, `f > 0`,
`d ≥ 1`, for any initial `waitStartTime`, whose `next` field is `NULL` when `getData`
returns, and with `k = ceil(T / f) - 1` such that `a + k*d` is at most `INT_MAX`, so that
no time of the log overflows.  For every `i ≤ k` the run in `int` arithmetic, in the same
state as the run on the integers, reaches `dequeue(ready)` at clock `a + i*d` with
`remainingCPUTime = T - i*f` and the records of `i` I/O cycles behind the New->Ready
record; and after finitely many control steps the run in `int` arithmetic has left the
loop with the log the specification gives, every time of which is a value of an `int`;
its clock is then `a + k*d + 1` as an `int`, the state is that of the run on the integers
when `a + k*d` is below `INT_MAX`, and it does not change afterwards. -/
theorem c18_single_process_with_io (wst0 : Int) (next0 : Option Nat) (pid a T f d : Int)
    (hnext : next0 = none) (_hw : FitsInt wst0) (hi : IntRows [(pid, a, T, f, d)])
    (ha : 0 ≤ a) (hT : 0 < T) (hf : 0 < f) (hd : 1 ≤ d)
    (hclk : a + (waitCount T f : Int) * d ≤ INT_MAX) :
    (∀ i : Nat, i ≤ waitCount T f →
      ∃ n, Int32.kernelSim wst0 next0 [(pid, a, T, f, d)] n =
          kernelSimFrom wst0 next0 [(pid, a, T, f, d)] n ∧
        (Int32.kernelSim wst0 next0 [(pid, a, T, f, d)] n).pc = Pc.execute ∧
        (Int32.kernelSim wst0 next0 [(pid, a, T, f, d)] n).clk = a + i * d ∧
        ((Int32.kernelSim wst0 next0 [(pid, a, T, f, d)] n).processes 0).remainingCPUTime
          = T - i * f ∧
        (Int32.kernelSim wst0 next0 [(pid, a, T, f, d)] n).log =
          ⟨a, pid, New, Ready⟩ :: ioCycles pid a d i) ∧
    ∃ n, (Int32.kernelSim wst0 next0 [(pid, a, T, f, d)] n).pc = Pc.finished ∧
      (Int32.kernelSim wst0 next0 [(pid, a, T, f, d)] n).log = soloLog pid a d (waitCount T f) ∧
      (∀ t ∈ soloLog pid a d (waitCount T f), FitsInt t.clk) ∧
      (Int32.kernelSim wst0 next0 [(pid, a, T, f, d)] n).clk
        = wrapInt (a + (waitCount T f : Int) * d + 1) ∧
      (kernelSimFrom wst0 next0 [(pid, a, T, f, d)] n).pc = Pc.finished ∧
      (kernelSimFrom wst0 next0 [(pid, a, T, f, d)] n).log = soloLog pid a d (waitCount T f) ∧
      (a + (waitCount T f : Int) * d < INT_MAX →
        Int32.kernelSim wst0 next0 [(pid, a, T, f, d)] n =
          kernelSimFrom wst0 next0 [(pid, a, T, f, d)] n ∧
        (Int32.kernelSim wst0 next0 [(pid, a, T, f, d)] n).clk
          = a + (waitCount T f : Int) * d + 1) ∧
      ∀ m, n ≤ m →
        Int32.kernelSim wst0 next0 [(pid, a, T, f, d)] m =
          Int32.kernelSim wst0 next0 [(pid, a, T, f, d)] n := by
  subst hnext
  have hTm : T ≤ INT_MAX := (hi.2 (pid, a, T, f, d) (List.mem_singleton.mpr rfl)).2.2.1.2
  have hmax : INT_MAX = 2147483647 := rfl
  constructor
  · intro i hik
    have hid : (i : Int) * d ≤ (waitCount T f : Int) * d :=
      Int.mul_le_mul_of_nonneg_right (by exact_mod_cast hik) (by omega)
    obtain ⟨n, wst, wrear, e, e0⟩ :=
      int_solo_dispatches wst0 pid a T f d ha hT hf hd hTm i hik (by omega)
    refine ⟨n, ?_, ?_, ?_, ?_, ?_⟩
    · rw [int_kernelSim_solo, e, kernelSimFrom_null, kernelSim_solo, e0]
    · rw [int_kernelSim_solo, e]; rfl
    · rw [int_kernelSim_solo, e]; rfl
    · rw [int_kernelSim_solo, e]
      show (soloMem wst0 (pid, a, T, f, d) (T - i * f) wst 0).remainingCPUTime = _
      rw [soloMem_zero]
      rfl
    · rw [int_kernelSim_solo, e]; rfl
  · obtain ⟨n, wst, wrear, e, e0⟩ :=
      int_solo_dispatches wst0 pid a T f d ha hT hf hd hTm (waitCount T f) (le_refl _) hclk
    obtain ⟨-, hb2⟩ := waitCount_bounds T f hT hf
    have e3 : ((waitCount T f : Int) + 1) * f = (waitCount T f : Int) * f + f := by ring
    rw [e3] at hb2
    have hrun : Int32.runSteps (n + 3) (soloIdle wst0 (pid, a, T, f, d) 0) =
        soloDone wst0 (pid, a, T, f, d) (wrapInt (a + (waitCount T f : Int) * d + 1)) wst
          wrear (soloLog pid a d (waitCount T f)) := by
      rw [int_runSteps_add, e,
        int_soloReady_terminate wst0 (pid, a, T, f, d) _ _ wst wrear _
          (by show T - (waitCount T f : Int) * f ≤ f; omega)]
      rfl
    have hrun0 : runSteps (n + 3) (soloIdle wst0 (pid, a, T, f, d) 0) =
        soloDone wst0 (pid, a, T, f, d) (a + (waitCount T f : Int) * d + 1) wst wrear
          (soloLog pid a d (waitCount T f)) := by
      rw [runSteps_add, e0,
        soloReady_terminate wst0 (pid, a, T, f, d) _ _ wst wrear _
          (by show T - (waitCount T f : Int) * f ≤ f; omega)]
      rfl
    have hlog : (Int32.kernelSim wst0 none [(pid, a, T, f, d)] (n + 3)).log =
        soloLog pid a d (waitCount T f) := by
      rw [int_kernelSim_solo, hrun]; rfl
    refine ⟨n + 3, ?_, hlog, ?_, ?_, ?_, ?_, ?_, ?_⟩
    · rw [int_kernelSim_solo, hrun]; rfl
    · intro t ht
      rw [← hlog] at ht
      exact (int_log_fits wst0 none [(pid, a, T, f, d)] (n + 3)).2 t ht
    · rw [int_kernelSim_solo, hrun]; rfl
    · rw [kernelSimFrom_null, kernelSim_solo, hrun0]; rfl
    · rw [kernelSimFrom_null, kernelSim_solo, hrun0]; rfl
    · intro hlt
      have hid : 0 ≤ (waitCount T f : Int) * d :=
        Int.mul_nonneg (Int.ofNat_nonneg _) (by omega)
      have hw : wrapInt (a + (waitCount T f : Int) * d + 1) = a + (waitCount T f : Int) * d + 1 := by
        apply wrap_of_fits
        unfold FitsInt INT_MIN
        constructor <;> omega
      constructor
      · rw [int_kernelSim_solo, hrun, kernelSimFrom_null, kernelSim_solo, hrun0, hw]
      · rw [int_kernelSim_solo, hrun, hw]; rfl
    · intro m hm
      obtain ⟨j, rfl⟩ := Nat.exists_eq_add_of_le hm
      rw [int_kernelSim_solo, int_kernelSim_solo, int_runSteps_add, hrun]
      exact int_runSteps_finished j _ rfl

/-- C18 as amended, on the row `(1, 0, 20, 5, 3)` with a `NULL` link: three I/O waits,
starting at clocks 0, 3 and 6, and the end at clock 9. -/
theorem c18_single_process_with_io_witness :
    (none : Option Nat) = none ∧ FitsInt 0 ∧ IntRows [(1, 0, 20, 5, 3)] ∧
    (0 : Int) ≤ 0 ∧ (0 : Int) < 20 ∧ (0 : Int) < 5 ∧ (1 : Int) ≤ 3 ∧ waitCount 20 5 = 3 ∧
    (0 : Int) + (waitCount 20 5 : Int) * 3 ≤ INT_MAX ∧
    ∃ n, (Int32.kernelSim 0 none [(1, 0, 20, 5, 3)] n).pc = Pc.finished ∧
      (Int32.kernelSim 0 none [(1, 0, 20, 5, 3)] n).log =
        [⟨0, 1, New, Ready⟩,
         ⟨0, 1, Ready, Running⟩, ⟨0, 1, Running, Waiting⟩, ⟨3, 1, Waiting, Ready⟩,
         ⟨3, 1, Ready, Running⟩, ⟨3, 1, Running, Waiting⟩, ⟨6, 1, Waiting, Ready⟩,
         ⟨6, 1, Ready, Running⟩, ⟨6, 1, Running, Waiting⟩, ⟨9, 1, Waiting, Ready⟩,
         ⟨9, 1, Ready, Running⟩, ⟨9, 1, Running, Terminated⟩] := by
  refine ⟨rfl, by decide, by decide, by decide, by decide, by decide, by decide, by decide,
    by decide, ?_⟩
  obtain ⟨n, h1, h2, -⟩ :=
    (c18_single_process_with_io 0 none 1 0 20 5 3 rfl (by decide) (by decide) (by decide)
      (by decide) (by decide) (by decide) (by decide)).2
  refine ⟨n, h1, ?_⟩
  rw [h2]
  decide

/-- C18 fails on two inputs.  On the row `(1, 0, 4, 1, 2147483647)`, with a `NULL` link,
`k = 3` and the log of the claim holds the times `2 * 2147483647` and `3 * 2147483647`,
which no `int` holds: the run in `int` arithmetic reaches the second dispatch at clock
2147483647, the `clk++` of that iteration leaves the clock at -2147483648, and at no
control step is the log that of the claim.  On the row `(1, 0, 20, 5, 3)` with a `next`
field that is not `NULL` when `getData` returns (it points to the PCB itself),
`dequeue(ready)` takes the stale link for the new front of the ready queue, the first
return from I/O links the PCB to itself, and the I/O scan of clock 3 has written a
second Waiting->Ready record after 16 control steps; at no control step is the log that
of the claim. -/
theorem c18_log_differs :
    IntRows [(1, 0, 4, 1, 2147483647)] ∧ waitCount 4 1 = 3 ∧
    ⟨2147483647 + 2147483647, 1, Waiting, Ready⟩ ∈ soloLog 1 0 2147483647 (waitCount 4 1) ∧
    (∃ n, (Int32.kernelSim 0 none [(1, 0, 4, 1, 2147483647)] n).pc = Pc.execute ∧
      (Int32.kernelSim 0 none [(1, 0, 4, 1, 2147483647)] n).clk = 2147483647 ∧
      (Int32.kernelSim 0 none [(1, 0, 4, 1, 2147483647)] n).log =
        [⟨0, 1, New, Ready⟩, ⟨0, 1, Ready, Running⟩, ⟨0, 1, Running, Waiting⟩,
         ⟨2147483647, 1, Waiting, Ready⟩] ∧
      (Int32.kernelSim 0 none [(1, 0, 4, 1, 2147483647)] (n + 1)).clk = -2147483648 ∧
      (Int32.kernelSim 0 none [(1, 0, 4, 1, 2147483647)] (n + 1)).pc = Pc.ioScan) ∧
    (∀ n, (Int32.kernelSim 0 none [(1, 0, 4, 1, 2147483647)] n).log ≠
      soloLog 1 0 2147483647 (waitCount 4 1)) ∧
    (Int32.kernelSim 0 (some 0) [(1, 0, 20, 5, 3)] 16).log =
      [⟨0, 1, New, Ready⟩, ⟨0, 1, Ready, Running⟩, ⟨0, 1, Running, Waiting⟩,
       ⟨3, 1, Waiting, Ready⟩, ⟨3, 1, Waiting, Ready⟩] ∧
    (kernelSimFrom 0 (some 0) [(1, 0, 20, 5, 3)] 16).log =
      [⟨0, 1, New, Ready⟩, ⟨0, 1, Ready, Running⟩, ⟨0, 1, Running, Waiting⟩,
       ⟨3, 1, Waiting, Ready⟩, ⟨3, 1, Waiting, Ready⟩] ∧
    (∀ n, (Int32.kernelSim 0 (some 0) [(1, 0, 20, 5, 3)] n).log ≠
      soloLog 1 0 3 (waitCount 20 5)) := by
  have hk : waitCount 4 1 = 3 := by decide
  have hmem : (⟨2147483647 + 2147483647, 1, Waiting, Ready⟩ : Transition) ∈
      soloLog 1 0 2147483647 (waitCount 4 1) := by
    rw [hk]; decide
  have h16 : (Int32.kernelSim 0 (some 0) [(1, 0, 20, 5, 3)] 16).log =
      [⟨0, 1, New, Ready⟩, ⟨0, 1, Ready, Running⟩, ⟨0, 1, Running, Waiting⟩,
       ⟨3, 1, Waiting, Ready⟩, ⟨3, 1, Waiting, Ready⟩] := by decide
  refine ⟨by decide, hk, hmem, ?_, ?_, h16, by decide, ?_⟩
  · obtain ⟨n, wst, wrear, e, -⟩ := int_solo_dispatches 0 1 0 4 1 2147483647 (by decide)
      (by decide) (by decide) (by decide) (by decide) 1 (by decide) (by decide)
    have e1 : Int32.kernelSim 0 none [(1, 0, 4, 1, 2147483647)] (n + 1) =
        Int32.step (Int32.kernelSim 0 none [(1, 0, 4, 1, 2147483647)] n) :=
      step_succ_int _ _
    refine ⟨n, ?_, ?_, ?_, ?_, ?_⟩
    · rw [int_kernelSim_solo, e]; rfl
    · rw [int_kernelSim_solo, e]; simp [soloReady]
    · rw [int_kernelSim_solo, e]
      show (⟨0, 1, New, Ready⟩ : Transition) :: ioCycles 1 0 2147483647 1 = _
      decide
    · rw [e1, int_kernelSim_solo, e]
      simp [Int32.step, soloReady, Int32.executeStep, Int32.dequeue, Int32.enqueue,
        soloMem_zero, soloPCB]
      decide
    · rw [e1, int_kernelSim_solo, e]
      simp [Int32.step, soloReady, Int32.executeStep, Int32.dequeue, Int32.enqueue,
        soloMem_zero, soloPCB]
  · intro n e
    have h := (int_log_fits 0 none [(1, 0, 4, 1, 2147483647)] n).2 _ (e ▸ hmem)
    exact absurd h (by decide)
  · intro n e
    rcases Nat.le_total n 16 with h | h
    · have hp := (int_kernelSim_log_grows 0 (some 0) [(1, 0, 20, 5, 3)] n 16 h).length_le
      rw [e, h16] at hp
      exact absurd hp (by decide)
    · have hp := int_kernelSim_log_grows 0 (some 0) [(1, 0, 20, 5, 3)] 16 n h
      rw [e, h16, List.prefix_iff_eq_take] at hp
      exact absurd hp (by decide)

end Tick

namespace Skip
open STATE

/-! ### `get_time_to_next_event` against its reference -/

theorem cmin_eq_min (a b : Int) : cmin a b = min a b := by
  unfold cmin
  split
  · next h => exact (min_eq_left (le_of_lt h)).symm
  · next h => exact (min_eq_right (not_lt.mp h)).symm

theorem foldl_cmin_le_init (f : Nat → Int) (l : NodeList) (a : Int) :
    l.foldl (fun acc t => cmin (f t) acc) a ≤ a := by
  induction l generalizing a with
  | nil => simp
  | cons x l ih =>
    simp only [List.foldl_cons]
    refine le_trans (ih _) ?_
    rw [cmin_eq_min]
    exact min_le_right _ _

theorem foldl_cmin_le_mem (f : Nat → Int) (l : NodeList) (a : Int) (t : Nat) (ht : t ∈ l) :
    l.foldl (fun acc t => cmin (f t) acc) a ≤ f t := by
  induction l generalizing a with
  | nil => simp at ht
  | cons x l ih =>
    simp only [List.foldl_cons]
    rcases List.mem_cons.mp ht with h | h
    · subst h
      refine le_trans (foldl_cmin_le_init f l _) ?_
      rw [cmin_eq_min]
      exact min_le_left _ _
    · exact ih _ h

theorem foldl_cmin_attained (f : Nat → Int) (l : NodeList) (a : Int) :
    l.foldl (fun acc t => cmin (f t) acc) a = a ∨
    ∃ t ∈ l, l.foldl (fun acc t => cmin (f t) acc) a = f t := by
  induction l generalizing a with
  | nil => simp
  | cons x l ih =>
    simp only [List.foldl_cons]
    rcases ih (cmin (f x) a) with h | ⟨t, ht, h⟩
    · rw [h, cmin_eq_min]
      rcases min_choice (f x) a with h1 | h1
      · exact Or.inr ⟨x, List.mem_cons_self _ _, h1⟩
      · exact Or.inl h1
    · exact Or.inr ⟨t, List.mem_cons_of_mem _ ht, h⟩

theorem push_node_eq (l : NodeList) (x : Nat) : push_node l x = l ++ [x] := by
  cases l <;> simp [push_node]

theorem remove_node_scan_of_mem (x : Nat) (l : NodeList) (h : x ∈ l) :
    remove_node_scan x l = some (l.erase x) := by
  induction l with
  | nil => simp at h
  | cons a l ih =>
    unfold remove_node_scan
    by_cases hax : a = x
    · subst hax; simp
    · have hx : x ∈ l := by
        rcases List.mem_cons.mp h with h1 | h1
        · exact absurd h1.symm hax
        · exact h1
      simp [hax, ih hx, List.erase_cons_tail]

theorem remove_node_of_mem (l : NodeList) (x : Nat) (h : x ∈ l) :
    remove_node l x = some (1, l.erase x) := by
  cases l with
  | nil => simp at h
  | cons a l =>
    unfold remove_node
    by_cases hxa : x = a
    · subst hxa; simp
    · have hx : x ∈ l := by
        rcases List.mem_cons.mp h with h1 | h1
        · exact absurd h1 hxa
        · exact h1
      have hax : ¬ a = x := fun e => hxa e.symm
      simp [hxa, remove_node_scan_of_mem x l hx, List.erase_cons_tail, hax]

/-! ### Lines and life cycles -/

theorem linesOf_snoc_self (i : Nat) (log : List Line) (r : Line) (h : r.node = i) :
    linesOf i (log ++ [r]) = linesOf i log ++ [r] := by
  simp [linesOf, List.filter_append, List.filter_cons, h]

theorem linesOf_snoc_other (i : Nat) (log : List Line) (r : Line) (h : r.node ≠ i) :
    linesOf i (log ++ [r]) = linesOf i log := by
  simp [linesOf, List.filter_append, List.filter_cons, h]

theorem endState_snoc (s : STATE) (l : List Line) (r : Line) :
    endState s (l ++ [r]) = r.new_state := by
  induction l generalizing s with
  | nil => simp [endState]
  | cons a l ih => simp [endState, ih]

theorem linkedFrom_snoc (s : STATE) (l : List Line) (r : Line)
    (hl : linkedFrom s l = true) (ho : r.old_state = endState s l) (hw : r.was = endState s l)
    (hm : legalMove r.old_state r.new_state = true) :
    linkedFrom s (l ++ [r]) = true := by
  induction l generalizing s with
  | nil =>
    simp only [endState] at ho hw
    simp only [List.nil_append, linkedFrom, Bool.and_eq_true, beq_iff_eq, and_true]
    exact ⟨⟨ho, hw⟩, hm⟩
  | cons a l ih =>
    simp only [linkedFrom, Bool.and_eq_true] at hl
    simp only [endState] at ho hw
    simp only [List.cons_append, linkedFrom, Bool.and_eq_true]
    exact ⟨hl.1, ih _ hl.2 ho hw⟩

/-! ### Work and time -/

theorem totalWork_update (n : Nat) (procs : Procs) (j : Nat) (p : process) (hj : j < n) :
    totalWork n (Function.update procs j p) + workLeft (procs j) =
      totalWork n procs + workLeft p := by
  induction n with
  | zero => omega
  | succ n ih =>
    unfold totalWork at ih ⊢
    rw [List.range_succ, List.map_append, List.map_append, List.sum_append, List.sum_append]
    simp only [List.map_cons, List.map_nil, List.sum_cons, List.sum_nil, add_zero]
    by_cases hjn : j = n
    · subst hjn
      have : (List.range j).map (fun i => workLeft (Function.update procs j p i)) =
          (List.range j).map (fun i => workLeft (procs i)) := by
        apply List.map_congr_left
        intro i hi
        have : i ≠ j := by
          have := List.mem_range.mp hi
          omega
        simp [Function.update_noteq this]
      rw [this]
      simp
      omega
    · have hlt : j < n := by omega
      have := ih hlt
      simp [Function.update_noteq (Ne.symm hjn)]
      omega

theorem lineTimes_snoc {log : List Line} {c : Int} (h : TimeOK log c) (r : Line) (hr : r.time = c) :
    TimeOK (log ++ [r]) c := by
  obtain ⟨h1, h2⟩ := h
  constructor
  · rw [List.map_append, List.pairwise_append]
    refine ⟨h1, by simp, ?_⟩
    intro a ha b hb
    simp at hb
    subst hb
    obtain ⟨t, ht, rfl⟩ := List.mem_map.mp ha
    rw [hr]
    exact h2 t ht
  · intro t ht
    rcases List.mem_append.mp ht with ht | ht
    · exact h2 t ht
    · simp at ht
      subst ht
      exact le_of_eq hr

theorem lineTimes_mono {log : List Line} {c d : Int} (h : TimeOK log c) (hcd : c ≤ d) :
    TimeOK log d :=
  ⟨h.1, fun t ht => le_trans (h.2 t ht) hcd⟩

/-! ### One change of state at a time -/

theorem placed_frame {j i : Nat} {st st1 : Sim} (fr : Frame j st st1) (hij : i ≠ j)
    (h : Placed st i) : Placed st1 i := by
  unfold Placed at h ⊢
  rw [fr.procs i hij, fr.new_list i hij, fr.ready_list i hij, fr.waiting_list i hij,
    fr.terminated i hij, fr.running i hij]
  exact h

theorem timers_frame {j i : Nat} {st st1 : Sim} {wt nt wt1 nt1 : NodeList} {rt rt1 : Bool}
    (fr : Frame j st st1) (hij : i ≠ j)
    (hwt : i ∈ wt1 → i ∈ wt) (hnt : i ∈ nt → i ∈ nt1) (hrt : rt1 = true → rt = true)
    (h : Timers st wt nt rt i) : Timers st1 wt1 nt1 rt1 i := by
  unfold Timers at h ⊢
  simp only [fr.procs i hij, fr.cpu_clock, fr.next_step]
  refine ⟨h.1, ?_⟩
  have h2 := h.2
  revert h2
  cases (st.procs i).s <;> simp only
  · intro h2
    exact ⟨h2.1, h2.2.1, h2.2.2.1, fun hn => h2.2.2.2 (fun hc => hn (hnt hc))⟩
  · exact id
  · intro h2
    exact ⟨h2.1, h2.2.1, h2.2.2.1, fun hr => h2.2.2.2 (hrt hr)⟩
  · intro h2
    exact ⟨h2.1, h2.2.1, h2.2.2.1, fun hw => h2.2.2.2 (hwt hw)⟩
  · exact id

theorem logged_frame {j i : Nat} {st st1 : Sim} (fr : Frame j st st1) (hij : i ≠ j)
    (hlog : linesOf i st1.log = linesOf i st.log)
    (h : Logged st i) : Logged st1 i := by
  unfold Logged at h ⊢
  rw [hlog, fr.procs i hij]
  exact h

theorem waitLeft_frame {j i : Nat} {st st1 : Sim} {wt wt1 : NodeList}
    (fr : Frame j st st1) (hij : i ≠ j) (hwt : i ∈ wt1 ↔ i ∈ wt) :
    waitLeft st1 wt1 i = waitLeft st wt i := by
  unfold waitLeft
  simp only [fr.procs i hij, fr.cpu_clock, fr.next_step, hwt]

theorem totalWait_congr (n : Nat) (st st1 : Sim) (wt wt1 : NodeList)
    (h : ∀ i, i < n → waitLeft st1 wt1 i = waitLeft st wt i) :
    totalWait n st1 wt1 = totalWait n st wt := by
  unfold totalWait
  congr 1
  apply List.map_congr_left
  intro i hi
  exact h i (List.mem_range.mp hi)

/-- The invariant survives a change of state of one node `j`, if the change keeps the
lists duplicate-free, writes at most one line, about `j` and at the current clock, and
leaves `j` itself in order. -/
theorem Mid.move {rows : List (Int × Int × Int × Int × Int)} {m0 d0 : Nat} {strict : Bool}
    {wt nt wt1 nt1 : NodeList} {rt rt1 : Bool} {st st1 : Sim} {j : Nat}
    (h : Mid rows m0 d0 strict wt nt rt st) (hj : j < rows.length) (fr : Frame j st st1)
    (hnd_new : st1.new_list.Nodup) (hnd_ready : st1.ready_list.Nodup)
    (hnd_waiting : st1.waiting_list.Nodup) (hnd_term : st1.terminated.Nodup)
    (hwt : ∀ i, i ≠ j → (i ∈ wt1 ↔ i ∈ wt)) (hwtj : j ∈ wt1 → j ∈ st1.waiting_list)
    (hwt_nd : wt1.Nodup)
    (hnt : ∀ i, i ≠ j → (i ∈ nt1 ↔ i ∈ nt)) (hntj : j ∈ nt1 → j ∈ st1.new_list)
    (hnt_nd : nt1.Nodup)
    (hrt : rt1 = true → rt = true)
    (hlog : st1.log = st.log ∨
      ∃ r, st1.log = st.log ++ [r] ∧ r.node = j ∧ r.time = st.cpu_clock)
    (hnode : NodeInv rows st1 wt1 nt1 rt1 j)
    (hwork : totalWork rows.length st1.procs ≤ m0)
    (hprog : strict = true →
      totalWork rows.length st1.procs < m0 ∨ totalWait rows.length st1 wt1 < d0 ∨
        (rt1 = true ∧ st1.running ≠ none)) :
    Mid rows m0 d0 strict wt1 nt1 rt1 st1 := by
  have hlines : ∀ i, i ≠ j → linesOf i st1.log = linesOf i st.log := by
    intro i hij
    rcases hlog with e | ⟨r, e, hr, -⟩
    · rw [e]
    · rw [e]
      exact linesOf_snoc_other i _ r (by rw [hr]; exact fun c => hij c.symm)
  refine
    { step_nonneg := by rw [fr.next_step]; exact h.step_nonneg
      clock_nonneg := by rw [fr.cpu_clock]; exact h.clock_nonneg
      nd_new := hnd_new
      nd_ready := hnd_ready
      nd_waiting := hnd_waiting
      nd_term := hnd_term
      wt_sub := ?_
      wt_nd := hwt_nd
      nt_sub := ?_
      nt_nd := hnt_nd
      lt_new := ?_
      lt_ready := ?_
      lt_waiting := ?_
      lt_term := ?_
      lt_run := ?_
      node := ?_
      time := ?_
      work_le := hwork
      strict_step := fun c => by rw [fr.next_step]; exact h.strict_step c
      progress := hprog }
  · intro i hi
    by_cases hij : i = j
    · subst hij; exact hwtj hi
    · exact (fr.waiting_list i hij).mpr (h.wt_sub i ((hwt i hij).mp hi))
  · intro i hi
    by_cases hij : i = j
    · subst hij; exact hntj hi
    · exact (fr.new_list i hij).mpr (h.nt_sub i ((hnt i hij).mp hi))
  · intro i hi
    by_cases hij : i = j
    · subst hij; exact hj
    · exact h.lt_new i ((fr.new_list i hij).mp hi)
  · intro i hi
    by_cases hij : i = j
    · subst hij; exact hj
    · exact h.lt_ready i ((fr.ready_list i hij).mp hi)
  · intro i hi
    by_cases hij : i = j
    · subst hij; exact hj
    · exact h.lt_waiting i ((fr.waiting_list i hij).mp hi)
  · intro i hi
    by_cases hij : i = j
    · subst hij; exact hj
    · exact h.lt_term i ((fr.terminated i hij).mp hi)
  · intro i hi
    by_cases hij : i = j
    · subst hij; exact hj
    · exact h.lt_run i ((fr.running i hij).mp hi)
  · intro i hi
    by_cases hij : i = j
    · subst hij; exact hnode
    · obtain ⟨h1, h2, h3, h4⟩ := h.node i hi
      refine ⟨?_, placed_frame fr hij h2,
        timers_frame fr hij (hwt i hij).mp (hnt i hij).mpr hrt h3,
        logged_frame fr hij (hlines i hij) h4⟩
      rw [fr.procs i hij]
      exact h1
  · rw [fr.cpu_clock]
    rcases hlog with e | ⟨r, e, -, hr⟩
    · rw [e]; exact h.time
    · rw [e]; exact lineTimes_snoc h.time r hr

/-! ### The scans of the waiting list and of the new list -/

theorem mem_push_node {l : NodeList} {x i : Nat} : i ∈ push_node l x ↔ i ∈ l ∨ i = x := by
  rw [push_node_eq]; simp

theorem nodup_push_node {l : NodeList} {x : Nat} (h : l.Nodup) (hx : x ∉ l) :
    (push_node l x).Nodup := by
  rw [push_node_eq]
  exact List.Nodup.append h (List.nodup_singleton x) (by simpa using hx)

theorem totalWork_update_le {n : Nat} {procs : Procs} {j : Nat} {p : process} (hj : j < n)
    (h : workLeft p ≤ workLeft (procs j)) :
    totalWork n (Function.update procs j p) ≤ totalWork n procs := by
  have := totalWork_update n procs j p hj
  omega

theorem totalWork_update_lt {n : Nat} {procs : Procs} {j : Nat} {p : process} (hj : j < n)
    (h : workLeft p < workLeft (procs j)) :
    totalWork n (Function.update procs j p) < totalWork n procs := by
  have := totalWork_update n procs j p hj
  omega

theorem totalWork_update_eq {n : Nat} {procs : Procs} {j : Nat} {p : process} (hj : j < n)
    (h : workLeft p = workLeft (procs j)) :
    totalWork n (Function.update procs j p) = totalWork n procs := by
  have := totalWork_update n procs j p hj
  omega

/-- The scan of the waiting list keeps the invariant and leaves no waiting node unvisited. -/
theorem scanWaiting_mid (rows : List (Int × Int × Int × Int × Int)) (m0 d0 : Nat)
    (strict : Bool) (nt : NodeList) (rt : Bool) (wt : NodeList) (st : Sim)
    (h : Mid rows m0 d0 strict wt nt rt st) :
    ∃ st1, scanWaiting wt st = some st1 ∧ Mid rows m0 d0 strict [] nt rt st1 ∧
      st1.new_list = st.new_list ∧ st1.running = st.running := by
  induction wt generalizing st with
  | nil => exact ⟨st, rfl, h, rfl, rfl⟩
  | cons node rest ih =>
    have hmem : node ∈ st.waiting_list := h.wt_sub node (List.mem_cons_self _ _)
    have hlt : node < rows.length := h.lt_waiting node hmem
    obtain ⟨hstat, hpl, htm, hlg⟩ := h.node node hlt
    have hs : (st.procs node).s = STATE_WAITING := hpl.2.2.1.mp hmem
    have hnotrest : node ∉ rest := (List.nodup_cons.mp h.wt_nd).1
    have hrest_nd : rest.Nodup := (List.nodup_cons.mp h.wt_nd).2
    unfold Timers at htm
    simp only [hs] at htm
    obtain ⟨hc_le, hc1, hio1, hiod, hk⟩ := htm
    have hk := hk (List.mem_cons_self _ _)
    have hwt1 : ∀ i, i ≠ node → (i ∈ rest ↔ i ∈ node :: rest) := by
      intro i hi
      simp [hi]
    have hnew : node ∉ st.new_list := fun c => by
      have := hpl.1.mp c; rw [hs] at this; cases this
    have hready : node ∉ st.ready_list := fun c => by
      have := hpl.2.1.mp c; rw [hs] at this; cases this
    have hterm : node ∉ st.terminated := fun c => by
      have := hpl.2.2.2.1.mp c; rw [hs] at this; cases this
    have hrun : st.running ≠ some node := fun c => by
      have := hpl.2.2.2.2.mp c; rw [hs] at this; cases this
    unfold scanWaiting
    simp only
    by_cases hdone : (st.procs node).io_time_remaining - st.next_step ≤ 0
    · simp only [hdone, if_true, remove_node_of_mem _ _ hmem]
      apply (fun hm => let ⟨s2, e, m, e1, e2⟩ := ih _ hm; ⟨s2, e, m, e1, e2⟩)
      have hw := @totalWork_update_lt rows.length st.procs node
        { (st.procs node) with io_time_remaining := (st.procs node).io_frequency, s := STATE_READY }
        hlt (by simp [workLeft, hs])
      refine Mid.move h hlt (j := node) ?_ h.nd_new (nodup_push_node h.nd_ready hready)
        (h.nd_waiting.erase node) h.nd_term hwt1 (fun c => absurd c hnotrest) hrest_nd
        (fun _ _ => Iff.rfl) (fun c => absurd (h.nt_sub node c) hnew) h.nt_nd id
        (Or.inr ⟨_, rfl, rfl, rfl⟩) ?_ (le_trans (le_of_lt hw) h.work_le)
        (fun _ => Or.inl (lt_of_lt_of_le hw h.work_le))
      · exact
          { procs := fun i hi => by simp [Function.update_noteq hi]
            new_list := fun i hi => Iff.rfl
            ready_list := fun i hi => by simp [mem_push_node, hi]
            waiting_list := fun i hi => by simp [List.mem_erase_of_ne hi]
            terminated := fun i hi => Iff.rfl
            running := fun i hi => Iff.rfl
            cpu_clock := rfl
            next_step := rfl }
      · refine ⟨?_, ?_, ?_, ?_⟩
        · simpa [Static] using hstat
        · unfold Placed
          simp only [Function.update_same, mem_push_node]
          refine ⟨by simp [hnew], by simp, ?_, by simp [hterm], by simp [hrun]⟩
          simp [h.nd_waiting.mem_erase_iff]
        · unfold Timers
          simp only [Function.update_same]
          exact ⟨hc_le, hc1, trivial⟩
        · unfold Logged at hlg ⊢
          simp only [Function.update_same]
          rw [linesOf_snoc_self node _ _ rfl]
          refine ⟨linkedFrom_snoc _ _ _ hlg.1 ?_ ?_ rfl, endState_snoc _ _ _⟩
          · rw [hlg.2, hs]
          · rw [hlg.2]
    · simp only [hdone, if_false]
      apply (fun hm => let ⟨s2, e, m, e1, e2⟩ := ih _ hm; ⟨s2, e, m, e1, e2⟩)
      have hw := @totalWork_update_eq rows.length st.procs node
        { (st.procs node) with io_time_remaining := (st.procs node).io_time_remaining - st.next_step }
        hlt (by simp [workLeft])
      have hfr : Frame node st { st with procs := Function.update st.procs node { (st.procs node) with io_time_remaining := (st.procs node).io_time_remaining - st.next_step } } :=
        { procs := fun i hi => by simp [Function.update_noteq hi]
          new_list := fun i hi => Iff.rfl
          ready_list := fun i hi => Iff.rfl
          waiting_list := fun i hi => Iff.rfl
          terminated := fun i hi => Iff.rfl
          running := fun i hi => Iff.rfl
          cpu_clock := rfl
          next_step := rfl }
      refine Mid.move h hlt (j := node) hfr h.nd_new h.nd_ready h.nd_waiting h.nd_term
        hwt1 (fun c => absurd c hnotrest) hrest_nd
        (fun _ _ => Iff.rfl) (fun c => h.nt_sub node c) h.nt_nd id
        (Or.inl rfl) ?_ (by rw [hw]; exact h.work_le) ?_
      · refine ⟨?_, ?_, ?_, ?_⟩
        · simpa [Static] using hstat
        · unfold Placed at hpl ⊢
          simpa only [Function.update_same] using hpl
        · unfold Timers
          simp only [Function.update_same, hs]
          exact ⟨hc_le, hc1, by omega, by have := h.step_nonneg; omega,
            fun c => absurd c hnotrest⟩
        · unfold Logged at hlg ⊢
          simpa only [Function.update_same] using hlg
      · intro hst
        rcases h.progress hst with hp | hp | hp
        · exact Or.inl (by rw [hw]; exact hp)
        · refine Or.inr (Or.inl ?_)
          rw [totalWait_congr rows.length st _ (node :: rest) rest ?_]
          · exact hp
          · intro i _
            by_cases hin : i = node
            · subst hin
              unfold waitLeft
              simp [hs, hnotrest]
            · exact waitLeft_frame hfr hin (hwt1 i hin)
        · exact Or.inr (Or.inr hp)

theorem frame_refl (j : Nat) (st : Sim) : Frame j st st :=
  { procs := fun _ _ => rfl
    new_list := fun _ _ => Iff.rfl
    ready_list := fun _ _ => Iff.rfl
    waiting_list := fun _ _ => Iff.rfl
    terminated := fun _ _ => Iff.rfl
    running := fun _ _ => Iff.rfl
    cpu_clock := rfl
    next_step := rfl }

/-- The scan of the new list keeps the invariant and leaves no new node unvisited. -/
theorem scanNew_mid (rows : List (Int × Int × Int × Int × Int)) (m0 d0 : Nat) (strict : Bool)
    (wt : NodeList) (rt : Bool) (nt : NodeList) (st : Sim)
    (h : Mid rows m0 d0 strict wt nt rt st) :
    ∃ st1, scanNew nt st = some st1 ∧ Mid rows m0 d0 strict wt [] rt st1 ∧
      st1.running = st.running := by
  induction nt generalizing st with
  | nil => exact ⟨st, rfl, h, rfl⟩
  | cons node rest ih =>
    have hmem : node ∈ st.new_list := h.nt_sub node (List.mem_cons_self _ _)
    have hlt : node < rows.length := h.lt_new node hmem
    obtain ⟨hstat, hpl, htm, hlg⟩ := h.node node hlt
    have hs : (st.procs node).s = STATE_NEW := hpl.1.mp hmem
    have hnotrest : node ∉ rest := (List.nodup_cons.mp h.nt_nd).1
    have hrest_nd : rest.Nodup := (List.nodup_cons.mp h.nt_nd).2
    have htm0 := htm
    unfold Timers at htm
    simp only [hs] at htm
    obtain ⟨hc_le, hc_eq, hio_eq, harr, -⟩ := htm
    have hnt1 : ∀ i, i ≠ node → (i ∈ rest ↔ i ∈ node :: rest) := by
      intro i hi
      simp [hi]
    have hready : node ∉ st.ready_list := fun c => by
      have := hpl.2.1.mp c; rw [hs] at this; cases this
    have hwaiting : node ∉ st.waiting_list := fun c => by
      have := hpl.2.2.1.mp c; rw [hs] at this; cases this
    have hterm : node ∉ st.terminated := fun c => by
      have := hpl.2.2.2.1.mp c; rw [hs] at this; cases this
    have hrun : st.running ≠ some node := fun c => by
      have := hpl.2.2.2.2.mp c; rw [hs] at this; cases this
    unfold scanNew
    simp only
    by_cases hnow : (st.procs node).arrival_time = st.cpu_clock
    · simp only [if_pos hnow, remove_node_of_mem _ _ hmem]
      apply (fun hm => let ⟨s2, e, m, e1⟩ := ih _ hm; ⟨s2, e, m, e1⟩)
      have hw := @totalWork_update_lt rows.length st.procs node
        { (st.procs node) with s := STATE_READY } hlt (by simp [workLeft, hs])
      refine Mid.move h hlt (j := node) ?_ (h.nd_new.erase node)
        (nodup_push_node h.nd_ready hready) h.nd_waiting h.nd_term
        (fun _ _ => Iff.rfl) (fun c => absurd (h.wt_sub node c) hwaiting) h.wt_nd
        hnt1 (fun c => absurd c hnotrest) hrest_nd id
        (Or.inr ⟨_, rfl, rfl, rfl⟩) ?_ (le_trans (le_of_lt hw) h.work_le)
        (fun _ => Or.inl (lt_of_lt_of_le hw h.work_le))
      · exact
          { procs := fun i hi => by simp [Function.update_noteq hi]
            new_list := fun i hi => by simp [List.mem_erase_of_ne hi]
            ready_list := fun i hi => by simp [mem_push_node, hi]
            waiting_list := fun i hi => Iff.rfl
            terminated := fun i hi => Iff.rfl
            running := fun i hi => Iff.rfl
            cpu_clock := rfl
            next_step := rfl }
      · refine ⟨?_, ?_, ?_, ?_⟩
        · simpa [Static] using hstat
        · unfold Placed
          simp only [Function.update_same, mem_push_node]
          refine ⟨?_, by simp, by simp [hwaiting], by simp [hterm], by simp [hrun]⟩
          simp [h.nd_new.mem_erase_iff]
        · unfold Timers
          simp only [Function.update_same]
          have := hstat.2.2.2.2.2.2.1
          exact ⟨hc_le, by omega, hio_eq⟩
        · unfold Logged at hlg ⊢
          simp only [Function.update_same]
          rw [linesOf_snoc_self node _ _ rfl]
          refine ⟨linkedFrom_snoc _ _ _ hlg.1 ?_ ?_ rfl, endState_snoc _ _ _⟩
          · rw [hlg.2, hs]
          · rw [hlg.2]
    · simp only [if_neg hnow]
      apply (fun hm => let ⟨s2, e, m, e1⟩ := ih _ hm; ⟨s2, e, m, e1⟩)
      refine Mid.move h hlt (j := node) (frame_refl node st) h.nd_new h.nd_ready h.nd_waiting
        h.nd_term (fun _ _ => Iff.rfl) (fun c => h.wt_sub node c) h.wt_nd
        hnt1 (fun c => absurd c hnotrest) hrest_nd id
        (Or.inl rfl) ?_ h.work_le h.progress
      · refine ⟨hstat, hpl, ?_, hlg⟩
        unfold Timers
        simp only [hs]
        exact ⟨hc_le, hc_eq, hio_eq, harr, fun _ => lt_of_le_of_ne harr (Ne.symm hnow)⟩

/-- A scan of the new list in which no node is due changes nothing. -/
theorem scanNew_noop (l : NodeList) (st : Sim)
    (h : ∀ i ∈ l, (st.procs i).arrival_time ≠ st.cpu_clock) : scanNew l st = some st := by
  induction l with
  | nil => rfl
  | cons node rest ih =>
    unfold scanNew
    simp only [h node (List.mem_cons_self _ _), if_false]
    exact ih (fun i hi => h i (List.mem_cons_of_mem _ hi))

/-! ### The CPU step -/

theorem foldl_pick_mem (procs : Procs) (l : NodeList) (init : Nat) :
    l.foldl (fun next_process current =>
        if (procs current).total_cpu_time < (procs next_process).total_cpu_time
        then current else next_process) init = init ∨
    l.foldl (fun next_process current =>
        if (procs current).total_cpu_time < (procs next_process).total_cpu_time
        then current else next_process) init ∈ l := by
  induction l generalizing init with
  | nil => exact Or.inl rfl
  | cons a l ih =>
    simp only [List.foldl_cons]
    rcases ih (if (procs a).total_cpu_time < (procs init).total_cpu_time then a else init)
      with h | h
    · rw [h]
      split
      · exact Or.inr (List.mem_cons_self _ _)
      · exact Or.inl rfl
    · exact Or.inr (List.mem_cons_of_mem _ h)

theorem get_next_process_mem (procs : Procs) (l : NodeList) (r : Nat)
    (h : get_next_process procs l = some r) : r ∈ l := by
  cases l with
  | nil => simp [get_next_process] at h
  | cons a l =>
    simp only [get_next_process, Option.some.injEq] at h
    rw [← h]
    rcases foldl_pick_mem procs (a :: l) a with e | e
    · rw [e]; exact List.mem_cons_self _ _
    · exact e

theorem get_next_process_none (procs : Procs) (l : NodeList)
    (h : get_next_process procs l = none) : l = [] := by
  cases l with
  | nil => rfl
  | cons a l => simp [get_next_process] at h

/-- `startRunning` overwrites the running slot without reading it. -/
theorem startRunning_clear (st : Sim) (r : Nat) :
    startRunning st r = startRunning { st with running := none } r := by
  unfold startRunning
  rfl

/-- Dispatching a ready node on an idle CPU keeps the invariant. -/
theorem startRunning_mid (rows : List (Int × Int × Int × Int × Int)) (m0 d0 : Nat)
    (strict : Bool) (rt : Bool) (st : Sim) (r : Nat)
    (h : Mid rows m0 d0 strict [] [] rt st) (hidle : st.running = none)
    (hmem : r ∈ st.ready_list) :
    ∃ st1, startRunning st r = some st1 ∧ Mid rows m0 d0 strict [] [] false st1 ∧
      st1.running = some r ∧ totalWork rows.length st1.procs < totalWork rows.length st.procs := by
  have hlt : r < rows.length := h.lt_ready r hmem
  obtain ⟨hstat, hpl, htm, hlg⟩ := h.node r hlt
  have hs : (st.procs r).s = STATE_READY := hpl.2.1.mp hmem
  unfold Timers at htm
  simp only [hs] at htm
  obtain ⟨hc_le, hc1, hio_eq⟩ := htm
  have hnew : r ∉ st.new_list := fun c => by
    have := hpl.1.mp c; rw [hs] at this; cases this
  have hwaiting : r ∉ st.waiting_list := fun c => by
    have := hpl.2.2.1.mp c; rw [hs] at this; cases this
  have hterm : r ∉ st.terminated := fun c => by
    have := hpl.2.2.2.1.mp c; rw [hs] at this; cases this
  unfold startRunning
  simp only [remove_node_of_mem _ _ hmem]
  have hw := @totalWork_update_lt rows.length st.procs r
    { (st.procs r) with s := STATE_RUNNING } hlt (by simp [workLeft, hs])
  refine ⟨_, rfl, ?_, rfl, hw⟩
  refine Mid.move h hlt (j := r) ?_ h.nd_new (h.nd_ready.erase r) h.nd_waiting h.nd_term
    (fun _ _ => Iff.rfl) (fun c => by simp at c) List.nodup_nil
    (fun _ _ => Iff.rfl) (fun c => by simp at c) List.nodup_nil
    (fun c => by simp at c)
    (Or.inr ⟨_, rfl, rfl, rfl⟩) ?_ (le_trans (le_of_lt hw) h.work_le)
    (fun _ => Or.inl (lt_of_lt_of_le hw h.work_le))
  · exact
      { procs := fun i hi => by simp [Function.update_noteq hi]
        new_list := fun i hi => Iff.rfl
        ready_list := fun i hi => by simp [List.mem_erase_of_ne hi]
        waiting_list := fun i hi => Iff.rfl
        terminated := fun i hi => Iff.rfl
        running := fun i hi => by
          simp only [hidle, Option.some.injEq]
          exact ⟨fun c => absurd c.symm hi, fun c => by cases c⟩
        cpu_clock := rfl
        next_step := rfl }
  · refine ⟨?_, ?_, ?_, ?_⟩
    · simpa [Static] using hstat
    · unfold Placed
      simp only [Function.update_same]
      refine ⟨by simp [hnew], ?_, by simp [hwaiting], by simp [hterm], by simp⟩
      simp [h.nd_ready.mem_erase_iff]
    · unfold Timers
      simp only [Function.update_same]
      have := hstat.2.2.2.2.2.2.2.1
      exact ⟨hc_le, hc1, by omega, by omega, fun c => by simp at c⟩
    · unfold Logged at hlg ⊢
      simp only [Function.update_same]
      rw [linesOf_snoc_self r _ _ rfl]
      refine ⟨linkedFrom_snoc _ _ _ hlg.1 ?_ ?_ rfl, endState_snoc _ _ _⟩
      · rw [hlg.2, hs]
      · rw [hlg.2]

/-- With an idle CPU the flag for the running node's timers carries no information. -/
theorem Mid.idle {rows : List (Int × Int × Int × Int × Int)} {m0 d0 : Nat} {strict : Bool}
    {rt : Bool} {st : Sim} (h : Mid rows m0 d0 strict [] [] rt st) (hidle : st.running = none) :
    Mid rows m0 d0 strict [] [] false st := by
  exact
    { step_nonneg := h.step_nonneg
      clock_nonneg := h.clock_nonneg
      nd_new := h.nd_new
      nd_ready := h.nd_ready
      nd_waiting := h.nd_waiting
      nd_term := h.nd_term
      wt_sub := h.wt_sub
      wt_nd := h.wt_nd
      nt_sub := h.nt_sub
      nt_nd := h.nt_nd
      lt_new := h.lt_new
      lt_ready := h.lt_ready
      lt_waiting := h.lt_waiting
      lt_term := h.lt_term
      lt_run := h.lt_run
      node := fun i hi => by
        obtain ⟨h1, h2, h3, h4⟩ := h.node i hi
        exact ⟨h1, h2, timers_frame (frame_refl (i + 1) st) (Nat.ne_of_lt (Nat.lt_succ_self i))
          id id (fun c => by cases c) h3, h4⟩
      time := h.time
      work_le := h.work_le
      strict_step := h.strict_step
      progress := fun hst => by
        rcases h.progress hst with hp | hp | hp
        · exact Or.inl hp
        · exact Or.inr (Or.inl hp)
        · exact absurd hidle hp.2 }

/-- When a pass has nothing left to visit, a strict pass has reduced the work or the wait. -/
theorem Mid.done {rows : List (Int × Int × Int × Int × Int)} {m0 d0 : Nat} {strict : Bool}
    {st : Sim} (h : Mid rows m0 d0 strict [] [] false st) (hst : strict = true) :
    totalWork rows.length st.procs < m0 ∨ totalWait rows.length st [] < d0 := by
  rcases h.progress hst with hp | hp | hp
  · exact Or.inl hp
  · exact Or.inr hp
  · exact absurd hp.1 (by simp)

theorem running_facts {rows : List (Int × Int × Int × Int × Int)} {m0 d0 : Nat}
    {strict : Bool} {st : Sim} {run : Nat} (h : Mid rows m0 d0 strict [] [] true st)
    (hrun : st.running = some run) :
    run < rows.length ∧ (st.procs run).s = STATE_RUNNING ∧
    run ∉ st.new_list ∧ run ∉ st.ready_list ∧ run ∉ st.waiting_list ∧ run ∉ st.terminated ∧
    (st.procs run).cpu_time_remaining ≤ (st.procs run).total_cpu_time ∧
    1 ≤ (st.procs run).cpu_time_remaining ∧ 1 ≤ (st.procs run).io_time_remaining ∧
    (st.procs run).io_time_remaining ≤ (st.procs run).io_frequency ∧
    st.next_step ≤ (st.procs run).cpu_time_remaining ∧
    st.next_step ≤ (st.procs run).io_time_remaining := by
  have hlt : run < rows.length := h.lt_run run hrun
  obtain ⟨hstat, hpl, htm, hlg⟩ := h.node run hlt
  have hs : (st.procs run).s = STATE_RUNNING := hpl.2.2.2.2.mp hrun
  unfold Timers at htm
  simp only [hs] at htm
  obtain ⟨hc_le, hc1, hio1, hiof, hk⟩ := htm
  refine ⟨hlt, hs, ?_, ?_, ?_, ?_, hc_le, hc1, hio1, hiof, (hk trivial).1, (hk trivial).2⟩
  · intro c; have := hpl.1.mp c; rw [hs] at this; cases this
  · intro c; have := hpl.2.1.mp c; rw [hs] at this; cases this
  · intro c; have := hpl.2.2.1.mp c; rw [hs] at this; cases this
  · intro c; have := hpl.2.2.2.1.mp c; rw [hs] at this; cases this

/-- Lines 437-439 followed by clearing the running slot keep the invariant. -/
theorem terminate_mid (rows : List (Int × Int × Int × Int × Int)) (m0 d0 : Nat) (strict : Bool)
    (st : Sim) (run : Nat) (h : Mid rows m0 d0 strict [] [] true st)
    (hrun : st.running = some run) :
    Mid rows m0 d0 strict [] [] false { st with procs := Function.update st.procs run { (st.procs run) with cpu_time_remaining := (st.procs run).cpu_time_remaining - st.next_step, io_time_remaining := (st.procs run).io_time_remaining - st.next_step, s := STATE_TERMINATED }, terminated := push_node st.terminated run, log := st.log ++ [⟨st.cpu_clock, (st.procs run).pid, STATE_RUNNING, STATE_TERMINATED, run, (st.procs run).s⟩], running := none } := by
  obtain ⟨hlt, hs, hnew, hready, hwaiting, hterm, hc_le, hc1, hio1, hiof, hkc, hki⟩ :=
    running_facts h hrun
  obtain ⟨hstat, hpl, -, hlg⟩ := h.node run hlt
  have hw := @totalWork_update_lt rows.length st.procs run
    { (st.procs run) with cpu_time_remaining := (st.procs run).cpu_time_remaining - st.next_step, io_time_remaining := (st.procs run).io_time_remaining - st.next_step, s := STATE_TERMINATED }
    hlt (by simp [workLeft, hs]; omega)
  refine Mid.move h hlt (j := run) ?_ h.nd_new h.nd_ready h.nd_waiting
    (nodup_push_node h.nd_term hterm)
    (fun _ _ => Iff.rfl) (fun c => by simp at c) List.nodup_nil
    (fun _ _ => Iff.rfl) (fun c => by simp at c) List.nodup_nil
    (fun c => by simp at c)
    (Or.inr ⟨_, rfl, rfl, rfl⟩) ?_ (le_trans (le_of_lt hw) h.work_le)
    (fun _ => Or.inl (lt_of_lt_of_le hw h.work_le))
  · exact
      { procs := fun i hi => by simp [Function.update_noteq hi]
        new_list := fun i hi => Iff.rfl
        ready_list := fun i hi => Iff.rfl
        waiting_list := fun i hi => Iff.rfl
        terminated := fun i hi => by simp [mem_push_node, hi]
        running := fun i hi =>
          ⟨fun c => (by cases c), fun c => (by rw [hrun] at c; cases c; exact absurd rfl hi)⟩
        cpu_clock := rfl
        next_step := rfl }
  · refine ⟨?_, ?_, ?_, ?_⟩
    · simpa [Static] using hstat
    · unfold Placed
      simp only [Function.update_same, mem_push_node]
      exact ⟨by simp [hnew], by simp [hready], by simp [hwaiting], by simp, by simp⟩
    · unfold Timers
      simp only [Function.update_same]
      have := h.step_nonneg
      exact ⟨by omega, trivial⟩
    · unfold Logged at hlg ⊢
      simp only [Function.update_same]
      rw [linesOf_snoc_self run _ _ rfl]
      refine ⟨linkedFrom_snoc _ _ _ hlg.1 ?_ ?_ rfl, endState_snoc _ _ _⟩
      · rw [hlg.2, hs]
      · rw [hlg.2]

/-- Lines 454-457 followed by clearing the running slot keep the invariant. -/
theorem block_mid (rows : List (Int × Int × Int × Int × Int)) (m0 d0 : Nat) (strict : Bool)
    (st : Sim) (run : Nat) (h : Mid rows m0 d0 strict [] [] true st)
    (hrun : st.running = some run)
    (hnot : ¬ (st.procs run).cpu_time_remaining - st.next_step ≤ 0)
    (hblock : (st.procs run).io_time_remaining - st.next_step ≤ 0) :
    Mid rows m0 d0 strict [] [] false { st with procs := Function.update st.procs run { (st.procs run) with cpu_time_remaining := (st.procs run).cpu_time_remaining - st.next_step, io_time_remaining := (st.procs run).io_duration, s := STATE_WAITING }, waiting_list := push_node st.waiting_list run, log := st.log ++ [⟨st.cpu_clock, (st.procs run).pid, STATE_RUNNING, STATE_WAITING, run, (st.procs run).s⟩], running := none } := by
  obtain ⟨hlt, hs, hnew, hready, hwaiting, hterm, hc_le, hc1, hio1, hiof, hkc, hki⟩ :=
    running_facts h hrun
  obtain ⟨hstat, hpl, -, hlg⟩ := h.node run hlt
  have hw := @totalWork_update_lt rows.length st.procs run
    { (st.procs run) with cpu_time_remaining := (st.procs run).cpu_time_remaining - st.next_step, io_time_remaining := (st.procs run).io_duration, s := STATE_WAITING }
    hlt (by simp [workLeft, hs]; omega)
  refine Mid.move h hlt (j := run) ?_ h.nd_new h.nd_ready
    (nodup_push_node h.nd_waiting hwaiting) h.nd_term
    (fun _ _ => Iff.rfl) (fun c => by simp at c) List.nodup_nil
    (fun _ _ => Iff.rfl) (fun c => by simp at c) List.nodup_nil
    (fun c => by simp at c)
    (Or.inr ⟨_, rfl, rfl, rfl⟩) ?_ (le_trans (le_of_lt hw) h.work_le)
    (fun _ => Or.inl (lt_of_lt_of_le hw h.work_le))
  · exact
      { procs := fun i hi => by simp [Function.update_noteq hi]
        new_list := fun i hi => Iff.rfl
        ready_list := fun i hi => Iff.rfl
        waiting_list := fun i hi => by simp [mem_push_node, hi]
        terminated := fun i hi => Iff.rfl
        running := fun i hi =>
          ⟨fun c => (by cases c), fun c => (by rw [hrun] at c; cases c; exact absurd rfl hi)⟩
        cpu_clock := rfl
        next_step := rfl }
  · refine ⟨?_, ?_, ?_, ?_⟩
    · simpa [Static] using hstat
    · unfold Placed
      simp only [Function.update_same, mem_push_node]
      exact ⟨by simp [hnew], by simp [hready], by simp, by simp [hterm], by simp⟩
    · unfold Timers
      simp only [Function.update_same]
      have := h.step_nonneg
      have := hstat.2.2.2.2.2.2.2.2
      exact ⟨by omega, by omega, by omega, le_refl _, fun c => by simp at c⟩
    · unfold Logged at hlg ⊢
      simp only [Function.update_same]
      rw [linesOf_snoc_self run _ _ rfl]
      refine ⟨linkedFrom_snoc _ _ _ hlg.1 ?_ ?_ rfl, endState_snoc _ _ _⟩
      · rw [hlg.2, hs]
      · rw [hlg.2]

/-- Lines 431-432 alone (the running node neither ends nor blocks) keep the invariant. -/
theorem runTick_mid (rows : List (Int × Int × Int × Int × Int)) (m0 d0 : Nat) (strict : Bool)
    (st : Sim) (run : Nat) (h : Mid rows m0 d0 strict [] [] true st)
    (hrun : st.running = some run)
    (hnot : ¬ (st.procs run).cpu_time_remaining - st.next_step ≤ 0)
    (hnob : ¬ (st.procs run).io_time_remaining - st.next_step ≤ 0) :
    Mid rows m0 d0 strict [] [] false { st with procs := Function.update st.procs run { (st.procs run) with cpu_time_remaining := (st.procs run).cpu_time_remaining - st.next_step, io_time_remaining := (st.procs run).io_time_remaining - st.next_step } } := by
  obtain ⟨hlt, hs, hnew, hready, hwaiting, hterm, hc_le, hc1, hio1, hiof, hkc, hki⟩ :=
    running_facts h hrun
  obtain ⟨hstat, hpl, -, hlg⟩ := h.node run hlt
  have hk0 := h.step_nonneg
  have hw := @totalWork_update_le rows.length st.procs run
    { (st.procs run) with cpu_time_remaining := (st.procs run).cpu_time_remaining - st.next_step, io_time_remaining := (st.procs run).io_time_remaining - st.next_step }
    hlt (by simp [workLeft, hs]; omega)
  have hfr : Frame run st { st with procs := Function.update st.procs run { (st.procs run) with cpu_time_remaining := (st.procs run).cpu_time_remaining - st.next_step, io_time_remaining := (st.procs run).io_time_remaining - st.next_step } } :=
    { procs := fun i hi => by simp [Function.update_noteq hi]
      new_list := fun i hi => Iff.rfl
      ready_list := fun i hi => Iff.rfl
      waiting_list := fun i hi => Iff.rfl
      terminated := fun i hi => Iff.rfl
      running := fun i hi => Iff.rfl
      cpu_clock := rfl
      next_step := rfl }
  refine Mid.move h hlt (j := run) hfr h.nd_new h.nd_ready h.nd_waiting h.nd_term
    (fun _ _ => Iff.rfl) (fun c => by simp at c) List.nodup_nil
    (fun _ _ => Iff.rfl) (fun c => by simp at c) List.nodup_nil
    (fun c => by simp at c)
    (Or.inl rfl) ?_ (le_trans hw h.work_le) ?_
  · refine ⟨?_, ?_, ?_, ?_⟩
    · simpa [Static] using hstat
    · unfold Placed at hpl ⊢
      simpa only [Function.update_same] using hpl
    · unfold Timers
      simp only [Function.update_same, hs]
      exact ⟨by omega, by omega, by omega, by omega, fun c => by simp at c⟩
    · unfold Logged at hlg ⊢
      simpa only [Function.update_same] using hlg
  · intro hst
    have hk1 := h.strict_step hst
    have hlt := @totalWork_update_lt rows.length st.procs run
      { (st.procs run) with cpu_time_remaining := (st.procs run).cpu_time_remaining - st.next_step, io_time_remaining := (st.procs run).io_time_remaining - st.next_step }
      hlt (by simp [workLeft, hs]; omega)
    exact Or.inl (lt_of_lt_of_le hlt h.work_le)

theorem clear_running_idle (st : Sim) (h : st.running = none) :
    { st with running := none } = st := by
  cases st
  simp only at h
  subst h
  rfl

/-- Lines 396-470 keep the invariant; afterwards the CPU is idle only if nothing is ready. -/
theorem cpuStep_mid (rows : List (Int × Int × Int × Int × Int)) (m0 d0 : Nat) (strict : Bool)
    (st : Sim) (h : Mid rows m0 d0 strict [] [] true st) :
    ∃ st1, cpuStep st = some st1 ∧ Mid rows m0 d0 strict [] [] false st1 ∧
      (st1.running = none → st1.ready_list = []) := by
  cases hrun : st.running with
  | none =>
    unfold cpuStep
    simp only [hrun]
    cases hg : get_next_process st.procs st.ready_list with
    | some r =>
      simp only []
      obtain ⟨st1, e, m, er, -⟩ :=
        startRunning_mid rows m0 d0 strict true st r h hrun (get_next_process_mem _ _ _ hg)
      exact ⟨st1, e, m, fun c => by rw [er] at c; cases c⟩
    | none =>
      have hready := get_next_process_none _ _ hg
      have hnoop : scanNew st.new_list st = some st := by
        apply scanNew_noop
        intro i hi
        have hlt := h.lt_new i hi
        obtain ⟨-, hpl, htm, -⟩ := h.node i hlt
        have hs := hpl.1.mp hi
        unfold Timers at htm
        simp only [hs] at htm
        have := htm.2.2.2.2 (by simp)
        omega
      simp only [hnoop]
      refine ⟨_, rfl, ?_, fun _ => hready⟩
      rw [clear_running_idle st hrun]
      exact Mid.idle h hrun
  | some run =>
    obtain ⟨hlt, hs, hnew, hready, hwaiting, hterm, hc_le, hc1, hio1, hiof, hkc, hki⟩ :=
      running_facts h hrun
    unfold cpuStep
    simp only [hrun]
    by_cases hend : (st.procs run).cpu_time_remaining - st.next_step ≤ 0
    · simp only [if_pos hend]
      have hm := terminate_mid rows m0 d0 strict st run h hrun
      cases hg : get_next_process (Function.update st.procs run { (st.procs run) with cpu_time_remaining := (st.procs run).cpu_time_remaining - st.next_step, io_time_remaining := (st.procs run).io_time_remaining - st.next_step, s := STATE_TERMINATED }) st.ready_list with
      | some r =>
        simp only []
        rw [startRunning_clear]
        obtain ⟨st1, e, m, er, -⟩ :=
          startRunning_mid rows m0 d0 strict false _ r hm rfl (get_next_process_mem _ _ _ hg)
        exact ⟨st1, e, m, fun c => by rw [er] at c; cases c⟩
      | none =>
        simp only []
        exact ⟨_, rfl, hm, fun _ => get_next_process_none _ _ hg⟩
    · simp only [if_neg hend]
      by_cases hblock : (st.procs run).io_time_remaining - st.next_step ≤ 0
      · simp only [if_pos hblock]
        have hm := block_mid rows m0 d0 strict st run h hrun hend hblock
        cases hrl : st.ready_list with
        | nil =>
          simp only []
          refine ⟨_, rfl, ?_, fun _ => rfl⟩
          have e : st.ready_list = [] := hrl
          simpa only [e] using hm
        | cons r rest =>
          simp only []
          rw [startRunning_clear]
          have hr : r ∈ st.ready_list := by rw [hrl]; exact List.mem_cons_self _ _
          obtain ⟨st1, e, m, er, -⟩ :=
            startRunning_mid rows m0 d0 strict false _ r hm rfl hr
          refine ⟨st1, ?_, m, fun c => by rw [er] at c; cases c⟩
          rw [← e]
          simp only [hrl]
      · simp only [if_neg hblock]
        have hm := runTick_mid rows m0 d0 strict st run h hrun hend hblock
        simp only [hrun] at hm
        exact ⟨_, rfl, hm, fun c => by cases c⟩

/-! ### The next step -/

theorem int_max_pos : (1 : Int) ≤ INT_MAX := by decide

theorem foldl_cmin_ge (f : Nat → Int) (l : NodeList) (a b : Int) (ha : b ≤ a)
    (hl : ∀ t ∈ l, b ≤ f t) : b ≤ l.foldl (fun acc t => cmin (f t) acc) a := by
  rcases foldl_cmin_attained f l a with h | ⟨t, ht, h⟩
  · rw [h]; exact ha
  · rw [h]; exact hl t ht

/-- What `get_time_to_next_event` returns when every candidate distance is at least 1:
a value that is at least 1, at most every candidate, and equal to a candidate or to
`INT_MAX`. -/
theorem get_time_to_next_event_bounds (procs : Procs) (cpu_clock : Int) (running : Option Nat)
    (new_list waiting_list : NodeList)
    (hrun : ∀ r, running = some r →
      1 ≤ (procs r).cpu_time_remaining ∧ 1 ≤ (procs r).io_time_remaining)
    (hnew : ∀ i ∈ new_list, 1 ≤ (procs i).arrival_time - cpu_clock)
    (hwait : ∀ i ∈ waiting_list, 1 ≤ (procs i).io_time_remaining) :
    1 ≤ get_time_to_next_event procs cpu_clock running new_list waiting_list ∧
    (∀ r, running = some r →
      get_time_to_next_event procs cpu_clock running new_list waiting_list
          ≤ (procs r).cpu_time_remaining ∧
      get_time_to_next_event procs cpu_clock running new_list waiting_list
          ≤ (procs r).io_time_remaining) ∧
    (∀ i ∈ new_list,
      get_time_to_next_event procs cpu_clock running new_list waiting_list
          ≤ (procs i).arrival_time - cpu_clock) ∧
    (∀ i ∈ waiting_list,
      get_time_to_next_event procs cpu_clock running new_list waiting_list
          ≤ (procs i).io_time_remaining) ∧
    ((∃ r, running = some r ∧
        ((procs r).cpu_time_remaining
            = get_time_to_next_event procs cpu_clock running new_list waiting_list ∨
         (procs r).io_time_remaining
            = get_time_to_next_event procs cpu_clock running new_list waiting_list)) ∨
      (∃ i ∈ new_list, (procs i).arrival_time - cpu_clock
          = get_time_to_next_event procs cpu_clock running new_list waiting_list) ∨
      (∃ i ∈ waiting_list, (procs i).io_time_remaining
          = get_time_to_next_event procs cpu_clock running new_list waiting_list) ∨
      get_time_to_next_event procs cpu_clock running new_list waiting_list = INT_MAX) := by
  have harr1 := foldl_cmin_ge (fun t => (procs t).arrival_time - cpu_clock) new_list INT_MAX 1
    int_max_pos hnew
  have hio1 := foldl_cmin_ge (fun t => (procs t).io_time_remaining) waiting_list INT_MAX 1
    int_max_pos hwait
  have harr_le := foldl_cmin_le_mem (fun t => (procs t).arrival_time - cpu_clock) new_list INT_MAX
  have hio_le := foldl_cmin_le_mem (fun t => (procs t).io_time_remaining) waiting_list INT_MAX
  have harr_at := foldl_cmin_attained (fun t => (procs t).arrival_time - cpu_clock) new_list
    INT_MAX
  have hio_at := foldl_cmin_attained (fun t => (procs t).io_time_remaining) waiting_list INT_MAX
  unfold get_time_to_next_event
  simp only
  generalize new_list.foldl (fun acc temp => cmin ((procs temp).arrival_time - cpu_clock) acc)
    INT_MAX = arr at harr1 harr_le harr_at ⊢
  generalize waiting_list.foldl (fun acc temp => cmin (procs temp).io_time_remaining acc)
    INT_MAX = io at hio1 hio_le hio_at ⊢
  simp only [cmin_eq_min]
  cases running with
  | none =>
    simp only
    have hm1 : 1 ≤ min (min INT_MAX INT_MAX) (min arr io) :=
      le_min (le_min int_max_pos int_max_pos) (le_min harr1 hio1)
    have hne : ¬ min (min INT_MAX INT_MAX) (min arr io) = 0 := by omega
    rw [if_neg hne]
    refine ⟨hm1, fun r hr => (by cases hr), ?_, ?_, ?_⟩
    · intro i hi
      exact le_trans (le_trans (min_le_right _ _) (min_le_left _ _)) (harr_le i hi)
    · intro i hi
      exact le_trans (le_trans (min_le_right _ _) (min_le_right _ _)) (hio_le i hi)
    · rw [min_self]
      rcases min_choice INT_MAX (min arr io) with e | e
      · exact Or.inr (Or.inr (Or.inr e))
      · rw [e]
        rcases min_choice arr io with e2 | e2
        · rw [e2]
          rcases harr_at with e3 | ⟨t, ht, e3⟩
          · exact Or.inr (Or.inr (Or.inr e3))
          · exact Or.inr (Or.inl ⟨t, ht, e3.symm⟩)
        · rw [e2]
          rcases hio_at with e3 | ⟨t, ht, e3⟩
          · exact Or.inr (Or.inr (Or.inr e3))
          · exact Or.inr (Or.inr (Or.inl ⟨t, ht, e3.symm⟩))
  | some r =>
    simp only
    obtain ⟨hc, hi⟩ := hrun r rfl
    have hm1 : 1 ≤ min (min (procs r).cpu_time_remaining (procs r).io_time_remaining)
        (min arr io) :=
      le_min (le_min hc hi) (le_min harr1 hio1)
    have hne : ¬ min (min (procs r).cpu_time_remaining (procs r).io_time_remaining)
        (min arr io) = 0 := by omega
    rw [if_neg hne]
    refine ⟨hm1, ?_, ?_, ?_, ?_⟩
    · intro r' hr'
      cases hr'
      exact ⟨le_trans (min_le_left _ _) (min_le_left _ _),
        le_trans (min_le_left _ _) (min_le_right _ _)⟩
    · intro i hi
      exact le_trans (le_trans (min_le_right _ _) (min_le_left _ _)) (harr_le i hi)
    · intro i hi
      exact le_trans (le_trans (min_le_right _ _) (min_le_right _ _)) (hio_le i hi)
    · rcases min_choice (min (procs r).cpu_time_remaining (procs r).io_time_remaining)
        (min arr io) with e | e
      · rw [e]
        rcases min_choice (procs r).cpu_time_remaining (procs r).io_time_remaining with e2 | e2
        · exact Or.inl ⟨r, rfl, Or.inl e2.symm⟩
        · exact Or.inl ⟨r, rfl, Or.inr e2.symm⟩
      · rw [e]
        rcases min_choice arr io with e2 | e2
        · rw [e2]
          rcases harr_at with e3 | ⟨t, ht, e3⟩
          · exact Or.inr (Or.inr (Or.inr e3))
          · exact Or.inr (Or.inl ⟨t, ht, e3.symm⟩)
        · rw [e2]
          rcases hio_at with e3 | ⟨t, ht, e3⟩
          · exact Or.inr (Or.inr (Or.inr e3))
          · exact Or.inr (Or.inr (Or.inl ⟨t, ht, e3.symm⟩))

/-! ### The loop -/

theorem loadProcs_row (rows : List (Int × Int × Int × Int × Int)) (i : Nat)
    (hi : i < rows.length) :
    ∃ row ∈ rows, loadProcs rows i =
      create_proc row.1 row.2.1 row.2.2.1 row.2.2.2.1 row.2.2.2.2 := by
  refine ⟨rows[i], List.getElem_mem _, ?_⟩
  simp [loadProcs, List.getElem?_eq_getElem hi]

theorem loadProcs_static (rows : List (Int × Int × Int × Int × Int)) (hv : ValidRows rows)
    (i : Nat) (hi : i < rows.length) : Static rows (loadProcs rows i) i := by
  obtain ⟨row, hrow, e⟩ := loadProcs_row rows i hi
  have := hv row hrow
  refine ⟨rfl, rfl, rfl, rfl, rfl, ?_⟩
  rw [e]
  simpa [create_proc] using this

/-- The invariant holds on entry to the loop. -/
theorem headInv_init (rows : List (Int × Int × Int × Int × Int)) (hv : ValidRows rows) :
    HeadInv rows false (initSim rows) := by
  unfold HeadInv
  refine
    { step_nonneg := le_refl _
      clock_nonneg := by simp [advance, initSim]
      nd_new := List.nodup_range _
      nd_ready := List.nodup_nil
      nd_waiting := List.nodup_nil
      nd_term := List.nodup_nil
      wt_sub := fun i hi => hi
      wt_nd := List.nodup_nil
      nt_sub := fun i hi => hi
      nt_nd := List.nodup_range _
      lt_new := fun i hi => List.mem_range.mp hi
      lt_ready := fun i hi => by simp [advance, initSim] at hi
      lt_waiting := fun i hi => by simp [advance, initSim] at hi
      lt_term := fun i hi => by simp [advance, initSim] at hi
      lt_run := fun i hi => by simp [advance, initSim] at hi
      node := ?_
      time := by simp [TimeOK, advance, initSim]
      work_le := le_refl _
      strict_step := fun c => by cases c
      progress := fun c => by cases c }
  intro i hi
  have hst := loadProcs_static rows hv i hi
  refine ⟨hst, ?_, ?_, ?_⟩
  · unfold Placed
    simp [advance, initSim, loadProcs, create_proc, hi]
  · unfold Timers
    have h0 := hst.2.2.2.2.2.1
    simp only [advance, initSim]
    have hs : (loadProcs rows i).s = STATE_NEW := rfl
    simp only [hs]
    refine ⟨le_of_eq rfl, rfl, rfl, by simpa using h0, fun c => ?_⟩
    exact absurd (List.mem_range.mpr hi) c
  · unfold Logged
    simp [advance, initSim, linesOf, linkedFrom, endState, loadProcs, create_proc]

/-- Setting `next_step` at the end of a pass (line 473) re-establishes the invariant for
the next pass. -/
theorem nextStep_head (rows : List (Int × Int × Int × Int × Int)) (m0 d0 : Nat) (strict : Bool)
    (st : Sim) (h : Mid rows m0 d0 strict [] [] false st) (strict1 : Bool)
    (hp : strict1 = true →
      totalWait rows.length
        (advance { st with next_step := get_time_to_next_event st.procs st.cpu_clock st.running st.new_list st.waiting_list })
        st.waiting_list <
      totalWait rows.length
        { st with next_step := get_time_to_next_event st.procs st.cpu_clock st.running st.new_list st.waiting_list } [] ∨
      st.running ≠ none) :
    HeadInv rows strict1 { st with next_step := get_time_to_next_event st.procs st.cpu_clock st.running st.new_list st.waiting_list } := by
  have hb := get_time_to_next_event_bounds st.procs st.cpu_clock st.running st.new_list
    st.waiting_list
    (fun r hr => by
      have hlt := h.lt_run r hr
      obtain ⟨-, hpl, htm, -⟩ := h.node r hlt
      have hs := hpl.2.2.2.2.mp hr
      unfold Timers at htm
      simp only [hs] at htm
      exact ⟨htm.2.1, htm.2.2.1⟩)
    (fun i hi => by
      have hlt := h.lt_new i hi
      obtain ⟨-, hpl, htm, -⟩ := h.node i hlt
      have hs := hpl.1.mp hi
      unfold Timers at htm
      simp only [hs] at htm
      have := htm.2.2.2.2 (by simp)
      omega)
    (fun i hi => by
      have hlt := h.lt_waiting i hi
      obtain ⟨-, hpl, htm, -⟩ := h.node i hlt
      have hs := hpl.2.2.1.mp hi
      unfold Timers at htm
      simp only [hs] at htm
      exact htm.2.2.1)
  obtain ⟨hk1, hkrun, hknew, hkwait, -⟩ := hb
  generalize get_time_to_next_event st.procs st.cpu_clock st.running st.new_list
    st.waiting_list = k at hk1 hkrun hknew hkwait hp ⊢
  unfold HeadInv
  have hc := h.clock_nonneg
  refine
    { step_nonneg := by show 0 ≤ k; omega
      clock_nonneg := by show 0 ≤ st.cpu_clock + k; omega
      nd_new := h.nd_new
      nd_ready := h.nd_ready
      nd_waiting := h.nd_waiting
      nd_term := h.nd_term
      wt_sub := fun i hi => hi
      wt_nd := h.nd_waiting
      nt_sub := fun i hi => hi
      nt_nd := h.nd_new
      lt_new := h.lt_new
      lt_ready := h.lt_ready
      lt_waiting := h.lt_waiting
      lt_term := h.lt_term
      lt_run := h.lt_run
      node := ?_
      time := lineTimes_mono h.time (by show st.cpu_clock ≤ st.cpu_clock + k; omega)
      work_le := le_refl _
      strict_step := fun _ => hk1
      progress := fun c => by
        rcases hp c with hq | hq
        · exact Or.inr (Or.inl hq)
        · exact Or.inr (Or.inr ⟨rfl, hq⟩) }
  intro i hi
  obtain ⟨h1, h2, h3, h4⟩ := h.node i hi
  refine ⟨h1, h2, ?_, h4⟩
  unfold Timers at h3 ⊢
  simp only [advance]
  refine ⟨h3.1, ?_⟩
  have h3 := h3.2
  have hpl := h2
  unfold Placed at hpl
  revert h3
  cases hs : (st.procs i).s <;> simp only
  · intro h3
    have hmem := hpl.1.mpr hs
    have := hknew i hmem
    exact ⟨h3.1, h3.2.1, by omega, fun c => absurd hmem c⟩
  · exact id
  · intro h3
    have hr := hpl.2.2.2.2.mpr hs
    have := hkrun i hr
    exact ⟨h3.1, h3.2.1, h3.2.2.1, fun _ => this⟩
  · intro h3
    have hmem := hpl.2.2.1.mpr hs
    exact ⟨h3.1, h3.2.1, h3.2.2.1, fun _ => hkwait i hmem⟩
  · exact id

theorem sum_range_lt (n : Nat) (f g : Nat → Nat) (hle : ∀ i, i < n → f i ≤ g i)
    (hlt : ∃ i, i < n ∧ f i < g i) :
    ((List.range n).map f).sum < ((List.range n).map g).sum := by
  induction n with
  | zero =>
    obtain ⟨i, hi, -⟩ := hlt
    omega
  | succ n ih =>
    rw [List.range_succ, List.map_append, List.map_append, List.sum_append, List.sum_append]
    simp only [List.map_cons, List.map_nil, List.sum_cons, List.sum_nil, add_zero]
    obtain ⟨i, hi, hfi⟩ := hlt
    have hn := hle n (Nat.lt_succ_self n)
    by_cases hin : i = n
    · subst hin
      have : ((List.range i).map f).sum ≤ ((List.range i).map g).sum := by
        apply List.sum_le_sum
        intro j hj
        exact hle j (Nat.lt_succ_of_lt (List.mem_range.mp hj))
      omega
    · have := ih (fun j hj => hle j (Nat.lt_succ_of_lt hj)) ⟨i, by omega, hfi⟩
      omega

/-- Advancing the clock by a step of at least 1 that oversteps no arrival and no I/O
completion reduces the total wait, if a node is NEW or WAITING. -/
theorem wait_decreases (rows : List (Int × Int × Int × Int × Int)) (m0 d0 : Nat)
    (strict : Bool) (st : Sim) (h : Mid rows m0 d0 strict [] [] false st) (k : Int)
    (hk1 : 1 ≤ k)
    (hknew : ∀ i ∈ st.new_list, k ≤ (st.procs i).arrival_time - st.cpu_clock)
    (hsome : st.new_list ≠ [] ∨ st.waiting_list ≠ []) :
    totalWait rows.length (advance { st with next_step := k }) st.waiting_list <
      totalWait rows.length { st with next_step := k } [] := by
  unfold totalWait
  apply sum_range_lt
  · intro i hi
    obtain ⟨-, hpl, -, -⟩ := h.node i hi
    unfold waitLeft
    simp only [advance, List.not_mem_nil, if_false]
    cases hs : (st.procs i).s <;> simp only
    · omega
    · exact le_refl _
    · exact le_refl _
    · have hmem := hpl.2.2.1.mpr hs
      simp only [hmem, if_true]
      omega
    · exact le_refl _
  · have key : ∀ i, i < rows.length →
        (st.procs i).s = STATE_NEW ∨ (st.procs i).s = STATE_WAITING →
        waitLeft (advance { st with next_step := k }) st.waiting_list i <
          waitLeft { st with next_step := k } [] i := by
      intro i hi hs
      obtain ⟨-, hpl, htm, -⟩ := h.node i hi
      unfold Timers at htm
      unfold waitLeft
      simp only [advance, List.not_mem_nil, if_false]
      rcases hs with hs | hs
      · simp only [hs] at htm ⊢
        have := htm.2.2.2.2 (by simp)
        have := hknew i (hpl.1.mpr hs)
        omega
      · simp only [hs] at htm ⊢
        have hmem := hpl.2.2.1.mpr hs
        simp only [hmem, if_true]
        have := htm.2.2.1
        omega
    rcases hsome with hn | hw
    · obtain ⟨i, hi⟩ := List.exists_mem_of_ne_nil _ hn
      have hlt := h.lt_new i hi
      obtain ⟨-, hpl, -, -⟩ := h.node i hlt
      exact ⟨i, hlt, key i hlt (Or.inl (hpl.1.mp hi))⟩
    · obtain ⟨i, hi⟩ := List.exists_mem_of_ne_nil _ hw
      have hlt := h.lt_waiting i hi
      obtain ⟨-, hpl, -, -⟩ := h.node i hlt
      exact ⟨i, hlt, key i hlt (Or.inr (hpl.2.2.1.mp hi))⟩

/-- One pass of the loop body from a state satisfying the invariant: it does not fault,
re-establishes the invariant, never increases the work left, and, when the step taken was
at least 1 and a node was NEW, WAITING or RUNNING, reduces the work left or the wait. -/
theorem loopBody_head (rows : List (Int × Int × Int × Int × Int)) (strict : Bool) (st : Sim)
    (h : HeadInv rows strict st) :
    ∃ st1, loopBody st = some st1 ∧ HeadInv rows false st1 ∧
      (simulation_completed st1 = false → HeadInv rows true st1) ∧
      totalWork rows.length st1.procs ≤ totalWork rows.length st.procs ∧
      (strict = true →
        totalWork rows.length st1.procs < totalWork rows.length st.procs ∨
        totalWait rows.length st1 [] < totalWait rows.length st []) := by
  unfold HeadInv at h
  obtain ⟨s1, e1, m1, en, -⟩ :=
    scanWaiting_mid rows _ _ strict st.new_list true st.waiting_list (advance st) h
  have en1 : s1.new_list = st.new_list := en
  rw [← en1] at m1
  obtain ⟨s2, e2, m2, -⟩ := scanNew_mid rows _ _ strict [] true s1.new_list s1 m1
  obtain ⟨s3, e3, m3, hidle⟩ := cpuStep_mid rows _ _ strict s2 m2
  have hbody : loopBody st = some { s3 with next_step := get_time_to_next_event s3.procs s3.cpu_clock s3.running s3.new_list s3.waiting_list } := by
    unfold loopBody
    unfold advance at e1
    simp only [e1, e2, e3]
  have hwait : totalWait rows.length { s3 with next_step := get_time_to_next_event s3.procs s3.cpu_clock s3.running s3.new_list s3.waiting_list } [] = totalWait rows.length s3 [] := by
    apply totalWait_congr
    intro i _
    unfold waitLeft
    simp
  refine ⟨_, hbody, nextStep_head rows _ _ strict s3 m3 false (fun c => by cases c), ?_,
    m3.work_le, ?_⟩
  · intro hnc
    apply nextStep_head rows _ _ strict s3 m3 true
    intro _
    cases hrun : s3.running with
    | some r => exact Or.inr (by simp)
    | none =>
      left
      have hready := hidle hrun
      have hb := get_time_to_next_event_bounds s3.procs s3.cpu_clock s3.running s3.new_list
        s3.waiting_list
        (fun r hr => by rw [hrun] at hr; cases hr)
        (fun i hi => by
          have hlt := m3.lt_new i hi
          obtain ⟨-, hpl, htm, -⟩ := m3.node i hlt
          have hs := hpl.1.mp hi
          unfold Timers at htm
          simp only [hs] at htm
          have := htm.2.2.2.2 (by simp)
          omega)
        (fun i hi => by
          have hlt := m3.lt_waiting i hi
          obtain ⟨-, hpl, htm, -⟩ := m3.node i hlt
          have hs := hpl.2.2.1.mp hi
          unfold Timers at htm
          simp only [hs] at htm
          exact htm.2.2.1)
      rw [← hrun]
      refine wait_decreases rows _ _ strict s3 m3 _ hb.1 hb.2.2.1 ?_
      by_contra hcon
      simp only [not_or, not_not] at hcon
      simp [simulation_completed, hready, hcon.1, hcon.2, hrun] at hnc
  · intro c
    rcases Mid.done m3 c with hq | hq
    · exact Or.inl hq
    · exact Or.inr (by rw [hwait]; exact hq)

/-- The invariant holds after any number of passes, and no pass faults. -/
theorem passes_head (rows : List (Int × Int × Int × Int × Int)) (k : Nat) (strict : Bool)
    (st : Sim) (h : HeadInv rows strict st) :
    ∃ st1, passes k st = some st1 ∧ HeadInv rows false st1 := by
  induction k generalizing st strict with
  | zero =>
    refine ⟨st, rfl, ?_⟩
    unfold HeadInv at h ⊢
    exact { h with
      strict_step := fun c => by cases c
      progress := fun c => by cases c }
  | succ k ih =>
    obtain ⟨s1, e1, h1, -⟩ := loopBody_head rows strict st h
    unfold passes
    simp only [e1]
    split
    · exact ⟨s1, rfl, h1⟩
    · exact ih false s1 h1

/-- From a state whose next step is at least 1, the loop is left after finitely many
passes: every pass reduces the pair (work left, wait) in the lexicographic order. -/
theorem mainLoop_terminates (rows : List (Int × Int × Int × Int × Int)) (m : Nat) :
    ∀ (d : Nat) (st : Sim), HeadInv rows true st →
      totalWork rows.length st.procs ≤ m → totalWait rows.length st [] ≤ d →
      ∃ fuel st1, mainLoop fuel st = some st1 ∧ HeadInv rows false st1 ∧
        simulation_completed st1 = true := by
  induction m using Nat.strong_induction_on with
  | _ m ihm =>
    intro d
    induction d using Nat.strong_induction_on with
    | _ d ihd =>
      intro st h hm hd
      obtain ⟨s1, e1, h1, h2, hle, hlt⟩ := loopBody_head rows true st h
      cases hc : simulation_completed s1 with
      | true =>
        refine ⟨1, s1, ?_, h1, hc⟩
        simp [mainLoop, e1, hc]
      | false =>
        have hnext : ∀ fuel, mainLoop (fuel + 1) st = mainLoop fuel s1 := by
          intro fuel
          simp [mainLoop, e1, hc]
        rcases hlt rfl with hq | hq
        · obtain ⟨fuel, s2, e2, h3, hc2⟩ :=
            ihm (totalWork rows.length s1.procs) (by omega) (totalWait rows.length s1 []) s1
              (h2 hc) (le_refl _) (le_refl _)
          exact ⟨fuel + 1, s2, by rw [hnext]; exact e2, h3, hc2⟩
        · obtain ⟨fuel, s2, e2, h3, hc2⟩ :=
            ihd (totalWait rows.length s1 []) (by omega) s1 (h2 hc) (by omega) (le_refl _)
          exact ⟨fuel + 1, s2, by rw [hnext]; exact e2, h3, hc2⟩

/-- The loop is left after finitely many passes, in a state satisfying the invariant. -/
theorem mainLoop_init (rows : List (Int × Int × Int × Int × Int)) (hv : ValidRows rows) :
    ∃ fuel st1, mainLoop fuel (initSim rows) = some st1 ∧
      HeadInv rows false st1 ∧ simulation_completed st1 = true := by
  obtain ⟨s1, e1, h1, h2, -, -⟩ := loopBody_head rows false (initSim rows) (headInv_init rows hv)
  cases hc : simulation_completed s1 with
  | true =>
    refine ⟨1, s1, ?_, h1, hc⟩
    simp [mainLoop, e1, hc]
  | false =>
    obtain ⟨fuel, s2, e2, h3, hc2⟩ :=
      mainLoop_terminates rows _ _ s1 (h2 hc) (le_refl _) (le_refl _)
    refine ⟨fuel + 1, s2, ?_, h3, hc2⟩
    simp [mainLoop, e1, hc, e2]

/-! ### From linked lines to the life-cycle word -/

theorem readyLife_eq (k : Nat) : readyLife k =
    (List.replicate k
        [(STATE_READY, STATE_RUNNING), (STATE_RUNNING, STATE_WAITING),
         (STATE_WAITING, STATE_READY)]).flatten ++
      [(STATE_READY, STATE_RUNNING), (STATE_RUNNING, STATE_TERMINATED)] := by
  induction k with
  | zero => simp [readyLife]
  | succ k ih => simp [readyLife, List.replicate_succ, ih]

theorem lifecycle_eq_lifeFrom (k : Nat) : lifecycle k = lifeFrom STATE_NEW k := by
  simp [lifecycle, lifeFrom, readyLife_eq]

theorem readyLife_cons (k : Nat) :
    readyLife k = (STATE_READY, STATE_RUNNING) :: lifeFrom STATE_RUNNING k := by
  cases k <;> simp [readyLife, lifeFrom]

/-- Linked lines spell a prefix of a life-cycle word. -/
theorem linked_prefix (s : STATE) (l : List Line) (h : linkedFrom s l = true) :
    ∃ m, moves l <+: lifeFrom s m := by
  induction l generalizing s with
  | nil => exact ⟨0, List.nil_prefix⟩
  | cons r rs ih =>
    simp only [linkedFrom, Bool.and_eq_true, beq_iff_eq] at h
    obtain ⟨⟨⟨ho, -⟩, hm⟩, hl⟩ := h
    obtain ⟨m, hp⟩ := ih _ hl
    have hmv : moves (r :: rs) = (s, r.new_state) :: moves rs := by
      simp [moves, ho]
    rw [hmv]
    rw [ho] at hm
    cases s <;> cases hn : r.new_state <;> rw [hn] at hm hp <;>
      simp only [legalMove, Bool.false_eq_true] at hm
    · exact ⟨m, by simpa [lifeFrom, List.cons_prefix_cons] using hp⟩
    · refine ⟨m, ?_⟩
      simp only [lifeFrom]
      rw [readyLife_cons, List.cons_prefix_cons]
      exact ⟨rfl, hp⟩
    · refine ⟨m + 1, ?_⟩
      simp only [lifeFrom, readyLife, List.tail_cons, List.cons_prefix_cons, true_and]
      simpa [lifeFrom] using hp
    · refine ⟨0, ?_⟩
      simp only [lifeFrom, readyLife, List.tail_cons, List.cons_prefix_cons, true_and]
      simpa [lifeFrom] using hp
    · exact ⟨m, by simpa [lifeFrom, List.cons_prefix_cons] using hp⟩

/-- In linked lines the printed old state is the value the state field had. -/
theorem linked_was (s : STATE) (l : List Line) (h : linkedFrom s l = true) :
    ∀ r ∈ l, r.old_state = r.was := by
  induction l generalizing s with
  | nil => intro r hr; cases hr
  | cons a rs ih =>
    simp only [linkedFrom, Bool.and_eq_true, beq_iff_eq] at h
    obtain ⟨⟨⟨ho, hw⟩, -⟩, hl⟩ := h
    intro r hr
    rcases List.mem_cons.mp hr with e | e
    · rw [e, ho, hw]
    · exact ih _ hl r e

/-- In linked lines nothing follows a line that ends in TERMINATED. -/
theorem linked_terminated_last (s : STATE) (l1 l2 : List Line) (r : Line)
    (h : linkedFrom s (l1 ++ r :: l2) = true) (hr : r.new_state = STATE_TERMINATED) :
    l2 = [] := by
  induction l1 generalizing s with
  | nil =>
    simp only [List.nil_append, linkedFrom, Bool.and_eq_true, beq_iff_eq] at h
    cases l2 with
    | nil => rfl
    | cons a l2 =>
      exfalso
      have h2 := h.2
      simp only [linkedFrom, Bool.and_eq_true, beq_iff_eq] at h2
      obtain ⟨⟨⟨ho, -⟩, hm⟩, -⟩ := h2
      rw [ho, hr] at hm
      cases hn : a.new_state <;> rw [hn] at hm <;> simp [legalMove] at hm
  | cons a l1 ih =>
    simp only [List.cons_append, linkedFrom, Bool.and_eq_true] at h
    exact ih _ h.2

/-! ### The claims about the event-skip engine -/

/-- C2: for every input with arrival_time >= 0, total_cpu_time > 0, io_frequency > 0 and
io_duration > 0, at every point of the run (after any number of passes of the loop, none
of which faults) and for every process: its lines, in log order, spell a prefix of
NEW->READY, (READY->RUNNING, RUNNING->WAITING, WAITING->READY)*, READY->RUNNING,
RUNNING->TERMINATED; each line's old state is the new state of the line before it (NEW
for the first) and equals the value of the process's `s` field just before the
transition; and no line follows its RUNNING->TERMINATED line. -/
theorem c2_skip_lines_follow_lifecycle (rows : List (Int × Int × Int × Int × Int))
    (hv : ValidRows rows) (k i : Nat) (hi : i < rows.length) :
    ∃ st, passes k (initSim rows) = some st ∧
      (∃ m, moves (linesOf i st.log) <+: lifecycle m) ∧
      linkedFrom STATE_NEW (linesOf i st.log) = true ∧
      (∀ r ∈ linesOf i st.log, r.old_state = r.was) ∧
      (∀ l1 l2 r, linesOf i st.log = l1 ++ r :: l2 →
        r.new_state = STATE_TERMINATED → l2 = []) := by
  obtain ⟨st, e, h⟩ := passes_head rows k false (initSim rows) (headInv_init rows hv)
  unfold HeadInv at h
  obtain ⟨-, -, -, hl⟩ := h.node i hi
  have hlink : linkedFrom STATE_NEW (linesOf i st.log) = true := hl.1
  refine ⟨st, e, ?_, hlink, linked_was _ _ hlink, ?_⟩
  · obtain ⟨m, hm⟩ := linked_prefix _ _ hlink
    exact ⟨m, by rw [lifecycle_eq_lifeFrom]; exact hm⟩
  · intro l1 l2 r hsplit hr
    rw [hsplit] at hlink
    exact linked_terminated_last _ l1 l2 r hlink hr

/-- C2 on the single row `(1, 0, 10, 5, 4)` after four passes: the process has run, blocked
and come back to READY. -/
theorem c2_skip_lines_follow_lifecycle_witness :
    ValidRows rowsOneBlock ∧ 0 < rowsOneBlock.length ∧
    ∃ st, passes 4 (initSim rowsOneBlock) = some st ∧
      (∃ m, moves (linesOf 0 st.log) <+: lifecycle m) ∧
      linkedFrom STATE_NEW (linesOf 0 st.log) = true ∧
      (∀ r ∈ linesOf 0 st.log, r.old_state = r.was) ∧
      (∀ l1 l2 r, linesOf 0 st.log = l1 ++ r :: l2 →
        r.new_state = STATE_TERMINATED → l2 = []) :=
  ⟨by decide, by decide, c2_skip_lines_follow_lifecycle rowsOneBlock (by decide) 4 0 (by decide)⟩

/-- C4: for every input with arrival_time >= 0, total_cpu_time > 0, io_frequency > 0 and
io_duration > 0, the do-while loop is left after finitely many passes without a fault,
and on exit the ready list, the new list, the waiting list and the running slot are
empty, the terminated list holds every loaded process exactly once, and every loaded
process has state TERMINATED. -/
theorem c4_skip_terminates_and_conserves (rows : List (Int × Int × Int × Int × Int))
    (hv : ValidRows rows) :
    ∃ fuel st, mainLoop fuel (initSim rows) = some st ∧
      st.ready_list = [] ∧ st.new_list = [] ∧ st.waiting_list = [] ∧ st.running = none ∧
      st.terminated.Perm (List.range rows.length) ∧
      ∀ i, i < rows.length → (st.procs i).s = STATE_TERMINATED := by
  obtain ⟨fuel, st, e, h, hc⟩ := mainLoop_init rows hv
  unfold HeadInv at h
  simp only [simulation_completed, Bool.and_eq_true, List.isEmpty_iff,
    Option.isNone_iff_eq_none] at hc
  obtain ⟨⟨⟨hr, hn⟩, hw⟩, hrun⟩ := hc
  have hterm : ∀ i, i < rows.length → (st.procs i).s = STATE_TERMINATED := by
    intro i hi
    obtain ⟨-, hpl, -, -⟩ := h.node i hi
    unfold Placed at hpl
    simp only [advance] at hpl
    rw [hr, hn, hw, hrun] at hpl
    cases hs : (st.procs i).s
    · exact absurd (hpl.1.mpr hs) (by simp)
    · exact absurd (hpl.2.1.mpr hs) (by simp)
    · exact absurd (hpl.2.2.2.2.mpr hs) (by simp)
    · exact absurd (hpl.2.2.1.mpr hs) (by simp)
    · rfl
  refine ⟨fuel, st, e, hr, hn, hw, hrun, ?_, hterm⟩
  have hnd : st.terminated.Nodup := h.nd_term
  rw [List.perm_ext_iff_of_nodup hnd (List.nodup_range _)]
  intro a
  constructor
  · intro ha
    exact List.mem_range.mpr (h.lt_term a ha)
  · intro ha
    have hlt := List.mem_range.mp ha
    obtain ⟨-, hpl, -, -⟩ := h.node a hlt
    exact hpl.2.2.2.1.mpr (hterm a hlt)

/-- C4 on the three rows of `rowsHeadPick`. -/
theorem c4_skip_terminates_and_conserves_witness :
    ValidRows rowsHeadPick ∧
    ∃ fuel st, mainLoop fuel (initSim rowsHeadPick) = some st ∧
      st.ready_list = [] ∧ st.new_list = [] ∧ st.waiting_list = [] ∧ st.running = none ∧
      st.terminated.Perm (List.range rowsHeadPick.length) ∧
      ∀ i, i < rowsHeadPick.length → (st.procs i).s = STATE_TERMINATED :=
  ⟨by decide, c4_skip_terminates_and_conserves rowsHeadPick (by decide)⟩

/-- C6, evaluated on the rows `(1,0,10,5,4)`, `(2,1,20,30,1)`, `(3,2,3,30,1)`, which meet
the data model: after three
passes (clock 2) node 0 runs and the ready list is node 1 (total 20), node 2 (total 3).
In the fourth pass (clock 5) node 0 blocks for I/O and the loop prints READY->RUNNING
for node 1, the head of the ready list, although `get_next_process` on that list returns
node 2, whose total CPU time 3 is smaller than 20. -/
theorem c6_block_redispatch_takes_list_head :
    ValidRows rowsHeadPick ∧
    (passes 3 (initSim rowsHeadPick)).map (fun st => (st.cpu_clock, st.running, st.ready_list))
      = some (2, some 0, [1, 2]) ∧
    (passes 4 (initSim rowsHeadPick)).map
        (fun st => (st.cpu_clock, st.running, st.ready_list, st.log.drop 4))
      = some (5, some 1, [2],
          [⟨5, 1, STATE_RUNNING, STATE_WAITING, 0, STATE_RUNNING⟩,
           ⟨5, 2, STATE_READY, STATE_RUNNING, 1, STATE_READY⟩]) ∧
    get_next_process (loadProcs rowsHeadPick) [1, 2] = some 2 ∧
    (loadProcs rowsHeadPick 2).total_cpu_time = 3 ∧
    (loadProcs rowsHeadPick 1).total_cpu_time = 20 := by
  decide

/-! ### The step is positive -/

theorem loopBody_next_step (st st1 : Sim) (h : loopBody st = some st1) :
    st1.next_step =
      get_time_to_next_event st1.procs st1.cpu_clock st1.running st1.new_list
        st1.waiting_list := by
  unfold loopBody at h
  simp only at h
  split at h
  · exact absurd h (by simp)
  · split at h
    · exact absurd h (by simp)
    · split at h
      · exact absurd h (by simp)
      · simp only [Option.some.injEq] at h
        subst h
        rfl

theorem get_time_to_next_event_idle (procs : Procs) (cpu_clock : Int) :
    get_time_to_next_event procs cpu_clock none [] [] = INT_MAX := by
  simp [get_time_to_next_event, cmin, INT_MAX]

/-- After a pass of the loop on an input that meets the data model the step is at
least 1. -/
theorem loopBody_step_pos (rows : List (Int × Int × Int × Int × Int)) (strict : Bool)
    (st st1 : Sim) (h : HeadInv rows strict st) (hb : loopBody st = some st1) :
    1 ≤ st1.next_step := by
  obtain ⟨st2, h2, _, hstrict, _⟩ := loopBody_head rows strict st h
  rw [hb] at h2
  simp only [Option.some.injEq] at h2
  subst h2
  by_cases hc : simulation_completed st1 = true
  · rw [loopBody_next_step st st1 hb]
    simp only [simulation_completed, Bool.and_eq_true, List.isEmpty_iff,
      Option.isNone_iff_eq_none] at hc
    rw [hc.1.1.2, hc.1.2, hc.2, get_time_to_next_event_idle]
    exact int_max_pos
  · have hc1 : simulation_completed st1 = false := by simpa using hc
    exact (hstrict hc1).strict_step rfl

/-- On an input that meets the data model every call of `get_time_to_next_event` made by
the loop returns at least 1: the step is at least 1 after every pass. -/
theorem passes_step_pos (rows : List (Int × Int × Int × Int × Int)) (k : Nat) :
    ∀ (strict : Bool) (st : Sim), HeadInv rows strict st →
      ∃ st1, passes (k + 1) st = some st1 ∧ 1 ≤ st1.next_step := by
  induction k with
  | zero =>
    intro strict st h
    obtain ⟨st1, h1, _⟩ := loopBody_head rows strict st h
    refine ⟨st1, ?_, loopBody_step_pos rows strict st st1 h h1⟩
    simp [passes, h1]
  | succ k ih =>
    intro strict st h
    obtain ⟨st1, h1, hh, _⟩ := loopBody_head rows strict st h
    by_cases hc : simulation_completed st1 = true
    · refine ⟨st1, ?_, loopBody_step_pos rows strict st st1 h h1⟩
      rw [passes, h1]
      simp [hc]
    · obtain ⟨st2, h2, hpos⟩ := ih false st1 hh
      refine ⟨st2, ?_, hpos⟩
      rw [passes, h1]
      simp only [hc]
      exact h2

theorem get_time_to_next_event_le_max (procs : Procs) (cpu_clock : Int) (running : Option Nat)
    (new_list waiting_list : NodeList) :
    get_time_to_next_event procs cpu_clock running new_list waiting_list ≤ INT_MAX := by
  unfold get_time_to_next_event
  simp only
  have h := foldl_cmin_le_init (fun i => (procs i).io_time_remaining) waiting_list INT_MAX
  split
  · decide
  · rw [cmin_eq_min]
    refine le_trans (min_le_right _ _) ?_
    rw [cmin_eq_min]
    exact le_trans (min_le_right _ _) h

/-! ### `get_next_process` picks the first minimum -/

/-- The `while` loop of `get_next_process`, from `next_process = m` over the nodes `l`
still to visit; `a` and `b` are the nodes visited before and after `m`. -/
theorem foldl_pick_first_min (procs : Procs) (l : NodeList) :
    ∀ (a b : NodeList) (m : Nat),
      (∀ x ∈ a, (procs m).total_cpu_time < (procs x).total_cpu_time) →
      (∀ x ∈ b, (procs m).total_cpu_time ≤ (procs x).total_cpu_time) →
      ∃ pre post, a ++ m :: b ++ l =
          pre ++ l.foldl (fun next_process current =>
            if (procs current).total_cpu_time < (procs next_process).total_cpu_time
            then current else next_process) m :: post ∧
        (∀ x ∈ pre, (procs (l.foldl (fun next_process current =>
            if (procs current).total_cpu_time < (procs next_process).total_cpu_time
            then current else next_process) m)).total_cpu_time < (procs x).total_cpu_time) ∧
        (∀ x ∈ post, (procs (l.foldl (fun next_process current =>
            if (procs current).total_cpu_time < (procs next_process).total_cpu_time
            then current else next_process) m)).total_cpu_time ≤ (procs x).total_cpu_time) := by
  induction l with
  | nil =>
    intro a b m ha hb
    exact ⟨a, b, by simp, ha, hb⟩
  | cons c l ih =>
    intro a b m ha hb
    simp only [List.foldl_cons]
    by_cases hc : (procs c).total_cpu_time < (procs m).total_cpu_time
    · rw [if_pos hc]
      obtain ⟨pre, post, he, h1, h2⟩ := ih (a ++ m :: b) [] c
        (by
          intro x hx
          simp only [List.mem_append, List.mem_cons] at hx
          rcases hx with hx | hx | hx
          · exact lt_trans hc (ha x hx)
          · subst hx; exact hc
          · exact lt_of_lt_of_le hc (hb x hx))
        (by intro x hx; cases hx)
      refine ⟨pre, post, ?_, h1, h2⟩
      rw [← he]
      simp
    · rw [if_neg hc]
      obtain ⟨pre, post, he, h1, h2⟩ := ih a (b ++ [c]) m ha
        (by
          intro x hx
          simp only [List.mem_append, List.mem_singleton] at hx
          rcases hx with hx | hx
          · exact hb x hx
          · subst hx; exact not_lt.mp hc)
      refine ⟨pre, post, ?_, h1, h2⟩
      rw [← he]
      simp

/-- C12: `get_next_process` returns `NULL` for the empty list; for a list `h :: rest` it
returns a node `r` of the list, at a position `pre ++ r :: post`, whose `total_cpu_time` is
at most that of every node of the list and strictly less than that of every node before
it.  The function has no other result: it writes to neither a node nor a process. -/
theorem c12_get_next_process_first_minimum (procs : Procs) :
    get_next_process procs [] = none ∧
    ∀ (h : Nat) (rest : NodeList), ∃ r pre post,
      get_next_process procs (h :: rest) = some r ∧
      h :: rest = pre ++ r :: post ∧
      (∀ x ∈ h :: rest, (procs r).total_cpu_time ≤ (procs x).total_cpu_time) ∧
      (∀ x ∈ pre, (procs r).total_cpu_time < (procs x).total_cpu_time) := by
  refine ⟨rfl, ?_⟩
  intro h rest
  obtain ⟨pre, post, he, h1, h2⟩ := foldl_pick_first_min procs rest [] [] h
    (by intro x hx; cases hx) (by intro x hx; cases hx)
  have hf : get_next_process procs (h :: rest) = some (rest.foldl (fun next_process current =>
      if (procs current).total_cpu_time < (procs next_process).total_cpu_time
      then current else next_process) h) := by
    simp [get_next_process]
  refine ⟨_, pre, post, hf, ?_, ?_, h1⟩
  · simpa using he
  · intro x hx
    have hx1 : x ∈ pre ++ rest.foldl (fun next_process current =>
        if (procs current).total_cpu_time < (procs next_process).total_cpu_time
        then current else next_process) h :: post := by
      rw [← he]; simpa using hx
    simp only [List.mem_append, List.mem_cons] at hx1
    rcases hx1 with hx1 | hx1 | hx1
    · exact le_of_lt (h1 x hx1)
    · rw [hx1]
    · exact h2 x hx1

/-! ### Containers, on every input -/

/-- `Housed` survives a change of state of one node `j` that keeps the lists
duplicate-free and leaves `j` in the container its state names. -/
theorem Housed.relocate {n : Nat} {wt nt wt1 nt1 : NodeList} {st st1 : Sim} {j : Nat}
    (h : Housed n wt nt st) (hj : j < n) (fr : Frame j st st1)
    (hnd_new : st1.new_list.Nodup) (hnd_ready : st1.ready_list.Nodup)
    (hnd_waiting : st1.waiting_list.Nodup) (hnd_term : st1.terminated.Nodup)
    (hwt : ∀ i, i ≠ j → (i ∈ wt1 ↔ i ∈ wt)) (hwtj : j ∈ wt1 → j ∈ st1.waiting_list)
    (hwt_nd : wt1.Nodup)
    (hnt : ∀ i, i ≠ j → (i ∈ nt1 ↔ i ∈ nt)) (hntj : j ∈ nt1 → j ∈ st1.new_list)
    (hnt_nd : nt1.Nodup)
    (hpl : Placed st1 j) :
    Housed n wt1 nt1 st1 := by
  refine
    { nd_new := hnd_new
      nd_ready := hnd_ready
      nd_waiting := hnd_waiting
      nd_term := hnd_term
      wt_sub := ?_
      wt_nd := hwt_nd
      nt_sub := ?_
      nt_nd := hnt_nd
      lt_new := ?_
      lt_ready := ?_
      lt_waiting := ?_
      lt_term := ?_
      lt_run := ?_
      placed := ?_ }
  · intro i hi
    by_cases hij : i = j
    · subst hij; exact hwtj hi
    · exact (fr.waiting_list i hij).mpr (h.wt_sub i ((hwt i hij).mp hi))
  · intro i hi
    by_cases hij : i = j
    · subst hij; exact hntj hi
    · exact (fr.new_list i hij).mpr (h.nt_sub i ((hnt i hij).mp hi))
  · intro i hi
    by_cases hij : i = j
    · subst hij; exact hj
    · exact h.lt_new i ((fr.new_list i hij).mp hi)
  · intro i hi
    by_cases hij : i = j
    · subst hij; exact hj
    · exact h.lt_ready i ((fr.ready_list i hij).mp hi)
  · intro i hi
    by_cases hij : i = j
    · subst hij; exact hj
    · exact h.lt_waiting i ((fr.waiting_list i hij).mp hi)
  · intro i hi
    by_cases hij : i = j
    · subst hij; exact hj
    · exact h.lt_term i ((fr.terminated i hij).mp hi)
  · intro i hi
    by_cases hij : i = j
    · subst hij; exact hj
    · exact h.lt_run i ((fr.running i hij).mp hi)
  · intro i hi
    by_cases hij : i = j
    · subst hij; exact hpl
    · exact placed_frame fr hij (h.placed i hi)

/-- A node in state `s` is in none of the containers of the other states. -/
theorem Placed.elsewhere {st : Sim} {i : Nat} (h : Placed st i) :
    ((st.procs i).s ≠ STATE_NEW → i ∉ st.new_list) ∧
    ((st.procs i).s ≠ STATE_READY → i ∉ st.ready_list) ∧
    ((st.procs i).s ≠ STATE_WAITING → i ∉ st.waiting_list) ∧
    ((st.procs i).s ≠ STATE_TERMINATED → i ∉ st.terminated) ∧
    ((st.procs i).s ≠ STATE_RUNNING → st.running ≠ some i) :=
  ⟨fun hs c => hs (h.1.mp c), fun hs c => hs (h.2.1.mp c), fun hs c => hs (h.2.2.1.mp c),
    fun hs c => hs (h.2.2.2.1.mp c), fun hs c => hs (h.2.2.2.2.mp c)⟩

/-- The scan of the waiting list never fails and keeps every node housed. -/
theorem scanWaiting_housed (n : Nat) (nt : NodeList) (wt : NodeList) (st : Sim)
    (h : Housed n wt nt st) :
    ∃ st1, scanWaiting wt st = some st1 ∧ Housed n [] nt st1 ∧
      st1.new_list = st.new_list ∧ st1.running = st.running := by
  induction wt generalizing st with
  | nil => exact ⟨st, rfl, h, rfl, rfl⟩
  | cons node rest ih =>
    have hmem : node ∈ st.waiting_list := h.wt_sub node (List.mem_cons_self _ _)
    have hlt : node < n := h.lt_waiting node hmem
    have hpl := h.placed node hlt
    have hs : (st.procs node).s = STATE_WAITING := hpl.2.2.1.mp hmem
    have hnotrest : node ∉ rest := (List.nodup_cons.mp h.wt_nd).1
    have hrest_nd : rest.Nodup := (List.nodup_cons.mp h.wt_nd).2
    have hwt1 : ∀ i, i ≠ node → (i ∈ rest ↔ i ∈ node :: rest) := by
      intro i hi
      simp [hi]
    obtain ⟨hnew, hready, -, hterm, hrun⟩ := hpl.elsewhere
    have hnew := hnew (by rw [hs]; decide)
    have hready := hready (by rw [hs]; decide)
    have hterm := hterm (by rw [hs]; decide)
    have hrun := hrun (by rw [hs]; decide)
    unfold scanWaiting
    simp only
    by_cases hdone : (st.procs node).io_time_remaining - st.next_step ≤ 0
    · simp only [hdone, if_true, remove_node_of_mem _ _ hmem]
      apply (fun hm => let ⟨s2, e, m, e1, e2⟩ := ih _ hm; ⟨s2, e, m, e1, e2⟩)
      refine Housed.relocate h hlt (j := node) ?_ h.nd_new (nodup_push_node h.nd_ready hready)
        (h.nd_waiting.erase node) h.nd_term hwt1 (fun c => absurd c hnotrest) hrest_nd
        (fun _ _ => Iff.rfl) (fun c => absurd (h.nt_sub node c) hnew) h.nt_nd ?_
      · exact
          { procs := fun i hi => by simp [Function.update_noteq hi]
            new_list := fun i hi => Iff.rfl
            ready_list := fun i hi => by simp [mem_push_node, hi]
            waiting_list := fun i hi => by simp [List.mem_erase_of_ne hi]
            terminated := fun i hi => Iff.rfl
            running := fun i hi => Iff.rfl
            cpu_clock := rfl
            next_step := rfl }
      · unfold Placed
        simp only [Function.update_same, mem_push_node]
        refine ⟨by simp [hnew], by simp, ?_, by simp [hterm], by simp [hrun]⟩
        simp [h.nd_waiting.mem_erase_iff]
    · simp only [hdone, if_false]
      apply (fun hm => let ⟨s2, e, m, e1, e2⟩ := ih _ hm; ⟨s2, e, m, e1, e2⟩)
      have hfr : Frame node st { st with procs := Function.update st.procs node { (st.procs node) with io_time_remaining := (st.procs node).io_time_remaining - st.next_step } } :=
        { procs := fun i hi => by simp [Function.update_noteq hi]
          new_list := fun i hi => Iff.rfl
          ready_list := fun i hi => Iff.rfl
          waiting_list := fun i hi => Iff.rfl
          terminated := fun i hi => Iff.rfl
          running := fun i hi => Iff.rfl
          cpu_clock := rfl
          next_step := rfl }
      refine Housed.relocate h hlt (j := node) hfr h.nd_new h.nd_ready h.nd_waiting h.nd_term
        hwt1 (fun c => absurd c hnotrest) hrest_nd
        (fun _ _ => Iff.rfl) (fun c => h.nt_sub node c) h.nt_nd ?_
      unfold Placed at hpl ⊢
      simpa only [Function.update_same] using hpl

/-- The scan of the new list never fails and keeps every node housed. -/
theorem scanNew_housed (n : Nat) (wt : NodeList) (nt : NodeList) (st : Sim)
    (h : Housed n wt nt st) :
    ∃ st1, scanNew nt st = some st1 ∧ Housed n wt [] st1 ∧ st1.running = st.running := by
  induction nt generalizing st with
  | nil => exact ⟨st, rfl, h, rfl⟩
  | cons node rest ih =>
    have hmem : node ∈ st.new_list := h.nt_sub node (List.mem_cons_self _ _)
    have hlt : node < n := h.lt_new node hmem
    have hpl := h.placed node hlt
    have hs : (st.procs node).s = STATE_NEW := hpl.1.mp hmem
    have hnotrest : node ∉ rest := (List.nodup_cons.mp h.nt_nd).1
    have hrest_nd : rest.Nodup := (List.nodup_cons.mp h.nt_nd).2
    have hnt1 : ∀ i, i ≠ node → (i ∈ rest ↔ i ∈ node :: rest) := by
      intro i hi
      simp [hi]
    obtain ⟨-, hready, hwaiting, hterm, hrun⟩ := hpl.elsewhere
    have hready := hready (by rw [hs]; decide)
    have hwaiting := hwaiting (by rw [hs]; decide)
    have hterm := hterm (by rw [hs]; decide)
    have hrun := hrun (by rw [hs]; decide)
    unfold scanNew
    simp only
    by_cases hnow : (st.procs node).arrival_time = st.cpu_clock
    · simp only [if_pos hnow, remove_node_of_mem _ _ hmem]
      apply (fun hm => let ⟨s2, e, m, e1⟩ := ih _ hm; ⟨s2, e, m, e1⟩)
      refine Housed.relocate h hlt (j := node) ?_ (h.nd_new.erase node)
        (nodup_push_node h.nd_ready hready) h.nd_waiting h.nd_term
        (fun _ _ => Iff.rfl) (fun c => absurd (h.wt_sub node c) hwaiting) h.wt_nd
        hnt1 (fun c => absurd c hnotrest) hrest_nd ?_
      · exact
          { procs := fun i hi => by simp [Function.update_noteq hi]
            new_list := fun i hi => by simp [List.mem_erase_of_ne hi]
            ready_list := fun i hi => by simp [mem_push_node, hi]
            waiting_list := fun i hi => Iff.rfl
            terminated := fun i hi => Iff.rfl
            running := fun i hi => Iff.rfl
            cpu_clock := rfl
            next_step := rfl }
      · unfold Placed
        simp only [Function.update_same, mem_push_node]
        refine ⟨?_, by simp, by simp [hwaiting], by simp [hterm], by simp [hrun]⟩
        simp [h.nd_new.mem_erase_iff]
    · simp only [if_neg hnow]
      apply (fun hm => let ⟨s2, e, m, e1⟩ := ih _ hm; ⟨s2, e, m, e1⟩)
      exact Housed.relocate h hlt (j := node) (frame_refl node st) h.nd_new h.nd_ready
        h.nd_waiting h.nd_term (fun _ _ => Iff.rfl) (fun c => h.wt_sub node c) h.wt_nd
        hnt1 (fun c => absurd c hnotrest) hrest_nd hpl

/-- Dispatching a ready node on an idle CPU never fails and keeps every node housed. -/
theorem startRunning_housed (n : Nat) (st : Sim) (r : Nat)
    (h : Housed n [] [] st) (hidle : st.running = none) (hmem : r ∈ st.ready_list) :
    ∃ st1, startRunning st r = some st1 ∧ Housed n [] [] st1 ∧ st1.running = some r ∧
      st1.log = st.log ++
        [⟨st.cpu_clock, (st.procs r).pid, STATE_READY, STATE_RUNNING, r, (st.procs r).s⟩] := by
  have hlt : r < n := h.lt_ready r hmem
  have hpl := h.placed r hlt
  have hs : (st.procs r).s = STATE_READY := hpl.2.1.mp hmem
  obtain ⟨hnew, -, hwaiting, hterm, -⟩ := hpl.elsewhere
  have hnew := hnew (by rw [hs]; decide)
  have hwaiting := hwaiting (by rw [hs]; decide)
  have hterm := hterm (by rw [hs]; decide)
  unfold startRunning
  simp only [remove_node_of_mem _ _ hmem]
  refine ⟨_, rfl, ?_, rfl, rfl⟩
  refine Housed.relocate h hlt (j := r) ?_ h.nd_new (h.nd_ready.erase r) h.nd_waiting h.nd_term
    (fun _ _ => Iff.rfl) (fun c => by simp at c) List.nodup_nil
    (fun _ _ => Iff.rfl) (fun c => by simp at c) List.nodup_nil ?_
  · exact
      { procs := fun i hi => by simp [Function.update_noteq hi]
        new_list := fun i hi => Iff.rfl
        ready_list := fun i hi => by simp [List.mem_erase_of_ne hi]
        waiting_list := fun i hi => Iff.rfl
        terminated := fun i hi => Iff.rfl
        running := fun i hi => by
          simp only [hidle, Option.some.injEq]
          exact ⟨fun c => absurd c.symm hi, fun c => by cases c⟩
        cpu_clock := rfl
        next_step := rfl }
  · unfold Placed
    simp only [Function.update_same]
    refine ⟨by simp [hnew], ?_, by simp [hwaiting], by simp [hterm], by simp⟩
    simp [h.nd_ready.mem_erase_iff]

/-- Lines 437-439 followed by clearing the running slot keep every node housed. -/
theorem terminate_housed (n : Nat) (st : Sim) (run : Nat) (h : Housed n [] [] st)
    (hrun : st.running = some run) :
    Housed n [] [] { st with procs := Function.update st.procs run { (st.procs run) with cpu_time_remaining := (st.procs run).cpu_time_remaining - st.next_step, io_time_remaining := (st.procs run).io_time_remaining - st.next_step, s := STATE_TERMINATED }, terminated := push_node st.terminated run, log := st.log ++ [⟨st.cpu_clock, (st.procs run).pid, STATE_RUNNING, STATE_TERMINATED, run, (st.procs run).s⟩], running := none } := by
  have hlt : run < n := h.lt_run run hrun
  have hpl := h.placed run hlt
  have hs : (st.procs run).s = STATE_RUNNING := hpl.2.2.2.2.mp hrun
  obtain ⟨hnew, hready, hwaiting, hterm, -⟩ := hpl.elsewhere
  have hnew := hnew (by rw [hs]; decide)
  have hready := hready (by rw [hs]; decide)
  have hwaiting := hwaiting (by rw [hs]; decide)
  have hterm := hterm (by rw [hs]; decide)
  refine Housed.relocate h hlt (j := run) ?_ h.nd_new h.nd_ready h.nd_waiting
    (nodup_push_node h.nd_term hterm)
    (fun _ _ => Iff.rfl) (fun c => by simp at c) List.nodup_nil
    (fun _ _ => Iff.rfl) (fun c => by simp at c) List.nodup_nil ?_
  · exact
      { procs := fun i hi => by simp [Function.update_noteq hi]
        new_list := fun i hi => Iff.rfl
        ready_list := fun i hi => Iff.rfl
        waiting_list := fun i hi => Iff.rfl
        terminated := fun i hi => by simp [mem_push_node, hi]
        running := fun i hi =>
          ⟨fun c => (by cases c), fun c => (by rw [hrun] at c; cases c; exact absurd rfl hi)⟩
        cpu_clock := rfl
        next_step := rfl }
  · unfold Placed
    simp only [Function.update_same, mem_push_node]
    exact ⟨by simp [hnew], by simp [hready], by simp [hwaiting], by simp, by simp⟩

/-- Lines 454-457 followed by clearing the running slot keep every node housed. -/
theorem block_housed (n : Nat) (st : Sim) (run : Nat) (h : Housed n [] [] st)
    (hrun : st.running = some run) :
    Housed n [] [] { st with procs := Function.update st.procs run { (st.procs run) with cpu_time_remaining := (st.procs run).cpu_time_remaining - st.next_step, io_time_remaining := (st.procs run).io_duration, s := STATE_WAITING }, waiting_list := push_node st.waiting_list run, log := st.log ++ [⟨st.cpu_clock, (st.procs run).pid, STATE_RUNNING, STATE_WAITING, run, (st.procs run).s⟩], running := none } := by
  have hlt : run < n := h.lt_run run hrun
  have hpl := h.placed run hlt
  have hs : (st.procs run).s = STATE_RUNNING := hpl.2.2.2.2.mp hrun
  obtain ⟨hnew, hready, hwaiting, hterm, -⟩ := hpl.elsewhere
  have hnew := hnew (by rw [hs]; decide)
  have hready := hready (by rw [hs]; decide)
  have hwaiting := hwaiting (by rw [hs]; decide)
  have hterm := hterm (by rw [hs]; decide)
  refine Housed.relocate h hlt (j := run) ?_ h.nd_new h.nd_ready
    (nodup_push_node h.nd_waiting hwaiting) h.nd_term
    (fun _ _ => Iff.rfl) (fun c => by simp at c) List.nodup_nil
    (fun _ _ => Iff.rfl) (fun c => by simp at c) List.nodup_nil ?_
  · exact
      { procs := fun i hi => by simp [Function.update_noteq hi]
        new_list := fun i hi => Iff.rfl
        ready_list := fun i hi => Iff.rfl
        waiting_list := fun i hi => by simp [mem_push_node, hi]
        terminated := fun i hi => Iff.rfl
        running := fun i hi =>
          ⟨fun c => (by cases c), fun c => (by rw [hrun] at c; cases c; exact absurd rfl hi)⟩
        cpu_clock := rfl
        next_step := rfl }
  · unfold Placed
    simp only [Function.update_same, mem_push_node]
    exact ⟨by simp [hnew], by simp [hready], by simp, by simp [hterm], by simp⟩

/-- Lines 431-432 alone keep every node housed. -/
theorem runTick_housed (n : Nat) (st : Sim) (run : Nat) (h : Housed n [] [] st)
    (hrun : st.running = some run) :
    Housed n [] [] { st with procs := Function.update st.procs run { (st.procs run) with cpu_time_remaining := (st.procs run).cpu_time_remaining - st.next_step, io_time_remaining := (st.procs run).io_time_remaining - st.next_step } } := by
  have hlt : run < n := h.lt_run run hrun
  have hpl := h.placed run hlt
  have hfr : Frame run st { st with procs := Function.update st.procs run { (st.procs run) with cpu_time_remaining := (st.procs run).cpu_time_remaining - st.next_step, io_time_remaining := (st.procs run).io_time_remaining - st.next_step } } :=
    { procs := fun i hi => by simp [Function.update_noteq hi]
      new_list := fun i hi => Iff.rfl
      ready_list := fun i hi => Iff.rfl
      waiting_list := fun i hi => Iff.rfl
      terminated := fun i hi => Iff.rfl
      running := fun i hi => Iff.rfl
      cpu_clock := rfl
      next_step := rfl }
  refine Housed.relocate h hlt (j := run) hfr h.nd_new h.nd_ready h.nd_waiting h.nd_term
    (fun _ _ => Iff.rfl) (fun c => by simp at c) List.nodup_nil
    (fun _ _ => Iff.rfl) (fun c => by simp at c) List.nodup_nil ?_
  unfold Placed at hpl ⊢
  simpa only [Function.update_same] using hpl

/-- Lines 396-470 never fail and keep every node housed. -/
theorem cpuStep_housed (n : Nat) (st : Sim) (h : Housed n [] [] st) :
    ∃ st1, cpuStep st = some st1 ∧ Housed n [] [] st1 := by
  cases hrun : st.running with
  | none =>
    unfold cpuStep
    simp only [hrun]
    cases hg : get_next_process st.procs st.ready_list with
    | some r =>
      simp only []
      obtain ⟨st1, e, m, -, -⟩ :=
        startRunning_housed n st r h hrun (get_next_process_mem _ _ _ hg)
      exact ⟨st1, e, m⟩
    | none =>
      simp only []
      have h1 : Housed n [] st.new_list st :=
        { h with nt_sub := fun _ hi => hi, nt_nd := h.nd_new }
      obtain ⟨st1, e, m, er⟩ := scanNew_housed n [] st.new_list st h1
      rw [e]
      simp only []
      refine ⟨_, rfl, ?_⟩
      rw [clear_running_idle st1 (er.trans hrun)]
      exact m
  | some run =>
    unfold cpuStep
    simp only [hrun]
    by_cases hend : (st.procs run).cpu_time_remaining - st.next_step ≤ 0
    · simp only [if_pos hend]
      have hm := terminate_housed n st run h hrun
      cases hg : get_next_process (Function.update st.procs run { (st.procs run) with cpu_time_remaining := (st.procs run).cpu_time_remaining - st.next_step, io_time_remaining := (st.procs run).io_time_remaining - st.next_step, s := STATE_TERMINATED }) st.ready_list with
      | some r =>
        simp only []
        rw [startRunning_clear]
        obtain ⟨st1, e, m, -, -⟩ :=
          startRunning_housed n _ r hm rfl (get_next_process_mem _ _ _ hg)
        exact ⟨st1, e, m⟩
      | none =>
        simp only []
        exact ⟨_, rfl, hm⟩
    · simp only [if_neg hend]
      by_cases hblock : (st.procs run).io_time_remaining - st.next_step ≤ 0
      · simp only [if_pos hblock]
        have hm := block_housed n st run h hrun
        cases hrl : st.ready_list with
        | nil =>
          simp only []
          refine ⟨_, rfl, ?_⟩
          have e : st.ready_list = [] := hrl
          simpa only [e] using hm
        | cons r rest =>
          simp only []
          rw [startRunning_clear]
          have hr : r ∈ st.ready_list := by rw [hrl]; exact List.mem_cons_self _ _
          obtain ⟨st1, e, m, -, -⟩ := startRunning_housed n _ r hm rfl hr
          refine ⟨st1, ?_, m⟩
          rw [← e]
          simp only [hrl]
      · simp only [if_neg hblock]
        have hm := runTick_housed n st run h hrun
        simp only [hrun] at hm
        exact ⟨_, rfl, hm⟩

/-- The state on entry to the loop houses every node: all are NEW and in the new list. -/
theorem housed_init (rows : List (Int × Int × Int × Int × Int)) :
    Housed rows.length [] [] (initSim rows) :=
  { nd_new := List.nodup_range _
    nd_ready := List.nodup_nil
    nd_waiting := List.nodup_nil
    nd_term := List.nodup_nil
    wt_sub := fun _ hi => by cases hi
    wt_nd := List.nodup_nil
    nt_sub := fun _ hi => by cases hi
    nt_nd := List.nodup_nil
    lt_new := fun i hi => List.mem_range.mp hi
    lt_ready := fun _ hi => by cases hi
    lt_waiting := fun _ hi => by cases hi
    lt_term := fun _ hi => by cases hi
    lt_run := fun _ hi => by cases hi
    placed := fun i hi => by
      unfold Placed
      simp [initSim, loadProcs, create_proc, hi] }

/-- A pass of the loop never dereferences `NULL` and keeps every node housed, whatever
the timers are. -/
theorem loopBody_housed (n : Nat) (st : Sim) (h : Housed n [] [] st) :
    ∃ st1, loopBody st = some st1 ∧ Housed n [] [] st1 := by
  have h0 : Housed n st.waiting_list st.new_list
      { st with cpu_clock := st.cpu_clock + st.next_step } :=
    { nd_new := h.nd_new
      nd_ready := h.nd_ready
      nd_waiting := h.nd_waiting
      nd_term := h.nd_term
      wt_sub := fun _ hi => hi
      wt_nd := h.nd_waiting
      nt_sub := fun _ hi => hi
      nt_nd := h.nd_new
      lt_new := h.lt_new
      lt_ready := h.lt_ready
      lt_waiting := h.lt_waiting
      lt_term := h.lt_term
      lt_run := h.lt_run
      placed := h.placed }
  obtain ⟨st1, e1, m1, en, -⟩ := scanWaiting_housed n st.new_list st.waiting_list _ h0
  have en1 : st1.new_list = st.new_list := en
  obtain ⟨st2, e2, m2, -⟩ := scanNew_housed n [] st.new_list st1 m1
  obtain ⟨st3, e3, m3⟩ := cpuStep_housed n st2 m2
  unfold loopBody
  simp only [e1, en1, e2, e3]
  refine ⟨_, rfl, ?_⟩
  exact
    { nd_new := m3.nd_new
      nd_ready := m3.nd_ready
      nd_waiting := m3.nd_waiting
      nd_term := m3.nd_term
      wt_sub := m3.wt_sub
      wt_nd := m3.wt_nd
      nt_sub := m3.nt_sub
      nt_nd := m3.nt_nd
      lt_new := m3.lt_new
      lt_ready := m3.lt_ready
      lt_waiting := m3.lt_waiting
      lt_term := m3.lt_term
      lt_run := m3.lt_run
      placed := m3.placed }

/-- Every number of passes can be made, on every input, and leaves every node housed. -/
theorem passes_housed (n : Nat) (k : Nat) :
    ∀ st : Sim, Housed n [] [] st → ∃ st1, passes k st = some st1 ∧ Housed n [] [] st1 := by
  induction k with
  | zero => intro st h; exact ⟨st, rfl, h⟩
  | succ k ih =>
    intro st h
    obtain ⟨st1, e1, m1⟩ := loopBody_housed n st h
    by_cases hc : simulation_completed st1 = true
    · refine ⟨st1, ?_, m1⟩
      rw [passes, e1]
      simp [hc]
    · obtain ⟨st2, e2, m2⟩ := ih st1 m1
      refine ⟨st2, ?_, m2⟩
      rw [passes, e1]
      simp only [hc]
      exact e2

/-- A housed node is referenced exactly once. -/
theorem housed_holders {n : Nat} {st : Sim} (h : Housed n [] [] st) (i : Nat) (hi : i < n) :
    holders st i = 1 := by
  have hpl := h.placed i hi
  obtain ⟨hnew, hready, hwaiting, hterm, hrun⟩ := hpl.elsewhere
  unfold holders
  cases hs : (st.procs i).s with
  | STATE_NEW =>
    rw [List.count_eq_one_of_mem h.nd_new (hpl.1.mpr hs),
      List.count_eq_zero_of_not_mem (hready (by rw [hs]; decide)),
      List.count_eq_zero_of_not_mem (hwaiting (by rw [hs]; decide)),
      List.count_eq_zero_of_not_mem (hterm (by rw [hs]; decide)),
      if_neg (hrun (by rw [hs]; decide))]
  | STATE_READY =>
    rw [List.count_eq_one_of_mem h.nd_ready (hpl.2.1.mpr hs),
      List.count_eq_zero_of_not_mem (hnew (by rw [hs]; decide)),
      List.count_eq_zero_of_not_mem (hwaiting (by rw [hs]; decide)),
      List.count_eq_zero_of_not_mem (hterm (by rw [hs]; decide)),
      if_neg (hrun (by rw [hs]; decide))]
  | STATE_RUNNING =>
    rw [if_pos (hpl.2.2.2.2.mpr hs),
      List.count_eq_zero_of_not_mem (hnew (by rw [hs]; decide)),
      List.count_eq_zero_of_not_mem (hready (by rw [hs]; decide)),
      List.count_eq_zero_of_not_mem (hwaiting (by rw [hs]; decide)),
      List.count_eq_zero_of_not_mem (hterm (by rw [hs]; decide))]
  | STATE_WAITING =>
    rw [List.count_eq_one_of_mem h.nd_waiting (hpl.2.2.1.mpr hs),
      List.count_eq_zero_of_not_mem (hnew (by rw [hs]; decide)),
      List.count_eq_zero_of_not_mem (hready (by rw [hs]; decide)),
      List.count_eq_zero_of_not_mem (hterm (by rw [hs]; decide)),
      if_neg (hrun (by rw [hs]; decide))]
  | STATE_TERMINATED =>
    rw [List.count_eq_one_of_mem h.nd_term (hpl.2.2.2.1.mpr hs),
      List.count_eq_zero_of_not_mem (hnew (by rw [hs]; decide)),
      List.count_eq_zero_of_not_mem (hready (by rw [hs]; decide)),
      List.count_eq_zero_of_not_mem (hwaiting (by rw [hs]; decide)),
      if_neg (hrun (by rw [hs]; decide))]

/-- C17: on every input, every number of passes of the loop can be made, and after each
pass every loaded process is referenced exactly once by the four lists and the running
slot together, and is in the new, ready, waiting or terminated list or in the running
slot exactly when its state field is NEW, READY, WAITING, TERMINATED or RUNNING. -/
theorem c17_one_container_per_process (rows : List (Int × Int × Int × Int × Int)) (k : Nat) :
    ∃ st, passes k (initSim rows) = some st ∧
      ∀ i, i < rows.length →
        holders st i = 1 ∧
        (i ∈ st.new_list ↔ (st.procs i).s = STATE_NEW) ∧
        (i ∈ st.ready_list ↔ (st.procs i).s = STATE_READY) ∧
        (i ∈ st.waiting_list ↔ (st.procs i).s = STATE_WAITING) ∧
        (i ∈ st.terminated ↔ (st.procs i).s = STATE_TERMINATED) ∧
        (st.running = some i ↔ (st.procs i).s = STATE_RUNNING) := by
  obtain ⟨st, e, m⟩ := passes_housed rows.length k (initSim rows) (housed_init rows)
  exact ⟨st, e, fun i hi => ⟨housed_holders m i hi, m.placed i hi⟩⟩

/-! ### Who holds the CPU, read from the log -/

theorem onCpu_append (l1 : List Line) :
    ∀ (cur : Option Nat) (l2 : List Line),
      onCpu cur (l1 ++ l2) = (onCpu cur l1).bind (fun c => onCpu c l2) := by
  induction l1 with
  | nil => intro cur l2; rfl
  | cons r rs ih =>
    intro cur l2
    simp only [List.cons_append, onCpu]
    split
    · cases cur with
      | none => exact ih _ l2
      | some c => rfl
    · split
      · split
        · exact ih _ l2
        · rfl
      · exact ih _ l2

/-- Lines that neither take nor free the CPU leave its holder. -/
theorem onCpu_quiet (l : List Line) (cur : Option Nat)
    (h : ∀ r ∈ l, r.new_state = STATE_READY) : onCpu cur l = some cur := by
  induction l with
  | nil => rfl
  | cons r rs ih =>
    have hr := h r (List.mem_cons_self r rs)
    have hd : dispatches r = false := by simp [dispatches, hr]
    have hl : releases r = false := by simp [releases, hr]
    simp only [onCpu, hd, hl]
    exact ih (fun x hx => h x (List.mem_cons_of_mem r hx))

/-- While a node holds the CPU, a READY->RUNNING line can only follow a line that frees
it. -/
theorem onCpu_held (b : List Line) :
    ∀ (p : Nat) (e : Line) (c : List Line) (s : Option Nat),
      onCpu (some p) (b ++ e :: c) = some s → dispatches e = true →
      ∃ r ∈ b, r.node = p ∧ releases r = true := by
  induction b with
  | nil =>
    intro p e c s h he
    simp [onCpu, he] at h
  | cons x xs ih =>
    intro p e c s h he
    simp only [List.cons_append, onCpu] at h
    by_cases hd : dispatches x = true
    · simp [hd] at h
    · simp only [hd] at h
      by_cases hl : releases x = true
      · simp only [hl, if_true] at h
        by_cases hx : some p = some x.node
        · simp only [Option.some.injEq] at hx
          exact ⟨x, List.mem_cons_self x xs, hx.symm, hl⟩
        · simp [hx] at h
      · simp only [hl] at h
        obtain ⟨r, hr, h1, h2⟩ := ih p e c s h he
        exact ⟨r, List.mem_cons_of_mem x hr, h1, h2⟩

/-- In a log that `onCpu` accepts, between two READY->RUNNING lines the node of the first
is taken off the CPU. -/
theorem onCpu_between (a : List Line) :
    ∀ (cur : Option Nat) (d : Line) (b : List Line) (e : Line) (c : List Line)
      (s : Option Nat),
      onCpu cur (a ++ d :: (b ++ e :: c)) = some s → dispatches d = true →
      dispatches e = true → ∃ r ∈ b, r.node = d.node ∧ releases r = true := by
  induction a with
  | nil =>
    intro cur d b e c s h hd he
    simp only [List.nil_append, onCpu, hd, if_true] at h
    cases cur with
    | none => exact onCpu_held b d.node e c s h he
    | some x => simp at h
  | cons x xs ih =>
    intro cur d b e c s h hd he
    simp only [List.cons_append, onCpu] at h
    split at h
    · cases cur with
      | none => exact ih _ d b e c s h hd he
      | some y => simp at h
    · split at h
      · split at h
        · exact ih _ d b e c s h hd he
        · simp at h
      · exact ih _ d b e c s h hd he

/-- Lines after which another node, or none, holds the CPU contain a line that frees it. -/
theorem onCpu_changed (l : List Line) :
    ∀ (p : Nat) (s : Option Nat), onCpu (some p) l = some s → s ≠ some p →
      ∃ r ∈ l, r.node = p ∧ releases r = true := by
  induction l with
  | nil =>
    intro p s h hs
    simp only [onCpu, Option.some.injEq] at h
    exact absurd h.symm hs
  | cons x xs ih =>
    intro p s h hs
    simp only [onCpu] at h
    by_cases hd : dispatches x = true
    · simp [hd] at h
    · simp only [hd] at h
      by_cases hl : releases x = true
      · simp only [hl, if_true] at h
        by_cases hx : some p = some x.node
        · simp only [Option.some.injEq] at hx
          exact ⟨x, List.mem_cons_self x xs, hx.symm, hl⟩
        · simp [hx] at h
      · simp only [hl] at h
        obtain ⟨r, hr, h1, h2⟩ := ih p s h hs
        exact ⟨r, List.mem_cons_of_mem x hr, h1, h2⟩

theorem handed_refl (st : Sim) : Handed st st := ⟨[], by simp, rfl⟩

theorem handed_trans {st st1 st2 : Sim} (h1 : Handed st st1) (h2 : Handed st1 st2) :
    Handed st st2 := by
  obtain ⟨n1, e1, c1⟩ := h1
  obtain ⟨n2, e2, c2⟩ := h2
  refine ⟨n1 ++ n2, by rw [e2, e1, List.append_assoc], ?_⟩
  rw [onCpu_append, c1]
  exact c2

theorem scanWaiting_handed (wt : NodeList) :
    ∀ st st1 : Sim, scanWaiting wt st = some st1 → Handed st st1 := by
  induction wt with
  | nil =>
    intro st st1 h
    simp only [scanWaiting, Option.some.injEq] at h
    subst h
    exact handed_refl st
  | cons node rest ih =>
    intro st st1 h
    unfold scanWaiting at h
    simp only at h
    split at h
    · split at h
      · exact absurd h (by simp)
      · refine handed_trans ?_ (ih _ _ h)
        exact ⟨[_], rfl, onCpu_quiet _ _ (by simp)⟩
    · refine handed_trans ?_ (ih _ _ h)
      exact ⟨[], by simp, rfl⟩

theorem scanNew_handed (nt : NodeList) :
    ∀ st st1 : Sim, scanNew nt st = some st1 → Handed st st1 := by
  induction nt with
  | nil =>
    intro st st1 h
    simp only [scanNew, Option.some.injEq] at h
    subst h
    exact handed_refl st
  | cons node rest ih =>
    intro st st1 h
    unfold scanNew at h
    simp only at h
    split at h
    · split at h
      · exact absurd h (by simp)
      · refine handed_trans ?_ (ih _ _ h)
        exact ⟨[_], rfl, onCpu_quiet _ _ (by simp)⟩
    · exact ih _ _ h

theorem scanNew_running (nt : NodeList) :
    ∀ st st1 : Sim, scanNew nt st = some st1 → st1.running = st.running := by
  induction nt with
  | nil =>
    intro st st1 h
    simp only [scanNew, Option.some.injEq] at h
    subst h
    rfl
  | cons node rest ih =>
    intro st st1 h
    unfold scanNew at h
    simp only at h
    split at h
    · split at h
      · exact absurd h (by simp)
      · have h1 := ih _ _ h
        exact h1
    · exact ih _ _ h

theorem startRunning_handed (st st1 : Sim) (r : Nat) (hidle : st.running = none)
    (h : startRunning st r = some st1) : Handed st st1 := by
  unfold startRunning at h
  simp only at h
  split at h
  · exact absurd h (by simp)
  · simp only [Option.some.injEq] at h
    subst h
    refine ⟨[_], rfl, ?_⟩
    simp [onCpu, dispatches, hidle]

theorem cpuStep_handed (st st1 : Sim) (h : cpuStep st = some st1) : Handed st st1 := by
  unfold cpuStep at h
  cases hrun : st.running with
  | none =>
    simp only [hrun] at h
    split at h
    · exact startRunning_handed st st1 _ hrun h
    · split at h
      · exact absurd h (by simp)
      · rename_i st2 hs
        simp only [Option.some.injEq] at h
        subst h
        obtain ⟨new, e, c⟩ := scanNew_handed _ _ _ hs
        refine ⟨new, e, ?_⟩
        rw [scanNew_running _ _ _ hs, hrun] at c
        rw [hrun]
        exact c
  | some run =>
    simp only [hrun] at h
    split at h
    · split at h
      · rename_i r hg
        rw [startRunning_clear] at h
        refine handed_trans ?_ (startRunning_handed _ st1 r rfl h)
        exact ⟨[_], rfl, by simp [onCpu, dispatches, releases, hrun]⟩
      · simp only [Option.some.injEq] at h
        subst h
        refine ⟨[_], rfl, ?_⟩
        simp [onCpu, dispatches, releases, hrun]
    · split at h
      · split at h
        · rename_i r rest hg
          rw [startRunning_clear] at h
          refine handed_trans ?_ (startRunning_handed _ st1 r rfl h)
          exact ⟨[_], rfl, by simp [onCpu, dispatches, releases, hrun]⟩
        · simp only [Option.some.injEq] at h
          subst h
          refine ⟨[_], rfl, ?_⟩
          simp [onCpu, dispatches, releases, hrun]
      · simp only [Option.some.injEq] at h
        subst h
        exact ⟨[], by simp, by simp [onCpu, hrun]⟩

theorem loopBody_handed (st st1 : Sim) (h : loopBody st = some st1) : Handed st st1 := by
  unfold loopBody at h
  simp only at h
  split at h
  · exact absurd h (by simp)
  · rename_i sa ha
    split at h
    · exact absurd h (by simp)
    · rename_i sb hb
      split at h
      · exact absurd h (by simp)
      · rename_i sc hc
        simp only [Option.some.injEq] at h
        subst h
        have h1 := scanWaiting_handed _ _ _ ha
        have h2 := scanNew_handed _ _ _ hb
        have h3 := cpuStep_handed _ _ hc
        exact handed_trans h1 (handed_trans h2 h3)

theorem passes_handed (k : Nat) :
    ∀ st st1 : Sim, passes k st = some st1 → Handed st st1 := by
  induction k with
  | zero =>
    intro st st1 h
    simp only [passes, Option.some.injEq] at h
    subst h
    exact handed_refl st
  | succ k ih =>
    intro st st1 h
    rw [passes] at h
    split at h
    · exact absurd h (by simp)
    · rename_i sa ha
      have h1 := loopBody_handed st sa ha
      split at h
      · simp only [Option.some.injEq] at h
        subst h
        exact h1
      · exact handed_trans h1 (ih _ _ h)

theorem dispatches_iff (r : Line) :
    dispatches r = true ↔ r.old_state = STATE_READY ∧ r.new_state = STATE_RUNNING := by
  simp [dispatches]

theorem releases_iff (r : Line) :
    releases r = true ↔ r.old_state = STATE_RUNNING ∧
      (r.new_state = STATE_WAITING ∨ r.new_state = STATE_TERMINATED) := by
  simp [releases]

/-- C13: on every input, every number of passes of the loop can be made, and in the log
after them a READY->RUNNING line of a process and any later READY->RUNNING line have a
RUNNING->WAITING or RUNNING->TERMINATED line of that process between them; and when a
pass of the loop takes a process out of the running slot, the pass has written such a
line for it. -/
theorem c13_running_process_is_not_preempted (rows : List (Int × Int × Int × Int × Int))
    (k : Nat) :
    ∃ st, passes k (initSim rows) = some st ∧
      (∀ a d b e c, st.log = a ++ d :: (b ++ e :: c) →
        d.old_state = STATE_READY → d.new_state = STATE_RUNNING →
        e.old_state = STATE_READY → e.new_state = STATE_RUNNING →
        ∃ r ∈ b, r.node = d.node ∧ r.old_state = STATE_RUNNING ∧
          (r.new_state = STATE_WAITING ∨ r.new_state = STATE_TERMINATED)) ∧
      (∀ st1 p, loopBody st = some st1 → st.running = some p → st1.running ≠ some p →
        ∃ new, st1.log = st.log ++ new ∧
          ∃ r ∈ new, r.node = p ∧ r.old_state = STATE_RUNNING ∧
            (r.new_state = STATE_WAITING ∨ r.new_state = STATE_TERMINATED)) := by
  obtain ⟨st, e, -⟩ := passes_housed rows.length k (initSim rows) (housed_init rows)
  refine ⟨st, e, ?_, ?_⟩
  · intro a d b e1 c hlog hd1 hd2 he1 he2
    obtain ⟨new, hn, hc⟩ := passes_handed k _ _ e
    have hn1 : st.log = new := by simpa [initSim] using hn
    have hc1 : onCpu none new = some st.running := hc
    rw [← hn1, hlog] at hc1
    obtain ⟨r, hr, h1, h2⟩ := onCpu_between a none d b e1 c _ hc1
      ((dispatches_iff d).mpr ⟨hd1, hd2⟩) ((dispatches_iff e1).mpr ⟨he1, he2⟩)
    exact ⟨r, hr, h1, (releases_iff r).mp h2⟩
  · intro st1 p hb hp hne
    obtain ⟨new, hn, hc⟩ := loopBody_handed st st1 hb
    rw [hp] at hc
    obtain ⟨r, hr, h1, h2⟩ := onCpu_changed new p _ hc hne
    exact ⟨new, hn, r, hr, h1, (releases_iff r).mp h2⟩

/-! ### What a pass does to one node -/

/-- The lines about `p` in a log that got one more line. -/
theorem linesOf_snoc (p : Nat) (log : List Line) (r : Line) :
    linesOf p (log ++ [r]) = linesOf p log ++ (if r.node = p then [r] else []) := by
  by_cases h : r.node = p
  · rw [if_pos h, linesOf_snoc_self p log r h]
  · rw [if_neg h, linesOf_snoc_other p log r h, List.append_nil]

/-- The scan of the waiting list leaves the clock, the step and the running slot, writes
to no `cpu_time_remaining`, and writes about a node only lines that end in READY; a node
that is not visited is left alone. -/
theorem scanWaiting_calm (p : Nat) (wt : NodeList) :
    ∀ st st1 : Sim, scanWaiting wt st = some st1 →
      st1.cpu_clock = st.cpu_clock ∧ st1.next_step = st.next_step ∧
      st1.running = st.running ∧
      (st1.procs p).cpu_time_remaining = (st.procs p).cpu_time_remaining ∧
      (∃ q, linesOf p st1.log = linesOf p st.log ++ q ∧ ∀ r ∈ q, r.new_state = STATE_READY) ∧
      (p ∉ wt → st1.procs p = st.procs p ∧ linesOf p st1.log = linesOf p st.log) := by
  induction wt with
  | nil =>
    intro st st1 h
    simp only [scanWaiting, Option.some.injEq] at h
    subst h
    exact ⟨rfl, rfl, rfl, rfl, ⟨[], by simp, by simp⟩, fun _ => ⟨rfl, rfl⟩⟩
  | cons node rest ih =>
    intro st st1 h
    unfold scanWaiting at h
    simp only at h
    split at h
    · split at h
      · exact absurd h (by simp)
      · obtain ⟨h1, h2, h3, h4, ⟨q, h5, h6⟩, h7⟩ := ih _ _ h
        refine ⟨h1, h2, h3, ?_, ?_, ?_⟩
        · rw [h4]
          by_cases hp : p = node
          · subst hp; simp only [Function.update_same]
          · simp only [Function.update_noteq hp]
        · simp only [linesOf_snoc] at h5
          refine ⟨_, by rw [h5, List.append_assoc], ?_⟩
          intro r hr
          simp only [List.mem_append] at hr
          rcases hr with hr | hr
          · split at hr
            · simp only [List.mem_singleton] at hr
              rw [hr]
            · cases hr
          · exact h6 r hr
        · intro hp
          simp only [List.mem_cons, not_or] at hp
          obtain ⟨h8, h9⟩ := h7 hp.2
          refine ⟨?_, ?_⟩
          · rw [h8]
            simp only [Function.update_noteq hp.1]
          · rw [h9]
            exact linesOf_snoc_other p _ _ (fun c => hp.1 c.symm)
    · obtain ⟨h1, h2, h3, h4, ⟨q, h5, h6⟩, h7⟩ := ih _ _ h
      refine ⟨h1, h2, h3, ?_, ⟨q, h5, h6⟩, ?_⟩
      · rw [h4]
        by_cases hp : p = node
        · subst hp; simp only [Function.update_same]
        · simp only [Function.update_noteq hp]
      · intro hp
        simp only [List.mem_cons, not_or] at hp
        obtain ⟨h8, h9⟩ := h7 hp.2
        refine ⟨?_, h9⟩
        rw [h8]
        simp only [Function.update_noteq hp.1]

/-- The scan of the new list: as `scanWaiting_calm`. -/
theorem scanNew_calm (p : Nat) (nt : NodeList) :
    ∀ st st1 : Sim, scanNew nt st = some st1 →
      st1.cpu_clock = st.cpu_clock ∧ st1.next_step = st.next_step ∧
      st1.running = st.running ∧
      (st1.procs p).cpu_time_remaining = (st.procs p).cpu_time_remaining ∧
      (∃ q, linesOf p st1.log = linesOf p st.log ++ q ∧ ∀ r ∈ q, r.new_state = STATE_READY) ∧
      (p ∉ nt → st1.procs p = st.procs p ∧ linesOf p st1.log = linesOf p st.log) := by
  induction nt with
  | nil =>
    intro st st1 h
    simp only [scanNew, Option.some.injEq] at h
    subst h
    exact ⟨rfl, rfl, rfl, rfl, ⟨[], by simp, by simp⟩, fun _ => ⟨rfl, rfl⟩⟩
  | cons node rest ih =>
    intro st st1 h
    unfold scanNew at h
    simp only at h
    split at h
    · split at h
      · exact absurd h (by simp)
      · obtain ⟨h1, h2, h3, h4, ⟨q, h5, h6⟩, h7⟩ := ih _ _ h
        refine ⟨h1, h2, h3, ?_, ?_, ?_⟩
        · rw [h4]
          by_cases hp : p = node
          · subst hp; simp only [Function.update_same]
          · simp only [Function.update_noteq hp]
        · simp only [linesOf_snoc] at h5
          refine ⟨_, by rw [h5, List.append_assoc], ?_⟩
          intro r hr
          simp only [List.mem_append] at hr
          rcases hr with hr | hr
          · split at hr
            · simp only [List.mem_singleton] at hr
              rw [hr]
            · cases hr
          · exact h6 r hr
        · intro hp
          simp only [List.mem_cons, not_or] at hp
          obtain ⟨h8, h9⟩ := h7 hp.2
          refine ⟨?_, ?_⟩
          · rw [h8]
            simp only [Function.update_noteq hp.1]
          · rw [h9]
            exact linesOf_snoc_other p _ _ (fun c => hp.1 c.symm)
    · obtain ⟨h1, h2, h3, h4, h5, h7⟩ := ih _ _ h
      refine ⟨h1, h2, h3, h4, h5, ?_⟩
      intro hp
      simp only [List.mem_cons, not_or] at hp
      exact h7 hp.2

theorem startRunning_effect (st st1 : Sim) (r : Nat) (h : startRunning st r = some st1) :
    st1.cpu_clock = st.cpu_clock ∧ st1.running = some r ∧
    st1.procs = Function.update st.procs r { (st.procs r) with s := STATE_RUNNING } ∧
    st1.log = st.log ++
      [⟨st.cpu_clock, (st.procs r).pid, STATE_READY, STATE_RUNNING, r, (st.procs r).s⟩] := by
  unfold startRunning at h
  simp only at h
  split at h
  · exact absurd h (by simp)
  · simp only [Option.some.injEq] at h
    subst h
    exact ⟨rfl, rfl, rfl, rfl⟩

/-- Dispatching another node leaves node `p` alone. -/
theorem startRunning_other (st st1 : Sim) (r p : Nat) (h : startRunning st r = some st1)
    (hp : p ≠ r) :
    st1.procs p = st.procs p ∧ linesOf p st1.log = linesOf p st.log := by
  obtain ⟨-, -, h3, h4⟩ := startRunning_effect st st1 r h
  rw [h3, h4]
  exact ⟨Function.update_noteq hp _ _, linesOf_snoc_other p _ _ (fun c => hp c.symm)⟩

/-- Dispatching node `p` from the ready list: its line, and its timers as they were. -/
theorem startRunning_self (st st1 : Sim) (p : Nat) (h : startRunning st p = some st1) :
    linesOf p st1.log = linesOf p st.log ++
      [⟨st.cpu_clock, (st.procs p).pid, STATE_READY, STATE_RUNNING, p, (st.procs p).s⟩] ∧
    (st1.procs p).cpu_time_remaining = (st.procs p).cpu_time_remaining ∧
    (st1.procs p).io_time_remaining = (st.procs p).io_time_remaining ∧
    (st1.procs p).s = STATE_RUNNING := by
  obtain ⟨-, -, h3, h4⟩ := startRunning_effect st st1 p h
  rw [h3, h4]
  simp only [Function.update_same]
  exact ⟨linesOf_snoc_self p _ _ rfl, trivial, trivial, trivial⟩

/-- Lines 396-470 for the node that is running when they start. -/
theorem cpuStep_on_running (rows : List (Int × Int × Int × Int × Int)) (m0 d0 : Nat)
    (strict : Bool) (st st1 : Sim) (p : Nat) (h : Mid rows m0 d0 strict [] [] true st)
    (hrun : st.running = some p) (hc : cpuStep st = some st1) :
    st1.cpu_clock = st.cpu_clock ∧
    ((st.procs p).cpu_time_remaining - st.next_step ≤ 0 →
      linesOf p st1.log = linesOf p st.log ++
        [⟨st.cpu_clock, (st.procs p).pid, STATE_RUNNING, STATE_TERMINATED, p, STATE_RUNNING⟩] ∧
      (st1.procs p).cpu_time_remaining = (st.procs p).cpu_time_remaining - st.next_step ∧
      st1.running ≠ some p) ∧
    (¬ (st.procs p).cpu_time_remaining - st.next_step ≤ 0 →
      (st.procs p).io_time_remaining - st.next_step ≤ 0 →
      linesOf p st1.log = linesOf p st.log ++
        [⟨st.cpu_clock, (st.procs p).pid, STATE_RUNNING, STATE_WAITING, p, STATE_RUNNING⟩] ∧
      (st1.procs p).cpu_time_remaining = (st.procs p).cpu_time_remaining - st.next_step ∧
      (st1.procs p).io_time_remaining = (st.procs p).io_duration ∧
      st1.running ≠ some p) ∧
    (¬ (st.procs p).cpu_time_remaining - st.next_step ≤ 0 →
      ¬ (st.procs p).io_time_remaining - st.next_step ≤ 0 →
      linesOf p st1.log = linesOf p st.log ∧
      (st1.procs p).cpu_time_remaining = (st.procs p).cpu_time_remaining - st.next_step ∧
      (st1.procs p).io_time_remaining = (st.procs p).io_time_remaining - st.next_step ∧
      st1.running = some p) := by
  obtain ⟨hlt, hs, hnew, hready, hwaiting, hterm, -⟩ := running_facts h hrun
  unfold cpuStep at hc
  simp only [hrun] at hc
  by_cases hend : (st.procs p).cpu_time_remaining - st.next_step ≤ 0
  · simp only [if_pos hend] at hc
    refine ⟨?_, fun _ => ?_, fun c => absurd hend c, fun c => absurd hend c⟩
    · split at hc
      · exact (startRunning_effect _ _ _ hc).1
      · simp only [Option.some.injEq] at hc
        subst hc
        rfl
    · split at hc
      · rename_i r hg
        have hr : r ≠ p := fun c => hready (c ▸ get_next_process_mem _ _ _ hg)
        obtain ⟨h1, h2⟩ := startRunning_other _ _ r p hc (Ne.symm hr)
        obtain ⟨-, h3, -⟩ := startRunning_effect _ _ _ hc
        rw [h1, h2, h3]
        simp only [Function.update_same]
        refine ⟨?_, trivial, fun c => hr (by simpa using c)⟩
        rw [linesOf_snoc_self p _ _ rfl, hs]
      · simp only [Option.some.injEq] at hc
        subst hc
        simp only [Function.update_same]
        refine ⟨?_, trivial, by simp⟩
        rw [linesOf_snoc_self p _ _ rfl, hs]
  · simp only [if_neg hend] at hc
    by_cases hblock : (st.procs p).io_time_remaining - st.next_step ≤ 0
    · simp only [if_pos hblock] at hc
      refine ⟨?_, fun c => absurd c hend, fun _ _ => ?_, fun _ c => absurd hblock c⟩
      · split at hc
        · exact (startRunning_effect _ _ _ hc).1
        · simp only [Option.some.injEq] at hc
          subst hc
          rfl
      · split at hc
        · rename_i r rest hg
          have hg1 : st.ready_list = r :: rest := hg
          have hr : r ≠ p := fun c => hready (by rw [hg1, c]; exact List.mem_cons_self _ _)
          obtain ⟨h1, h2⟩ := startRunning_other _ _ r p hc (Ne.symm hr)
          obtain ⟨-, h3, -⟩ := startRunning_effect _ _ _ hc
          rw [h1, h2, h3]
          simp only [Function.update_same]
          refine ⟨?_, trivial, trivial, fun c => hr (by simpa using c)⟩
          rw [linesOf_snoc_self p _ _ rfl, hs]
        · simp only [Option.some.injEq] at hc
          subst hc
          simp only [Function.update_same]
          refine ⟨?_, trivial, trivial, by simp⟩
          rw [linesOf_snoc_self p _ _ rfl, hs]
    · simp only [if_neg hblock, Option.some.injEq] at hc
      subst hc
      refine ⟨rfl, fun c => absurd c hend, fun _ c => absurd c hblock, fun _ _ => ?_⟩
      refine ⟨rfl, ?_, ?_, rfl⟩ <;> simp only [Function.update_same]

/-- Lines 396-470 for a node that is not running when they start: it is dispatched from
the ready list, with its I/O timer at the I/O frequency, or it is left alone. -/
theorem cpuStep_on_other (rows : List (Int × Int × Int × Int × Int)) (m0 d0 : Nat)
    (strict : Bool) (st st1 : Sim) (p : Nat) (h : Mid rows m0 d0 strict [] [] true st)
    (hrun : st.running ≠ some p) (hc : cpuStep st = some st1) :
    st1.cpu_clock = st.cpu_clock ∧
    (st1.procs p).cpu_time_remaining = (st.procs p).cpu_time_remaining ∧
    ((st1.running = some p ∧
        linesOf p st1.log = linesOf p st.log ++
          [⟨st.cpu_clock, (st.procs p).pid, STATE_READY, STATE_RUNNING, p, STATE_READY⟩] ∧
        (st1.procs p).io_time_remaining = (st1.procs p).io_frequency) ∨
      (st1.running ≠ some p ∧ linesOf p st1.log = linesOf p st.log ∧
        st1.procs p = st.procs p)) := by
  -- dispatching `r` from a state `sa` that agrees with `st` on node `p`
  have key : ∀ (sa : Sim) (r : Nat), startRunning sa r = some st1 → r ∈ st.ready_list →
      sa.procs p = st.procs p → linesOf p sa.log = linesOf p st.log →
      sa.cpu_clock = st.cpu_clock →
      st1.cpu_clock = st.cpu_clock ∧
      (st1.procs p).cpu_time_remaining = (st.procs p).cpu_time_remaining ∧
      ((st1.running = some p ∧
          linesOf p st1.log = linesOf p st.log ++
            [⟨st.cpu_clock, (st.procs p).pid, STATE_READY, STATE_RUNNING, p, STATE_READY⟩] ∧
          (st1.procs p).io_time_remaining = (st1.procs p).io_frequency) ∨
        (st1.running ≠ some p ∧ linesOf p st1.log = linesOf p st.log ∧
          st1.procs p = st.procs p)) := by
    intro sa r hsr hmem hpa hla hca
    obtain ⟨e1, e2, e3, -⟩ := startRunning_effect sa st1 r hsr
    by_cases hrp : r = p
    · subst hrp
      obtain ⟨f1, f2, f3, -⟩ := startRunning_self sa st1 r hsr
      have hlt := h.lt_ready r hmem
      obtain ⟨-, hpl, htm, -⟩ := h.node r hlt
      have hs : (st.procs r).s = STATE_READY := hpl.2.1.mp hmem
      unfold Timers at htm
      simp only [hs] at htm
      refine ⟨e1.trans hca, by rw [f2, hpa], Or.inl ⟨e2, ?_, ?_⟩⟩
      · rw [f1, hla, hpa, hca, hs]
      · rw [f3, hpa, htm.2.2, e3]
        simp only [Function.update_same]
        rw [hpa]
    · obtain ⟨f1, f2⟩ := startRunning_other sa st1 r p hsr (Ne.symm hrp)
      refine ⟨e1.trans hca, by rw [f1, hpa], Or.inr ⟨?_, by rw [f2, hla], by rw [f1, hpa]⟩⟩
      rw [e2]
      exact fun c => hrp (by simpa using c)
  unfold cpuStep at hc
  cases hr : st.running with
  | none =>
    simp only [hr] at hc
    split at hc
    · rename_i r hg
      exact key st r hc (get_next_process_mem _ _ _ hg) rfl rfl rfl
    · have hnoop : scanNew st.new_list st = some st := by
        apply scanNew_noop
        intro i hi
        have hlt := h.lt_new i hi
        obtain ⟨-, hpl, htm, -⟩ := h.node i hlt
        have hs := hpl.1.mp hi
        unfold Timers at htm
        simp only [hs] at htm
        have := htm.2.2.2.2 (by simp)
        omega
      simp only [hnoop, Option.some.injEq] at hc
      subst hc
      exact ⟨rfl, rfl, Or.inr ⟨by simp, rfl, rfl⟩⟩
  | some run =>
    have hne : p ≠ run := fun c => hrun (by rw [hr, c])
    simp only [hr] at hc
    by_cases hend : (st.procs run).cpu_time_remaining - st.next_step ≤ 0
    · simp only [if_pos hend] at hc
      split at hc
      · rename_i r hg
        exact key _ r hc (get_next_process_mem _ _ _ hg)
          (by simp only [Function.update_noteq hne])
          (linesOf_snoc_other p _ _ (fun c => hne c.symm)) rfl
      · simp only [Option.some.injEq] at hc
        subst hc
        refine ⟨rfl, by simp only [Function.update_noteq hne], Or.inr ⟨by simp, ?_, ?_⟩⟩
        · exact linesOf_snoc_other p _ _ (fun c => hne c.symm)
        · simp only [Function.update_noteq hne]
    · simp only [if_neg hend] at hc
      by_cases hblock : (st.procs run).io_time_remaining - st.next_step ≤ 0
      · simp only [if_pos hblock] at hc
        split at hc
        · rename_i r rest hg
          have hg1 : st.ready_list = r :: rest := hg
          exact key _ r hc (by rw [hg1]; exact List.mem_cons_self _ _)
            (by simp only [Function.update_noteq hne])
            (linesOf_snoc_other p _ _ (fun c => hne c.symm)) rfl
        · simp only [Option.some.injEq] at hc
          subst hc
          refine ⟨rfl, by simp only [Function.update_noteq hne], Or.inr ⟨by simp, ?_, ?_⟩⟩
          · exact linesOf_snoc_other p _ _ (fun c => hne c.symm)
          · simp only [Function.update_noteq hne]
      · simp only [if_neg hblock, Option.some.injEq] at hc
        subst hc
        refine ⟨rfl, by simp only [Function.update_noteq hne], Or.inr ⟨?_, rfl, ?_⟩⟩
        · simp only [hr]
          exact fun c => hne (by simpa using c.symm)
        · simp only [Function.update_noteq hne]

/-- The three stages of a pass from a state that satisfies the loop invariant. -/
theorem loopBody_stages (rows : List (Int × Int × Int × Int × Int)) (strict : Bool)
    (st st1 : Sim) (h : HeadInv rows strict st) (hb : loopBody st = some st1) :
    ∃ s1 s2 s3, scanWaiting st.waiting_list (advance st) = some s1 ∧
      scanNew st.new_list s1 = some s2 ∧
      Mid rows (totalWork rows.length st.procs) (totalWait rows.length st []) strict [] [] true
        s2 ∧
      cpuStep s2 = some s3 ∧
      st1 = { s3 with next_step :=
        get_time_to_next_event s3.procs s3.cpu_clock s3.running s3.new_list s3.waiting_list } := by
  unfold HeadInv at h
  obtain ⟨s1, e1, m1, en, -⟩ :=
    scanWaiting_mid rows _ _ strict st.new_list true st.waiting_list (advance st) h
  have en1 : s1.new_list = st.new_list := en
  rw [← en1] at m1
  obtain ⟨s2, e2, m2, -⟩ := scanNew_mid rows _ _ strict [] true s1.new_list s1 m1
  obtain ⟨s3, e3, m3, -⟩ := cpuStep_mid rows _ _ strict s2 m2
  refine ⟨s1, s2, s3, e1, by rw [← en1]; exact e2, m2, e3, ?_⟩
  have hbody : loopBody st = some { s3 with next_step := get_time_to_next_event s3.procs s3.cpu_clock s3.running s3.new_list s3.waiting_list } := by
    unfold loopBody
    unfold advance at e1
    simp only [e1, e2, e3]
  rw [hbody] at hb
  simp only [Option.some.injEq] at hb
  exact hb.symm

/-- A pass of the loop, for the node that is running when it starts: the clock advances
by the step, the two timers of the node go down by the step, and the node terminates,
blocks or stays on the CPU. -/
theorem pass_running (rows : List (Int × Int × Int × Int × Int)) (strict : Bool)
    (st st1 : Sim) (p : Nat) (h : HeadInv rows strict st) (hb : loopBody st = some st1)
    (hrun : st.running = some p) :
    st1.cpu_clock = st.cpu_clock + st.next_step ∧
    ((st.procs p).cpu_time_remaining - st.next_step ≤ 0 →
      (∃ rel, linesOf p st1.log = linesOf p st.log ++ [rel] ∧ rel.time = st1.cpu_clock ∧
        rel.old_state = STATE_RUNNING ∧ rel.new_state = STATE_TERMINATED) ∧
      (st1.procs p).cpu_time_remaining = (st.procs p).cpu_time_remaining - st.next_step ∧
      st1.running ≠ some p) ∧
    (¬ (st.procs p).cpu_time_remaining - st.next_step ≤ 0 →
      (st.procs p).io_time_remaining - st.next_step ≤ 0 →
      (∃ rel, linesOf p st1.log = linesOf p st.log ++ [rel] ∧ rel.time = st1.cpu_clock ∧
        rel.old_state = STATE_RUNNING ∧ rel.new_state = STATE_WAITING) ∧
      (st1.procs p).cpu_time_remaining = (st.procs p).cpu_time_remaining - st.next_step ∧
      (st1.procs p).io_time_remaining = (st.procs p).io_duration ∧
      st1.running ≠ some p) ∧
    (¬ (st.procs p).cpu_time_remaining - st.next_step ≤ 0 →
      ¬ (st.procs p).io_time_remaining - st.next_step ≤ 0 →
      linesOf p st1.log = linesOf p st.log ∧
      (st1.procs p).cpu_time_remaining = (st.procs p).cpu_time_remaining - st.next_step ∧
      (st1.procs p).io_time_remaining = (st.procs p).io_time_remaining - st.next_step ∧
      st1.running = some p) := by
  obtain ⟨s1, s2, s3, e1, e2, m2, e3, hst⟩ := loopBody_stages rows strict st st1 h hb
  unfold HeadInv at h
  have hlt : p < rows.length := h.lt_run p hrun
  obtain ⟨-, hpl, -, -⟩ := h.node p hlt
  have hs : (st.procs p).s = STATE_RUNNING := hpl.2.2.2.2.mp hrun
  obtain ⟨hnew, -, hwaiting, -, -⟩ := hpl.elsewhere
  have hnew : p ∉ st.new_list := hnew (by show (st.procs p).s ≠ _; rw [hs]; decide)
  have hwaiting : p ∉ st.waiting_list :=
    hwaiting (by show (st.procs p).s ≠ _; rw [hs]; decide)
  obtain ⟨a1, a2, a3, -, -, a6⟩ := scanWaiting_calm p _ _ _ e1
  obtain ⟨a7, a8⟩ := a6 hwaiting
  obtain ⟨b1, b2, b3, -, -, b6⟩ := scanNew_calm p _ _ _ e2
  obtain ⟨b7, b8⟩ := b6 hnew
  have hp2 : s2.procs p = st.procs p := b7.trans a7
  have hl2 : linesOf p s2.log = linesOf p st.log := b8.trans a8
  have hc2 : s2.cpu_clock = st.cpu_clock + st.next_step := b1.trans a1
  have hn2 : s2.next_step = st.next_step := b2.trans a2
  have hr2 : s2.running = some p := (b3.trans a3).trans hrun
  obtain ⟨c1, c2, c3, c4⟩ := cpuStep_on_running rows _ _ strict s2 s3 p m2 hr2 e3
  rw [hp2, hn2, hl2] at c2 c3 c4
  subst hst
  refine ⟨c1.trans hc2, ?_, ?_, ?_⟩
  · intro hend
    obtain ⟨d1, d2, d3⟩ := c2 hend
    exact ⟨⟨_, d1, by show s2.cpu_clock = s3.cpu_clock; exact c1.symm, rfl, rfl⟩, d2, d3⟩
  · intro hend hblock
    obtain ⟨d1, d2, d3, d4⟩ := c3 hend hblock
    exact ⟨⟨_, d1, by show s2.cpu_clock = s3.cpu_clock; exact c1.symm, rfl, rfl⟩, d2, d3, d4⟩
  · intro hend hblock
    exact c4 hend hblock

/-- A pass of the loop, for a node that is not running when it starts: its
`cpu_time_remaining` is not written; the pass writes about it lines that end in READY, and
after them either a READY->RUNNING line at the clock of the pass, the node then being in
the running slot with its I/O timer at the I/O frequency, or nothing. -/
theorem pass_other (rows : List (Int × Int × Int × Int × Int)) (strict : Bool)
    (st st1 : Sim) (p : Nat) (h : HeadInv rows strict st) (hb : loopBody st = some st1)
    (hrun : st.running ≠ some p) :
    st1.cpu_clock = st.cpu_clock + st.next_step ∧
    (st1.procs p).cpu_time_remaining = (st.procs p).cpu_time_remaining ∧
    ∃ q, (∀ r ∈ q, r.new_state = STATE_READY) ∧
      ((st1.running = some p ∧
          (∃ d, linesOf p st1.log = linesOf p st.log ++ q ++ [d] ∧ d.time = st1.cpu_clock ∧
            d.old_state = STATE_READY ∧ d.new_state = STATE_RUNNING) ∧
          (st1.procs p).io_time_remaining = (st1.procs p).io_frequency) ∨
        (st1.running ≠ some p ∧ linesOf p st1.log = linesOf p st.log ++ q)) := by
  obtain ⟨s1, s2, s3, e1, e2, m2, e3, hst⟩ := loopBody_stages rows strict st st1 h hb
  obtain ⟨a1, a2, a3, a4, ⟨qa, a5, a6⟩, -⟩ := scanWaiting_calm p _ _ _ e1
  obtain ⟨b1, b2, b3, b4, ⟨qb, b5, b6⟩, -⟩ := scanNew_calm p _ _ _ e2
  have hc2 : s2.cpu_clock = st.cpu_clock + st.next_step := b1.trans a1
  have hr2 : s2.running ≠ some p := by rw [b3.trans a3]; exact hrun
  have hl2 : linesOf p s2.log = linesOf p st.log ++ (qa ++ qb) := by
    rw [b5, a5, List.append_assoc]
    rfl
  have hq : ∀ r ∈ qa ++ qb, r.new_state = STATE_READY := by
    intro r hr
    rcases List.mem_append.mp hr with hr | hr
    · exact a6 r hr
    · exact b6 r hr
  obtain ⟨c1, c2, c3⟩ := cpuStep_on_other rows _ _ strict s2 s3 p m2 hr2 e3
  subst hst
  refine ⟨c1.trans hc2, (c2.trans b4).trans a4, qa ++ qb, hq, ?_⟩
  rcases c3 with ⟨d1, d2, d3⟩ | ⟨d1, d2, -⟩
  · refine Or.inl ⟨d1, ⟨⟨s2.cpu_clock, (s2.procs p).pid, STATE_READY, STATE_RUNNING, p,
      STATE_READY⟩, ?_, ?_, rfl, rfl⟩, d3⟩
    · show linesOf p s3.log = _
      rw [d2, hl2]
    · show s2.cpu_clock = s3.cpu_clock
      exact c1.symm
  · refine Or.inr ⟨d1, ?_⟩
    show linesOf p s3.log = _
    rw [d2, hl2]

/-! ### A CPU burst runs to its end -/

/-- What the invariant at the top of the loop says about the running node. -/
theorem head_running_facts (rows : List (Int × Int × Int × Int × Int)) (strict : Bool)
    (st : Sim) (p : Nat) (h : HeadInv rows strict st) (hrun : st.running = some p) :
    p < rows.length ∧ (strict = true → 1 ≤ st.next_step) ∧
    1 ≤ (st.procs p).cpu_time_remaining ∧ 1 ≤ (st.procs p).io_time_remaining ∧
    st.next_step ≤ (st.procs p).cpu_time_remaining ∧
    st.next_step ≤ (st.procs p).io_time_remaining ∧
    (st.procs p).io_duration = (loadProcs rows p).io_duration := by
  unfold HeadInv at h
  have hlt : p < rows.length := h.lt_run p hrun
  obtain ⟨hstat, hpl, htm, -⟩ := h.node p hlt
  have hs : (st.procs p).s = STATE_RUNNING := hpl.2.2.2.2.mp hrun
  have hs1 : ((advance st).procs p).s = STATE_RUNNING := hs
  unfold Timers at htm
  simp only [hs1] at htm
  obtain ⟨-, t1, t2, -, t4⟩ := htm
  obtain ⟨t5, t6⟩ := t4 trivial
  exact ⟨hlt, h.strict_step, t1, t2, t5, t6, hstat.2.2.2.2.1⟩

theorem passes_succ_of_running (st st1 : Sim) (p : Nat) (m : Nat)
    (hb : loopBody st = some st1) (hrun : st1.running = some p) :
    passes (m + 1) st = passes m st1 := by
  rw [passes, hb]
  simp [simulation_completed, hrun]

/-- From a state in which `p` is running with `c` units of CPU time and `i` units to its
next I/O call left, the loop reaches the pass that takes `p` off the CPU: at `c` units
after the current clock by a RUNNING->TERMINATED line when `c ≤ i`, at `i` units after it
by a RUNNING->WAITING line otherwise; no line about `p` is written before. -/
theorem burst_runs_out (rows : List (Int × Int × Int × Int × Int)) (w : Nat) :
    ∀ (st : Sim) (p : Nat), HeadInv rows true st → st.running = some p →
      (st.procs p).cpu_time_remaining.toNat ≤ w →
      ∃ m st2 st3, passes m st = some st2 ∧ loopBody st2 = some st3 ∧
        linesOf p st2.log = linesOf p st.log ∧
        ∃ rel, linesOf p st3.log = linesOf p st.log ++ [rel] ∧
          rel.old_state = STATE_RUNNING ∧
          ((st.procs p).cpu_time_remaining ≤ (st.procs p).io_time_remaining →
            rel.new_state = STATE_TERMINATED ∧
            rel.time = st.cpu_clock + (st.procs p).cpu_time_remaining ∧
            (st3.procs p).cpu_time_remaining = 0) ∧
          ((st.procs p).io_time_remaining < (st.procs p).cpu_time_remaining →
            rel.new_state = STATE_WAITING ∧
            rel.time = st.cpu_clock + (st.procs p).io_time_remaining ∧
            (st3.procs p).cpu_time_remaining =
              (st.procs p).cpu_time_remaining - (st.procs p).io_time_remaining ∧
            (st3.procs p).io_time_remaining = (loadProcs rows p).io_duration) := by
  induction w with
  | zero =>
    intro st p h hrun hw
    obtain ⟨-, -, t1, -⟩ := head_running_facts rows true st p h hrun
    omega
  | succ w ih =>
    intro st p h hrun hw
    obtain ⟨hlt, k1, t1, t2, t5, t6, hdur⟩ := head_running_facts rows true st p h hrun
    have k1 := k1 rfl
    obtain ⟨st1, hb, -, htrue, -⟩ := loopBody_head rows true st h
    obtain ⟨hclock, b1, b2, b3⟩ := pass_running rows true st st1 p h hb hrun
    by_cases hend : (st.procs p).cpu_time_remaining - st.next_step ≤ 0
    · obtain ⟨⟨rel, r1, r2, r3, r4⟩, r5, -⟩ := b1 hend
      clear b1 b2 b3
      refine ⟨0, st, st1, rfl, hb, rfl, rel, r1, r3, ?_, ?_⟩
      · intro _
        exact ⟨r4, by rw [r2, hclock]; omega, by rw [r5]; omega⟩
      · intro hlt2
        omega
    · by_cases hblock : (st.procs p).io_time_remaining - st.next_step ≤ 0
      · obtain ⟨⟨rel, r1, r2, r3, r4⟩, r5, r6, -⟩ := b2 hend hblock
        clear b1 b2 b3
        refine ⟨0, st, st1, rfl, hb, rfl, rel, r1, r3, ?_, ?_⟩
        · intro hle
          omega
        · intro _
          exact ⟨r4, by rw [r2, hclock]; omega, by rw [r5]; omega, by rw [r6, hdur]⟩
      · obtain ⟨r1, r2, r3, r4⟩ := b3 hend hblock
        clear b1 b2 b3
        have hnc : simulation_completed st1 = false := by
          simp [simulation_completed, r4]
        obtain ⟨m, st2, st3, e1, e2, e3, rel, e4, e5, e6, e7⟩ :=
          ih st1 p (htrue hnc) r4 (by rw [r2]; omega)
        refine ⟨m + 1, st2, st3, ?_, e2, by rw [e3, r1], rel, by rw [e4, r1], e5, ?_, ?_⟩
        · rw [passes_succ_of_running st st1 p m hb r4]
          exact e1
        · intro hle
          obtain ⟨f1, f2, f3⟩ := e6 (by rw [r2, r3]; omega)
          exact ⟨f1, by rw [f2, hclock, r2]; omega, f3⟩
        · intro hlt2
          obtain ⟨f1, f2, f3, f4⟩ := e7 (by rw [r2, r3]; omega)
          exact ⟨f1, by rw [f2, hclock, r3]; omega, by rw [f3, r2, r3]; omega, f4⟩

/-! ### CPU time adds up -/

theorem cpuTime_append_quiet (l q : List Line) (h : ∀ r ∈ q, r.new_state = STATE_READY) :
    cpuTime (l ++ q) = cpuTime l := by
  have h1 : q.filter releases = [] := by
    rw [List.filter_eq_nil_iff]
    intro r hr
    simp [releases, h r hr]
  have h2 : q.filter dispatches = [] := by
    rw [List.filter_eq_nil_iff]
    intro r hr
    simp [dispatches, h r hr]
  unfold cpuTime
  rw [List.filter_append, List.filter_append, h1, h2, List.append_nil, List.append_nil]

theorem cpuTime_snoc_dispatch (l : List Line) (d : Line) (h1 : d.old_state = STATE_READY)
    (h2 : d.new_state = STATE_RUNNING) : cpuTime (l ++ [d]) = cpuTime l - d.time := by
  have e1 : [d].filter releases = [] := by simp [releases, h1]
  have e2 : [d].filter dispatches = [d] := by simp [dispatches, h1, h2]
  unfold cpuTime
  rw [List.filter_append, List.filter_append, e1, e2, List.append_nil, List.map_append,
    List.sum_append]
  simp only [List.map_cons, List.map_nil, List.sum_cons, List.sum_nil]
  omega

theorem cpuTime_snoc_release (l : List Line) (r : Line) (h1 : r.old_state = STATE_RUNNING)
    (h2 : r.new_state = STATE_WAITING ∨ r.new_state = STATE_TERMINATED) :
    cpuTime (l ++ [r]) = cpuTime l + r.time := by
  have e1 : [r].filter releases = [r] := by
    rcases h2 with h2 | h2 <;> simp [releases, h1, h2]
  have e2 : [r].filter dispatches = [] := by simp [dispatches, h1]
  unfold cpuTime
  rw [List.filter_append, List.filter_append, e1, e2, List.append_nil, List.map_append,
    List.sum_append]
  simp only [List.map_cons, List.map_nil, List.sum_cons, List.sum_nil]
  omega

/-- After lines that end in READY or RUNNING, the state is not TERMINATED, unless there
are no such lines. -/
theorem endState_append_live (s : STATE) (l q : List Line)
    (h : ∀ r ∈ q, r.new_state = STATE_READY ∨ r.new_state = STATE_RUNNING) :
    endState s (l ++ q) = STATE_TERMINATED → endState s l = STATE_TERMINATED := by
  rcases List.eq_nil_or_concat q with hq | ⟨q1, x, hq⟩
  · subst hq
    rw [List.append_nil]
    exact id
  · subst hq
    rw [List.concat_eq_append, ← List.append_assoc, endState_snoc]
    intro hx
    rcases h x (by simp) with hh | hh <;> rw [hh] at hx <;> cases hx

/-- What the invariant at the top of the loop says about the lines of a node. -/
theorem head_logged (rows : List (Int × Int × Int × Int × Int)) (strict : Bool) (st : Sim)
    (p : Nat) (h : HeadInv rows strict st) (hp : p < rows.length) :
    endState STATE_NEW (linesOf p st.log) = (st.procs p).s ∧
    (st.running = some p → (st.procs p).s = STATE_RUNNING) := by
  unfold HeadInv at h
  obtain ⟨-, hpl, -, hlg⟩ := h.node p hp
  exact ⟨hlg.2, fun c => hpl.2.2.2.2.mp c⟩

/-- A pass of the loop keeps the CPU-time accounting. -/
theorem metered_pass (rows : List (Int × Int × Int × Int × Int)) (strict : Bool)
    (st st1 : Sim) (h : HeadInv rows strict st) (hm : Metered rows st)
    (hb : loopBody st = some st1) : Metered rows st1 := by
  intro p hp
  obtain ⟨st2, hb2, h1, -⟩ := loopBody_head rows strict st h
  have e : st2 = st1 := by
    rw [hb] at hb2
    simpa using hb2.symm
  subst e
  obtain ⟨m1, m2, m3⟩ := hm p hp
  obtain ⟨g1, g2⟩ := head_logged rows strict st p h hp
  obtain ⟨g3, g4⟩ := head_logged rows false st2 p h1 hp
  by_cases hrun : st.running = some p
  · obtain ⟨-, -, t1, t2, t5, t6, -⟩ := head_running_facts rows strict st p h hrun
    obtain ⟨hclock, b1, b2, b3⟩ := pass_running rows strict st st2 p h hb hrun
    rw [if_pos hrun] at m3
    by_cases hend : (st.procs p).cpu_time_remaining - st.next_step ≤ 0
    · obtain ⟨⟨rel, r1, r2, r3, r4⟩, r5, r6⟩ := b1 hend
      clear b1 b2 b3
      rw [if_neg r6, r1, cpuTime_snoc_release _ rel r3 (Or.inr r4), r5, r2, hclock]
      exact ⟨by omega, (fun _ => by omega), by omega⟩
    · by_cases hblock : (st.procs p).io_time_remaining - st.next_step ≤ 0
      · obtain ⟨⟨rel, r1, r2, r3, r4⟩, r5, -, r6⟩ := b2 hend hblock
        clear b1 b2 b3
        have hs : (st2.procs p).s = STATE_WAITING := by
          rw [← g3, r1, endState_snoc, r4]
        rw [if_neg r6, r1, cpuTime_snoc_release _ rel r3 (Or.inl r4), r5, r2, hclock]
        exact ⟨by omega, (fun c => by rw [hs] at c; cases c), by omega⟩
      · obtain ⟨r1, r2, -, r4⟩ := b3 hend hblock
        clear b1 b2 b3
        have hs : (st2.procs p).s = STATE_RUNNING := g4 r4
        rw [if_pos r4, r1, r2, hclock]
        exact ⟨by omega, (fun c => by rw [hs] at c; cases c), by omega⟩
  · obtain ⟨hclock, c1, q, hq, c2⟩ := pass_other rows strict st st2 p h hb hrun
    rw [if_neg hrun] at m3
    rcases c2 with ⟨d1, ⟨d, d2, d3, d4, d5⟩, -⟩ | ⟨d1, d2⟩
    · have hs : (st2.procs p).s = STATE_RUNNING := g4 d1
      rw [if_pos d1, d2, cpuTime_snoc_dispatch _ d d4 d5, cpuTime_append_quiet _ q hq, c1, d3]
      exact ⟨m1, (fun c => by rw [hs] at c; cases c), by omega⟩
    · rw [if_neg d1, d2, cpuTime_append_quiet _ q hq, c1]
      refine ⟨m1, (fun c => m2 ?_), by omega⟩
      rw [← g1]
      rw [← g3, d2] at c
      exact endState_append_live _ _ q (fun r hr => Or.inl (hq r hr)) c

theorem metered_init (rows : List (Int × Int × Int × Int × Int)) (hv : ValidRows rows) :
    Metered rows (initSim rows) := by
  intro p hp
  obtain ⟨row, hrow, e⟩ := loadProcs_row rows p hp
  have h0 := (hv row hrow).2.1
  have e1 : (initSim rows).procs p = loadProcs rows p := rfl
  rw [e1, e]
  refine ⟨?_, ?_, ?_⟩
  · simp only [create_proc]; omega
  · intro c; simp [create_proc] at c
  · simp [initSim, linesOf, cpuTime, create_proc]

/-- On an input that meets the data model, the loop invariant and the CPU-time accounting
hold after every number of passes. -/
theorem passes_metered (rows : List (Int × Int × Int × Int × Int)) (k : Nat) :
    ∀ (strict : Bool) (st : Sim), HeadInv rows strict st → Metered rows st →
      ∃ st1, passes k st = some st1 ∧ HeadInv rows false st1 ∧ Metered rows st1 := by
  induction k with
  | zero =>
    intro strict st h hm
    obtain ⟨st1, e1, h1⟩ := passes_head rows 0 strict st h
    have e : st1 = st := by simpa [passes] using e1.symm
    subst e
    exact ⟨st1, rfl, h1, hm⟩
  | succ k ih =>
    intro strict st h hm
    obtain ⟨s1, e1, h1, -⟩ := loopBody_head rows strict st h
    have hm1 := metered_pass rows strict st s1 h hm e1
    by_cases hc : simulation_completed s1 = true
    · refine ⟨s1, ?_, h1, hm1⟩
      rw [passes, e1]
      simp [hc]
    · obtain ⟨s2, e2, h2, hm2⟩ := ih false s1 h1 hm1
      refine ⟨s2, ?_, h2, hm2⟩
      rw [passes, e1]
      simp only [hc]
      exact e2

theorem head_static (rows : List (Int × Int × Int × Int × Int)) (strict : Bool) (st : Sim)
    (p : Nat) (h : HeadInv rows strict st) (hp : p < rows.length) :
    (st.procs p).io_frequency = (loadProcs rows p).io_frequency ∧
    (st.procs p).total_cpu_time = (loadProcs rows p).total_cpu_time := by
  unfold HeadInv at h
  obtain ⟨hstat, -⟩ := h.node p hp
  exact ⟨hstat.2.2.2.1, hstat.2.2.1⟩

theorem linesOf_append (p : Nat) (l1 l2 : List Line) :
    linesOf p (l1 ++ l2) = linesOf p l1 ++ linesOf p l2 := by
  unfold linesOf
  exact List.filter_append l1 l2

/-- CPU-burst metering of the loop of `Skip`, on the integers: on an input that meets the
data model, after every number of passes of the loop no `cpu_time_remaining` is negative, and a TERMINATED process has `cpu_time_remaining` 0
and has spent its `total_cpu_time` in RUNNING; and whenever the next pass writes a
READY->RUNNING line `d` for a process, with `r` its `cpu_time_remaining` (not written by
that pass) and `f` its I/O frequency, its `io_time_remaining` is `f`, `d` is its last line,
and the loop goes on to a pass that writes its next line: RUNNING->TERMINATED at time
`d.time + r`, leaving `cpu_time_remaining` 0, when `r ≤ f`; RUNNING->WAITING at time
`d.time + f`, leaving `cpu_time_remaining = r - f > 0` and `io_time_remaining` the I/O
duration, when `f < r`. -/
theorem burst_is_metered (rows : List (Int × Int × Int × Int × Int))
    (hv : ValidRows rows) (k : Nat) :
    ∃ st, passes k (initSim rows) = some st ∧
      (∀ i, i < rows.length →
        0 ≤ (st.procs i).cpu_time_remaining ∧
        ((st.procs i).s = STATE_TERMINATED →
          (st.procs i).cpu_time_remaining = 0 ∧
          cpuTime (linesOf i st.log) = (loadProcs rows i).total_cpu_time)) ∧
      (∀ (st1 : Sim) (new : List Line) (d : Line),
        loopBody st = some st1 → st1.log = st.log ++ new → d ∈ new →
        d.old_state = STATE_READY → d.new_state = STATE_RUNNING →
        (st.procs d.node).cpu_time_remaining = (st1.procs d.node).cpu_time_remaining ∧
        (st1.procs d.node).io_time_remaining = (loadProcs rows d.node).io_frequency ∧
        (∃ pre, linesOf d.node st1.log = pre ++ [d]) ∧
        ∃ m st2 st3, passes m st1 = some st2 ∧ loopBody st2 = some st3 ∧
          linesOf d.node st2.log = linesOf d.node st1.log ∧
          ∃ rel, linesOf d.node st3.log = linesOf d.node st1.log ++ [rel] ∧
            rel.old_state = STATE_RUNNING ∧
            ((st1.procs d.node).cpu_time_remaining ≤ (loadProcs rows d.node).io_frequency →
              rel.new_state = STATE_TERMINATED ∧
              rel.time = d.time + (st1.procs d.node).cpu_time_remaining ∧
              (st3.procs d.node).cpu_time_remaining = 0) ∧
            ((loadProcs rows d.node).io_frequency < (st1.procs d.node).cpu_time_remaining →
              rel.new_state = STATE_WAITING ∧
              rel.time = d.time + (loadProcs rows d.node).io_frequency ∧
              (st3.procs d.node).cpu_time_remaining =
                (st1.procs d.node).cpu_time_remaining - (loadProcs rows d.node).io_frequency ∧
              0 < (st3.procs d.node).cpu_time_remaining ∧
              (st3.procs d.node).io_time_remaining = (loadProcs rows d.node).io_duration)) := by
  obtain ⟨st, e, h, hm⟩ := passes_metered rows k false (initSim rows)
    (headInv_init rows hv) (metered_init rows hv)
  refine ⟨st, e, ?_, ?_⟩
  · intro i hi
    obtain ⟨m1, m2, m3⟩ := hm i hi
    refine ⟨m1, fun hs => ⟨m2 hs, ?_⟩⟩
    have hrun : st.running ≠ some i := by
      intro c
      have := (head_logged rows false st i h hi).2 c
      rw [hs] at this
      cases this
    rw [if_neg hrun, m2 hs] at m3
    omega
  · intro st1 new d hb hnew hd hdo hdn
    have hlines : linesOf d.node st1.log = linesOf d.node st.log ++ linesOf d.node new := by
      rw [hnew, linesOf_append]
    have hdp : d ∈ linesOf d.node new := by
      unfold linesOf
      exact List.mem_filter.mpr ⟨hd, by simp⟩
    obtain ⟨st1a, hb1, h1, htrue, -⟩ := loopBody_head rows false st h
    have e1 : st1a = st1 := by
      rw [hb] at hb1
      simpa using hb1.symm
    subst e1
    by_cases hrun : st.running = some d.node
    · exfalso
      obtain ⟨-, b1, b2, b3⟩ := pass_running rows false st st1a d.node h hb hrun
      by_cases hend : (st.procs d.node).cpu_time_remaining - st.next_step ≤ 0
      · obtain ⟨⟨rel, r1, -, r3, -⟩, -⟩ := b1 hend
        rw [hlines] at r1
        have := List.append_cancel_left r1
        rw [this] at hdp
        simp only [List.mem_singleton] at hdp
        rw [hdp, r3] at hdo
        cases hdo
      · by_cases hblock : (st.procs d.node).io_time_remaining - st.next_step ≤ 0
        · obtain ⟨⟨rel, r1, -, r3, -⟩, -⟩ := b2 hend hblock
          rw [hlines] at r1
          have := List.append_cancel_left r1
          rw [this] at hdp
          simp only [List.mem_singleton] at hdp
          rw [hdp, r3] at hdo
          cases hdo
        · obtain ⟨r1, -⟩ := b3 hend hblock
          rw [hlines] at r1
          have : linesOf d.node new = [] := by
            have := congrArg List.length r1
            simp only [List.length_append] at this
            exact List.eq_nil_of_length_eq_zero (by omega)
          rw [this] at hdp
          cases hdp
    · obtain ⟨-, c1, q, hq, c2⟩ := pass_other rows false st st1a d.node h hb hrun
      have hnq : d ∉ q := by
        intro c
        have := hq d c
        rw [hdn] at this
        cases this
      rcases c2 with ⟨d1, ⟨d', d2, d3, -, -⟩, d6⟩ | ⟨-, d2⟩
      · rw [hlines, List.append_assoc] at d2
        have hnew2 := List.append_cancel_left d2
        rw [hnew2] at hdp
        have hdd : d = d' := by
          rcases List.mem_append.mp hdp with c | c
          · exact absurd c hnq
          · simpa using c
        subst hdd
        have hnc : simulation_completed st1a = false := by
          simp [simulation_completed, d1]
        have h1t := htrue hnc
        obtain ⟨hlt, -⟩ := head_running_facts rows true st1a d.node h1t d1
        obtain ⟨s1, -⟩ := head_static rows true st1a d.node h1t hlt
        rw [s1] at d6
        obtain ⟨m, st2, st3, f1, f2, f3, rel, f4, f5, f6, f7⟩ :=
          burst_runs_out rows _ st1a d.node h1t d1 (le_refl _)
        rw [d6] at f6 f7
        refine ⟨c1.symm, d6, ⟨linesOf d.node st.log ++ q, ?_⟩, m, st2, st3, f1, f2, f3, rel, f4,
          f5, ?_, ?_⟩
        · rw [hlines, hnew2, List.append_assoc]
        · intro hle
          obtain ⟨g1, g2, g3⟩ := f6 hle
          exact ⟨g1, by rw [g2, d3], g3⟩
        · intro hlt2
          obtain ⟨g1, g2, g3, g4⟩ := f7 hlt2
          exact ⟨g1, by rw [g2, d3], g3, by rw [g3]; omega, g4⟩
      · exfalso
        rw [hlines] at d2
        have := List.append_cancel_left d2
        rw [this] at hdp
        exact hnq hdp

/-! ### Shortest total CPU time first -/

/-- `get_next_process` reads nothing but the `total_cpu_time` fields. -/
theorem get_next_process_congr (procs1 procs2 : Procs) (l : NodeList)
    (h : ∀ i, (procs1 i).total_cpu_time = (procs2 i).total_cpu_time) :
    get_next_process procs1 l = get_next_process procs2 l := by
  unfold get_next_process
  cases l with
  | nil => rfl
  | cons x xs => simp only [h]

/-- The node `get_next_process` returns: none before it has a total as small, none at all
has a smaller one. -/
theorem get_next_process_first_min (procs : Procs) (l : NodeList) (r : Nat)
    (h : get_next_process procs l = some r) :
    ∃ pre post, l = pre ++ r :: post ∧
      (∀ x ∈ pre, (procs r).total_cpu_time < (procs x).total_cpu_time) ∧
      (∀ x ∈ post, (procs r).total_cpu_time ≤ (procs x).total_cpu_time) := by
  cases l with
  | nil => simp [get_next_process] at h
  | cons x xs =>
    obtain ⟨pre, post, he, h1, h2⟩ := foldl_pick_first_min procs xs [] [] x
      (by intro y hy; cases hy) (by intro y hy; cases hy)
    have hf : get_next_process procs (x :: xs) = some (xs.foldl (fun next_process current =>
        if (procs current).total_cpu_time < (procs next_process).total_cpu_time
        then current else next_process) x) := by
      simp [get_next_process]
    rw [hf] at h
    simp only [Option.some.injEq] at h
    rw [h] at he h1 h2
    exact ⟨pre, post, by simpa using he, h1, h2⟩

/-- In a list in insertion order, the node `get_next_process` returns comes before every
other node of the list in the order `Shorter`; and it is in the list. -/
theorem get_next_process_shorter (rows : List (Int × Int × Int × Int × Int)) (l : NodeList)
    (r : Nat) (hl : l.Pairwise (fun i j => i < j))
    (h : get_next_process (loadProcs rows) l = some r) :
    r ∈ l ∧ ∀ y ∈ l.erase r, Shorter rows r y := by
  obtain ⟨pre, post, he, h1, h2⟩ := get_next_process_first_min _ l r h
  subst he
  have hpre : r ∉ pre := fun c => lt_irrefl _ (h1 r c)
  refine ⟨by simp, ?_⟩
  intro y hy
  rw [List.erase_append_right _ hpre, List.erase_cons_head] at hy
  rcases List.mem_append.mp hy with hy | hy
  · exact Or.inl (h1 y hy)
  · have hlt : r < y := by
      have h3 := (List.pairwise_append.mp hl).2.1
      exact (List.pairwise_cons.mp h3).1 y hy
    rcases lt_or_eq_of_le (h2 y hy) with c | c
    · exact Or.inl c
    · exact Or.inr ⟨c, hlt⟩

theorem totalOf_snoc (rows : List (Int × Int × Int × Int × Int)) (D : NodeList) (m : Nat) :
    totalOf rows (D ++ [m]) = totalOf rows D + (loadProcs rows m).total_cpu_time := by
  simp [totalOf]

theorem finishTimes_snoc (rows : List (Int × Int × Int × Int × Int)) (D : NodeList) (m : Nat) :
    ∀ t : Int, finishTimes rows t (D ++ [m]) =
      finishTimes rows t D ++ [(m, t + totalOf rows D + (loadProcs rows m).total_cpu_time)] := by
  induction D with
  | nil => intro t; simp [finishTimes, totalOf]
  | cons x xs ih =>
    intro t
    have e : t + (loadProcs rows x).total_cpu_time + totalOf rows xs =
        t + totalOf rows (x :: xs) := by
      simp only [totalOf, List.map_cons, List.sum_cons]
      omega
    change (x, t + (loadProcs rows x).total_cpu_time) ::
        finishTimes rows (t + (loadProcs rows x).total_cpu_time) (xs ++ [m]) =
      ((x, t + (loadProcs rows x).total_cpu_time) ::
        finishTimes rows (t + (loadProcs rows x).total_cpu_time) xs) ++ _
    rw [ih, e]
    rfl

theorem finishTimes_nodes (rows : List (Int × Int × Int × Int × Int)) (D : NodeList) :
    ∀ t : Int, (finishTimes rows t D).map (fun x => x.1) = D := by
  induction D with
  | nil => intro t; rfl
  | cons x xs ih => intro t; simp [finishTimes, ih]

/-- `get_time_to_next_event` with nothing new and nothing waiting, for a process that
ends before its next I/O call. -/
theorem get_time_to_next_event_burst (procs : Procs) (cpu_clock : Int) (r : Nat)
    (h1 : (procs r).cpu_time_remaining ≤ (procs r).io_time_remaining)
    (h2 : (procs r).cpu_time_remaining ≤ INT_MAX) (h3 : 0 < (procs r).cpu_time_remaining) :
    get_time_to_next_event procs cpu_clock (some r) [] [] = (procs r).cpu_time_remaining := by
  simp only [get_time_to_next_event, List.foldl_nil, cmin_eq_min]
  have e1 : min (procs r).cpu_time_remaining (procs r).io_time_remaining =
      (procs r).cpu_time_remaining := min_eq_left h1
  have e2 : min (procs r).cpu_time_remaining (min INT_MAX INT_MAX) =
      (procs r).cpu_time_remaining := by
    rw [min_self]
    exact min_eq_left h2
  rw [e1, e2, if_neg (ne_of_gt h3)]

/-- Lines 396-470 in a run without I/O, when the running process is due to end: it
terminates, and the ready process that `get_next_process` returns is dispatched. -/
theorem sjf_cpuStep (rows : List (Int × Int × Int × Int × Int)) (a : Int) (D R : NodeList)
    (m : Nat) (st : Sim) (h : Sjf rows a D R m st) :
    ∃ st1, cpuStep { st with cpu_clock := st.cpu_clock + st.next_step } = some st1 ∧
      st1.new_list = [] ∧ st1.waiting_list = [] ∧ st1.terminated = D ++ [m] ∧
      st1.cpu_clock = a + totalOf rows (D ++ [m]) ∧
      (∀ i, (st1.procs i).total_cpu_time = (loadProcs rows i).total_cpu_time) ∧
      ((st1.log.filter (fun r => r.new_state = STATE_TERMINATED)).map
        (fun r => (r.node, r.time))) = finishTimes rows a (D ++ [m]) ∧
      (∀ r ∈ st1.log, r.new_state ≠ STATE_WAITING) ∧
      match get_next_process (loadProcs rows) R with
      | some r =>
        st1.running = some r ∧ st1.ready_list = R.erase r ∧
        (∀ i, i = r ∨ i ∈ R.erase r →
          (st1.procs i).cpu_time_remaining = (loadProcs rows i).total_cpu_time ∧
          (loadProcs rows i).total_cpu_time ≤ (st1.procs i).io_time_remaining ∧
          (st1.procs i).io_time_remaining = (loadProcs rows i).io_time_remaining) ∧
        (st1.log.filter dispatches).map (fun r => r.node) = D ++ [m] ++ [r]
      | none =>
        st1.running = none ∧ st1.ready_list = [] ∧
        (st1.log.filter dispatches).map (fun r => r.node) = D ++ [m] := by
  have hend : (st.procs m).cpu_time_remaining - st.next_step ≤ 0 := by
    rw [(h.fresh m (Or.inl rfl)).1, h.step]
    omega
  have hmR : m ∉ R := by
    have hnd : (D ++ m :: R).Nodup := h.perm.nodup_iff.mpr (List.nodup_range _)
    have h2 := (List.nodup_append.mp hnd).2.1
    exact (List.nodup_cons.mp h2).1
  have hclock : st.cpu_clock + st.next_step = a + totalOf rows (D ++ [m]) := by
    rw [h.clock, h.step, totalOf_snoc]
    omega
  have htot : ∀ i, (Function.update st.procs m { (st.procs m) with cpu_time_remaining := (st.procs m).cpu_time_remaining - st.next_step, io_time_remaining := (st.procs m).io_time_remaining - st.next_step, s := STATE_TERMINATED } i).total_cpu_time = (loadProcs rows i).total_cpu_time := by
    intro i
    by_cases hi : i = m
    · subst hi; simp only [Function.update_same]; exact h.static i
    · simp only [Function.update_noteq hi]; exact h.static i
  have hterm : ((st.log ++ [(⟨st.cpu_clock + st.next_step, (st.procs m).pid, STATE_RUNNING, STATE_TERMINATED, m, (st.procs m).s⟩ : Line)]).filter (fun r => r.new_state = STATE_TERMINATED)).map (fun r => (r.node, r.time)) = finishTimes rows a (D ++ [m]) := by
    rw [List.filter_append, List.map_append, h.log_term, finishTimes_snoc, hclock, totalOf_snoc]
    simp
    omega
  have hdisp0 : ((st.log ++ [(⟨st.cpu_clock + st.next_step, (st.procs m).pid, STATE_RUNNING, STATE_TERMINATED, m, (st.procs m).s⟩ : Line)]).filter dispatches).map (fun r => r.node) = D ++ [m] := by
    rw [List.filter_append, List.map_append, h.log_disp]
    simp [dispatches]
  unfold cpuStep
  simp only [h.running, if_pos hend]
  rw [get_next_process_congr _ (loadProcs rows) _ htot, h.ready]
  cases hg : get_next_process (loadProcs rows) R with
  | none =>
    simp only []
    have hR : R = [] := get_next_process_none _ _ hg
    refine ⟨_, rfl, h.new_nil, h.waiting_nil, ?_, hclock, htot, hterm, ?_, rfl, ?_, hdisp0⟩
    · show push_node st.terminated m = D ++ [m]
      rw [push_node_eq, h.term]
    · intro r hr
      rcases List.mem_append.mp hr with c | c
      · exact h.log_wait r c
      · simp only [List.mem_singleton] at c
        rw [c]
        simp
    · exact hR
  | some r =>
    simp only []
    obtain ⟨hrR, -⟩ := get_next_process_shorter rows R r h.ready_sorted hg
    have hrm : r ≠ m := fun c => hmR (c ▸ hrR)
    unfold startRunning
    simp only [h.ready, remove_node_of_mem _ _ hrR]
    refine ⟨_, rfl, h.new_nil, h.waiting_nil, ?_, hclock, ?_, ?_, ?_, rfl, rfl, ?_, ?_⟩
    · show push_node st.terminated m = D ++ [m]
      rw [push_node_eq, h.term]
    · intro i
      simp only []
      by_cases hi : i = r
      · subst hi; simp only [Function.update_same]; exact htot i
      · simp only [Function.update_noteq hi]; exact htot i
    · simp only []
      rw [List.filter_append, List.map_append, hterm]
      simp
    · intro x hx
      simp only [] at hx
      rcases List.mem_append.mp hx with c | c
      · rcases List.mem_append.mp c with c | c
        · exact h.log_wait x c
        · simp only [List.mem_singleton] at c
          rw [c]
          simp
      · simp only [List.mem_singleton] at c
        rw [c]
        simp
    · intro i hi
      have hiR : i ∈ R := by
        rcases hi with c | c
        · rw [c]; exact hrR
        · exact List.mem_of_mem_erase c
      have him : i ≠ m := fun c => hmR (c ▸ hiR)
      have hf := h.fresh i (Or.inr hiR)
      simp only []
      by_cases hir : i = r
      · subst hir
        simp only [Function.update_same, Function.update_noteq him]
        exact hf
      · simp only [Function.update_noteq hir, Function.update_noteq him]
        exact hf
    · simp only []
      rw [List.filter_append, List.map_append, hdisp0]
      simp [dispatches]

/-- A pass of the loop in a run without I/O: the running process terminates; the ready
process that `get_next_process` returns takes the CPU, or, when none is ready, the loop
ends. -/
theorem sjf_pass (rows : List (Int × Int × Int × Int × Int)) (a : Int) (D R : NodeList)
    (m : Nat) (st : Sim) (h : Sjf rows a D R m st) :
    ∃ st1, loopBody st = some st1 ∧
      match get_next_process (loadProcs rows) R with
      | some r => Sjf rows a (D ++ [m]) (R.erase r) r st1 ∧ simulation_completed st1 = false
      | none => SjfDone rows a st1 := by
  obtain ⟨s3, e3, g1, g2, g3, g4, g5, g6, g7, g8⟩ := sjf_cpuStep rows a D R m st h
  have hbody : loopBody st = some { s3 with next_step := get_time_to_next_event s3.procs s3.cpu_clock s3.running s3.new_list s3.waiting_list } := by
    have e1 : scanWaiting st.waiting_list { st with cpu_clock := st.cpu_clock + st.next_step } = some { st with cpu_clock := st.cpu_clock + st.next_step } := by
      rw [h.waiting_nil]; rfl
    have e2 : scanNew st.new_list { st with cpu_clock := st.cpu_clock + st.next_step } = some { st with cpu_clock := st.cpu_clock + st.next_step } := by
      rw [h.new_nil]; rfl
    unfold loopBody
    simp only [e1, e2, e3]
  refine ⟨_, hbody, ?_⟩
  cases hg : get_next_process (loadProcs rows) R with
  | none =>
    rw [hg] at g8
    simp only at g8 ⊢
    obtain ⟨k1, k2, k3⟩ := g8
    have hR : R = [] := get_next_process_none _ _ hg
    refine ⟨?_, ?_, ?_, ?_, ?_, g7, ?_⟩
    · simp [simulation_completed, k1, k2, g1, g2]
    · show s3.terminated.Perm _
      rw [g3]
      have := h.perm
      rw [hR] at this
      exact this
    · show s3.terminated.Pairwise _
      rw [g3]
      exact h.sorted
    · show _ = finishTimes rows a s3.terminated
      rw [g3]
      exact g6
    · show _ = s3.terminated
      rw [g3]
      exact k3
    · show s3.cpu_clock = a + totalOf rows s3.terminated
      rw [g3]
      exact g4
  | some r =>
    rw [hg] at g8
    simp only at g8 ⊢
    obtain ⟨k1, k2, k3, k4⟩ := g8
    obtain ⟨hrR, hsh⟩ := get_next_process_shorter rows R r h.ready_sorted hg
    obtain ⟨b1, b2⟩ := h.bound r (Or.inr hrR)
    obtain ⟨f1, f2, -⟩ := k3 r (Or.inl rfl)
    have hstep : get_time_to_next_event s3.procs s3.cpu_clock s3.running s3.new_list
        s3.waiting_list = (loadProcs rows r).total_cpu_time := by
      rw [k1, g1, g2, get_time_to_next_event_burst s3.procs s3.cpu_clock r
        (by rw [f1]; exact f2) (by rw [f1]; exact b2) (by rw [f1]; exact b1), f1]
    refine ⟨?_, by simp [simulation_completed, k1]⟩
    exact
      { new_nil := g1
        waiting_nil := g2
        term := g3
        ready := k2
        running := k1
        step := hstep
        clock := g4
        static := g5
        fresh := k3
        bound := fun i hi => h.bound i (Or.inr (by
          rcases hi with c | c
          · rw [c]; exact hrR
          · exact List.mem_of_mem_erase c))
        sorted := by
          rw [List.pairwise_append]
          refine ⟨h.sorted, List.pairwise_singleton _ _, ?_⟩
          intro x hx y hy
          simp only [List.mem_singleton] at hy
          rw [hy]
          exact h.ahead x hx r hrR
        ahead := by
          intro x hx y hy
          rcases List.mem_append.mp hx with c | c
          · exact h.ahead x c y (List.mem_of_mem_erase hy)
          · simp only [List.mem_singleton] at c
            rw [c]
            exact hsh y hy
        ready_sorted := h.ready_sorted.sublist (List.erase_sublist r R)
        perm := by
          have h1 : (r :: R.erase r).Perm R := (List.perm_cons_erase hrR).symm
          have h2 : (D ++ [m] ++ r :: R.erase r).Perm (D ++ [m] ++ R) :=
            List.Perm.append_left _ h1
          refine h2.trans ?_
          have e : D ++ [m] ++ R = D ++ m :: R := by simp
          rw [e]
          exact h.perm
        log_term := g6
        log_disp := k4
        log_wait := g7 }

/-- From a state between two passes of a run without I/O, the loop ends after as many
passes as there are processes left. -/
theorem sjf_finish (rows : List (Int × Int × Int × Int × Int)) (a : Int) (k : Nat) :
    ∀ (D R : NodeList) (m : Nat) (st : Sim), R.length = k → Sjf rows a D R m st →
      ∃ fuel st1, mainLoop fuel st = some st1 ∧ SjfDone rows a st1 := by
  induction k with
  | zero =>
    intro D R m st hk h
    obtain ⟨st1, e1, h1⟩ := sjf_pass rows a D R m st h
    have hR : R = [] := List.eq_nil_of_length_eq_zero hk
    have hg : get_next_process (loadProcs rows) R = none := by rw [hR]; rfl
    rw [hg] at h1
    refine ⟨1, st1, ?_, h1⟩
    simp [mainLoop, e1, h1.1]
  | succ k ih =>
    intro D R m st hk h
    obtain ⟨st1, e1, h1⟩ := sjf_pass rows a D R m st h
    cases hg : get_next_process (loadProcs rows) R with
    | none =>
      have hR : R = [] := get_next_process_none _ _ hg
      rw [hR] at hk
      simp at hk
    | some r =>
      rw [hg] at h1
      obtain ⟨h2, h3⟩ := h1
      have hrR := get_next_process_mem _ _ _ hg
      obtain ⟨fuel, st2, e2, h4⟩ := ih (D ++ [m]) (R.erase r) r st1
        (by rw [List.length_erase_of_mem hrR, hk]; rfl) h2
      refine ⟨fuel + 1, st2, ?_, h4⟩
      simp [mainLoop, e1, h3, e2]

/-- The scan of the new list when every node of it is due: all move to the ready list, in
order; only lines that end in READY are written, and of the process fields only `s`. -/
theorem scanNew_arrive (l : NodeList) :
    ∀ st : Sim, st.new_list = l → (∀ i ∈ l, (st.procs i).arrival_time = st.cpu_clock) →
      ∃ st1, scanNew l st = some st1 ∧ st1.new_list = [] ∧
        st1.ready_list = st.ready_list ++ l ∧ st1.waiting_list = st.waiting_list ∧
        st1.terminated = st.terminated ∧ st1.running = st.running ∧
        st1.cpu_clock = st.cpu_clock ∧
        (∀ i, (st1.procs i).total_cpu_time = (st.procs i).total_cpu_time ∧
          (st1.procs i).cpu_time_remaining = (st.procs i).cpu_time_remaining ∧
          (st1.procs i).io_time_remaining = (st.procs i).io_time_remaining) ∧
        ∃ extra, st1.log = st.log ++ extra ∧ ∀ r ∈ extra, r.new_state = STATE_READY := by
  induction l with
  | nil =>
    intro st hl _
    exact ⟨st, rfl, hl, by simp, rfl, rfl, rfl, rfl, fun _ => ⟨rfl, rfl, rfl⟩, [], by simp,
      by simp⟩
  | cons node rest ih =>
    intro st hl harr
    have hnow := harr node (List.mem_cons_self _ _)
    have hrem : remove_node st.new_list node = some (1, rest) := by
      rw [hl]
      simp [remove_node]
    unfold scanNew
    simp only [if_pos hnow, hrem]
    obtain ⟨st1, e, h1, h2, h3, h4, h5, h6, h7, extra, h8, h9⟩ :=
      ih { st with procs := Function.update st.procs node { (st.procs node) with s := STATE_READY }, new_list := rest, ready_list := push_node st.ready_list node, log := st.log ++ [⟨st.cpu_clock, (st.procs node).pid, STATE_NEW, STATE_READY, node, (st.procs node).s⟩] }
        rfl
        (by
          intro i hi
          show (Function.update st.procs node _ i).arrival_time = st.cpu_clock
          by_cases c : i = node
          · subst c; simp only [Function.update_same]; exact hnow
          · simp only [Function.update_noteq c]
            exact harr i (List.mem_cons_of_mem _ hi))
    refine ⟨st1, e, h1, ?_, h3, h4, h5, h6, ?_, ?_⟩
    · rw [h2]
      show push_node st.ready_list node ++ rest = _
      rw [push_node_eq]
      simp
    · intro i
      obtain ⟨a1, a2, a3⟩ := h7 i
      rw [a1, a2, a3]
      show (Function.update st.procs node _ i).total_cpu_time = _ ∧
        (Function.update st.procs node _ i).cpu_time_remaining = _ ∧
        (Function.update st.procs node _ i).io_time_remaining = _
      by_cases c : i = node
      · subst c; simp only [Function.update_same]; exact ⟨trivial, trivial, trivial⟩
      · simp only [Function.update_noteq c]; exact ⟨trivial, trivial, trivial⟩
    · refine ⟨(⟨st.cpu_clock, (st.procs node).pid, STATE_NEW, STATE_READY, node,
        (st.procs node).s⟩ : Line) :: extra, ?_, ?_⟩
      · rw [h8]
        simp
      · intro r hr
        rcases List.mem_cons.mp hr with c | c
        · rw [c]
        · exact h9 r c

/-- A pass of the loop, put together from its three stages. -/
theorem loopBody_of_stages (st s1 s2 s3 : Sim)
    (e1 : scanWaiting st.waiting_list (advance st) = some s1)
    (e2 : scanNew s1.new_list s1 = some s2) (e3 : cpuStep s2 = some s3) :
    loopBody st = some { s3 with next_step := get_time_to_next_event s3.procs s3.cpu_clock s3.running s3.new_list s3.waiting_list } := by
  unfold loopBody
  unfold advance at e1
  simp only [e1, e2, e3]

/-- Lines 396-428 with an idle CPU, nothing ready and nothing arriving change nothing. -/
theorem cpuStep_idle_empty (st : Sim) (hrun : st.running = none) (hr : st.ready_list = [])
    (hnoop : scanNew st.new_list st = some st) : cpuStep st = some st := by
  cases st
  simp only at hrun hr hnoop
  subst hrun
  subst hr
  unfold cpuStep
  simp only [get_next_process, hnoop]

/-- What `read_proc_from_file` has stored for the process of a row of `NoIoRows`. -/
theorem noIoRows_load (rows : List (Int × Int × Int × Int × Int)) (a : Int)
    (h : NoIoRows rows a) (i : Nat) (hi : i < rows.length) :
    (loadProcs rows i).arrival_time = a ∧ 0 < (loadProcs rows i).total_cpu_time ∧
    (loadProcs rows i).total_cpu_time ≤ (loadProcs rows i).io_time_remaining ∧
    (loadProcs rows i).total_cpu_time ≤ INT_MAX ∧
    (loadProcs rows i).cpu_time_remaining = (loadProcs rows i).total_cpu_time := by
  obtain ⟨row, hrow, e⟩ := loadProcs_row rows i hi
  obtain ⟨h1, h2, h3, h4⟩ := h.2.2 row hrow
  rw [e]
  exact ⟨h1, h2, h3, h4, rfl⟩

/-- The first pass when the processes arrive later than time 0: nothing happens, and the
step to the next pass is the arrival time. -/
theorem sjf_first_pass (rows : List (Int × Int × Int × Int × Int)) (a : Int)
    (hne : rows ≠ []) (h : NoIoRows rows a) (ha : 0 < a) :
    ∃ X, loopBody (initSim rows) = some X ∧ X.procs = loadProcs rows ∧
      X.new_list = List.range rows.length ∧ X.ready_list = [] ∧ X.waiting_list = [] ∧
      X.terminated = [] ∧ X.running = none ∧ X.log = [] ∧ X.cpu_clock + X.next_step = a ∧
      simulation_completed X = false ∧ X.cpu_clock = 0 := by
  have hlen : 0 < rows.length := List.length_pos.mpr hne
  have e1 : scanWaiting (initSim rows).waiting_list (advance (initSim rows)) =
      some (advance (initSim rows)) := rfl
  have e2 : scanNew (advance (initSim rows)).new_list (advance (initSim rows)) =
      some (advance (initSim rows)) := by
    apply scanNew_noop
    intro i hi
    have hi1 : i < rows.length := List.mem_range.mp hi
    have := (noIoRows_load rows a h i hi1).1
    show (loadProcs rows i).arrival_time ≠ (0 : Int) + 0
    omega
  have e3 : cpuStep (advance (initSim rows)) = some (advance (initSim rows)) :=
    cpuStep_idle_empty _ rfl rfl e2
  have hb := loopBody_of_stages (initSim rows) _ _ _ e1 e2 e3
  refine ⟨_, hb, rfl, rfl, rfl, rfl, rfl, rfl, rfl, ?_, ?_, rfl⟩
  · show (0 : Int) + 0 + get_time_to_next_event (loadProcs rows) (0 + 0) none
      (List.range rows.length) [] = a
    have hb := get_time_to_next_event_bounds (loadProcs rows) (0 + 0) none
      (List.range rows.length) []
      (fun r hr => by cases hr)
      (fun i hi => by
        have := (noIoRows_load rows a h i (List.mem_range.mp hi)).1
        omega)
      (fun i hi => by cases hi)
    obtain ⟨-, -, b3, -, b5⟩ := hb
    have h0 := b3 0 (List.mem_range.mpr hlen)
    have ha0 := (noIoRows_load rows a h 0 hlen).1
    have hmax := h.2.1
    rcases b5 with ⟨r, hr, -⟩ | ⟨i, hi, c⟩ | ⟨i, hi, -⟩ | c
    · cases hr
    · have := (noIoRows_load rows a h i (List.mem_range.mp hi)).1
      omega
    · cases hi
    · omega
  · have hn : rows.length ≠ 0 := Nat.ne_of_gt hlen
    simp [simulation_completed, advance, initSim, List.range_eq_nil, hn]

/-- The pass in which the processes arrive: all move to the ready list in insertion order,
and the one that `get_next_process` returns takes the CPU. -/
theorem sjf_arrival (rows : List (Int × Int × Int × Int × Int)) (a : Int) (hne : rows ≠ [])
    (h : NoIoRows rows a) (X : Sim) (hp : X.procs = loadProcs rows)
    (hn : X.new_list = List.range rows.length) (hr : X.ready_list = [])
    (hw : X.waiting_list = []) (ht : X.terminated = []) (hrun : X.running = none)
    (hlog : X.log = []) (hclock : X.cpu_clock + X.next_step = a) :
    ∃ st m, loopBody X = some st ∧
      Sjf rows a [] ((List.range rows.length).erase m) m st ∧
      simulation_completed st = false := by
  have hlen : 0 < rows.length := List.length_pos.mpr hne
  have e1 : scanWaiting X.waiting_list (advance X) = some (advance X) := by
    rw [hw]; rfl
  obtain ⟨s2, e2, a1, a2, a3, a4, a5, a6, a7, extra, a8, a9⟩ :=
    scanNew_arrive (List.range rows.length) (advance X) hn
      (by
        intro i hi
        show (X.procs i).arrival_time = X.cpu_clock + X.next_step
        rw [hp, hclock]
        exact (noIoRows_load rows a h i (List.mem_range.mp hi)).1)
  have a2' : s2.ready_list = List.range rows.length := by
    rw [a2]
    show X.ready_list ++ _ = _
    rw [hr]
    rfl
  have a3' : s2.waiting_list = [] := a3.trans hw
  have a4' : s2.terminated = [] := a4.trans ht
  have a5' : s2.running = none := a5.trans hrun
  have a6' : s2.cpu_clock = a := a6.trans hclock
  have a7' : ∀ i, (s2.procs i).total_cpu_time = (loadProcs rows i).total_cpu_time ∧
      (s2.procs i).cpu_time_remaining = (loadProcs rows i).cpu_time_remaining ∧
      (s2.procs i).io_time_remaining = (loadProcs rows i).io_time_remaining := by
    intro i
    have := a7 i
    have e : (advance X).procs i = loadProcs rows i := by
      show X.procs i = _
      rw [hp]
    rw [e] at this
    exact this
  have a8' : s2.log = extra := by
    rw [a8]
    show X.log ++ extra = extra
    rw [hlog]
    rfl
  have hgc : get_next_process s2.procs s2.ready_list =
      get_next_process (loadProcs rows) (List.range rows.length) := by
    rw [a2']
    exact get_next_process_congr _ _ _ (fun i => (a7' i).1)
  cases hg : get_next_process (loadProcs rows) (List.range rows.length) with
  | none =>
    have := get_next_process_none _ _ hg
    rw [List.range_eq_nil] at this
    omega
  | some m =>
    obtain ⟨hmR, hsh⟩ := get_next_process_shorter rows _ m (List.pairwise_lt_range _) hg
    have hm : m < rows.length := List.mem_range.mp hmR
    have e3 : cpuStep s2 = some { s2 with running := some m, procs := Function.update s2.procs m { (s2.procs m) with s := STATE_RUNNING }, ready_list := (List.range rows.length).erase m, log := s2.log ++ [⟨s2.cpu_clock, (s2.procs m).pid, STATE_READY, STATE_RUNNING, m, (s2.procs m).s⟩] } := by
      unfold cpuStep
      simp only [a5', hgc, hg]
      unfold startRunning
      simp only [a2', remove_node_of_mem _ _ hmR]
    have hb := loopBody_of_stages X _ _ _ e1 (by rw [show (advance X).new_list = X.new_list from rfl, hn]; exact e2) e3
    refine ⟨_, m, hb, ?_, by simp [simulation_completed]⟩
    have hfresh : ∀ i, i = m ∨ i ∈ (List.range rows.length).erase m →
        (Function.update s2.procs m { (s2.procs m) with s := STATE_RUNNING } i).cpu_time_remaining = (loadProcs rows i).total_cpu_time ∧
        (loadProcs rows i).total_cpu_time ≤ (Function.update s2.procs m { (s2.procs m) with s := STATE_RUNNING } i).io_time_remaining ∧
        (Function.update s2.procs m { (s2.procs m) with s := STATE_RUNNING } i).io_time_remaining = (loadProcs rows i).io_time_remaining := by
      intro i hi
      have hi1 : i < rows.length := by
        rcases hi with c | c
        · rw [c]; exact hm
        · exact List.mem_range.mp (List.mem_of_mem_erase c)
      obtain ⟨-, -, l3, -, l5⟩ := noIoRows_load rows a h i hi1
      obtain ⟨-, k2, k3⟩ := a7' i
      by_cases c : i = m
      · subst c
        simp only [Function.update_same]
        rw [k2, k3, l5]
        exact ⟨rfl, l3, rfl⟩
      · simp only [Function.update_noteq c]
        rw [k2, k3, l5]
        exact ⟨rfl, l3, rfl⟩
    have hbound : ∀ i, i = m ∨ i ∈ (List.range rows.length).erase m →
        0 < (loadProcs rows i).total_cpu_time ∧ (loadProcs rows i).total_cpu_time ≤ INT_MAX := by
      intro i hi
      have hi1 : i < rows.length := by
        rcases hi with c | c
        · rw [c]; exact hm
        · exact List.mem_range.mp (List.mem_of_mem_erase c)
      obtain ⟨-, l2, -, l4, -⟩ := noIoRows_load rows a h i hi1
      exact ⟨l2, l4⟩
    obtain ⟨f1, f2, -⟩ := hfresh m (Or.inl rfl)
    obtain ⟨b1, b2⟩ := hbound m (Or.inl rfl)
    have hquiet1 : extra.filter (fun r => decide (r.new_state = STATE_TERMINATED)) = [] := by
      rw [List.filter_eq_nil_iff]
      intro r hr
      simp [a9 r hr]
    have hquiet2 : extra.filter dispatches = [] := by
      rw [List.filter_eq_nil_iff]
      intro r hr
      simp [dispatches, a9 r hr]
    exact
      { new_nil := a1
        waiting_nil := a3'
        term := a4'
        ready := rfl
        running := rfl
        step := by
          show get_time_to_next_event _ _ (some m) s2.new_list s2.waiting_list = _
          rw [a1, a3', get_time_to_next_event_burst _ _ m (by rw [f1]; exact f2)
            (by rw [f1]; exact b2) (by rw [f1]; exact b1), f1]
        clock := by
          show s2.cpu_clock = a + totalOf rows []
          rw [a6']
          simp [totalOf]
        static := by
          intro i
          show (Function.update s2.procs m _ i).total_cpu_time = _
          by_cases c : i = m
          · subst c; simp only [Function.update_same]; exact (a7' i).1
          · simp only [Function.update_noteq c]; exact (a7' i).1
        fresh := hfresh
        bound := hbound
        sorted := by simp
        ahead := by
          intro x hx y hy
          simp only [List.nil_append, List.mem_singleton] at hx
          rw [hx]
          exact hsh y hy
        ready_sorted := (List.pairwise_lt_range _).sublist (List.erase_sublist m _)
        perm := by
          simp only [List.nil_append]
          exact (List.perm_cons_erase hmR).symm
        log_term := by
          show ((s2.log ++ _).filter _).map _ = _
          rw [a8', List.filter_append, hquiet1]
          simp [finishTimes]
        log_disp := by
          show ((s2.log ++ _).filter _).map _ = _
          rw [a8', List.filter_append, hquiet2]
          simp [dispatches]
        log_wait := by
          intro r hr
          have hr1 : r ∈ s2.log ++ [(⟨s2.cpu_clock, (s2.procs m).pid, STATE_READY, STATE_RUNNING, m, (s2.procs m).s⟩ : Line)] := hr
          rw [a8'] at hr1
          rcases List.mem_append.mp hr1 with c | c
          · rw [a9 r c]; decide
          · simp only [List.mem_singleton] at c
            rw [c]
            simp }

/-- In a run without I/O in which all processes arrive together the loop ends, in the
state that `SjfDone` describes. -/
theorem sjf_run (rows : List (Int × Int × Int × Int × Int)) (a : Int) (hne : rows ≠ [])
    (h : NoIoRows rows a) :
    ∃ fuel st, mainLoop fuel (initSim rows) = some st ∧ SjfDone rows a st := by
  rcases eq_or_lt_of_le h.1 with ha | ha
  · obtain ⟨st, m, e1, h1, c1⟩ := sjf_arrival rows a hne h (initSim rows) rfl rfl rfl rfl rfl
      rfl rfl (by rw [← ha]; rfl)
    obtain ⟨fuel, st1, e2, h2⟩ := sjf_finish rows a _ [] _ m st rfl h1
    refine ⟨fuel + 1, st1, ?_, h2⟩
    simp [mainLoop, e1, c1, e2]
  · obtain ⟨X, e0, x1, x2, x3, x4, x5, x6, x7, x8, c0, -⟩ := sjf_first_pass rows a hne h ha
    obtain ⟨st, m, e1, h1, c1⟩ := sjf_arrival rows a hne h X x1 x2 x3 x4 x5 x6 x7 x8
    obtain ⟨fuel, st1, e2, h2⟩ := sjf_finish rows a _ [] _ m st rfl h1
    refine ⟨fuel + 2, st1, ?_, h2⟩
    simp [mainLoop, e0, c0, e1, c1, e2]

/-- What the state at the end of a run without I/O shows: the clock is `a` plus the sum of
the totals; the terminated list holds every process once, in non-decreasing order of
`total_cpu_time` with equal values in insertion order; the RUNNING->TERMINATED lines are,
in this order, at the times `a` plus the running sum of the totals; the READY->RUNNING
lines are for the same processes in the same order, the first one being for a process with
the smallest total; and no line enters WAITING. -/
theorem sjfDone_order (rows : List (Int × Int × Int × Int × Int)) (a : Int)
    (hne : rows ≠ []) (st : Sim) (hd : SjfDone rows a st) :
      st.cpu_clock = a + totalOf rows st.terminated ∧
      st.terminated.Perm (List.range rows.length) ∧
      st.terminated.Pairwise (fun i j =>
        (loadProcs rows i).total_cpu_time < (loadProcs rows j).total_cpu_time ∨
        ((loadProcs rows i).total_cpu_time = (loadProcs rows j).total_cpu_time ∧ i < j)) ∧
      ((st.log.filter (fun r => r.new_state = STATE_TERMINATED)).map
        (fun r => (r.node, r.time))) = finishTimes rows a st.terminated ∧
      (st.log.filter (fun r => r.old_state = STATE_READY ∧ r.new_state = STATE_RUNNING)).map
        (fun r => r.node) = st.terminated ∧
      (∃ m, ((st.log.filter
          (fun r => r.old_state = STATE_READY ∧ r.new_state = STATE_RUNNING)).head?).map
            (fun r => r.node) = some m ∧
        ∀ i, i < rows.length →
          (loadProcs rows m).total_cpu_time ≤ (loadProcs rows i).total_cpu_time) ∧
      ∀ r ∈ st.log, r.new_state ≠ STATE_WAITING := by
  obtain ⟨-, h2, h3, h4, h5, h6, hclk⟩ := hd
  have hf : (fun r : Line => decide (r.old_state = STATE_READY ∧ r.new_state = STATE_RUNNING))
      = dispatches := by
    funext r
    unfold dispatches
    cases r.old_state <;> cases r.new_state <;> rfl
  refine ⟨hclk, h2, h3, h4, by rw [hf]; exact h5, ?_, h6⟩
  rw [hf]
  have hlen : 0 < rows.length := List.length_pos.mpr hne
  cases ht : st.terminated with
  | nil =>
    rw [ht] at h2
    have := h2.length_eq
    simp at this
    omega
  | cons m rest =>
    rw [ht] at h2 h3 h5
    refine ⟨m, ?_, ?_⟩
    · rw [← List.head?_map, h5]
      rfl
    · intro i hi
      have hmem : i ∈ m :: rest := h2.mem_iff.mpr (List.mem_range.mpr hi)
      rcases List.mem_cons.mp hmem with c | c
      · rw [c]
      · rcases (List.pairwise_cons.mp h3).1 i c with d | d
        · exact le_of_lt d
        · exact le_of_eq d.1

/-! ### Empty input -/

/-- C21: with zero processes `kernelSim` evaluates its loop test once, finds it false and
leaves the loop: after any positive number of control steps the state is the initial one
with the control point after the loop, so no pass of the loop body is made, no record is
written and nothing is enqueued.  The event-skip loop entered with `new_list` empty (and
any process store) makes one pass, which writes no line, and its loop condition then
fails: whatever the bound on the number of passes, the loop is left after that one pass,
with no line printed, the terminated list empty and `cpu_clock` 0. -/
theorem c21_empty_input_makes_no_transition (processes : Tick.Mem) (procs : Procs) :
    (∀ n, Tick.runSteps (n + 1) (Tick.kernelInit processes 0) =
        { Tick.kernelInit processes 0 with pc := Tick.Pc.finished }) ∧
    (Tick.kernelInit processes 0).log = [] ∧
    (∀ n, Tick.headVisits (Tick.kernelInit processes 0) (n + 1) = 1) ∧
    ∃ st1, loopBody { initSim [] with procs := procs } = some st1 ∧
      simulation_completed st1 = true ∧
      (∀ fuel, mainLoop (fuel + 1) { initSim [] with procs := procs } = some st1) ∧
      st1.log = [] ∧ st1.terminated = [] ∧ st1.cpu_clock = 0 ∧
      st1.ready_list = [] ∧ st1.new_list = [] ∧ st1.waiting_list = [] ∧ st1.running = none := by
  have hstep : Tick.step (Tick.kernelInit processes 0) =
      { Tick.kernelInit processes 0 with pc := Tick.Pc.finished } := by
    simp [Tick.step, Tick.kernelInit, Tick.new_queue]
  have hrun : ∀ n, Tick.runSteps (n + 1) (Tick.kernelInit processes 0) =
      { Tick.kernelInit processes 0 with pc := Tick.Pc.finished } := by
    intro n
    rw [Tick.runSteps, hstep]
    exact Tick.runSteps_finished n _ rfl
  refine ⟨hrun, rfl, ?_, ?_⟩
  · intro n
    induction n with
    | zero => simp [Tick.headVisits, Tick.runSteps, Tick.kernelInit]
    | succ n ih =>
      rw [Tick.headVisits, ih, hrun n]
      simp
  · have hb : loopBody { initSim [] with procs := procs } =
        some { initSim [] with procs := procs, next_step := INT_MAX } := by
      simp [loopBody, initSim, scanWaiting, scanNew, cpuStep, get_next_process,
        get_time_to_next_event, cmin, INT_MAX]
    refine ⟨_, hb, rfl, ?_, rfl, rfl, rfl, rfl, rfl, rfl, rfl⟩
    intro fuel
    rw [mainLoop, hb]
    rfl

/-! ### The lines of a pass, in the order they are written -/

/-- The scan of the waiting list writes WAITING->READY lines only, stamped with the clock,
for nodes of the scanned list in the order of that list, and appends these nodes to the
ready list in the same order. -/
theorem scanWaiting_lines (wt : NodeList) :
    ∀ st st1 : Sim, scanWaiting wt st = some st1 →
      st1.cpu_clock = st.cpu_clock ∧ st1.new_list = st.new_list ∧
      (∀ i, (st1.procs i).arrival_time = (st.procs i).arrival_time) ∧
      ∃ ws, st1.log = st.log ++ ws ∧
        st1.ready_list = st.ready_list ++ ws.map (fun r => r.node) ∧
        (ws.map (fun r => r.node)).Sublist wt ∧
        ∀ r ∈ ws, r.old_state = STATE_WAITING ∧ r.new_state = STATE_READY ∧
          r.time = st.cpu_clock := by
  induction wt with
  | nil =>
    intro st st1 h
    simp only [scanWaiting, Option.some.injEq] at h
    subst h
    exact ⟨rfl, rfl, fun _ => rfl, [], by simp, by simp, by simp, by simp⟩
  | cons node rest ih =>
    intro st st1 h
    unfold scanWaiting at h
    simp only at h
    split at h
    · split at h
      · exact absurd h (by simp)
      · obtain ⟨h1, h2, ha, ws, h3, h4, h5, h6⟩ := ih _ _ h
        refine ⟨h1, h2, ?_, (⟨st.cpu_clock, (st.procs node).pid, STATE_WAITING, STATE_READY, node,
          (st.procs node).s⟩ : Line) :: ws, ?_, ?_, ?_, ?_⟩
        · intro i
          rw [ha i]
          by_cases hi : i = node
          · subst hi; simp only [Function.update_same]
          · simp only [Function.update_noteq hi]
        · rw [h3, List.append_assoc]
          rfl
        · rw [h4, push_node_eq, List.append_assoc]
          rfl
        · exact h5.cons₂ node
        · intro r hr
          rcases List.mem_cons.mp hr with e | e
          · subst e
            exact ⟨rfl, rfl, rfl⟩
          · exact h6 r e
    · obtain ⟨h1, h2, ha, ws, h3, h4, h5, h6⟩ := ih _ _ h
      refine ⟨h1, h2, ?_, ws, h3, h4, h5.cons node, h6⟩
      intro i
      rw [ha i]
      by_cases hi : i = node
      · subst hi; simp only [Function.update_same]
      · simp only [Function.update_noteq hi]

/-- The scan of the new list writes NEW->READY lines only, stamped with the clock, for nodes
of the scanned list whose arrival time is the clock, in the order of that list, and appends
these nodes to the ready list in the same order. -/
theorem scanNew_lines (nt : NodeList) :
    ∀ st st1 : Sim, scanNew nt st = some st1 →
      st1.cpu_clock = st.cpu_clock ∧ st1.waiting_list = st.waiting_list ∧
      (∀ i, (st1.procs i).arrival_time = (st.procs i).arrival_time) ∧
      ∃ ns, st1.log = st.log ++ ns ∧
        st1.ready_list = st.ready_list ++ ns.map (fun r => r.node) ∧
        (ns.map (fun r => r.node)).Sublist nt ∧
        ∀ r ∈ ns, r.old_state = STATE_NEW ∧ r.new_state = STATE_READY ∧
          r.time = st.cpu_clock ∧ (st.procs r.node).arrival_time = st.cpu_clock := by
  induction nt with
  | nil =>
    intro st st1 h
    simp only [scanNew, Option.some.injEq] at h
    subst h
    exact ⟨rfl, rfl, fun _ => rfl, [], by simp, by simp, by simp, by simp⟩
  | cons node rest ih =>
    intro st st1 h
    unfold scanNew at h
    simp only at h
    split at h
    · rename_i harr
      split at h
      · exact absurd h (by simp)
      · obtain ⟨h1, h2, ha, ns, h3, h4, h5, h6⟩ := ih _ _ h
        have hupd : ∀ i, ((Function.update st.procs node
            { st.procs node with s := STATE_READY }) i).arrival_time =
            (st.procs i).arrival_time := by
          intro i
          by_cases hi : i = node
          · subst hi; simp only [Function.update_same]
          · simp only [Function.update_noteq hi]
        refine ⟨h1, h2, fun i => (ha i).trans (hupd i),
          (⟨st.cpu_clock, (st.procs node).pid, STATE_NEW, STATE_READY, node,
            (st.procs node).s⟩ : Line) :: ns, ?_, ?_, ?_, ?_⟩
        · rw [h3, List.append_assoc]
          rfl
        · rw [h4, push_node_eq, List.append_assoc]
          rfl
        · exact h5.cons₂ node
        · intro r hr
          rcases List.mem_cons.mp hr with e | e
          · subst e
            exact ⟨rfl, rfl, rfl, harr⟩
          · obtain ⟨g1, g2, g3, g4⟩ := h6 r e
            exact ⟨g1, g2, g3, (hupd r.node).symm.trans g4⟩
    · obtain ⟨h1, h2, ha, ns, h3, h4, h5, h6⟩ := ih _ _ h
      exact ⟨h1, h2, ha, ns, h3, h4, h5.cons node, h6⟩

/-- Dispatching a node of a ready list without repetitions: the ready list loses that node
and nothing else. -/
theorem startRunning_ready (st st1 : Sim) (r : Nat) (h : startRunning st r = some st1)
    (hmem : r ∈ st.ready_list) (hnd : st.ready_list.Nodup) :
    st1.ready_list = st.ready_list.filter (fun i => decide (st1.running ≠ some i)) := by
  unfold startRunning at h
  rw [remove_node_of_mem _ _ hmem] at h
  simp only [Option.some.injEq] at h
  subst h
  simp only
  rw [List.Nodup.erase_eq_filter hnd]
  apply List.filter_congr
  intro x _
  by_cases hx : x = r
  · subst hx; simp
  · have : r ≠ x := fun c => hx c.symm
    simp [hx, this]

/-- Lines 396-470 from a state in which both scans are done: the lines written are stamped
with the clock, none of them is about an arrival or a return from I/O, and the ready list
loses the node that is dispatched, if one is, and nothing else. -/
theorem cpuStep_lines (rows : List (Int × Int × Int × Int × Int)) (m0 d0 : Nat)
    (strict : Bool) (st st1 : Sim) (h : Mid rows m0 d0 strict [] [] true st)
    (hc : cpuStep st = some st1) :
    st1.cpu_clock = st.cpu_clock ∧
    ∃ cs, st1.log = st.log ++ cs ∧
      (∀ r ∈ cs, r.old_state ≠ STATE_NEW ∧ r.old_state ≠ STATE_WAITING ∧
        r.new_state ≠ STATE_READY ∧ r.time = st.cpu_clock) ∧
      st1.ready_list = st.ready_list.filter (fun i => decide (st1.running ≠ some i)) := by
  -- dispatching `r` from a state `sa` that has the ready list and the clock of `st`
  have key : ∀ (sa : Sim) (r : Nat) (pre : List Line), startRunning sa r = some st1 →
      r ∈ st.ready_list → sa.ready_list = st.ready_list → sa.cpu_clock = st.cpu_clock →
      sa.log = st.log ++ pre →
      (∀ x ∈ pre, x.old_state ≠ STATE_NEW ∧ x.old_state ≠ STATE_WAITING ∧
        x.new_state ≠ STATE_READY ∧ x.time = st.cpu_clock) →
      st1.cpu_clock = st.cpu_clock ∧
      ∃ cs, st1.log = st.log ++ cs ∧
        (∀ x ∈ cs, x.old_state ≠ STATE_NEW ∧ x.old_state ≠ STATE_WAITING ∧
          x.new_state ≠ STATE_READY ∧ x.time = st.cpu_clock) ∧
        st1.ready_list = st.ready_list.filter (fun i => decide (st1.running ≠ some i)) := by
    intro sa r pre hsr hmem hrl hcl hlog hpre
    obtain ⟨e1, -, -, e4⟩ := startRunning_effect sa st1 r hsr
    have e5 := startRunning_ready sa st1 r hsr (by rw [hrl]; exact hmem)
      (by rw [hrl]; exact h.nd_ready)
    refine ⟨e1.trans hcl, pre ++ [⟨sa.cpu_clock, (sa.procs r).pid, STATE_READY, STATE_RUNNING, r,
      (sa.procs r).s⟩], ?_, ?_, ?_⟩
    · rw [e4, hlog, List.append_assoc]
    · intro x hx
      rcases List.mem_append.mp hx with c | c
      · exact hpre x c
      · simp only [List.mem_singleton] at c
        subst c
        exact ⟨by simp, by simp, by simp, hcl⟩
    · rw [e5, hrl]
  unfold cpuStep at hc
  cases hr : st.running with
  | none =>
    simp only [hr] at hc
    split at hc
    · rename_i r hg
      exact key st r [] hc (get_next_process_mem _ _ _ hg) rfl rfl (by simp) (by simp)
    · rename_i hg
      have hnil := get_next_process_none _ _ hg
      have hnoop : scanNew st.new_list st = some st := by
        apply scanNew_noop
        intro i hi
        have hlt := h.lt_new i hi
        obtain ⟨-, hpl, htm, -⟩ := h.node i hlt
        have hs := hpl.1.mp hi
        unfold Timers at htm
        simp only [hs] at htm
        have := htm.2.2.2.2 (by simp)
        omega
      simp only [hnoop, Option.some.injEq] at hc
      subst hc
      refine ⟨rfl, [], by simp, by simp, ?_⟩
      show st.ready_list = _
      rw [hnil]
      rfl
  | some run =>
    obtain ⟨-, -, -, hnotready, -⟩ := running_facts h hr
    simp only [hr] at hc
    by_cases hend : (st.procs run).cpu_time_remaining - st.next_step ≤ 0
    · simp only [if_pos hend] at hc
      split at hc
      · rename_i r hg
        exact key _ r [⟨st.cpu_clock, (st.procs run).pid, STATE_RUNNING, STATE_TERMINATED, run,
            (st.procs run).s⟩] hc (get_next_process_mem _ _ _ hg) rfl rfl rfl
          (by intro x hx; simp only [List.mem_singleton] at hx; subst hx; simp)
      · rename_i hg
        have hnil : st.ready_list = [] := get_next_process_none _ _ hg
        simp only [Option.some.injEq] at hc
        subst hc
        refine ⟨rfl, [⟨st.cpu_clock, (st.procs run).pid, STATE_RUNNING, STATE_TERMINATED, run,
            (st.procs run).s⟩], rfl, ?_, ?_⟩
        · intro x hx; simp only [List.mem_singleton] at hx; subst hx; simp
        · show st.ready_list = _
          rw [hnil]
          rfl
    · simp only [if_neg hend] at hc
      by_cases hblock : (st.procs run).io_time_remaining - st.next_step ≤ 0
      · simp only [if_pos hblock] at hc
        split at hc
        · rename_i r rest hg
          have hg1 : st.ready_list = r :: rest := hg
          exact key _ r [⟨st.cpu_clock, (st.procs run).pid, STATE_RUNNING, STATE_WAITING, run,
              (st.procs run).s⟩] hc (by rw [hg1]; exact List.mem_cons_self _ _) rfl rfl rfl
            (by intro x hx; simp only [List.mem_singleton] at hx; subst hx; simp)
        · rename_i hg
          have hnil : st.ready_list = [] := hg
          simp only [Option.some.injEq] at hc
          subst hc
          refine ⟨rfl, [⟨st.cpu_clock, (st.procs run).pid, STATE_RUNNING, STATE_WAITING, run,
              (st.procs run).s⟩], rfl, ?_, ?_⟩
          · intro x hx; simp only [List.mem_singleton] at hx; subst hx; simp
          · show st.ready_list = _
            rw [hnil]
            rfl
      · simp only [if_neg hblock, Option.some.injEq] at hc
        subst hc
        refine ⟨rfl, [], by simp, by simp, ?_⟩
        show st.ready_list = List.filter (fun i => decide (some run ≠ some i)) st.ready_list
        symm
        rw [List.filter_eq_self]
        intro a ha
        have : run ≠ a := fun c => hnotready (c ▸ ha)
        simp [this]

/-- The lines of one pass from a state that satisfies the loop invariant, in the order in
which they are written: first the WAITING->READY lines of the scan of the waiting list,
then the NEW->READY lines of the scan of the new list, then the lines of the CPU step, none
of which ends in READY.  All are stamped with the clock of the pass.  The ready list after
the pass is the ready list before it, then the nodes that came back from I/O, then the
nodes that arrived, less the node that the pass has put on the CPU. -/
theorem loopBody_lines (rows : List (Int × Int × Int × Int × Int)) (strict : Bool)
    (st st1 : Sim) (h : HeadInv rows strict st) (hb : loopBody st = some st1) :
    st1.cpu_clock = st.cpu_clock + st.next_step ∧
    ∃ ws ns cs, st1.log = st.log ++ ws ++ ns ++ cs ∧
      (∀ r ∈ ws, r.old_state = STATE_WAITING ∧ r.new_state = STATE_READY ∧
        r.time = st1.cpu_clock) ∧
      (∀ r ∈ ns, r.old_state = STATE_NEW ∧ r.new_state = STATE_READY ∧
        r.time = st1.cpu_clock ∧ (st.procs r.node).arrival_time = st1.cpu_clock) ∧
      (∀ r ∈ cs, r.old_state ≠ STATE_NEW ∧ r.old_state ≠ STATE_WAITING ∧
        r.new_state ≠ STATE_READY ∧ r.time = st1.cpu_clock) ∧
      (ws.map (fun r => r.node)).Sublist st.waiting_list ∧
      (ns.map (fun r => r.node)).Sublist st.new_list ∧
      st1.ready_list =
        (st.ready_list ++ ws.map (fun r => r.node) ++ ns.map (fun r => r.node)).filter
          (fun i => decide (st1.running ≠ some i)) := by
  obtain ⟨s1, s2, s3, e1, e2, m2, e3, hst⟩ := loopBody_stages rows strict st st1 h hb
  obtain ⟨a1, a2, a7, ws, a3, a4, a5, a6⟩ := scanWaiting_lines _ _ _ e1
  obtain ⟨b1, -, b2, ns, b3, b4, b5, b6⟩ := scanNew_lines _ _ _ e2
  obtain ⟨c1, cs, c2, c3, c4⟩ := cpuStep_lines rows _ _ strict s2 s3 m2 e3
  have hc1 : s1.cpu_clock = st.cpu_clock + st.next_step := a1
  have hc2 : s2.cpu_clock = st.cpu_clock + st.next_step := b1.trans hc1
  have hc3 : s3.cpu_clock = st.cpu_clock + st.next_step := c1.trans hc2
  subst hst
  refine ⟨hc3, ws, ns, cs, ?_, ?_, ?_, ?_, a5, b5, ?_⟩
  · show s3.log = _
    rw [c2, b3, a3]
    rfl
  · intro r hr
    obtain ⟨g1, g2, g3⟩ := a6 r hr
    exact ⟨g1, g2, g3.trans hc3.symm⟩
  · intro r hr
    obtain ⟨g1, g2, g3, g4⟩ := b6 r hr
    refine ⟨g1, g2, g3.trans (hc1.trans hc3.symm), ?_⟩
    have a8 : (s1.procs r.node).arrival_time = (st.procs r.node).arrival_time := a7 r.node
    rw [← a8, g4]
    exact hc1.trans hc3.symm
  · intro r hr
    obtain ⟨g1, g2, g3, g4⟩ := c3 r hr
    exact ⟨g1, g2, g3, g4.trans (hc2.trans hc3.symm)⟩
  · show s3.ready_list = _
    rw [c4, b4, a4]
    rfl

/-! ### What a pass does to a waiting node -/

/-- The state after some lines is the new state of the last of them. -/
theorem endState_of_getLast (s : STATE) (l : List Line) (r : Line) (h : r ∈ l.getLast?) :
    endState s l = r.new_state := by
  obtain ⟨ys, e⟩ := List.getLast?_eq_some_iff.mp h
  rw [e, endState_snoc]

/-- In linked lines every line starts from the state the lines before it have led to, by
a legal move. -/
theorem linkedFrom_split (s : STATE) (l1 l2 : List Line) (r : Line)
    (h : linkedFrom s (l1 ++ r :: l2) = true) :
    r.old_state = endState s l1 ∧ legalMove r.old_state r.new_state = true := by
  induction l1 generalizing s with
  | nil =>
    simp only [List.nil_append, linkedFrom, Bool.and_eq_true, beq_iff_eq] at h
    exact ⟨h.1.1.1, h.1.2⟩
  | cons a l1 ih =>
    simp only [List.cons_append, linkedFrom, Bool.and_eq_true] at h
    exact ih _ h.2

/-- The scan of the waiting list, for a node `p` of the scanned list: when its wait is
over the scan writes its WAITING->READY line and resets `io_time_remaining` to the I/O
frequency; otherwise it takes the step off `io_time_remaining` and writes nothing. -/
theorem scanWaiting_on (p : Nat) (wt : NodeList) :
    ∀ st st1 : Sim, scanWaiting wt st = some st1 → p ∈ wt → wt.Nodup →
      ((st.procs p).io_time_remaining - st.next_step ≤ 0 →
        linesOf p st1.log = linesOf p st.log ++
          [⟨st.cpu_clock, (st.procs p).pid, STATE_WAITING, STATE_READY, p, (st.procs p).s⟩] ∧
        (st1.procs p).io_time_remaining = (st.procs p).io_frequency ∧
        (st1.procs p).s = STATE_READY) ∧
      (¬ (st.procs p).io_time_remaining - st.next_step ≤ 0 →
        linesOf p st1.log = linesOf p st.log ∧
        (st1.procs p).io_time_remaining = (st.procs p).io_time_remaining - st.next_step ∧
        (st1.procs p).s = (st.procs p).s) := by
  induction wt with
  | nil =>
    intro st st1 _ hp
    cases hp
  | cons node rest ih =>
    intro st st1 h hp hnd
    have hnotrest : node ∉ rest := (List.nodup_cons.mp hnd).1
    have hrest_nd : rest.Nodup := (List.nodup_cons.mp hnd).2
    unfold scanWaiting at h
    simp only at h
    by_cases hpn : p = node
    · subst hpn
      split at h
      · rename_i hle
        split at h
        · exact absurd h (by simp)
        · obtain ⟨-, -, -, -, -, k⟩ := scanWaiting_calm p _ _ _ h
          obtain ⟨k1, k2⟩ := k hnotrest
          refine ⟨fun _ => ?_, fun c => absurd hle c⟩
          rw [k1, k2]
          simp only [Function.update_same]
          exact ⟨linesOf_snoc_self p _ _ rfl, trivial, trivial⟩
      · rename_i hle
        obtain ⟨-, -, -, -, -, k⟩ := scanWaiting_calm p _ _ _ h
        obtain ⟨k1, k2⟩ := k hnotrest
        refine ⟨fun c => absurd c hle, fun _ => ?_⟩
        rw [k1, k2]
        simp only [Function.update_same]
        exact ⟨trivial, trivial, trivial⟩
    · have hprest : p ∈ rest := by
        rcases List.mem_cons.mp hp with c | c
        · exact absurd c hpn
        · exact c
      split at h
      · split at h
        · exact absurd h (by simp)
        · have := ih _ _ h hprest hrest_nd
          simp only [Function.update_noteq hpn] at this
          rw [linesOf_snoc_other p _ _ (fun c => hpn c.symm)] at this
          exact this
      · have := ih _ _ h hprest hrest_nd
        simp only [Function.update_noteq hpn] at this
        exact this

/-- A pass of the loop, for a node that is WAITING when it starts: the step of the pass is
at most what is left of its wait; when it is all that is left, the pass writes the
WAITING->READY line of the node at its clock, after it at most a dispatch, and leaves
`io_time_remaining` at the I/O frequency; when it is less, the pass writes nothing about
the node and takes the step off `io_time_remaining`. -/
theorem pass_waiting (rows : List (Int × Int × Int × Int × Int)) (strict : Bool)
    (st st1 : Sim) (p : Nat) (h : HeadInv rows strict st) (hb : loopBody st = some st1)
    (hp : p < rows.length) (hs : (st.procs p).s = STATE_WAITING) :
    st1.cpu_clock = st.cpu_clock + st.next_step ∧
    st.next_step ≤ (st.procs p).io_time_remaining ∧
    ((st.procs p).io_time_remaining ≤ st.next_step →
      (∃ w tail, linesOf p st1.log = linesOf p st.log ++ w :: tail ∧
        w.old_state = STATE_WAITING ∧ w.new_state = STATE_READY ∧ w.time = st1.cpu_clock ∧
        ∀ x ∈ tail, x.new_state = STATE_RUNNING) ∧
      (st1.procs p).io_time_remaining = (loadProcs rows p).io_frequency) ∧
    (st.next_step < (st.procs p).io_time_remaining →
      linesOf p st1.log = linesOf p st.log ∧
      (st1.procs p).io_time_remaining = (st.procs p).io_time_remaining - st.next_step ∧
      (st1.procs p).s = STATE_WAITING) := by
  obtain ⟨s1, s2, s3, e1, e2, m2, e3, hst⟩ := loopBody_stages rows strict st st1 h hb
  obtain ⟨st1a, hb1, h1, -⟩ := loopBody_head rows strict st h
  have e : st1a = st1 := by
    rw [hb] at hb1
    simpa using hb1.symm
  subst e
  have hh := h
  unfold HeadInv at h
  obtain ⟨hstat, hpl, htm, hlg⟩ := h.node p hp
  have hs0 : ((advance st).procs p).s = STATE_WAITING := hs
  have hmem : p ∈ st.waiting_list := hpl.2.2.1.mpr hs0
  have hnew : p ∉ st.new_list := by
    intro c
    have := hpl.1.mp c
    rw [hs0] at this
    cases this
  have hrun : st.running ≠ some p := by
    intro c
    have := hpl.2.2.2.2.mp c
    rw [hs0] at this
    cases this
  unfold Timers at htm
  simp only [hs0] at htm
  have hstep : st.next_step ≤ (st.procs p).io_time_remaining := htm.2.2.2.2 hmem
  have hfreq : (st.procs p).io_frequency = (loadProcs rows p).io_frequency := hstat.2.2.2.1
  obtain ⟨a1, a2, a3, -⟩ := scanWaiting_calm p _ _ _ e1
  obtain ⟨a4, a5⟩ := scanWaiting_on p _ _ _ e1 hmem h.nd_waiting
  obtain ⟨b1, b2, b3, -, -, b6⟩ := scanNew_calm p _ _ _ e2
  obtain ⟨b7, b8⟩ := b6 hnew
  have hc2 : s2.cpu_clock = st.cpu_clock + st.next_step := b1.trans a1
  have hr2 : s2.running ≠ some p := by rw [b3.trans a3]; exact hrun
  obtain ⟨c1, -, c3⟩ := cpuStep_on_other rows _ _ strict s2 s3 p m2 hr2 e3
  have hc3 : s3.cpu_clock = st.cpu_clock + st.next_step := c1.trans hc2
  obtain ⟨g1, -⟩ := head_logged rows strict st p hh hp
  unfold HeadInv at h1
  obtain ⟨hstat1, -, -, hlg1⟩ := h1.node p hp
  have hlink1 : linkedFrom STATE_NEW (linesOf p st1a.log) = true := hlg1.1
  have hfreq1 : (st1a.procs p).io_frequency = (loadProcs rows p).io_frequency := hstat1.2.2.2.1
  subst hst
  refine ⟨hc3, hstep, ?_, ?_⟩
  · intro hle
    obtain ⟨k1, k2, k3⟩ := a4 (by show (st.procs p).io_time_remaining - st.next_step ≤ 0; omega)
    rcases c3 with ⟨-, d2, d3⟩ | ⟨-, d2, d3⟩
    · refine ⟨⟨⟨st.cpu_clock + st.next_step, (st.procs p).pid, STATE_WAITING, STATE_READY, p,
          (st.procs p).s⟩,
        [⟨s2.cpu_clock, (s2.procs p).pid, STATE_READY, STATE_RUNNING, p, STATE_READY⟩],
        ?_, rfl, rfl, ?_, ?_⟩, ?_⟩
      · show linesOf p s3.log = _
        rw [d2, b8, k1, List.append_assoc]
        rfl
      · show st.cpu_clock + st.next_step = s3.cpu_clock
        exact hc3.symm
      · intro x hx
        simp only [List.mem_singleton] at hx
        rw [hx]
      · show (s3.procs p).io_time_remaining = _
        rw [d3]
        exact hfreq1
    · refine ⟨⟨⟨st.cpu_clock + st.next_step, (st.procs p).pid, STATE_WAITING, STATE_READY, p,
          (st.procs p).s⟩, [], ?_, rfl, rfl, ?_, ?_⟩, ?_⟩
      · show linesOf p s3.log = _
        rw [d2, b8, k1]
        rfl
      · show st.cpu_clock + st.next_step = s3.cpu_clock
        exact hc3.symm
      · intro x hx
        cases hx
      · show (s3.procs p).io_time_remaining = _
        rw [d3, b7, k2]
        exact hfreq
  · intro hlt
    obtain ⟨k1, k2, k3⟩ := a5 (by show ¬ (st.procs p).io_time_remaining - st.next_step ≤ 0; omega)
    rcases c3 with ⟨-, d2, -⟩ | ⟨-, d2, d3⟩
    · exfalso
      have hl : linesOf p s3.log = linesOf p st.log ++
          [⟨s2.cpu_clock, (s2.procs p).pid, STATE_READY, STATE_RUNNING, p, STATE_READY⟩] := by
        rw [d2, b8, k1]
        rfl
      have hlink : linkedFrom STATE_NEW (linesOf p s3.log) = true := hlink1
      rw [hl] at hlink
      obtain ⟨f1, -⟩ := linkedFrom_split _ _ _ _ hlink
      rw [g1, hs] at f1
      cases f1
    · refine ⟨?_, ?_, ?_⟩
      · show linesOf p s3.log = _
        rw [d2, b8, k1]
        rfl
      · show (s3.procs p).io_time_remaining = _
        rw [d3, b7, k2]
        rfl
      · show (s3.procs p).s = _
        rw [d3, b7, k3]
        exact hs

/-! ### An I/O wait lasts `io_duration` -/

/-- Lines none of which ends in WAITING start no wait. -/
theorem chain_quiet (d : Int) (l : List Line) (h : ∀ x ∈ l, x.new_state ≠ STATE_WAITING) :
    l.Chain' (fun r w => r.new_state = STATE_WAITING → w.time = r.time + d) := by
  induction l with
  | nil => exact List.chain'_nil
  | cons a l ih =>
    apply List.Chain'.cons' (ih (fun x hx => h x (List.mem_cons_of_mem _ hx)))
    intro y _ c
    exact absurd c (h a (List.mem_cons_self _ _))

/-- The last line of `l ++ q` is a line of `q`, or the last line of `l`. -/
theorem mem_getLast_append (l q : List Line) (r : Line) (h : r ∈ (l ++ q).getLast?) :
    r ∈ q ∨ r ∈ l.getLast? := by
  cases q with
  | nil =>
    rw [List.append_nil] at h
    exact Or.inr h
  | cons a q =>
    rw [List.getLast?_append_of_ne_nil _ (by simp)] at h
    exact Or.inl (List.mem_of_mem_getLast? h)

/-- A pass of the loop keeps the account of the I/O waits of every node. -/
theorem waited_pass (rows : List (Int × Int × Int × Int × Int)) (strict : Bool)
    (st st1 : Sim) (p : Nat) (h : HeadInv rows strict st) (hw : Waited rows st p)
    (hb : loopBody st = some st1) (hp : p < rows.length) : Waited rows st1 p := by
  obtain ⟨hch, hlast⟩ := hw
  obtain ⟨g1, g2⟩ := head_logged rows strict st p h hp
  have hend : ∀ x ∈ (linesOf p st.log).getLast?, x.new_state = (st.procs p).s := by
    intro x hx
    rw [← g1, endState_of_getLast _ _ _ hx]
  by_cases hrun : st.running = some p
  · have hs := g2 hrun
    obtain ⟨-, -, -, -, -, -, hdur⟩ := head_running_facts rows strict st p h hrun
    obtain ⟨hclock, b1, b2, b3⟩ := pass_running rows strict st st1 p h hb hrun
    have hjunction : ∀ (q : List Line), ∀ x ∈ (linesOf p st.log).getLast?, ∀ y ∈ q.head?,
        x.new_state = STATE_WAITING → y.time = x.time + (loadProcs rows p).io_duration := by
      intro q x hx y _ c
      rw [hend x hx, hs] at c
      cases c
    by_cases hfin : (st.procs p).cpu_time_remaining - st.next_step ≤ 0
    · obtain ⟨⟨rel, r1, -, -, r4⟩, -⟩ := b1 hfin
      clear b1 b2 b3
      refine ⟨?_, ?_⟩
      · rw [r1]
        exact List.chain'_append.mpr ⟨hch, List.chain'_singleton _, hjunction _⟩
      · intro r hr c
        rw [r1, List.getLast?_concat] at hr
        have e : rel = r := by simpa using hr
        subst e
        rw [r4] at c
        cases c
    · by_cases hblock : (st.procs p).io_time_remaining - st.next_step ≤ 0
      · obtain ⟨⟨rel, r1, r2, -, -⟩, -, r6, -⟩ := b2 hfin hblock
        clear b1 b2 b3
        refine ⟨?_, ?_⟩
        · rw [r1]
          exact List.chain'_append.mpr ⟨hch, List.chain'_singleton _, hjunction _⟩
        · intro r hr _
          rw [r1, List.getLast?_concat] at hr
          have e : rel = r := by simpa using hr
          subst e
          rw [r2, r6, hdur]
      · obtain ⟨r1, -⟩ := b3 hfin hblock
        clear b1 b2 b3
        refine ⟨by rw [r1]; exact hch, ?_⟩
        intro r hr c
        rw [r1] at hr
        rw [hend r hr, hs] at c
        cases c
  · by_cases hs : (st.procs p).s = STATE_WAITING
    · obtain ⟨hclock, hstep, c1, c2⟩ := pass_waiting rows strict st st1 p h hb hp hs
      by_cases hle : (st.procs p).io_time_remaining ≤ st.next_step
      · obtain ⟨⟨w, tail, l1, -, w2, w3, w4⟩, -⟩ := c1 hle
        clear c1 c2
        have hq : ∀ x ∈ w :: tail, x.new_state ≠ STATE_WAITING := by
          intro x hx
          rcases List.mem_cons.mp hx with e | e
          · rw [e, w2]; decide
          · rw [w4 x e]; decide
        refine ⟨?_, ?_⟩
        · rw [l1]
          refine List.chain'_append.mpr ⟨hch, chain_quiet _ _ hq, ?_⟩
          intro x hx y hy c
          have e : w = y := by simpa using hy
          subst e
          have := hlast x hx c
          rw [w3, hclock]
          omega
        · intro r hr c
          rw [l1] at hr
          have hmem : r ∈ w :: tail := List.mem_of_mem_getLast?
            (by rw [List.getLast?_append_of_ne_nil _ (by simp)] at hr; exact hr)
          exact absurd c (hq r hmem)
      · obtain ⟨l1, k2, -⟩ := c2 (by omega)
        clear c1 c2
        refine ⟨by rw [l1]; exact hch, ?_⟩
        intro r hr c
        rw [l1] at hr
        have := hlast r hr c
        rw [hclock, k2]
        omega
    · obtain ⟨-, -, q, hq, c2⟩ := pass_other rows strict st st1 p h hb hrun
      have hjunction : ∀ (q : List Line), ∀ x ∈ (linesOf p st.log).getLast?, ∀ y ∈ q.head?,
          x.new_state = STATE_WAITING → y.time = x.time + (loadProcs rows p).io_duration := by
        intro q x hx y _ c
        rw [hend x hx] at c
        exact absurd c hs
      have key : ∀ q1 : List Line, linesOf p st1.log = linesOf p st.log ++ q1 →
          (∀ x ∈ q1, x.new_state ≠ STATE_WAITING) → Waited rows st1 p := by
        intro q1 hl hq1
        refine ⟨?_, ?_⟩
        · rw [hl]
          exact List.chain'_append.mpr ⟨hch, chain_quiet _ _ hq1, hjunction _⟩
        · intro r hr c
          rw [hl] at hr
          rcases mem_getLast_append _ _ _ hr with e | e
          · exact absurd c (hq1 r e)
          · rw [hend r e] at c
            exact absurd c hs
      rcases c2 with ⟨-, ⟨d, d2, -, -, d5⟩, -⟩ | ⟨-, d2⟩
      · apply key (q ++ [d]) (by rw [d2, List.append_assoc])
        intro x hx
        rcases List.mem_append.mp hx with e | e
        · rw [hq x e]; decide
        · simp only [List.mem_singleton] at e
          rw [e, d5]; decide
      · apply key q d2
        intro x hx
        rw [hq x hx]; decide

theorem waited_init (rows : List (Int × Int × Int × Int × Int)) (p : Nat) :
    Waited rows (initSim rows) p := by
  refine ⟨?_, ?_⟩
  · show List.Chain' _ (linesOf p [])
    exact List.chain'_nil
  · intro r hr
    have : linesOf p (initSim rows).log = [] := rfl
    rw [this] at hr
    cases hr

/-- An invariant of the passes from states that satisfy the loop invariant holds after
every number of passes; after at least one pass, and unless the loop condition fails, the
loop invariant holds with a step of at least 1. -/
theorem passes_invariant (rows : List (Int × Int × Int × Int × Int)) (P : Sim → Prop)
    (hstep : ∀ (strict : Bool) (st st1 : Sim), HeadInv rows strict st → P st →
      loopBody st = some st1 → P st1) (k : Nat) :
    ∀ (strict : Bool) (st : Sim), HeadInv rows strict st → P st →
      ∃ st1, passes k st = some st1 ∧ HeadInv rows false st1 ∧
        ((0 < k ∨ strict = true) → simulation_completed st1 = false →
          HeadInv rows true st1) ∧ P st1 := by
  induction k with
  | zero =>
    intro strict st h hP
    obtain ⟨st1, e1, h1⟩ := passes_head rows 0 strict st h
    have e : st1 = st := by simpa [passes] using e1.symm
    subst e
    refine ⟨st1, rfl, h1, ?_, hP⟩
    intro c _
    rcases c with c | c
    · exact absurd c (by decide)
    · subst c
      exact h
  | succ k ih =>
    intro strict st h hP
    obtain ⟨s1, e1, h1, ht1, -⟩ := loopBody_head rows strict st h
    have hP1 := hstep strict st s1 h hP e1
    by_cases hc : simulation_completed s1 = true
    · refine ⟨s1, ?_, h1, fun _ => ht1, hP1⟩
      rw [passes, e1]
      simp [hc]
    · have hc1 : simulation_completed s1 = false := by simpa using hc
      obtain ⟨s2, e2, h2, ht2, hP2⟩ := ih true s1 (ht1 hc1) hP1
      refine ⟨s2, ?_, h2, fun _ => ht2 (Or.inr rfl), hP2⟩
      rw [passes, e1]
      simp only [hc]
      exact e2

/-- The state in which the loop is left is the state after that many passes. -/
theorem mainLoop_passes (fuel : Nat) :
    ∀ st st1 : Sim, mainLoop fuel st = some st1 → passes fuel st = some st1 := by
  induction fuel with
  | zero =>
    intro st st1 h
    simp [mainLoop] at h
  | succ fuel ih =>
    intro st st1 h
    rw [mainLoop] at h
    rw [passes]
    cases hl : loopBody st with
    | none =>
      rw [hl] at h
      exact absurd h (by simp)
    | some s1 =>
      rw [hl] at h
      simp only at h ⊢
      by_cases hc : simulation_completed s1 = true
      · rw [if_pos hc] at h ⊢
        exact h
      · rw [if_neg hc] at h ⊢
        exact ih _ _ h

/-- What follows a line that ends in WAITING, in a state that satisfies the loop invariant
and the account of the I/O waits: nothing yet, the node then being in the waiting list
with the clock short of the end of the wait; or the WAITING->READY line of the node,
`io_duration` later. -/
theorem waited_next (rows : List (Int × Int × Int × Int × Int)) (strict : Bool) (st : Sim)
    (p : Nat) (h : HeadInv rows strict st) (hw : Waited rows st p) (hp : p < rows.length)
    (pre post : List Line) (r : Line) (hl : linesOf p st.log = pre ++ r :: post)
    (hr : r.new_state = STATE_WAITING) :
    (post = [] ∧ p ∈ st.waiting_list ∧
      st.cpu_clock < r.time + (loadProcs rows p).io_duration ∧
      r.time + (loadProcs rows p).io_duration =
        st.cpu_clock + (st.procs p).io_time_remaining) ∨
    (∃ w post1, post = w :: post1 ∧ w.old_state = STATE_WAITING ∧
      w.new_state = STATE_READY ∧ w.time = r.time + (loadProcs rows p).io_duration) := by
  obtain ⟨hch, hlast⟩ := hw
  obtain ⟨g1, -⟩ := head_logged rows strict st p h hp
  unfold HeadInv at h
  obtain ⟨-, hpl, htm, hlg⟩ := h.node p hp
  cases post with
  | nil =>
    left
    have hmem : r ∈ (linesOf p st.log).getLast? := by
      rw [hl, List.getLast?_concat]
      rfl
    have hs : (st.procs p).s = STATE_WAITING := by
      rw [← g1, endState_of_getLast _ _ _ hmem, hr]
    have hs0 : ((advance st).procs p).s = STATE_WAITING := hs
    have hin : p ∈ st.waiting_list := hpl.2.2.1.mpr hs0
    unfold Timers at htm
    simp only [hs0] at htm
    have hio : 1 ≤ (st.procs p).io_time_remaining := htm.2.2.1
    have := hlast r hmem hr
    exact ⟨rfl, hin, by omega, this⟩
  | cons w post1 =>
    right
    refine ⟨w, post1, rfl, ?_⟩
    have hlink : linkedFrom STATE_NEW (linesOf p st.log) = true := hlg.1
    rw [hl] at hch hlink
    have hR := (List.chain'_cons.mp (List.chain'_split.mp hch).2).1 hr
    have e : pre ++ r :: w :: post1 = (pre ++ [r]) ++ w :: post1 := by simp
    rw [e] at hlink
    obtain ⟨f1, f2⟩ := linkedFrom_split _ _ _ _ hlink
    rw [endState_snoc, hr] at f1
    rw [f1] at f2
    refine ⟨f1, ?_, hR⟩
    cases hn : w.new_state <;> rw [hn] at f2 <;> simp [legalMove] at f2

/-- The I/O waits of the loop of `Skip`, on the integers: on an input that meets the data
model, after every number of passes of the loop
and for every process `p`: a RUNNING->WAITING line of `p` at time `t` is either the last
line of `p`, and then `p` is in the waiting list and the clock has not reached
`t + io_duration` (the clock plus `io_time_remaining` is `t + io_duration`), or it is
followed, as the next line of `p`, by a WAITING->READY line at time exactly
`t + io_duration`.  Whenever the next pass writes a WAITING->READY line, it leaves the
`io_time_remaining` of that process at its `io_frequency`.  And the loop is left after
finitely many passes, in a state in which every RUNNING->WAITING line of every process is
followed, as the next line of that process, by its WAITING->READY line at time exactly
`t + io_duration`. -/
theorem io_wait_is_exact (rows : List (Int × Int × Int × Int × Int))
    (hv : ValidRows rows) (k : Nat) :
    (∃ st, passes k (initSim rows) = some st ∧
      (∀ (p : Nat) (pre post : List Line) (r : Line), p < rows.length →
        linesOf p st.log = pre ++ r :: post →
        r.old_state = STATE_RUNNING → r.new_state = STATE_WAITING →
        (post = [] ∧ p ∈ st.waiting_list ∧
          st.cpu_clock < r.time + (loadProcs rows p).io_duration ∧
          r.time + (loadProcs rows p).io_duration =
            st.cpu_clock + (st.procs p).io_time_remaining) ∨
        (∃ w post1, post = w :: post1 ∧ w.old_state = STATE_WAITING ∧
          w.new_state = STATE_READY ∧
          w.time = r.time + (loadProcs rows p).io_duration)) ∧
      (∀ (st1 : Sim) (new : List Line) (w : Line),
        loopBody st = some st1 → st1.log = st.log ++ new → w ∈ new →
        w.old_state = STATE_WAITING → w.new_state = STATE_READY →
        w.node < rows.length ∧ w.time = st1.cpu_clock ∧
        (st1.procs w.node).io_time_remaining = (loadProcs rows w.node).io_frequency ∧
        (st1.procs w.node).io_frequency = (loadProcs rows w.node).io_frequency)) ∧
    ∃ fuel fin, mainLoop fuel (initSim rows) = some fin ∧
      ∀ (p : Nat) (pre post : List Line) (r : Line), p < rows.length →
        linesOf p fin.log = pre ++ r :: post →
        r.old_state = STATE_RUNNING → r.new_state = STATE_WAITING →
        ∃ w post1, post = w :: post1 ∧ w.old_state = STATE_WAITING ∧
          w.new_state = STATE_READY ∧
          w.time = r.time + (loadProcs rows p).io_duration := by
  have hstep : ∀ (strict : Bool) (st st1 : Sim), HeadInv rows strict st →
      (∀ p, p < rows.length → Waited rows st p) → loopBody st = some st1 →
      ∀ p, p < rows.length → Waited rows st1 p :=
    fun strict st st1 h hw hb p hp => waited_pass rows strict st st1 p h (hw p hp) hb hp
  have hrun := fun k => passes_invariant rows (fun st => ∀ p, p < rows.length → Waited rows st p)
    hstep k false (initSim rows) (headInv_init rows hv) (fun p _ => waited_init rows p)
  refine ⟨?_, ?_⟩
  · obtain ⟨st, e, h, -, hW⟩ := hrun k
    refine ⟨st, e, ?_, ?_⟩
    · intro p pre post r hp hl _ hr
      exact waited_next rows false st p h (hW p hp) hp pre post r hl hr
    · intro st1 new w hb hnew hmem hwo hwn
      obtain ⟨st1a, hb1, h1, -⟩ := loopBody_head rows false st h
      have e1 : st1a = st1 := by
        rw [hb] at hb1
        simpa using hb1.symm
      subst e1
      obtain ⟨-, ws, ns, cs, l1, l2, l3, l4, l5, -⟩ := loopBody_lines rows false st st1a h hb
      have hin : w ∈ ws := by
        rw [hnew, List.append_assoc, List.append_assoc] at l1
        have := List.append_cancel_left l1
        rw [this] at hmem
        rcases List.mem_append.mp hmem with c | c
        · exact c
        · rcases List.mem_append.mp c with c | c
          · have := (l3 w c).1
            rw [hwo] at this
            cases this
          · exact absurd hwo (l4 w c).2.1
      have hwl : w.node ∈ st.waiting_list := l5.subset (List.mem_map.mpr ⟨w, hin, rfl⟩)
      have hh := h
      unfold HeadInv at hh
      have hlt : w.node < rows.length := hh.lt_waiting w.node hwl
      obtain ⟨-, hpl, -, -⟩ := hh.node w.node hlt
      have hs : (st.procs w.node).s = STATE_WAITING := hpl.2.2.1.mp hwl
      obtain ⟨-, hle, c1, c2⟩ := pass_waiting rows false st st1a w.node h hb hlt hs
      obtain ⟨hf, -⟩ := head_static rows false st1a w.node h1 hlt
      refine ⟨hlt, (l2 w hin).2.2, ?_, hf⟩
      by_cases hdone : (st.procs w.node).io_time_remaining ≤ st.next_step
      · exact (c1 hdone).2
      · exfalso
        obtain ⟨k1, -⟩ := c2 (by omega)
        have hl : linesOf w.node st1a.log = linesOf w.node st.log ++ linesOf w.node new := by
          rw [hnew, linesOf_append]
        rw [hl] at k1
        have hnil : linesOf w.node new = [] := by
          have := congrArg List.length k1
          simp only [List.length_append] at this
          exact List.eq_nil_of_length_eq_zero (by omega)
        have hwp : w ∈ linesOf w.node new := by
          unfold linesOf
          exact List.mem_filter.mpr ⟨hmem, by simp⟩
        rw [hnil] at hwp
        cases hwp
  · obtain ⟨fuel, fin, e, hfin, hc⟩ := mainLoop_init rows hv
    obtain ⟨st, e2, -, -, hW⟩ := hrun fuel
    have e3 := mainLoop_passes fuel _ _ e
    rw [e3] at e2
    simp only [Option.some.injEq] at e2
    subst e2
    refine ⟨fuel, fin, e, ?_⟩
    intro p pre post r hp hl _ hr
    rcases waited_next rows false fin p hfin (hW p hp) hp pre post r hl hr with c | c
    · exfalso
      simp only [simulation_completed, Bool.and_eq_true, List.isEmpty_iff,
        Option.isNone_iff_eq_none] at hc
      have := c.2.1
      rw [hc.1.2] at this
      cases this
    · exact c

/-! ### The order of the two scans -/

/-- C24, as stated, fails.  On the rows `(1,0,10,2,3)`, `(2,5,4,9,1)`, `(3,0,20,30,1)`,
which meet the data model, the third pass of the loop runs at clock 5 with PID 3 on the
CPU; PID 1 ends its I/O wait at that clock and PID 2 arrives at it.  The pass prints
WAITING->READY for PID 1 first and NEW->READY for PID 2 after it, and leaves the ready list
as node 0 (PID 1), node 1 (PID 2): the returning process is ahead of the arriving one.  So
it is not the case that in every pass every NEW->READY line precedes every WAITING->READY
line. -/
theorem c24_return_is_admitted_before_arrival :
    ValidRows rowsMeet ∧
    (passes 2 (initSim rowsMeet)).map
        (fun st => (st.cpu_clock, st.next_step, st.running, st.log.length))
      = some (2, 3, some 2, 5) ∧
    (passes 2 (initSim rowsMeet)).map
        (fun st => (st.ready_list, st.waiting_list, st.new_list))
      = some ([], [0], [1]) ∧
    (passes 3 (initSim rowsMeet)).map
        (fun st => (st.cpu_clock, st.running, st.ready_list, st.log.drop 5))
      = some (5, some 2, [0, 1],
          [⟨5, 1, STATE_WAITING, STATE_READY, 0, STATE_WAITING⟩,
           ⟨5, 2, STATE_NEW, STATE_READY, 1, STATE_NEW⟩]) ∧
    ¬ ∀ rows : List (Int × Int × Int × Int × Int), ValidRows rows →
        ∀ (k : Nat) (st st1 : Sim) (new : List Line) (a w : Line),
          passes k (initSim rows) = some st → loopBody st = some st1 →
          st1.log = st.log ++ new → a ∈ new → w ∈ new →
          a.old_state = STATE_NEW → a.new_state = STATE_READY →
          w.old_state = STATE_WAITING → w.new_state = STATE_READY →
          ∃ l1 l2 l3, new = l1 ++ a :: l2 ++ w :: l3 := by
  refine ⟨by decide, by decide, by decide, by decide, ?_⟩
  intro hall
  have hex : ∃ st st1, passes 2 (initSim rowsMeet) = some st ∧ loopBody st = some st1 ∧
      st1.log = st.log ++ [⟨5, 1, STATE_WAITING, STATE_READY, 0, STATE_WAITING⟩,
        ⟨5, 2, STATE_NEW, STATE_READY, 1, STATE_NEW⟩] :=
    ⟨_, _, rfl, rfl, by decide⟩
  obtain ⟨st, st1, h1, h2, h3⟩ := hex
  obtain ⟨l1, l2, l3, e⟩ := hall rowsMeet (by decide) 2 st st1 _
    ⟨5, 2, STATE_NEW, STATE_READY, 1, STATE_NEW⟩
    ⟨5, 1, STATE_WAITING, STATE_READY, 0, STATE_WAITING⟩ h1 h2 h3 (by simp) (by simp)
    rfl rfl rfl rfl
  have hlen := congrArg List.length e
  simp only [List.length_cons, List.length_nil, List.length_append] at hlen
  have e1 : l1 = [] := List.eq_nil_of_length_eq_zero (by omega)
  have e2 : l2 = [] := List.eq_nil_of_length_eq_zero (by omega)
  have e3 : l3 = [] := List.eq_nil_of_length_eq_zero (by omega)
  subst e1 e2 e3
  simp at e

/-- C24, as amended: on an input that meets the data model, in every pass of the loop the
waiting list is scanned for I/O completions before the arrivals at the current clock are
admitted.  The lines of the pass are, in this order: the WAITING->READY lines, for nodes in
waiting-list order; the NEW->READY lines, for nodes in new-list order, each of them
arriving at the clock of the pass; the lines of the CPU step, none of which is NEW->READY
or WAITING->READY.  All carry the clock of the pass.  The ready list after the pass is the
ready list before it, followed by the returning nodes, followed by the arriving nodes,
less the node that the pass has put on the CPU: a process that returns from I/O is placed
ahead of one that arrives at the same clock. -/
theorem c24_waiting_scanned_before_arrivals (rows : List (Int × Int × Int × Int × Int))
    (hv : ValidRows rows) (k : Nat) :
    ∃ st st1 ws ns cs, passes k (initSim rows) = some st ∧ loopBody st = some st1 ∧
      st1.log = st.log ++ ws ++ ns ++ cs ∧
      (∀ r ∈ ws, r.old_state = STATE_WAITING ∧ r.new_state = STATE_READY ∧
        r.time = st1.cpu_clock) ∧
      (∀ r ∈ ns, r.old_state = STATE_NEW ∧ r.new_state = STATE_READY ∧
        r.time = st1.cpu_clock ∧ (loadProcs rows r.node).arrival_time = st1.cpu_clock) ∧
      (∀ r ∈ cs, r.old_state ≠ STATE_NEW ∧ r.old_state ≠ STATE_WAITING ∧
        r.new_state ≠ STATE_READY ∧ r.time = st1.cpu_clock) ∧
      (ws.map (fun r => r.node)).Sublist st.waiting_list ∧
      (ns.map (fun r => r.node)).Sublist st.new_list ∧
      st1.ready_list =
        (st.ready_list ++ ws.map (fun r => r.node) ++ ns.map (fun r => r.node)).filter
          (fun i => decide (st1.running ≠ some i)) := by
  obtain ⟨st, e, h⟩ := passes_head rows k false (initSim rows) (headInv_init rows hv)
  obtain ⟨st1, hb, -⟩ := loopBody_head rows false st h
  obtain ⟨-, ws, ns, cs, h1, h2, h3, h4, h5, h6, h7⟩ := loopBody_lines rows false st st1 h hb
  refine ⟨st, st1, ws, ns, cs, e, hb, h1, h2, ?_, h4, h5, h6, h7⟩
  intro r hr
  obtain ⟨g1, g2, g3, g4⟩ := h3 r hr
  refine ⟨g1, g2, g3, ?_⟩
  have hmem : r.node ∈ st.new_list := h6.subset (List.mem_map.mpr ⟨r, hr, rfl⟩)
  unfold HeadInv at h
  have hlt := h.lt_new r.node hmem
  obtain ⟨hstat, -⟩ := h.node r.node hlt
  have : (st.procs r.node).arrival_time = (loadProcs rows r.node).arrival_time := hstat.2.1
  rw [← this, g4]

/-- C24, as amended, on the rows of `rowsMeet` after two passes: the pass at clock 5. -/
theorem c24_waiting_scanned_before_arrivals_witness :
    ValidRows rowsMeet ∧
    ∃ st st1 ws ns cs, passes 2 (initSim rowsMeet) = some st ∧ loopBody st = some st1 ∧
      st1.log = st.log ++ ws ++ ns ++ cs ∧
      (∀ r ∈ ws, r.old_state = STATE_WAITING ∧ r.new_state = STATE_READY ∧
        r.time = st1.cpu_clock) ∧
      (∀ r ∈ ns, r.old_state = STATE_NEW ∧ r.new_state = STATE_READY ∧
        r.time = st1.cpu_clock ∧ (loadProcs rowsMeet r.node).arrival_time = st1.cpu_clock) ∧
      (∀ r ∈ cs, r.old_state ≠ STATE_NEW ∧ r.old_state ≠ STATE_WAITING ∧
        r.new_state ≠ STATE_READY ∧ r.time = st1.cpu_clock) ∧
      (ws.map (fun r => r.node)).Sublist st.waiting_list ∧
      (ns.map (fun r => r.node)).Sublist st.new_list ∧
      st1.ready_list =
        (st.ready_list ++ ws.map (fun r => r.node) ++ ns.map (fun r => r.node)).filter
          (fun i => decide (st1.running ≠ some i)) :=
  ⟨by decide, c24_waiting_scanned_before_arrivals rowsMeet (by decide) 2⟩

/-! ### The step never overshoots -/

/-- A node that is still NEW has no line. -/
theorem new_no_lines (rows : List (Int × Int × Int × Int × Int)) (strict : Bool) (st : Sim)
    (p : Nat) (h : HeadInv rows strict st) (hp : p < rows.length)
    (hs : (st.procs p).s = STATE_NEW) : linesOf p st.log = [] := by
  obtain ⟨g1, -⟩ := head_logged rows strict st p h hp
  unfold HeadInv at h
  obtain ⟨-, -, -, hlg⟩ := h.node p hp
  have hlink : linkedFrom STATE_NEW (linesOf p st.log) = true := hlg.1
  rcases List.eq_nil_or_concat (linesOf p st.log) with e | ⟨ys, r, e⟩
  · exact e
  · exfalso
    rw [List.concat_eq_append] at e
    rw [e] at hlink g1
    rw [endState_snoc, hs] at g1
    obtain ⟨-, f2⟩ := linkedFrom_split _ _ _ _ hlink
    rw [g1] at f2
    cases ho : r.old_state <;> rw [ho] at f2 <;> simp [legalMove] at f2

/-- The first line of a node that is no longer NEW is its NEW->READY line. -/
theorem first_line (rows : List (Int × Int × Int × Int × Int)) (strict : Bool) (st : Sim)
    (p : Nat) (h : HeadInv rows strict st) (hp : p < rows.length)
    (hs : (st.procs p).s ≠ STATE_NEW) :
    ∃ r rest, linesOf p st.log = r :: rest ∧ r.old_state = STATE_NEW ∧
      r.new_state = STATE_READY := by
  obtain ⟨g1, -⟩ := head_logged rows strict st p h hp
  unfold HeadInv at h
  obtain ⟨-, -, -, hlg⟩ := h.node p hp
  have hlink : linkedFrom STATE_NEW (linesOf p st.log) = true := hlg.1
  cases hl : linesOf p st.log with
  | nil =>
    rw [hl] at g1
    exact absurd g1.symm hs
  | cons r rest =>
    rw [hl] at hlink
    simp only [linkedFrom, Bool.and_eq_true, beq_iff_eq] at hlink
    obtain ⟨⟨⟨ho, -⟩, hm⟩, -⟩ := hlink
    refine ⟨r, rest, rfl, ho, ?_⟩
    rw [ho] at hm
    cases hn : r.new_state <;> rw [hn] at hm <;> simp [legalMove] at hm

/-- A pass of the loop stamps every line that leaves NEW with the arrival time of its
process. -/
theorem admitted_pass (rows : List (Int × Int × Int × Int × Int)) (strict : Bool)
    (st st1 : Sim) (h : HeadInv rows strict st) (ha : Admitted rows st)
    (hb : loopBody st = some st1) : Admitted rows st1 := by
  obtain ⟨-, ws, ns, cs, l1, l2, l3, l4, -, l6, -⟩ := loopBody_lines rows strict st st1 h hb
  intro r hr ho
  rw [l1] at hr
  rcases List.mem_append.mp hr with c | c
  · rcases List.mem_append.mp c with c | c
    · rcases List.mem_append.mp c with c | c
      · exact ha r c ho
      · have := (l2 r c).1
        rw [ho] at this
        cases this
    · obtain ⟨-, -, g3, g4⟩ := l3 r c
      have hmem : r.node ∈ st.new_list := l6.subset (List.mem_map.mpr ⟨r, c, rfl⟩)
      unfold HeadInv at h
      have hlt := h.lt_new r.node hmem
      obtain ⟨hstat, -⟩ := h.node r.node hlt
      have : (st.procs r.node).arrival_time = (loadProcs rows r.node).arrival_time := hstat.2.1
      rw [g3, ← g4, this]
  · exact absurd ho (l4 r c).1

/-- The state after at least one pass is the result of a pass. -/
theorem passes_succ_last (k : Nat) :
    ∀ st st1 : Sim, passes (k + 1) st = some st1 → ∃ st0, loopBody st0 = some st1 := by
  induction k with
  | zero =>
    intro st st1 h
    rw [passes] at h
    cases hl : loopBody st with
    | none =>
      rw [hl] at h
      exact absurd h (by simp)
    | some s1 =>
      rw [hl] at h
      simp only [passes, ite_self, Option.some.injEq] at h
      subst h
      exact ⟨st, hl⟩
  | succ k ih =>
    intro st st1 h
    rw [passes] at h
    cases hl : loopBody st with
    | none =>
      rw [hl] at h
      exact absurd h (by simp)
    | some s1 =>
      rw [hl] at h
      simp only at h
      by_cases hc : simulation_completed s1 = true
      · rw [if_pos hc] at h
        simp only [Option.some.injEq] at h
        subst h
        exact ⟨st, hl⟩
      · rw [if_neg hc] at h
        exact ih _ _ h

/-- The step of the loop of `Skip`, on the integers: on an input that meets the data
model, let `st` be the state at the end of a pass of the loop, after `get_time_to_next_event` has been evaluated into `next_step`.
Every line of the log that leaves NEW carries the arrival time of its process, and every
process that is not in the new list any more has such a line: no arrival has been
skipped.  When the running slot, the new list and the waiting list are not all empty:
`next_step` is at least 1; the running process, if there is one, has
`cpu_time_remaining` and `io_time_remaining` at least 1 and at least `next_step`; every
process in the waiting list has `io_time_remaining` at least 1 and at least `next_step`;
every process in the new list has `arrival_time > cpu_clock` and
`next_step ≤ arrival_time - cpu_clock`; the loop makes a further pass, at the clock
`cpu_clock + next_step`, which is larger than `cpu_clock`, and that pass takes from the
new list exactly the processes whose arrival time is its clock.  (The first pass of the
loop is made with the initial step 0, at clock 0.) -/
theorem step_never_overshoots (rows : List (Int × Int × Int × Int × Int))
    (hv : ValidRows rows) (k : Nat) :
    (∃ s1, passes 1 (initSim rows) = some s1 ∧ s1.cpu_clock = 0) ∧
    ∃ st, passes (k + 1) (initSim rows) = some st ∧
      st.next_step =
        get_time_to_next_event st.procs st.cpu_clock st.running st.new_list st.waiting_list ∧
      (∀ r ∈ st.log, r.old_state = STATE_NEW →
        r.time = (loadProcs rows r.node).arrival_time) ∧
      (∀ i, i < rows.length → i ∉ st.new_list →
        ∃ r ∈ st.log, r.node = i ∧ r.old_state = STATE_NEW ∧ r.new_state = STATE_READY ∧
          r.time = (loadProcs rows i).arrival_time) ∧
      ((st.running ≠ none ∨ st.new_list ≠ [] ∨ st.waiting_list ≠ []) →
        1 ≤ st.next_step ∧
        (∀ r, st.running = some r →
          1 ≤ (st.procs r).cpu_time_remaining ∧ 1 ≤ (st.procs r).io_time_remaining ∧
          st.next_step ≤ (st.procs r).cpu_time_remaining ∧
          st.next_step ≤ (st.procs r).io_time_remaining) ∧
        (∀ i ∈ st.waiting_list,
          1 ≤ (st.procs i).io_time_remaining ∧
          st.next_step ≤ (st.procs i).io_time_remaining) ∧
        (∀ i ∈ st.new_list,
          st.cpu_clock < (st.procs i).arrival_time ∧
          st.next_step ≤ (st.procs i).arrival_time - st.cpu_clock) ∧
        ∃ st1, loopBody st = some st1 ∧ st1.cpu_clock = st.cpu_clock + st.next_step ∧
          st.cpu_clock < st1.cpu_clock ∧
          ∀ i ∈ st.new_list,
            (i ∈ st1.new_list ↔ (st.procs i).arrival_time ≠ st1.cpu_clock)) := by
  have hrun := fun k => passes_invariant rows (Admitted rows)
    (fun strict st st1 h ha hb => admitted_pass rows strict st st1 h ha hb) k false
    (initSim rows) (headInv_init rows hv) (fun r hr => by cases hr)
  refine ⟨?_, ?_⟩
  · obtain ⟨s1, e1, -⟩ := loopBody_head rows false (initSim rows) (headInv_init rows hv)
    obtain ⟨hc, -⟩ := loopBody_lines rows false (initSim rows) s1 (headInv_init rows hv) e1
    refine ⟨s1, ?_, ?_⟩
    · rw [passes, e1]
      simp [passes]
    · rw [hc]
      rfl
  obtain ⟨st, e, h, ht, ha⟩ := hrun (k + 1)
  obtain ⟨st0, hb0⟩ := passes_succ_last k _ _ e
  refine ⟨st, e, loopBody_next_step st0 st hb0, ha, ?_, ?_⟩
  · intro i hi hnot
    have hh := h
    unfold HeadInv at hh
    obtain ⟨-, hpl, -, -⟩ := hh.node i hi
    have hs : (st.procs i).s ≠ STATE_NEW := fun c => hnot (hpl.1.mpr c)
    obtain ⟨r, rest, hl, ho, hn⟩ := first_line rows false st i h hi hs
    have hmem : r ∈ linesOf i st.log := by rw [hl]; exact List.mem_cons_self _ _
    unfold linesOf at hmem
    obtain ⟨hm1, hm2⟩ := List.mem_filter.mp hmem
    have hnode : r.node = i := by simpa using hm2
    refine ⟨r, hm1, hnode, ho, hn, ?_⟩
    rw [ha r hm1 ho, hnode]
  · intro hbusy
    have hc : simulation_completed st = false := by
      simp only [simulation_completed]
      rcases hbusy with c | c | c
      · cases hr : st.running with
        | none => exact absurd hr c
        | some r => simp
      · cases hn : st.new_list with
        | nil => exact absurd hn c
        | cons a l => simp
      · cases hw : st.waiting_list with
        | nil => exact absurd hw c
        | cons a l => simp
    have h1 := ht (Or.inl (Nat.succ_pos k)) hc
    have hstep : 1 ≤ st.next_step := by
      have hh := h1
      unfold HeadInv at hh
      exact hh.strict_step rfl
    have hstat : ∀ i, i < rows.length →
        (st.procs i).arrival_time = (loadProcs rows i).arrival_time := by
      intro i hi
      have hh := h1
      unfold HeadInv at hh
      obtain ⟨hs, -⟩ := hh.node i hi
      exact hs.2.1
    have hnewfacts : ∀ i ∈ st.new_list, st.cpu_clock + st.next_step ≤ (st.procs i).arrival_time := by
      intro i hi
      have hh := h1
      unfold HeadInv at hh
      have hlt := hh.lt_new i hi
      obtain ⟨-, hpl, htm, -⟩ := hh.node i hlt
      have hs : ((advance st).procs i).s = STATE_NEW := hpl.1.mp hi
      unfold Timers at htm
      simp only [hs] at htm
      exact htm.2.2.2.1
    refine ⟨hstep, ?_, ?_, ?_, ?_⟩
    · intro r hr
      obtain ⟨-, -, t1, t2, t5, t6, -⟩ := head_running_facts rows true st r h1 hr
      exact ⟨t1, t2, t5, t6⟩
    · intro i hi
      have hh := h1
      unfold HeadInv at hh
      have hlt := hh.lt_waiting i hi
      obtain ⟨-, hpl, htm, -⟩ := hh.node i hlt
      have hs : ((advance st).procs i).s = STATE_WAITING := hpl.2.2.1.mp hi
      unfold Timers at htm
      simp only [hs] at htm
      exact ⟨htm.2.2.1, htm.2.2.2.2 hi⟩
    · intro i hi
      have := hnewfacts i hi
      exact ⟨by omega, by omega⟩
    · obtain ⟨st1, hb, hf1, ht1, -⟩ := loopBody_head rows true st h1
      obtain ⟨hclock, ws, ns, cs, l1, l2, l3, l4, -, l6, -⟩ :=
        loopBody_lines rows true st st1 h1 hb
      refine ⟨st1, hb, hclock, by omega, ?_⟩
      intro i hi
      have hh := h1
      unfold HeadInv at hh
      have hlt := hh.lt_new i hi
      obtain ⟨-, hpl, -, -⟩ := hh.node i hlt
      have hs : (st.procs i).s = STATE_NEW := hpl.1.mp hi
      have hh1 := hf1
      unfold HeadInv at hh1
      obtain ⟨hstat1, hpl1, htm1, -⟩ := hh1.node i hlt
      have harr1 : (st1.procs i).arrival_time = (st.procs i).arrival_time := by
        have : (st1.procs i).arrival_time = (loadProcs rows i).arrival_time := hstat1.2.1
        rw [this, hstat i hlt]
      constructor
      · intro hin hcon
        have hc1 : simulation_completed st1 = false := by
          simp only [simulation_completed]
          cases hn : st1.new_list with
          | nil => rw [hn] at hin; cases hin
          | cons a l => simp
        have hh2 := ht1 hc1
        unfold HeadInv at hh2
        obtain ⟨-, hpl2, htm2, -⟩ := hh2.node i hlt
        have hs2 : ((advance st1).procs i).s = STATE_NEW := hpl2.1.mp hin
        unfold Timers at htm2
        simp only [hs2] at htm2
        have k1 : st1.cpu_clock + st1.next_step ≤ (st1.procs i).arrival_time := htm2.2.2.2.1
        have k2 : 1 ≤ st1.next_step := hh2.strict_step rfl
        omega
      · intro hne
        by_contra hnot
        have hs1 : (st1.procs i).s ≠ STATE_NEW := fun c => hnot (hpl1.1.mpr c)
        obtain ⟨r, rest, hl, ho, -⟩ := first_line rows false st1 i hf1 hlt hs1
        have hnil := new_no_lines rows true st i h1 hlt hs
        have hsplit : linesOf i st1.log =
            linesOf i st.log ++ (linesOf i ws ++ (linesOf i ns ++ linesOf i cs)) := by
          rw [l1, linesOf_append, linesOf_append, linesOf_append]
          simp only [List.append_assoc]
        rw [hnil, List.nil_append, hl] at hsplit
        have hmem : r ∈ linesOf i ws ++ (linesOf i ns ++ linesOf i cs) := by
          rw [← hsplit]
          exact List.mem_cons_self _ _
        have hnode : ∀ l : List Line, r ∈ linesOf i l → r ∈ l ∧ r.node = i := by
          intro l hm
          unfold linesOf at hm
          obtain ⟨m1, m2⟩ := List.mem_filter.mp hm
          exact ⟨m1, by simpa using m2⟩
        rcases List.mem_append.mp hmem with c | c
        · have := (l2 r (hnode _ c).1).1
          rw [ho] at this
          cases this
        · rcases List.mem_append.mp c with c | c
          · obtain ⟨m1, m2⟩ := hnode _ c
            have := (l3 r m1).2.2.2
            rw [m2] at this
            exact hne this
          · exact absurd ho (l4 r (hnode _ c).1).1

theorem stamped_pass (rows : List (Int × Int × Int × Int × Int)) (strict : Bool)
    (st st1 : Sim) (h : HeadInv rows strict st) (hs : Stamped st)
    (hb : loopBody st = some st1) : Stamped st1 := by
  obtain ⟨hc, ws, ns, cs, hl, hws, hns, hcs, -, -, -⟩ := loopBody_lines rows strict st st1 h hb
  have h0 : 0 ≤ st.next_step := by
    unfold HeadInv at h
    exact h.step_nonneg
  obtain ⟨s0, sl⟩ := hs
  have hc1 : 0 ≤ st1.cpu_clock := by rw [hc]; omega
  refine ⟨hc1, ?_⟩
  intro r hr
  rw [hl] at hr
  simp only [List.mem_append] at hr
  rcases hr with ((hr | hr) | hr) | hr
  · have := sl r hr
    exact ⟨this.1, by rw [hc]; omega⟩
  · rw [(hws r hr).2.2]; exact ⟨hc1, le_refl _⟩
  · rw [(hns r hr).2.2.1]; exact ⟨hc1, le_refl _⟩
  · rw [(hcs r hr).2.2.2]; exact ⟨hc1, le_refl _⟩

theorem stamped_init (rows : List (Int × Int × Int × Int × Int)) : Stamped (initSim rows) := by
  refine ⟨le_refl _, ?_⟩
  intro r hr
  simp [initSim] at hr

/-- After any number of passes on rows that meet the data model the loop invariant holds,
the clock is not negative and every line carries a time between 0 and the clock. -/
theorem passes_stamped (rows : List (Int × Int × Int × Int × Int)) (hv : ValidRows rows)
    (k : Nat) :
    ∃ st, passes k (initSim rows) = some st ∧ HeadInv rows false st ∧
      (0 < k → simulation_completed st = false → HeadInv rows true st) ∧ Stamped st := by
  obtain ⟨st, e, h1, h2, h3⟩ := passes_invariant rows Stamped
    (fun strict st st1 h hs hb => stamped_pass rows strict st st1 h hs hb) k false
    (initSim rows) (headInv_init rows hv) (stamped_init rows)
  exact ⟨st, e, h1, fun hk => h2 (Or.inl hk), h3⟩

theorem fits_of_bounds {x : Int} (h0 : 0 ≤ x) (h1 : x ≤ INT_MAX) : FitsInt x := by
  unfold FitsInt INT_MIN
  constructor
  · omega
  · exact h1

theorem intRows_static (rows : List (Int × Int × Int × Int × Int)) (hi : IntRows rows)
    (p : process) (i : Nat) (hlt : i < rows.length) (hs : Static rows p i) :
    p.arrival_time ≤ INT_MAX ∧ p.total_cpu_time ≤ INT_MAX ∧ p.io_frequency ≤ INT_MAX ∧
    p.io_duration ≤ INT_MAX ∧ FitsInt p.pid := by
  have hm : rows.getD i (0, 0, 0, 0, 0) ∈ rows := by
    rw [List.getD_eq_getElem _ _ hlt]
    exact List.getElem_mem hlt
  have h2 := hi _ hm
  obtain ⟨e0, e1, e2, e3, e4, -⟩ := hs
  rw [e0, e1, e2, e3, e4]
  simp only [loadProcs, create_proc]
  exact ⟨h2.2.1.2, h2.2.2.1.2, h2.2.2.2.1.2, h2.2.2.2.2.2, h2.1⟩

/-- No `int` operation of a pass overflows as long as the clock it advances to is at most
`INT_MAX`: for rows of `int` fields that meet the data model and a state `st` at the top
of the loop body, the sum of line 353, the differences of line 358 for the waiting
nodes and of lines 431 and 432 for the running node, the differences
`arrival_time - cpu_clock` that `get_time_to_next_event` forms at the end of the pass and
the step it returns are all values of an `int`. -/
theorem pass_fits (rows : List (Int × Int × Int × Int × Int)) (hi : IntRows rows)
    (strict : Bool) (st : Sim) (h : HeadInv rows strict st) (hs : Stamped st)
    (hc : st.cpu_clock + st.next_step ≤ INT_MAX) :
    FitsInt st.next_step ∧ FitsInt (st.cpu_clock + st.next_step) ∧
    (∀ i ∈ st.waiting_list, FitsInt (st.procs i).io_time_remaining ∧
      FitsInt ((st.procs i).io_time_remaining - st.next_step)) ∧
    (∀ r, st.running = some r →
      FitsInt (st.procs r).cpu_time_remaining ∧ FitsInt (st.procs r).io_time_remaining ∧
      FitsInt ((st.procs r).cpu_time_remaining - st.next_step) ∧
      FitsInt ((st.procs r).io_time_remaining - st.next_step)) ∧
    ∃ st1, loopBody st = some st1 ∧ st1.cpu_clock = st.cpu_clock + st.next_step ∧
      FitsInt st1.next_step ∧
      ∀ i ∈ st1.new_list, FitsInt ((st1.procs i).arrival_time - st1.cpu_clock) := by
  obtain ⟨st1, hb, h1, -⟩ := loopBody_head rows strict st h
  have hs1 := stamped_pass rows strict st st1 h hs hb
  have hclk := (loopBody_lines rows strict st st1 h hb).1
  unfold HeadInv at h h1
  have h0 := h.step_nonneg
  have h0 : 0 ≤ st.next_step := h0
  refine ⟨fits_of_bounds h0 (by have := hs.1; omega), fits_of_bounds (by have := hs.1; omega) hc,
    ?_, ?_, st1, hb, hclk, ?_, ?_⟩
  · intro i hiw
    have hlt := h.lt_waiting i hiw
    obtain ⟨hst, hpl, htm, -⟩ := h.node i hlt
    have hw : (st.procs i).s = STATE_WAITING := hpl.2.2.1.mp hiw
    have hb2 := intRows_static rows hi _ i hlt hst
    unfold Timers at htm
    simp only at htm
    have hw2 : ((advance st).procs i).s = STATE_WAITING := hw
    rw [hw2] at htm
    obtain ⟨-, t1, t2, t3, t4⟩ := htm
    have t4 := t4 hiw
    have t2 : 1 ≤ (st.procs i).io_time_remaining := t2
    have t3 : (st.procs i).io_time_remaining ≤ (st.procs i).io_duration := t3
    have t4 : st.next_step ≤ (st.procs i).io_time_remaining := t4
    have b4 : (st.procs i).io_duration ≤ INT_MAX := hb2.2.2.2.1
    exact ⟨fits_of_bounds (by omega) (by omega), fits_of_bounds (by omega) (by omega)⟩
  · intro r hr
    have hlt := h.lt_run r hr
    obtain ⟨hst, hpl, htm, -⟩ := h.node r hlt
    have hw : (st.procs r).s = STATE_RUNNING := hpl.2.2.2.2.mp hr
    have hb2 := intRows_static rows hi _ r hlt hst
    unfold Timers at htm
    simp only at htm
    have hw2 : ((advance st).procs r).s = STATE_RUNNING := hw
    rw [hw2] at htm
    obtain ⟨t0, t1, t2, t3, t4⟩ := htm
    obtain ⟨t4, t5⟩ := t4 trivial
    have t0 : (st.procs r).cpu_time_remaining ≤ (st.procs r).total_cpu_time := t0
    have t1 : 1 ≤ (st.procs r).cpu_time_remaining := t1
    have t2 : 1 ≤ (st.procs r).io_time_remaining := t2
    have t3 : (st.procs r).io_time_remaining ≤ (st.procs r).io_frequency := t3
    have t4 : st.next_step ≤ (st.procs r).cpu_time_remaining := t4
    have t5 : st.next_step ≤ (st.procs r).io_time_remaining := t5
    have b1 : (st.procs r).total_cpu_time ≤ INT_MAX := hb2.2.1
    have b2 : (st.procs r).io_frequency ≤ INT_MAX := hb2.2.2.1
    exact ⟨fits_of_bounds (by omega) (by omega), fits_of_bounds (by omega) (by omega),
      fits_of_bounds (by omega) (by omega), fits_of_bounds (by omega) (by omega)⟩
  · have g0 : 0 ≤ st1.next_step := h1.step_nonneg
    refine fits_of_bounds g0 ?_
    rw [loopBody_next_step st st1 hb]
    exact get_time_to_next_event_le_max _ _ _ _ _
  · intro i hin
    have hlt := h1.lt_new i hin
    obtain ⟨hst, hpl, htm, -⟩ := h1.node i hlt
    have hw : (st1.procs i).s = STATE_NEW := hpl.1.mp hin
    have hb2 := intRows_static rows hi _ i hlt hst
    unfold Timers at htm
    simp only at htm
    have hw2 : ((advance st1).procs i).s = STATE_NEW := hw
    rw [hw2] at htm
    obtain ⟨-, -, -, t3, -⟩ := htm
    have t3 : st1.cpu_clock + st1.next_step ≤ (st1.procs i).arrival_time := t3
    have g0 : 0 ≤ st1.next_step := h1.step_nonneg
    have b1 : (st1.procs i).arrival_time ≤ INT_MAX := hb2.1
    have c0 := hs1.1
    exact fits_of_bounds (by omega) (by omega)

/-! ### The loop on the integers and the loop in `int` arithmetic -/

theorem wrapInt_of_fits (x : Int) (h : FitsInt x) : wrapInt x = x := by
  unfold FitsInt INT_MIN INT_MAX at h
  unfold wrapInt
  omega

theorem wrapInt_fits (x : Int) : FitsInt (wrapInt x) := by
  unfold FitsInt INT_MIN INT_MAX wrapInt
  omega

theorem time_to_next_event_agree (procs : Procs) (cpu_clock : Int) (running : Option Nat)
    (new_list waiting_list : NodeList)
    (h : ∀ i ∈ new_list, FitsInt ((procs i).arrival_time - cpu_clock)) :
    Int32.get_time_to_next_event procs cpu_clock running new_list waiting_list =
      get_time_to_next_event procs cpu_clock running new_list waiting_list := by
  unfold Int32.get_time_to_next_event get_time_to_next_event
  have e : new_list.foldl
      (fun acc temp => cmin (wrapInt ((procs temp).arrival_time - cpu_clock)) acc) INT_MAX =
    new_list.foldl (fun acc temp => cmin ((procs temp).arrival_time - cpu_clock) acc) INT_MAX := by
    apply List.foldl_ext
    intro a b hb
    rw [wrapInt_of_fits _ (h b hb)]
  simp only [e]

theorem scanWaiting_agree (wt : NodeList) :
    ∀ st : Sim, wt.Nodup →
      (∀ i ∈ wt, FitsInt ((st.procs i).io_time_remaining - st.next_step)) →
      Int32.scanWaiting wt st = scanWaiting wt st := by
  induction wt with
  | nil => intro st _ _; rfl
  | cons node rest ih =>
    intro st hnd hfit
    have hnot : node ∉ rest := (List.nodup_cons.mp hnd).1
    have hrest : rest.Nodup := (List.nodup_cons.mp hnd).2
    have hw := wrapInt_of_fits _ (hfit node (List.mem_cons_self _ _))
    have keep : ∀ (p : process) (i : Nat), i ∈ rest →
        (Function.update st.procs node p i) = st.procs i := by
      intro p i hi
      have : i ≠ node := fun c => hnot (c ▸ hi)
      exact Function.update_noteq this _ _
    have hstep : ∀ st1 : Sim, st1.next_step = st.next_step →
        (∀ i ∈ rest, st1.procs i = st.procs i) →
        Int32.scanWaiting rest st1 = scanWaiting rest st1 := by
      intro st1 e1 e2
      apply ih st1 hrest
      intro i hi
      rw [e1, e2 i hi]
      exact hfit i (List.mem_cons_of_mem _ hi)
    rw [Int32.scanWaiting, scanWaiting]
    simp only [hw]
    by_cases hc : (st.procs node).io_time_remaining - st.next_step ≤ 0
    · simp only [hc, if_true]
      cases hrm : remove_node st.waiting_list node with
      | none => rfl
      | some pr =>
        simp only []
        exact hstep _ rfl (fun i hi => keep _ i hi)
    · simp only [hc, if_false]
      exact hstep _ rfl (fun i hi => keep _ i hi)

theorem cpuStep_agree (st : Sim)
    (h : ∀ r, st.running = some r →
      FitsInt ((st.procs r).cpu_time_remaining - st.next_step) ∧
      FitsInt ((st.procs r).io_time_remaining - st.next_step)) :
    Int32.cpuStep st = cpuStep st := by
  unfold Int32.cpuStep cpuStep
  cases hr : st.running with
  | none => rfl
  | some r =>
    obtain ⟨h1, h2⟩ := h r hr
    simp only [wrapInt_of_fits _ h1, wrapInt_of_fits _ h2]

theorem mid_running_fits (rows : List (Int × Int × Int × Int × Int)) (hi : IntRows rows)
    (m0 d0 : Nat) (strict : Bool) (wt nt : NodeList) (st : Sim)
    (h : Mid rows m0 d0 strict wt nt true st) :
    ∀ r, st.running = some r →
      FitsInt ((st.procs r).cpu_time_remaining - st.next_step) ∧
      FitsInt ((st.procs r).io_time_remaining - st.next_step) := by
  intro r hr
  have h0 := h.step_nonneg
  have hlt := h.lt_run r hr
  obtain ⟨hst, hpl, htm, -⟩ := h.node r hlt
  have hw : (st.procs r).s = STATE_RUNNING := hpl.2.2.2.2.mp hr
  have hb2 := intRows_static rows hi _ r hlt hst
  unfold Timers at htm
  simp only at htm
  rw [hw] at htm
  obtain ⟨t0, t1, t2, t3, t4⟩ := htm
  obtain ⟨t4, t5⟩ := t4 trivial
  have b1 : (st.procs r).total_cpu_time ≤ INT_MAX := hb2.2.1
  have b2 : (st.procs r).io_frequency ≤ INT_MAX := hb2.2.2.1
  exact ⟨fits_of_bounds (by omega) (by omega), fits_of_bounds (by omega) (by omega)⟩

/-- A pass in `int` arithmetic is the pass on the integers as long as the clock it advances
to is at most `INT_MAX`. -/
theorem loopBody_agree (rows : List (Int × Int × Int × Int × Int)) (hi : IntRows rows)
    (strict : Bool) (st : Sim) (h : HeadInv rows strict st) (hs : Stamped st)
    (hc : st.cpu_clock + st.next_step ≤ INT_MAX) :
    Int32.loopBody st = loopBody st := by
  obtain ⟨-, f2, f3, -, st1, hb, -, -, f6⟩ := pass_fits rows hi strict st h hs hc
  have hh := h
  unfold HeadInv at hh
  obtain ⟨s1, e1, m1, en, -⟩ :=
    scanWaiting_mid rows _ _ strict st.new_list true st.waiting_list (advance st) hh
  have en1 : s1.new_list = st.new_list := en
  rw [← en1] at m1
  obtain ⟨s2, e2, m2, -⟩ := scanNew_mid rows _ _ strict [] true s1.new_list s1 m1
  obtain ⟨s3, e3, m3, -⟩ := cpuStep_mid rows _ _ strict s2 m2
  have hbody : loopBody st = some { s3 with next_step := get_time_to_next_event s3.procs s3.cpu_clock s3.running s3.new_list s3.waiting_list } := by
    unfold loopBody
    unfold advance at e1
    simp only [e1, e2, e3]
  have est : st1 = { s3 with next_step := get_time_to_next_event s3.procs s3.cpu_clock s3.running s3.new_list s3.waiting_list } := by
    rw [hbody] at hb
    simp only [Option.some.injEq] at hb
    exact hb.symm
  have a1 : Int32.scanWaiting st.waiting_list (advance st) = some s1 := by
    rw [scanWaiting_agree st.waiting_list (advance st) hh.nd_waiting
      (fun i hiw => (f3 i hiw).2)]
    exact e1
  have a3 : Int32.cpuStep s2 = some s3 := by
    rw [cpuStep_agree s2 (mid_running_fits rows hi _ _ strict [] [] s2 m2)]
    exact e3
  have a4 : Int32.get_time_to_next_event s3.procs s3.cpu_clock s3.running s3.new_list
      s3.waiting_list =
      get_time_to_next_event s3.procs s3.cpu_clock s3.running s3.new_list s3.waiting_list := by
    apply time_to_next_event_agree
    intro i hin
    have := f6 i (by rw [est]; exact hin)
    rw [est] at this
    exact this
  rw [hbody]
  unfold Int32.loopBody
  unfold advance at a1
  simp only [wrapInt_of_fits _ f2, a1, e2, a3, a4]

theorem passes_clock_mono (rows : List (Int × Int × Int × Int × Int)) (k : Nat) :
    ∀ (strict : Bool) (st stk : Sim), HeadInv rows strict st → passes k st = some stk →
      st.cpu_clock ≤ stk.cpu_clock := by
  induction k with
  | zero =>
    intro strict st stk _ e
    simp only [passes, Option.some.injEq] at e
    rw [e]
  | succ k ih =>
    intro strict st stk h e
    obtain ⟨st1, hb, h1, -⟩ := loopBody_head rows strict st h
    have hclk := (loopBody_lines rows strict st st1 h hb).1
    have h0 : 0 ≤ st.next_step := by
      unfold HeadInv at h
      exact h.step_nonneg
    rw [passes, hb] at e
    simp only at e
    by_cases hcomp : simulation_completed st1 = true
    · rw [if_pos hcomp] at e
      simp only [Option.some.injEq] at e
      rw [← e, hclk]
      omega
    · rw [if_neg hcomp] at e
      have := ih false st1 stk h1 e
      omega

/-- The loop in `int` arithmetic is the loop on the integers as long as the clock is at
most `INT_MAX`: if `k` passes on the integers, from a state that satisfies the loop
invariant, lead to a state with such a clock, the `k` passes in `int` arithmetic lead to
the same state. -/
theorem passes_agree (rows : List (Int × Int × Int × Int × Int)) (hi : IntRows rows)
    (k : Nat) :
    ∀ (strict : Bool) (st stk : Sim), HeadInv rows strict st → Stamped st →
      passes k st = some stk → stk.cpu_clock ≤ INT_MAX → Int32.passes k st = some stk := by
  induction k with
  | zero =>
    intro strict st stk _ _ e _
    exact e
  | succ k ih =>
    intro strict st stk h hs e hc
    obtain ⟨st1, hb, h1, -⟩ := loopBody_head rows strict st h
    have hclk := (loopBody_lines rows strict st st1 h hb).1
    have hs1 := stamped_pass rows strict st st1 h hs hb
    rw [passes, hb] at e
    simp only at e
    by_cases hcomp : simulation_completed st1 = true
    · rw [if_pos hcomp] at e
      simp only [Option.some.injEq] at e
      have hle : st.cpu_clock + st.next_step ≤ INT_MAX := by
        rw [← hclk, e]
        exact hc
      subst e
      rw [Int32.passes, loopBody_agree rows hi strict st h hs hle, hb]
      exact if_pos hcomp
    · rw [if_neg hcomp] at e
      have hmono := passes_clock_mono rows k false st1 stk h1 e
      have hle : st.cpu_clock + st.next_step ≤ INT_MAX := by
        rw [← hclk]
        omega
      rw [Int32.passes, loopBody_agree rows hi strict st h hs hle, hb]
      simp only [hcomp]
      exact ih false st1 stk h1 hs1 e hc

/-- The same for the whole loop: if the loop on the integers is left in a state whose
clock is at most `INT_MAX`, the loop in `int` arithmetic is left in the same state. -/
theorem mainLoop_agree (rows : List (Int × Int × Int × Int × Int)) (hi : IntRows rows)
    (fuel : Nat) :
    ∀ (strict : Bool) (st fin : Sim), HeadInv rows strict st → Stamped st →
      mainLoop fuel st = some fin → fin.cpu_clock ≤ INT_MAX →
      Int32.mainLoop fuel st = some fin := by
  induction fuel with
  | zero =>
    intro strict st fin _ _ e _
    simp [mainLoop] at e
  | succ fuel ih =>
    intro strict st fin h hs e hc
    obtain ⟨st1, hb, h1, -⟩ := loopBody_head rows strict st h
    have hclk := (loopBody_lines rows strict st st1 h hb).1
    have hs1 := stamped_pass rows strict st st1 h hs hb
    have e0 := e
    rw [mainLoop, hb] at e
    simp only at e
    by_cases hcomp : simulation_completed st1 = true
    · rw [if_pos hcomp] at e
      simp only [Option.some.injEq] at e
      have hle : st.cpu_clock + st.next_step ≤ INT_MAX := by
        rw [← hclk, e]
        exact hc
      subst e
      rw [Int32.mainLoop, loopBody_agree rows hi strict st h hs hle, hb]
      exact if_pos hcomp
    · rw [if_neg hcomp] at e
      have hmono := passes_clock_mono rows fuel false st1 fin h1 (mainLoop_passes fuel _ _ e)
      have hle : st.cpu_clock + st.next_step ≤ INT_MAX := by
        rw [← hclk]
        omega
      rw [Int32.mainLoop, loopBody_agree rows hi strict st h hs hle, hb]
      simp only [hcomp]
      exact ih false st1 fin h1 hs1 e hc

theorem passes_init_agree (rows : List (Int × Int × Int × Int × Int)) (hv : ValidRows rows)
    (hi : IntRows rows) (k : Nat) (st : Sim) (e : passes k (initSim rows) = some st)
    (hc : st.cpu_clock ≤ INT_MAX) : Int32.passes k (initSim rows) = some st :=
  passes_agree rows hi k false (initSim rows) st (headInv_init rows hv) (stamped_init rows) e hc

theorem mainLoop_init_agree (rows : List (Int × Int × Int × Int × Int)) (hv : ValidRows rows)
    (hi : IntRows rows) (fuel : Nat) (fin : Sim) (e : mainLoop fuel (initSim rows) = some fin)
    (hc : fin.cpu_clock ≤ INT_MAX) : Int32.mainLoop fuel (initSim rows) = some fin :=
  mainLoop_agree rows hi fuel false (initSim rows) fin (headInv_init rows hv) (stamped_init rows)
    e hc

/-- C5, as stated, fails in both engines.  Event-skip engine: the rows of `rowsLong` meet
the data model; the second pass, at clock 1, dispatches PID 2 with a step of `INT_MAX`,
and the third pass adds the step to the clock in `int` arithmetic, so that the
RUNNING->TERMINATED line of PID 2 carries the time `INT_MIN`, after lines with the times
0 and 1.  Tick engine: the row `(1, 2147483647, 2, 1, 1)` meets the data model; the
process arrives and is dispatched at clock `INT_MAX`, the `clk++` of that iteration leaves
the clock at `INT_MIN`, and the I/O scan, for which `clk - waitStartTime` is 1 in `int`
arithmetic, writes the Waiting->Ready record with the time `INT_MIN`. -/
theorem c5_log_times_decrease :
    ValidRows rowsLong ∧
    (Int32.passes 3 (initSim rowsLong)).map (fun st => st.log.map (fun r => r.time)) =
      some [0, 0, 0, 1, 1, -2147483648] ∧
    ¬ ([0, 0, 0, 1, 1, -2147483648] : List Int).Pairwise (fun a b => a ≤ b) ∧
    Tick.ValidRows [(1, 2147483647, 2, 1, 1)] ∧ Tick.IntRows [(1, 2147483647, 2, 1, 1)] ∧
    (Tick.Int32.kernelSim 0 none [(1, 2147483647, 2, 1, 1)] (5 * 2147483647 + 3 + 2)).log.map
        (fun t => t.clk) = [2147483647, 2147483647, 2147483647, -2147483648] ∧
    ¬ ([2147483647, 2147483647, 2147483647, -2147483648] : List Int).Pairwise
        (fun a b => a ≤ b) := by
  have hs : Tick.kernelSim 0 [(1, 2147483647, 2, 1, 1)] (5 * 2147483647 + 3) =
      Tick.soloReady 0 (1, 2147483647, 2, 1, 1) 2147483647 2 0 none
        [⟨2147483647, 1, Tick.StateName.New, Tick.StateName.Ready⟩] := by
    rw [Tick.kernelSim_solo]
    exact Tick.solo_arrival 0 (1, 2147483647, 2, 1, 1) (by decide)
  have e : Tick.Int32.kernelSim 0 none [(1, 2147483647, 2, 1, 1)] (5 * 2147483647 + 3) =
      Tick.soloReady 0 (1, 2147483647, 2, 1, 1) 2147483647 2 0 none
        [⟨2147483647, 1, Tick.StateName.New, Tick.StateName.Ready⟩] := by
    rw [← hs]
    apply Tick.kernelSim_agree 0 _ (by decide) (by decide) (by decide)
    · rw [hs]; decide
    · rw [hs]; decide
  have e2 : Tick.Int32.kernelSim 0 none [(1, 2147483647, 2, 1, 1)] (5 * 2147483647 + 3 + 2) =
      Tick.Int32.runSteps 2 (Tick.soloReady 0 (1, 2147483647, 2, 1, 1) 2147483647 2 0 none
        [⟨2147483647, 1, Tick.StateName.New, Tick.StateName.Ready⟩]) := by
    rw [← e]
    exact Tick.int_runSteps_add _ 2 _
  rw [e2]
  refine ⟨by decide, by decide, by decide, by decide, by decide, by decide, by decide⟩

/-- C5, as amended: in both engines the time fields of the transition records are
non-decreasing in emission order over the whole log, for input rows of `int` fields with
arrival time >= 0, total CPU time > 0, I/O frequency > 0 and I/O duration > 0, as long as
the clock is at most `INT_MAX`, so that no addition to it has overflowed.  Tick engine,
whatever the `next` fields hold at the start: at every control step of `kernelSim` at
which `clk` is at most `INT_MAX`, the times written so far are in non-decreasing order and
each lies between 0 and `clk`; the run in `int` arithmetic is in the same state if,
moreover, fewer than `INT_MAX - 1` records have been written, a number that no queue size
exceeds.  Event-skip engine: any number of passes of the loop can be made on the integers,
and if `cpu_clock` is at most `INT_MAX` after them, the passes in `int` arithmetic lead to
the same state, the times written so far are in non-decreasing order and each lies between
0 and `cpu_clock`. -/
theorem c5_log_times_nondecreasing (wst0 : Int) (next0 : Option Nat)
    (tickRows : List (Int × Int × Int × Int × Int))
    (n : Nat) (rows : List (Int × Int × Int × Int × Int)) (k : Nat)
    (hw : Tick.FitsInt wst0) (htv : Tick.ValidRows tickRows) (hti : Tick.IntRows tickRows)
    (hv : ValidRows rows) (hi : IntRows rows) :
    ((Tick.kernelSimFrom wst0 next0 tickRows n).clk ≤ Tick.INT_MAX →
      ((Tick.kernelSimFrom wst0 next0 tickRows n).log.map (fun t => t.clk)).Pairwise
        (fun a b => a ≤ b) ∧
      (∀ t ∈ (Tick.kernelSimFrom wst0 next0 tickRows n).log,
        0 ≤ t.clk ∧ t.clk ≤ (Tick.kernelSimFrom wst0 next0 tickRows n).clk ∧
        Tick.FitsInt t.clk) ∧
      (((Tick.kernelSimFrom wst0 next0 tickRows n).log.length : Int) + 2 ≤ Tick.INT_MAX →
        Tick.Int32.kernelSim wst0 next0 tickRows n =
          Tick.kernelSimFrom wst0 next0 tickRows n)) ∧
    ∃ st, passes k (initSim rows) = some st ∧
      (st.cpu_clock ≤ INT_MAX →
        Int32.passes k (initSim rows) = some st ∧
        (st.log.map (fun r => r.time)).Pairwise (fun a b => a ≤ b) ∧
        ∀ r ∈ st.log, 0 ≤ r.time ∧ r.time ≤ st.cpu_clock ∧ FitsInt r.time) := by
  constructor
  · intro hc
    have hT := Tick.runSteps_invariant (fun s => Tick.TimeOK s.log s.clk) Tick.timeOK_step
      (Tick.kernelInit (Tick.loadMemFrom wst0 next0 tickRows) tickRows.length)
      (by simp [Tick.TimeOK, Tick.kernelInit]) n
    have hN := Tick.runSteps_invariant (fun s => 0 ≤ s.clk ∧ ∀ t ∈ s.log, 0 ≤ t.clk)
      Tick.nonneg_step (Tick.kernelInit (Tick.loadMemFrom wst0 next0 tickRows) tickRows.length)
      ⟨le_refl _, by simp [Tick.kernelInit]⟩ n
    refine ⟨hT.1, ?_,
      fun hl => Tick.kernelSimFrom_agree wst0 next0 tickRows hw htv hti n hc hl⟩
    intro t ht
    have h1 : t.clk ≤ (Tick.kernelSimFrom wst0 next0 tickRows n).clk := hT.2 t ht
    have h0 : 0 ≤ t.clk := hN.2 t ht
    refine ⟨h0, h1, ?_⟩
    unfold Tick.FitsInt Tick.INT_MIN
    constructor <;> omega
  · obtain ⟨st, e, h, -, hs⟩ := passes_stamped rows hv k
    refine ⟨st, e, ?_⟩
    intro hc
    unfold HeadInv at h
    refine ⟨passes_init_agree rows hv hi k st e hc, h.time.1, ?_⟩
    intro r hr
    have := hs.2 r hr
    exact ⟨this.1, this.2, fits_of_bounds this.1 (by omega)⟩

/-- C5 as amended, on the tick run of the row `(1, 0, 20, 5, 3)` for 40 control steps
(clock 8) and on the event-skip run of `rowsHeadPick` for 6 passes (clock 15). -/
theorem c5_log_times_nondecreasing_witness :
    Tick.FitsInt 0 ∧ Tick.ValidRows [(1, 0, 20, 5, 3)] ∧ Tick.IntRows [(1, 0, 20, 5, 3)] ∧
    ValidRows rowsHeadPick ∧ IntRows rowsHeadPick ∧
    (Tick.kernelSimFrom 0 none [(1, 0, 20, 5, 3)] 40).clk ≤ Tick.INT_MAX ∧
    ((Tick.kernelSimFrom 0 none [(1, 0, 20, 5, 3)] 40).log.map (fun t => t.clk)).Pairwise
      (fun a b => a ≤ b) ∧
    Tick.Int32.kernelSim 0 none [(1, 0, 20, 5, 3)] 40 =
      Tick.kernelSimFrom 0 none [(1, 0, 20, 5, 3)] 40 ∧
    ∃ st, passes 6 (initSim rowsHeadPick) = some st ∧ st.cpu_clock ≤ INT_MAX ∧
      Int32.passes 6 (initSim rowsHeadPick) = some st ∧
      (st.log.map (fun r => r.time)).Pairwise (fun a b => a ≤ b) := by
  have h := c5_log_times_nondecreasing 0 none [(1, 0, 20, 5, 3)] 40 rowsHeadPick 6
    (by decide) (by decide) (by decide) (by decide) (by decide)
  obtain ⟨h1, st, e, h2⟩ := h
  have hd : ∀ s ∈ passes 6 (initSim rowsHeadPick), s.cpu_clock ≤ INT_MAX := by decide
  have hc : st.cpu_clock ≤ INT_MAX := hd st (by rw [e]; exact rfl)
  exact ⟨by decide, by decide, by decide, by decide, by decide, by decide,
    (h1 (by decide)).1, (h1 (by decide)).2.2 (by decide), st, e, hc, (h2 hc).1, (h2 hc).2.1⟩

/-- C11, as amended: when no candidate is negative (the running process's
`cpu_time_remaining` and `io_time_remaining` are at least 0, no node of the new list has
arrived before `cpu_clock`, no waiting node has a negative `io_time_remaining`) and
every difference `arrival_time - cpu_clock` that the function forms is at most `INT_MAX`,
so that the `int` subtraction does not overflow, `get_time_to_next_event` returns at
least 1 and at most `INT_MAX`, whether or not the system is idle, in `int` arithmetic as
on the integers. -/
theorem c11_time_to_next_event_positive (procs : Procs) (cpu_clock : Int)
    (running : Option Nat) (new_list waiting_list : NodeList)
    (hrun : ∀ r, running = some r →
      0 ≤ (procs r).cpu_time_remaining ∧ 0 ≤ (procs r).io_time_remaining)
    (hnew : ∀ i ∈ new_list, cpu_clock ≤ (procs i).arrival_time)
    (hfit : ∀ i ∈ new_list, (procs i).arrival_time - cpu_clock ≤ INT_MAX)
    (hwait : ∀ i ∈ waiting_list, 0 ≤ (procs i).io_time_remaining) :
    Int32.get_time_to_next_event procs cpu_clock running new_list waiting_list =
      get_time_to_next_event procs cpu_clock running new_list waiting_list ∧
    1 ≤ Int32.get_time_to_next_event procs cpu_clock running new_list waiting_list ∧
    Int32.get_time_to_next_event procs cpu_clock running new_list waiting_list ≤ INT_MAX := by
  have hag := time_to_next_event_agree procs cpu_clock running new_list waiting_list
    (fun i hi => fits_of_bounds (by have := hnew i hi; omega) (hfit i hi))
  rw [hag]
  refine ⟨rfl, ?_,
    get_time_to_next_event_le_max procs cpu_clock running new_list waiting_list⟩
  have ha : 0 ≤ new_list.foldl
      (fun acc temp => cmin ((procs temp).arrival_time - cpu_clock) acc) INT_MAX :=
    foldl_cmin_ge (fun t => (procs t).arrival_time - cpu_clock) new_list INT_MAX 0
      (by decide) (fun t ht => by have := hnew t ht; simp only; omega)
  have hw : 0 ≤ waiting_list.foldl
      (fun acc temp => cmin (procs temp).io_time_remaining acc) INT_MAX :=
    foldl_cmin_ge (fun t => (procs t).io_time_remaining) waiting_list INT_MAX 0
      (by decide) (fun t ht => hwait t ht)
  unfold get_time_to_next_event
  generalize new_list.foldl
      (fun acc temp => cmin ((procs temp).arrival_time - cpu_clock) acc) INT_MAX = x at ha
  generalize waiting_list.foldl
      (fun acc temp => cmin (procs temp).io_time_remaining acc) INT_MAX = y at hw
  have hi : (0 : Int) ≤ INT_MAX := by decide
  cases running with
  | none =>
    simp only [cmin_eq_min]
    split
    · exact le_refl 1
    · rename_i hne
      have : 0 ≤ min (min INT_MAX INT_MAX) (min x y) := by
        simp only [le_min_iff]; exact ⟨⟨hi, hi⟩, ha, hw⟩
      omega
  | some r =>
    obtain ⟨h1, h2⟩ := hrun r rfl
    simp only [cmin_eq_min]
    split
    · exact le_refl 1
    · rename_i hne
      have : 0 ≤ min (min (procs r).cpu_time_remaining (procs r).io_time_remaining)
          (min x y) := by
        simp only [le_min_iff]; exact ⟨⟨h1, h2⟩, ha, hw⟩
      omega

/-- C11 as amended, on a store of two processes at clock 3: process 0 running with 4
units of CPU and 2 units to its next I/O left, process 1 arriving at 10; the result is
between 1 and `INT_MAX`. -/
theorem c11_time_to_next_event_positive_witness :
    (∀ r, some 0 = some r →
      0 ≤ ((loadProcs [(1, 0, 4, 2, 5), (2, 10, 6, 3, 1)]) r).cpu_time_remaining ∧
      0 ≤ ((loadProcs [(1, 0, 4, 2, 5), (2, 10, 6, 3, 1)]) r).io_time_remaining) ∧
    (∀ i ∈ [1], (3 : Int) ≤ ((loadProcs [(1, 0, 4, 2, 5), (2, 10, 6, 3, 1)]) i).arrival_time) ∧
    (∀ i ∈ [1],
      ((loadProcs [(1, 0, 4, 2, 5), (2, 10, 6, 3, 1)]) i).arrival_time - 3 ≤ INT_MAX) ∧
    (∀ i ∈ ([] : NodeList),
      0 ≤ ((loadProcs [(1, 0, 4, 2, 5), (2, 10, 6, 3, 1)]) i).io_time_remaining) ∧
    Int32.get_time_to_next_event (loadProcs [(1, 0, 4, 2, 5), (2, 10, 6, 3, 1)]) 3 (some 0)
      [1] [] =
      get_time_to_next_event (loadProcs [(1, 0, 4, 2, 5), (2, 10, 6, 3, 1)]) 3 (some 0)
        [1] [] ∧
    1 ≤ Int32.get_time_to_next_event (loadProcs [(1, 0, 4, 2, 5), (2, 10, 6, 3, 1)]) 3 (some 0)
      [1] [] ∧
    Int32.get_time_to_next_event (loadProcs [(1, 0, 4, 2, 5), (2, 10, 6, 3, 1)]) 3 (some 0)
      [1] [] ≤ INT_MAX := by
  have hr : ∀ r, some 0 = some r →
      0 ≤ ((loadProcs [(1, 0, 4, 2, 5), (2, 10, 6, 3, 1)]) r).cpu_time_remaining ∧
      0 ≤ ((loadProcs [(1, 0, 4, 2, 5), (2, 10, 6, 3, 1)]) r).io_time_remaining := by
    intro r hr
    cases hr
    decide
  have hn : ∀ i ∈ [1],
      (3 : Int) ≤ ((loadProcs [(1, 0, 4, 2, 5), (2, 10, 6, 3, 1)]) i).arrival_time := by
    intro i hi
    simp only [List.mem_singleton] at hi
    subst hi
    decide
  have hf : ∀ i ∈ [1],
      ((loadProcs [(1, 0, 4, 2, 5), (2, 10, 6, 3, 1)]) i).arrival_time - 3 ≤ INT_MAX := by
    intro i hi
    simp only [List.mem_singleton] at hi
    subst hi
    decide
  have hw : ∀ i ∈ ([] : NodeList),
      0 ≤ ((loadProcs [(1, 0, 4, 2, 5), (2, 10, 6, 3, 1)]) i).io_time_remaining := by
    intro i hi
    cases hi
  exact ⟨hr, hn, hf, hw, c11_time_to_next_event_positive _ 3 (some 0) [1] [] hr hn hf hw⟩

/-- C11, as stated, fails: with the clock at 3 and a new-list node whose arrival time is
0 the system is not idle and `get_time_to_next_event` returns -3, on the integers and in
`int` arithmetic.  And a candidate that is not negative does not suffice: with the clock
at -1 and a new-list node whose arrival time is `INT_MAX` the difference is
`INT_MAX + 1`, and the function returns `INT_MIN` in `int` arithmetic. -/
theorem c11_time_to_next_event_negative :
    (¬ ∀ (procs : Procs) (cpu_clock : Int) (running : Option Nat)
        (new_list waiting_list : NodeList),
        (running ≠ none ∨ new_list ≠ [] ∨ waiting_list ≠ []) →
        1 ≤ get_time_to_next_event procs cpu_clock running new_list waiting_list) ∧
    get_time_to_next_event (loadProcs [(1, 0, 4, 2, 5)]) 3 none [0] [] = -3 ∧
    Int32.get_time_to_next_event (loadProcs [(1, 0, 4, 2, 5)]) 3 none [0] [] = -3 ∧
    Int32.get_time_to_next_event (loadProcs [(1, 2147483647, 4, 2, 5)]) (-1) none [0] []
      = -2147483648 := by
  refine ⟨?_, by decide, by decide, by decide⟩
  intro h
  have h1 := h (loadProcs [(1, 0, 4, 2, 5)]) 3 none [0] [] (Or.inr (Or.inl (by simp)))
  revert h1
  decide

theorem release_agree (rows : List (Int × Int × Int × Int × Int)) (hi : IntRows rows)
    (st1 st2 st3 : Sim) (m node : Nat) (rel : Line)
    (h1 : HeadInv rows false st1) (hs1 : Stamped st1)
    (e2 : passes m st1 = some st2) (e3 : loopBody st2 = some st3)
    (l2 : linesOf node st2.log = linesOf node st1.log)
    (l3 : linesOf node st3.log = linesOf node st1.log ++ [rel])
    (hc : rel.time ≤ INT_MAX) :
    Int32.passes m st1 = some st2 ∧ Int32.loopBody st2 = some st3 ∧
      rel.time = st3.cpu_clock := by
  obtain ⟨st2', e2', h2, -, hs2⟩ := passes_invariant rows Stamped
    (fun strict st st1 h hs hb => stamped_pass rows strict st st1 h hs hb) m false st1 h1 hs1
  have est : st2' = st2 := by
    rw [e2] at e2'
    simpa using e2'.symm
  subst est
  obtain ⟨hclk, ws, ns, cs, hl, hws, hns, hcs, -⟩ := loopBody_lines rows false st2' st3 h2 e3
  have hsplit : linesOf node st3.log =
      linesOf node st2'.log ++ linesOf node (ws ++ ns ++ cs) := by
    rw [hl, ← linesOf_append]
    simp only [List.append_assoc]
  rw [l3, l2] at hsplit
  have hnew := List.append_cancel_left hsplit
  have hmem : rel ∈ ws ++ ns ++ cs := by
    have : rel ∈ linesOf node (ws ++ ns ++ cs) := by rw [← hnew]; simp
    unfold linesOf at this
    exact List.mem_of_mem_filter this
  have htime : rel.time = st3.cpu_clock := by
    simp only [List.mem_append] at hmem
    rcases hmem with (hm | hm) | hm
    · exact (hws rel hm).2.2
    · exact (hns rel hm).2.2.1
    · exact (hcs rel hm).2.2.2
  have h0 : 0 ≤ st2'.next_step := by
    have hh := h2
    unfold HeadInv at hh
    exact hh.step_nonneg
  have hc3 : st2'.cpu_clock + st2'.next_step ≤ INT_MAX := by
    rw [← hclk, ← htime]
    exact hc
  refine ⟨passes_agree rows hi m false st1 st2' h1 hs1 e2 (by omega), ?_, htime⟩
  exact (loopBody_agree rows hi false st2' h2 hs2 hc3).trans e3

/-- C14, as stated, fails: the rows of `rowsLong` meet the data model; the second pass
writes the READY->RUNNING line of PID 2 at time 1, with `cpu_time_remaining` `INT_MAX`,
which is not larger than its I/O frequency; the next pass adds the step `INT_MAX` to the
clock in `int` arithmetic, and the RUNNING->TERMINATED line of PID 2 carries the time
`INT_MIN`, which is not `1 + INT_MAX`. -/
theorem c14_burst_ends_at_int_min :
    ValidRows rowsLong ∧
    (Int32.passes 2 (initSim rowsLong)).map (fun st =>
        ((st.log.drop 4).map (fun r => (r.time, r.pid, r.old_state, r.new_state)),
          (st.procs 1).cpu_time_remaining, (st.procs 1).io_frequency)) =
      some ([(1, 2, STATE_READY, STATE_RUNNING)], 2147483647, 2147483647) ∧
    (Int32.passes 3 (initSim rowsLong)).map (fun st =>
        (st.log.drop 4).map (fun r => (r.time, r.pid, r.old_state, r.new_state))) =
      some [(1, 2, STATE_READY, STATE_RUNNING), (-2147483648, 2, STATE_RUNNING, STATE_TERMINATED)] ∧
    (-2147483648 : Int) ≠ 1 + 2147483647 := by
  refine ⟨by decide, by decide, by decide, by decide⟩

/-- C14, as amended: on input rows of `int` fields that meet the data model
(arrival_time >= 0, total_cpu_time > 0, io_frequency > 0, io_duration > 0), any number of
passes of the loop can be made on the integers, and as long as the clock is at most
`INT_MAX`, so that no addition to it has overflowed, the passes in `int` arithmetic lead to
the same state, in which no `cpu_time_remaining` is negative, and a TERMINATED process has
`cpu_time_remaining` 0 and has spent its `total_cpu_time` in RUNNING; and whenever the
next pass, at a clock of at most `INT_MAX`, writes a READY->RUNNING line `d` for a
process, with `r` its `cpu_time_remaining` (not written by that pass) and `f` its I/O
frequency, its `io_time_remaining` is `f` and `d` is its last line; if `r ≤ f` and
`d.time + r` is at most `INT_MAX`, the loop goes on, in `int` arithmetic as on the integers,
to a pass that writes its next line, which is RUNNING->TERMINATED at time `d.time + r`,
leaving `cpu_time_remaining` 0; if `f < r` and `d.time + f` is at most `INT_MAX`, the loop
goes on in the same way to a pass that writes its next line, which is RUNNING->WAITING at
time `d.time + f`, leaving `cpu_time_remaining = r - f > 0` and `io_time_remaining` the I/O
duration. -/
theorem c14_cpu_burst_is_metered (rows : List (Int × Int × Int × Int × Int))
    (hv : ValidRows rows) (hi : IntRows rows) (k : Nat) :
    ∃ st, passes k (initSim rows) = some st ∧
      (st.cpu_clock ≤ INT_MAX → Int32.passes k (initSim rows) = some st ∧ ∀ i, i < rows.length →
        0 ≤ (st.procs i).cpu_time_remaining ∧
        ((st.procs i).s = STATE_TERMINATED →
          (st.procs i).cpu_time_remaining = 0 ∧
          cpuTime (linesOf i st.log) = (loadProcs rows i).total_cpu_time)) ∧
      (∀ (st1 : Sim) (new : List Line) (d : Line),
        loopBody st = some st1 → st1.cpu_clock ≤ INT_MAX →
        st1.log = st.log ++ new → d ∈ new →
        d.old_state = STATE_READY → d.new_state = STATE_RUNNING →
        Int32.loopBody st = some st1 ∧
        d.time = st1.cpu_clock ∧
        (st.procs d.node).cpu_time_remaining = (st1.procs d.node).cpu_time_remaining ∧
        (st1.procs d.node).io_time_remaining = (loadProcs rows d.node).io_frequency ∧
        (∃ pre, linesOf d.node st1.log = pre ++ [d]) ∧
        ((st1.procs d.node).cpu_time_remaining ≤ (loadProcs rows d.node).io_frequency →
          d.time + (st1.procs d.node).cpu_time_remaining ≤ INT_MAX →
          ∃ m st2 st3, passes m st1 = some st2 ∧ loopBody st2 = some st3 ∧
            Int32.passes m st1 = some st2 ∧ Int32.loopBody st2 = some st3 ∧
            linesOf d.node st2.log = linesOf d.node st1.log ∧
            ∃ rel, linesOf d.node st3.log = linesOf d.node st1.log ++ [rel] ∧
              rel.old_state = STATE_RUNNING ∧
              rel.new_state = STATE_TERMINATED ∧
              rel.time = d.time + (st1.procs d.node).cpu_time_remaining ∧
              (st3.procs d.node).cpu_time_remaining = 0) ∧
        ((loadProcs rows d.node).io_frequency < (st1.procs d.node).cpu_time_remaining →
          d.time + (loadProcs rows d.node).io_frequency ≤ INT_MAX →
          ∃ m st2 st3, passes m st1 = some st2 ∧ loopBody st2 = some st3 ∧
            Int32.passes m st1 = some st2 ∧ Int32.loopBody st2 = some st3 ∧
            linesOf d.node st2.log = linesOf d.node st1.log ∧
            ∃ rel, linesOf d.node st3.log = linesOf d.node st1.log ++ [rel] ∧
              rel.old_state = STATE_RUNNING ∧
              rel.new_state = STATE_WAITING ∧
              rel.time = d.time + (loadProcs rows d.node).io_frequency ∧
              (st3.procs d.node).cpu_time_remaining =
                (st1.procs d.node).cpu_time_remaining - (loadProcs rows d.node).io_frequency ∧
              0 < (st3.procs d.node).cpu_time_remaining ∧
              (st3.procs d.node).io_time_remaining = (loadProcs rows d.node).io_duration)) := by
  obtain ⟨st, e, hneg, hdisp⟩ := burst_is_metered rows hv k
  obtain ⟨st', e', hh, -, hs⟩ := passes_stamped rows hv k
  have est : st' = st := by
    rw [e] at e'
    simpa using e'.symm
  subst est
  refine ⟨st', e, fun hc => ⟨passes_init_agree rows hv hi k st' e hc, hneg⟩, ?_⟩
  intro st1 new d hb hc1 hnew hd hdo hdn
  obtain ⟨g1, g2, g3, m, st2, st3, f1, f2, f3, rel, f4, f5, f6, f7⟩ :=
    hdisp st1 new d hb hnew hd hdo hdn
  obtain ⟨st1a, hb1, h1, -⟩ := loopBody_head rows false st' hh
  have e1 : st1a = st1 := by
    rw [hb] at hb1
    simpa using hb1.symm
  subst e1
  have hs1 := stamped_pass rows false st' st1a hh hs hb
  have hclk := (loopBody_lines rows false st' st1a hh hb).1
  have ha := (loopBody_agree rows hi false st' hh hs (by rw [← hclk]; exact hc1)).trans hb
  have htime : d.time = st1a.cpu_clock := by
    obtain ⟨-, ws, ns, cs, hl, hws, hns, hcs, -⟩ := loopBody_lines rows false st' st1a hh hb
    have hmem : d ∈ ws ++ ns ++ cs := by
      have h2 : st'.log ++ new = st'.log ++ (ws ++ ns ++ cs) := by
        rw [← hnew, hl]
        simp only [List.append_assoc]
      rw [List.append_cancel_left h2] at hd
      exact hd
    simp only [List.mem_append] at hmem
    rcases hmem with (hm | hm) | hm
    · exact (hws d hm).2.2
    · exact (hns d hm).2.2.1
    · exact (hcs d hm).2.2.2
  refine ⟨ha, htime, g1, g2, g3, ?_, ?_⟩
  · intro hle hfit
    obtain ⟨a1, a2, a3⟩ := f6 hle
    obtain ⟨r1, r2, -⟩ := release_agree rows hi st1a st2 st3 m d.node rel h1 hs1 f1 f2 f3 f4
      (by rw [a2]; exact hfit)
    exact ⟨m, st2, st3, f1, f2, r1, r2, f3, rel, f4, f5, a1, a2, a3⟩
  · intro hlt hfit
    obtain ⟨a1, a2, a3, a4, a5⟩ := f7 hlt
    obtain ⟨r1, r2, -⟩ := release_agree rows hi st1a st2 st3 m d.node rel h1 hs1 f1 f2 f3 f4
      (by rw [a2]; exact hfit)
    exact ⟨m, st2, st3, f1, f2, r1, r2, f3, rel, f4, f5, a1, a2, a3, a4, a5⟩

/-- C14 as amended, on the rows `rowsTwo`: the first pass (clock 0) dispatches PID 1 with 4 units of
CPU time left and an I/O frequency of 9; its next line is RUNNING->TERMINATED at time
0 + 4. -/
theorem c14_cpu_burst_is_metered_witness :
    ValidRows rowsTwo ∧ IntRows rowsTwo ∧
    ∃ st, passes 0 (initSim rowsTwo) = some st ∧ st.cpu_clock ≤ INT_MAX ∧
      (∀ i, i < rowsTwo.length → 0 ≤ (st.procs i).cpu_time_remaining) ∧
      ∃ st1 d, loopBody st = some st1 ∧ st1.cpu_clock ≤ INT_MAX ∧
        d ∈ st1.log.drop st.log.length ∧
        d = ⟨0, 1, STATE_READY, STATE_RUNNING, 0, STATE_READY⟩ ∧
        (st1.procs 0).cpu_time_remaining = 4 ∧
        (st1.procs 0).io_time_remaining = 9 ∧
        d.time + (st1.procs 0).cpu_time_remaining ≤ INT_MAX ∧
        ∃ m st2 st3, passes m st1 = some st2 ∧ loopBody st2 = some st3 ∧
          ∃ rel, linesOf 0 st3.log = linesOf 0 st1.log ++ [rel] ∧
            rel.new_state = STATE_TERMINATED ∧ rel.time = 4 ∧
            (st3.procs 0).cpu_time_remaining = 0 := by
  have hv : ValidRows rowsTwo := by decide
  have hi : IntRows rowsTwo := by decide
  obtain ⟨st, e, hneg, hdisp⟩ := c14_cpu_burst_is_metered rowsTwo hv hi 0
  have est : st = initSim rowsTwo := by simpa [passes] using e.symm
  subst est
  have hc0 : (initSim rowsTwo).cpu_clock ≤ INT_MAX := by decide
  refine ⟨hv, hi, initSim rowsTwo, rfl, hc0, fun i hi => ((hneg hc0).2 i hi).1, ?_⟩
  have hb : ∃ st1, loopBody (initSim rowsTwo) = some st1 ∧
      st1.log = [⟨0, 1, STATE_NEW, STATE_READY, 0, STATE_NEW⟩,
        ⟨0, 2, STATE_NEW, STATE_READY, 1, STATE_NEW⟩,
        ⟨0, 1, STATE_READY, STATE_RUNNING, 0, STATE_READY⟩] ∧
      (st1.procs 0).cpu_time_remaining = 4 ∧ st1.cpu_clock = 0 := by
    refine ⟨_, rfl, ?_, ?_, ?_⟩ <;> decide
  obtain ⟨st1, hb1, hlog, hr, hc1⟩ := hb
  have hc1m : st1.cpu_clock ≤ INT_MAX := by rw [hc1]; decide
  obtain ⟨-, -, -, d2, -, f6, -⟩ :=
    hdisp st1 st1.log ⟨0, 1, STATE_READY, STATE_RUNNING, 0, STATE_READY⟩ hb1 hc1m
      (by simp [initSim]) (by rw [hlog]; simp) rfl rfl
  have hf : (loadProcs rowsTwo 0).io_frequency = 9 := by decide
  simp only [hf, hr] at d2 f6
  obtain ⟨m, st2, st3, f1, f2, -, -, -, rel, f4, -, g1, g2, g3⟩ := f6 (by decide) (by decide)
  refine ⟨st1, _, hb1, hc1m, ?_, rfl, hr, d2, by rw [hr]; decide, m, st2, st3, f1, f2, rel, f4,
    g1, by rw [g2]; rfl, g3⟩
  rw [hlog]
  simp [initSim]

/-! ### Runs without I/O in `int` arithmetic -/

theorem finishTimes_bounds (rows : List (Int × Int × Int × Int × Int)) (l : NodeList) :
    ∀ t : Int, (∀ x ∈ l, 0 < (loadProcs rows x).total_cpu_time) →
      ∀ e ∈ finishTimes rows t l, t < e.2 ∧ e.2 ≤ t + totalOf rows l := by
  induction l with
  | nil =>
    intro t _ e he
    simp [finishTimes] at he
  | cons x xs ih =>
    intro t hpos e he
    have hx := hpos x (List.mem_cons_self _ _)
    have hxs : ∀ y ∈ xs, 0 < (loadProcs rows y).total_cpu_time :=
      fun y hy => hpos y (List.mem_cons_of_mem _ hy)
    have hsum : 0 ≤ totalOf rows xs := by
      unfold totalOf
      apply List.sum_nonneg
      intro v hv
      obtain ⟨y, hy, rfl⟩ := List.mem_map.mp hv
      exact le_of_lt (hxs y hy)
    have htot : totalOf rows (x :: xs) = (loadProcs rows x).total_cpu_time + totalOf rows xs := by
      simp [totalOf]
    simp only [finishTimes, List.mem_cons] at he
    rcases he with he | he
    · subst he
      simp only
      rw [htot]
      constructor <;> omega
    · have := ih _ hxs e he
      rw [htot]
      constructor <;> omega

theorem totalOf_perm (rows : List (Int × Int × Int × Int × Int)) (l1 l2 : NodeList)
    (h : l1.Perm l2) : totalOf rows l1 = totalOf rows l2 := by
  unfold totalOf
  exact (h.map _).sum_eq

/-- A pass with an empty waiting list is the same in `int` arithmetic when the clock it
advances to, the timers of the process that holds the CPU and the distances to the
arrivals left are values of an `int`. -/
theorem loopBody_agree_quiet (st st1 : Sim) (hb : loopBody st = some st1)
    (hw : st.waiting_list = []) (hc : FitsInt (st.cpu_clock + st.next_step))
    (hr : ∀ s2, scanNew st.new_list (advance st) = some s2 → ∀ r, s2.running = some r →
      FitsInt ((s2.procs r).cpu_time_remaining - s2.next_step) ∧
      FitsInt ((s2.procs r).io_time_remaining - s2.next_step))
    (hn : ∀ i ∈ st1.new_list, FitsInt ((st1.procs i).arrival_time - st1.cpu_clock)) :
    Int32.loopBody st = some st1 := by
  have e1 : scanWaiting st.waiting_list { st with cpu_clock := st.cpu_clock + st.next_step } = some { st with cpu_clock := st.cpu_clock + st.next_step } := by
    rw [hw]; rfl
  have e1a : Int32.scanWaiting st.waiting_list { st with cpu_clock := st.cpu_clock + st.next_step } = some { st with cpu_clock := st.cpu_clock + st.next_step } := by
    rw [hw]; rfl
  unfold loopBody at hb
  simp only [e1] at hb
  unfold Int32.loopBody
  simp only [wrapInt_of_fits _ hc, e1a]
  unfold advance at hr
  cases e2 : scanNew st.new_list { st with cpu_clock := st.cpu_clock + st.next_step } with
  | none =>
    rw [e2] at hb
    exact absurd hb (by simp)
  | some s2 =>
    simp only [e2] at hb ⊢
    rw [cpuStep_agree s2 (hr s2 e2)]
    cases e3 : cpuStep s2 with
    | none =>
      rw [e3] at hb
      exact absurd hb (by simp)
    | some s3 =>
      simp only [e3, Option.some.injEq] at hb ⊢
      subst hb
      rw [time_to_next_event_agree s3.procs s3.cpu_clock s3.running s3.new_list
        s3.waiting_list hn]

theorem totalOf_nonneg (rows : List (Int × Int × Int × Int × Int)) (l : NodeList)
    (h : ∀ i ∈ l, 0 ≤ (loadProcs rows i).total_cpu_time) : 0 ≤ totalOf rows l := by
  induction l with
  | nil => simp [totalOf]
  | cons x xs ih =>
    have h1 := h x (List.mem_cons_self _ _)
    have h2 := ih (fun i hi => h i (List.mem_cons_of_mem _ hi))
    unfold totalOf at h2 ⊢
    simp only [List.map_cons, List.sum_cons]
    omega

theorem totalOf_append (rows : List (Int × Int × Int × Int × Int)) (l1 l2 : NodeList) :
    totalOf rows (l1 ++ l2) = totalOf rows l1 + totalOf rows l2 := by
  unfold totalOf
  rw [List.map_append, List.sum_append]

/-- What `read_proc_from_file` has stored for a row of `int` fields. -/
theorem intRows_load (rows : List (Int × Int × Int × Int × Int)) (hi : IntRows rows)
    (i : Nat) : (loadProcs rows i).io_time_remaining ≤ INT_MAX := by
  by_cases hlt : i < rows.length
  · obtain ⟨row, hrow, e⟩ := loadProcs_row rows i hlt
    rw [e]
    exact (hi row hrow).2.2.2.1.2
  · have e : rows.getD i (0, 0, 0, 0, 0) = (0, 0, 0, 0, 0) :=
      List.getD_eq_default _ _ (by omega)
    simp only [loadProcs, e, create_proc]
    decide

/-- A pass between two terminations of a run without I/O is the same in `int` arithmetic
as long as the termination it writes is at a time of at most `INT_MAX`. -/
theorem sjf_pass_agree (rows : List (Int × Int × Int × Int × Int)) (a : Int) (D R : NodeList)
    (m : Nat) (st st1 : Sim) (h : Sjf rows a D R m st) (hi : IntRows rows) (h0 : NoIoRows rows a)
    (hb : loopBody st = some st1) (hnew : st1.new_list = [])
    (hsum : a + totalOf rows (List.range rows.length) ≤ INT_MAX) :
    Int32.loopBody st = some st1 := by
  have hpos : ∀ i ∈ D ++ m :: R, 0 < (loadProcs rows i).total_cpu_time := by
    intro i hin
    have hlt : i < rows.length := List.mem_range.mp (h.perm.mem_iff.mp hin)
    exact (noIoRows_load rows a h0 i hlt).2.1
  have hD : 0 ≤ totalOf rows D :=
    totalOf_nonneg rows D (fun i hin => le_of_lt (hpos i (List.mem_append_left _ hin)))
  have hR : 0 ≤ totalOf rows R :=
    totalOf_nonneg rows R (fun i hin =>
      le_of_lt (hpos i (List.mem_append_right _ (List.mem_cons_of_mem _ hin))))
  have hall : totalOf rows (D ++ m :: R) = totalOf rows (List.range rows.length) :=
    totalOf_perm rows _ _ h.perm
  have hsplit : totalOf rows (D ++ m :: R) =
      totalOf rows D + ((loadProcs rows m).total_cpu_time + totalOf rows R) := by
    rw [totalOf_append]
    simp [totalOf]
  have hm := hpos m (by simp)
  obtain ⟨f1, f2, f3⟩ := h.fresh m (Or.inl rfl)
  have hio := intRows_load rows hi m
  have ha := h0.1
  apply loopBody_agree_quiet st st1 hb h.waiting_nil
  · rw [h.clock, h.step]
    exact fits_of_bounds (by omega) (by omega)
  · intro s2 e2 r hr
    rw [h.new_nil] at e2
    simp only [scanNew, Option.some.injEq] at e2
    subst e2
    have hr1 : some m = some r := h.running.symm.trans hr
    simp only [Option.some.injEq] at hr1
    subst hr1
    show FitsInt ((st.procs m).cpu_time_remaining - st.next_step) ∧
      FitsInt ((st.procs m).io_time_remaining - st.next_step)
    rw [f1, h.step]
    have hz : (0 : Int) ≤ INT_MAX := by decide
    exact ⟨fits_of_bounds (by omega) (by omega), fits_of_bounds (by omega) (by omega)⟩
  · intro i hin
    rw [hnew] at hin
    cases hin

/-- From a state between two passes of a run without I/O, the loop ends after as many
passes as there are processes left, in `int` arithmetic as on the integers, when the sum of
the arrival time and all the totals is at most `INT_MAX`. -/
theorem sjf_finish_agree (rows : List (Int × Int × Int × Int × Int)) (a : Int)
    (hi : IntRows rows) (h0 : NoIoRows rows a)
    (hsum : a + totalOf rows (List.range rows.length) ≤ INT_MAX) (k : Nat) :
    ∀ (D R : NodeList) (m : Nat) (st : Sim), R.length = k → Sjf rows a D R m st →
      ∃ fuel st1, mainLoop fuel st = some st1 ∧ Int32.mainLoop fuel st = some st1 ∧
        SjfDone rows a st1 := by
  induction k with
  | zero =>
    intro D R m st hk h
    obtain ⟨st1, e1, h1⟩ := sjf_pass rows a D R m st h
    have hR : R = [] := List.eq_nil_of_length_eq_zero hk
    have hg : get_next_process (loadProcs rows) R = none := by rw [hR]; rfl
    rw [hg] at h1
    have hc := h1.1
    have hnew : st1.new_list = [] := by
      simp only [simulation_completed, Bool.and_eq_true, List.isEmpty_iff,
        Option.isNone_iff_eq_none] at hc
      exact hc.1.1.2
    have e2 := sjf_pass_agree rows a D R m st st1 h hi h0 e1 hnew hsum
    refine ⟨1, st1, ?_, ?_, h1⟩
    · simp [mainLoop, e1, h1.1]
    · simp [Int32.mainLoop, e2, h1.1]
  | succ k ih =>
    intro D R m st hk h
    obtain ⟨st1, e1, h1⟩ := sjf_pass rows a D R m st h
    cases hg : get_next_process (loadProcs rows) R with
    | none =>
      have hR : R = [] := get_next_process_none _ _ hg
      rw [hR] at hk
      simp at hk
    | some r =>
      rw [hg] at h1
      obtain ⟨h2, h3⟩ := h1
      have hrR := get_next_process_mem _ _ _ hg
      have e1a := sjf_pass_agree rows a D R m st st1 h hi h0 e1 h2.new_nil hsum
      obtain ⟨fuel, st2, e2, e2a, h4⟩ := ih (D ++ [m]) (R.erase r) r st1
        (by rw [List.length_erase_of_mem hrR, hk]; rfl) h2
      refine ⟨fuel + 1, st2, ?_, ?_, h4⟩
      · simp [mainLoop, e1, h3, e2]
      · simp [Int32.mainLoop, e1a, h3, e2a]

/-- In a run without I/O in which all processes arrive together the loop ends, in `int`
arithmetic as on the integers, in the state that `SjfDone` describes, when the sum of the
arrival time and all the totals is at most `INT_MAX`. -/
theorem sjf_run_agree (rows : List (Int × Int × Int × Int × Int)) (a : Int) (hne : rows ≠ [])
    (h : NoIoRows rows a) (hi : IntRows rows)
    (hsum : a + totalOf rows (List.range rows.length) ≤ INT_MAX) :
    ∃ fuel st, mainLoop fuel (initSim rows) = some st ∧
      Int32.mainLoop fuel (initSim rows) = some st ∧ SjfDone rows a st := by
  have hmax := h.2.1
  rcases eq_or_lt_of_le h.1 with ha | ha
  · obtain ⟨st, m, e1, h1, c1⟩ := sjf_arrival rows a hne h (initSim rows) rfl rfl rfl rfl rfl
      rfl rfl (by rw [← ha]; rfl)
    have e1a : Int32.loopBody (initSim rows) = some st := by
      apply loopBody_agree_quiet _ _ e1 rfl
      · exact (by decide : FitsInt ((0 : Int) + 0))
      · intro s2 e2 r hr
        rw [scanNew_running _ _ _ e2] at hr
        cases hr
      · intro i hin
        rw [h1.new_nil] at hin
        cases hin
    obtain ⟨fuel, st1, e2, e2a, h2⟩ := sjf_finish_agree rows a hi h hsum _ [] _ m st rfl h1
    refine ⟨fuel + 1, st1, ?_, ?_, h2⟩
    · simp [mainLoop, e1, c1, e2]
    · simp [Int32.mainLoop, e1a, c1, e2a]
  · obtain ⟨X, e0, x1, x2, x3, x4, x5, x6, x7, x8, c0, xc⟩ := sjf_first_pass rows a hne h ha
    obtain ⟨st, m, e1, h1, c1⟩ := sjf_arrival rows a hne h X x1 x2 x3 x4 x5 x6 x7 x8
    have e0a : Int32.loopBody (initSim rows) = some X := by
      apply loopBody_agree_quiet _ _ e0 rfl
      · exact (by decide : FitsInt ((0 : Int) + 0))
      · intro s2 e2 r hr
        rw [scanNew_running _ _ _ e2] at hr
        cases hr
      · intro i hin
        rw [x2] at hin
        rw [x1, xc, (noIoRows_load rows a h i (List.mem_range.mp hin)).1]
        exact fits_of_bounds (by omega) (by omega)
    have e1a : Int32.loopBody X = some st := by
      apply loopBody_agree_quiet _ _ e1 x4
      · rw [x8]
        exact fits_of_bounds (by omega) hmax
      · intro s2 e2 r hr
        rw [scanNew_running _ _ _ e2] at hr
        have : (advance X).running = X.running := rfl
        rw [this, x6] at hr
        cases hr
      · intro i hin
        rw [h1.new_nil] at hin
        cases hin
    obtain ⟨fuel, st1, e2, e2a, h2⟩ := sjf_finish_agree rows a hi h hsum _ [] _ m st rfl h1
    refine ⟨fuel + 2, st1, ?_, ?_, h2⟩
    · simp [mainLoop, e0, c0, e1, c1, e2]
    · simp [Int32.mainLoop, e0a, c0, e1a, c1, e2a]

/-- C20, as stated, fails: the two processes of `rowsLong` arrive together at 0 and have
`0 < total_cpu_time ≤ io_frequency`; the totals are 1 and `INT_MAX`, so that the second
termination is due at `0 + 1 + INT_MAX`, but the loop adds the step to the clock in `int`
arithmetic and writes the RUNNING->TERMINATED line of PID 2 with the time `INT_MIN`. -/
theorem c20_second_termination_at_int_min :
    rowsLong ≠ [] ∧ NoIoRows rowsLong 0 ∧
    (Int32.mainLoop 3 (initSim rowsLong)).map (fun st =>
        (st.terminated,
          (st.log.filter (fun r => r.new_state = STATE_TERMINATED)).map
            (fun r => (r.node, r.time)))) =
      some ([0, 1], [(0, 1), (1, -2147483648)]) ∧
    finishTimes rowsLong 0 [0, 1] = [(0, 1), (1, 2147483648)] := by
  refine ⟨by decide, by decide, by decide, by decide⟩

/-- C20, as amended: for a non-empty list of processes with `int` fields that all arrive
at `a ≥ 0` and have `0 < total_cpu_time ≤ io_frequency`, in any insertion order, and for
which `a` plus the sum of all the totals is at most `INT_MAX`, so
that no addition to the clock overflows: the loop ends, in `int` arithmetic as on the
integers, with the clock at `a` plus the sum of the totals; the terminated list holds every
process once, in non-decreasing order of `total_cpu_time` with equal values in insertion
order; the RUNNING->TERMINATED lines are, in this order, at the times `a` plus the running
sum of the totals, each of them a value of an `int`; the READY->RUNNING lines are for the
same processes in the same order, the first one being for a process with the smallest
total; and no line enters WAITING. -/
theorem c20_shortest_total_first (rows : List (Int × Int × Int × Int × Int)) (a : Int)
    (hne : rows ≠ []) (h : NoIoRows rows a) (hi : IntRows rows)
    (hsum : a + totalOf rows (List.range rows.length) ≤ INT_MAX) :
    ∃ fuel st, mainLoop fuel (initSim rows) = some st ∧
      Int32.mainLoop fuel (initSim rows) = some st ∧
      st.cpu_clock = a + totalOf rows (List.range rows.length) ∧
      st.terminated.Perm (List.range rows.length) ∧
      st.terminated.Pairwise (fun i j =>
        (loadProcs rows i).total_cpu_time < (loadProcs rows j).total_cpu_time ∨
        ((loadProcs rows i).total_cpu_time = (loadProcs rows j).total_cpu_time ∧ i < j)) ∧
      ((st.log.filter (fun r => r.new_state = STATE_TERMINATED)).map
        (fun r => (r.node, r.time))) = finishTimes rows a st.terminated ∧
      (∀ e ∈ finishTimes rows a st.terminated, a < e.2 ∧ FitsInt e.2) ∧
      (st.log.filter (fun r => r.old_state = STATE_READY ∧ r.new_state = STATE_RUNNING)).map
        (fun r => r.node) = st.terminated ∧
      (∃ m, ((st.log.filter
          (fun r => r.old_state = STATE_READY ∧ r.new_state = STATE_RUNNING)).head?).map
            (fun r => r.node) = some m ∧
        ∀ i, i < rows.length →
          (loadProcs rows m).total_cpu_time ≤ (loadProcs rows i).total_cpu_time) ∧
      ∀ r ∈ st.log, r.new_state ≠ STATE_WAITING := by
  obtain ⟨fuel, st, e, ea, hd⟩ := sjf_run_agree rows a hne h hi hsum
  obtain ⟨hclk, h2, h3, h4, h5, h6, h7⟩ := sjfDone_order rows a hne st hd
  rw [totalOf_perm rows _ _ h2] at hclk
  refine ⟨fuel, st, e, ea, hclk, h2, h3, h4, ?_, h5, h6, h7⟩
  intro x hx
  have hpos : ∀ y ∈ st.terminated, 0 < (loadProcs rows y).total_cpu_time := by
    intro y hy
    have hlt : y < rows.length := List.mem_range.mp (h2.mem_iff.mp hy)
    have hm : rows.getD y (0, 0, 0, 0, 0) ∈ rows := by
      rw [List.getD_eq_getElem _ _ hlt]
      exact List.getElem_mem hlt
    have := (h.2.2 _ hm).2.1
    simpa [loadProcs, create_proc] using this
  have hb := finishTimes_bounds rows st.terminated a hpos x hx
  rw [totalOf_perm rows _ _ h2] at hb
  have h0 := h.1
  exact ⟨hb.1, fits_of_bounds (by omega) (by omega)⟩

/-- C20 as amended, on the totals 10 and 5 at arrival 0, in either insertion order: the process with
total 5 runs first and terminates at 5, the other one at 15. -/
theorem c20_shortest_total_first_witness :
    rowsLongShort ≠ [] ∧ NoIoRows rowsLongShort 0 ∧ IntRows rowsLongShort ∧
    0 + totalOf rowsLongShort (List.range rowsLongShort.length) ≤ INT_MAX ∧
    (∃ fuel st, mainLoop fuel (initSim rowsLongShort) = some st ∧
      Int32.mainLoop fuel (initSim rowsLongShort) = some st ∧
      st.terminated.Perm (List.range rowsLongShort.length) ∧
      ((st.log.filter (fun r => r.new_state = STATE_TERMINATED)).map
        (fun r => (r.node, r.time))) = finishTimes rowsLongShort 0 st.terminated ∧
      ∀ r ∈ st.log, r.new_state ≠ STATE_WAITING) ∧
    (Int32.mainLoop 3 (initSim rowsLongShort)).map (fun st =>
        (st.terminated, st.log.map (fun r => (r.time, r.pid, r.old_state, r.new_state)))) =
      some ([1, 0],
        [(0, 1, STATE_NEW, STATE_READY), (0, 2, STATE_NEW, STATE_READY),
         (0, 2, STATE_READY, STATE_RUNNING), (5, 2, STATE_RUNNING, STATE_TERMINATED),
         (5, 1, STATE_READY, STATE_RUNNING), (15, 1, STATE_RUNNING, STATE_TERMINATED)]) ∧
    (Int32.mainLoop 3 (initSim rowsShortLong)).map (fun st =>
        (st.terminated, st.log.map (fun r => (r.time, r.pid, r.old_state, r.new_state)))) =
      some ([0, 1],
        [(0, 2, STATE_NEW, STATE_READY), (0, 1, STATE_NEW, STATE_READY),
         (0, 2, STATE_READY, STATE_RUNNING), (5, 2, STATE_RUNNING, STATE_TERMINATED),
         (5, 1, STATE_READY, STATE_RUNNING), (15, 1, STATE_RUNNING, STATE_TERMINATED)]) := by
  have hne : rowsLongShort ≠ [] := by decide
  have hv : NoIoRows rowsLongShort 0 := by decide
  have hi : IntRows rowsLongShort := by decide
  have hs : 0 + totalOf rowsLongShort (List.range rowsLongShort.length) ≤ INT_MAX := by decide
  obtain ⟨fuel, st, e, ea, -, h2, -, h4, -, -, -, h6⟩ :=
    c20_shortest_total_first rowsLongShort 0 hne hv hi hs
  exact ⟨hne, hv, hi, hs, ⟨fuel, st, e, ea, h2, h4, h6⟩, by decide, by decide⟩

/-- C23, as stated, fails: the row of `rowsLongWait` meets the data model; the process
blocks for I/O at time 1 with an I/O duration of `INT_MAX`, and the next pass adds the step
`INT_MAX` to the clock in `int` arithmetic, so that its WAITING->READY line carries the
time `INT_MIN`, which is not `1 + INT_MAX`. -/
theorem c23_io_wait_ends_at_int_min :
    ValidRows rowsLongWait ∧
    (Int32.passes 3 (initSim rowsLongWait)).map
        (fun st => (st.log.take 4).map (fun r => (r.time, r.pid, r.old_state, r.new_state))) =
      some [(0, 1, STATE_NEW, STATE_READY), (0, 1, STATE_READY, STATE_RUNNING),
        (1, 1, STATE_RUNNING, STATE_WAITING), (-2147483648, 1, STATE_WAITING, STATE_READY)] ∧
    (loadProcs rowsLongWait 0).io_duration = 2147483647 ∧
    (-2147483648 : Int) ≠ 1 + (loadProcs rowsLongWait 0).io_duration := by
  refine ⟨by decide, by decide, by decide, by decide⟩

/-- C23, as amended: on input rows of `int` fields that meet the data model
(arrival_time >= 0, total_cpu_time > 0, io_frequency > 0, io_duration > 0), any number of
passes of the loop can be made on the integers, and as long as the clock is at most
`INT_MAX`, so that no addition to it has overflowed, the passes in `int` arithmetic lead to
the same state, and for every process `p`: a RUNNING->WAITING line of `p` at time `t` is either
the last line of `p`, and then `p` is in the waiting list and the clock has not reached
`t + io_duration` (the clock plus `io_time_remaining` is `t + io_duration`), or it is
followed, as the next line of `p`, by a WAITING->READY line at time exactly
`t + io_duration`, a value of an `int`.  Whenever the next pass, at a clock of at most
`INT_MAX`, writes a WAITING->READY line, it leaves the `io_time_remaining` of that process
at its `io_frequency`.  And the loop is left after finitely many passes; if the clock is
then at most `INT_MAX`, every RUNNING->WAITING line of every process is followed, as the
next line of that process, by its WAITING->READY line at time exactly
`t + io_duration`. -/
theorem c23_io_wait_is_exact (rows : List (Int × Int × Int × Int × Int))
    (hv : ValidRows rows) (hi : IntRows rows) (k : Nat) :
    (∃ st, passes k (initSim rows) = some st ∧
      (st.cpu_clock ≤ INT_MAX →
        Int32.passes k (initSim rows) = some st ∧
        ∀ (p : Nat) (pre post : List Line) (r : Line), p < rows.length →
        linesOf p st.log = pre ++ r :: post →
        r.old_state = STATE_RUNNING → r.new_state = STATE_WAITING →
        (post = [] ∧ p ∈ st.waiting_list ∧
          st.cpu_clock < r.time + (loadProcs rows p).io_duration ∧
          r.time + (loadProcs rows p).io_duration =
            st.cpu_clock + (st.procs p).io_time_remaining) ∨
        (∃ w post1, post = w :: post1 ∧ w.old_state = STATE_WAITING ∧
          w.new_state = STATE_READY ∧
          w.time = r.time + (loadProcs rows p).io_duration ∧ FitsInt w.time)) ∧
      (∀ (st1 : Sim) (new : List Line) (w : Line),
        loopBody st = some st1 → st1.cpu_clock ≤ INT_MAX →
        st1.log = st.log ++ new → w ∈ new →
        w.old_state = STATE_WAITING → w.new_state = STATE_READY →
        Int32.loopBody st = some st1 ∧
        w.node < rows.length ∧ w.time = st1.cpu_clock ∧
        (st1.procs w.node).io_time_remaining = (loadProcs rows w.node).io_frequency ∧
        (st1.procs w.node).io_frequency = (loadProcs rows w.node).io_frequency)) ∧
    ∃ fuel fin, mainLoop fuel (initSim rows) = some fin ∧
      (fin.cpu_clock ≤ INT_MAX →
        Int32.mainLoop fuel (initSim rows) = some fin ∧
        ∀ (p : Nat) (pre post : List Line) (r : Line), p < rows.length →
        linesOf p fin.log = pre ++ r :: post →
        r.old_state = STATE_RUNNING → r.new_state = STATE_WAITING →
        ∃ w post1, post = w :: post1 ∧ w.old_state = STATE_WAITING ∧
          w.new_state = STATE_READY ∧
          w.time = r.time + (loadProcs rows p).io_duration ∧ FitsInt w.time) := by
  have hmem : ∀ (st : Sim) (p : Nat) (pre post1 : List Line) (r w : Line),
      linesOf p st.log = pre ++ r :: w :: post1 → w ∈ st.log := by
    intro st p pre post1 r w hl
    have : w ∈ linesOf p st.log := by rw [hl]; simp
    unfold linesOf at this
    exact List.mem_of_mem_filter this
  obtain ⟨⟨st, e, h1, h2⟩, fuel, fin, e3, h3⟩ := io_wait_is_exact rows hv k
  obtain ⟨st', e', hh, -, hs⟩ := passes_stamped rows hv k
  have est : st' = st := by
    rw [e] at e'
    simpa using e'.symm
  subst est
  obtain ⟨fin', e4, -, -, hsf⟩ := passes_stamped rows hv fuel
  have efin : fin' = fin := by
    rw [mainLoop_passes fuel _ _ e3] at e4
    simpa using e4.symm
  subst efin
  refine ⟨⟨st', e, ?_, ?_⟩, fuel, fin', e3, ?_⟩
  · intro hc
    refine ⟨passes_init_agree rows hv hi k st' e hc, ?_⟩
    intro p pre post r hp hl hro hrn
    rcases h1 p pre post r hp hl hro hrn with c | ⟨w, post1, c1, c2, c3, c4⟩
    · exact Or.inl c
    · refine Or.inr ⟨w, post1, c1, c2, c3, c4, ?_⟩
      have hw := hs.2 w (hmem st' p pre post1 r w (by rw [hl, c1]))
      exact fits_of_bounds hw.1 (by omega)
  · intro st1 new w hb hc1 hnew hm hwo hwn
    have hclk := (loopBody_lines rows false st' st1 hh hb).1
    have ha := loopBody_agree rows hi false st' hh hs (by rw [← hclk]; exact hc1)
    exact ⟨ha.trans hb, h2 st1 new w hb hnew hm hwo hwn⟩
  · intro hc
    refine ⟨mainLoop_init_agree rows hv hi fuel fin' e3 hc, ?_⟩
    intro p pre post r hp hl hro hrn
    obtain ⟨w, post1, c1, c2, c3, c4⟩ := h3 p pre post r hp hl hro hrn
    refine ⟨w, post1, c1, c2, c3, c4, ?_⟩
    have hw := hsf.2 w (hmem fin' p pre post1 r w (by rw [hl, c1]))
    exact fits_of_bounds hw.1 (by omega)

/-- C23 as amended, on the single row `(1, 0, 10, 5, 4)` after two passes (clock 5): the process
has blocked at clock 5 and its wait of 4 is not over; the third pass, at clock 9, ends
it. -/
theorem c23_io_wait_is_exact_witness :
    ValidRows rowsOneBlock ∧ IntRows rowsOneBlock ∧
    (∃ st, passes 2 (initSim rowsOneBlock) = some st ∧ st.cpu_clock ≤ INT_MAX ∧
      Int32.passes 2 (initSim rowsOneBlock) = some st ∧
      (∀ (p : Nat) (pre post : List Line) (r : Line), p < rowsOneBlock.length →
        linesOf p st.log = pre ++ r :: post →
        r.old_state = STATE_RUNNING → r.new_state = STATE_WAITING →
        (post = [] ∧ p ∈ st.waiting_list ∧
          st.cpu_clock < r.time + (loadProcs rowsOneBlock p).io_duration ∧
          r.time + (loadProcs rowsOneBlock p).io_duration =
            st.cpu_clock + (st.procs p).io_time_remaining) ∨
        (∃ w post1, post = w :: post1 ∧ w.old_state = STATE_WAITING ∧
          w.new_state = STATE_READY ∧
          w.time = r.time + (loadProcs rowsOneBlock p).io_duration ∧ FitsInt w.time))) ∧
    ∃ fuel fin, mainLoop fuel (initSim rowsOneBlock) = some fin := by
  obtain ⟨⟨st, e, h1, -⟩, fuel, fin, e3, -⟩ :=
    c23_io_wait_is_exact rowsOneBlock (by decide) (by decide) 2
  have hd : ∀ s ∈ passes 2 (initSim rowsOneBlock), s.cpu_clock ≤ INT_MAX := by decide
  have hc : st.cpu_clock ≤ INT_MAX := hd st (by rw [e]; exact rfl)
  exact ⟨by decide, by decide, ⟨st, e, hc, (h1 hc).1, (h1 hc).2⟩, fuel, fin, e3⟩

/-- C25, as stated, fails: the rows of `rowsLong` meet the data model; after two passes
PID 2 is running (the system is not idle), the clock is 1 and `get_time_to_next_event` has
returned `INT_MAX`; the next pass adds the step to the clock in `int` arithmetic and is
made at the clock `INT_MIN`, which is smaller than 1. -/
theorem c25_clock_steps_back :
    ValidRows rowsLong ∧
    (Int32.passes 2 (initSim rowsLong)).map
        (fun st => (st.cpu_clock, st.next_step, st.running, st.new_list, st.waiting_list)) =
      some (1, 2147483647, some 1, [], []) ∧
    (Int32.passes 3 (initSim rowsLong)).map (fun st => st.cpu_clock) = some (-2147483648) ∧
    ∀ st ∈ Int32.passes 2 (initSim rowsLong), ∀ st1 ∈ Int32.loopBody st,
      st1.cpu_clock < st.cpu_clock := by
  refine ⟨by decide, by decide, by decide, by decide⟩

/-- C25, as amended: on input rows of `int` fields that meet the data model
(arrival_time >= 0, total_cpu_time > 0, io_frequency > 0, io_duration > 0), let `st` be the
state at the end of a pass of the loop on the integers, after `get_time_to_next_event` has
been evaluated into `next_step`, with a clock of at most `INT_MAX`, so that no addition to
the clock has overflowed.  The passes in `int` arithmetic lead to the same state.
`next_step` and the differences `arrival_time - cpu_clock` that the function has formed
are values of an `int`.  Every line of the log that leaves NEW carries the arrival time of
its process, and every process that is not in the new list any more has such a line: no
arrival has been skipped.  When the running slot, the new list and the waiting list are
not all empty: `next_step` is at least 1; the running process, if there is one, has
`cpu_time_remaining` and `io_time_remaining` at least 1 and at least `next_step`; every
process in the waiting list has `io_time_remaining` at least 1 and at least `next_step`;
every process in the new list has `arrival_time > cpu_clock` and
`next_step ≤ arrival_time - cpu_clock`; as long as the new list is not empty,
`cpu_clock + next_step` is at most `INT_MAX`; and whenever `cpu_clock + next_step` is at
most `INT_MAX`, the loop makes a further pass, the same in `int` arithmetic as on the
integers, at the clock `cpu_clock + next_step`, which is larger than `cpu_clock`, and that
pass takes from the new list exactly the processes whose arrival time is its clock.  (The
first pass of the loop is made with the initial step 0, at clock 0.) -/
theorem c25_step_never_overshoots (rows : List (Int × Int × Int × Int × Int))
    (hv : ValidRows rows) (hi : IntRows rows) (k : Nat) :
    (∃ s1, passes 1 (initSim rows) = some s1 ∧ s1.cpu_clock = 0) ∧
    ∃ st, passes (k + 1) (initSim rows) = some st ∧
      (st.cpu_clock ≤ INT_MAX →
        Int32.passes (k + 1) (initSim rows) = some st ∧
        st.next_step =
          get_time_to_next_event st.procs st.cpu_clock st.running st.new_list
            st.waiting_list ∧
        FitsInt st.next_step ∧
        (∀ i ∈ st.new_list, FitsInt ((st.procs i).arrival_time - st.cpu_clock)) ∧
        (∀ r ∈ st.log, r.old_state = STATE_NEW →
          r.time = (loadProcs rows r.node).arrival_time) ∧
        (∀ i, i < rows.length → i ∉ st.new_list →
          ∃ r ∈ st.log, r.node = i ∧ r.old_state = STATE_NEW ∧ r.new_state = STATE_READY ∧
            r.time = (loadProcs rows i).arrival_time) ∧
        ((st.running ≠ none ∨ st.new_list ≠ [] ∨ st.waiting_list ≠ []) →
          1 ≤ st.next_step ∧
          (∀ r, st.running = some r →
            1 ≤ (st.procs r).cpu_time_remaining ∧ 1 ≤ (st.procs r).io_time_remaining ∧
            st.next_step ≤ (st.procs r).cpu_time_remaining ∧
            st.next_step ≤ (st.procs r).io_time_remaining) ∧
          (∀ i ∈ st.waiting_list,
            1 ≤ (st.procs i).io_time_remaining ∧
            st.next_step ≤ (st.procs i).io_time_remaining) ∧
          (∀ i ∈ st.new_list,
            st.cpu_clock < (st.procs i).arrival_time ∧
            st.next_step ≤ (st.procs i).arrival_time - st.cpu_clock) ∧
          (st.new_list ≠ [] → st.cpu_clock + st.next_step ≤ INT_MAX) ∧
          (st.cpu_clock + st.next_step ≤ INT_MAX →
            ∃ st1, loopBody st = some st1 ∧ Int32.loopBody st = some st1 ∧
              st1.cpu_clock = st.cpu_clock + st.next_step ∧
              FitsInt st1.cpu_clock ∧ st.cpu_clock < st1.cpu_clock ∧
              ∀ i ∈ st.new_list,
                (i ∈ st1.new_list ↔ (st.procs i).arrival_time ≠ st1.cpu_clock)))) := by
  obtain ⟨hfirst, st, e, g1, g2, g3, g4⟩ := step_never_overshoots rows hv k
  obtain ⟨st', e', hh, -, hs⟩ := passes_stamped rows hv (k + 1)
  have est : st' = st := by
    rw [e] at e'
    simpa using e'.symm
  subst est
  refine ⟨hfirst, st', e, ?_⟩
  intro hc
  have hh' := hh
  unfold HeadInv at hh'
  have h0 : 0 ≤ st'.next_step := hh'.step_nonneg
  have hmax : st'.next_step ≤ INT_MAX := by
    rw [g1]
    exact get_time_to_next_event_le_max _ _ _ _ _
  have harr : ∀ i ∈ st'.new_list, (st'.procs i).arrival_time ≤ INT_MAX := by
    intro i hin
    have hlt := hh'.lt_new i hin
    obtain ⟨hst, -⟩ := hh'.node i hlt
    exact (intRows_static rows hi _ i hlt hst).1
  have hnewge : ∀ i ∈ st'.new_list, st'.cpu_clock + st'.next_step ≤ (st'.procs i).arrival_time := by
    intro i hin
    have hlt := hh'.lt_new i hin
    obtain ⟨-, hpl, htm, -⟩ := hh'.node i hlt
    have hsn : ((advance st').procs i).s = STATE_NEW := hpl.1.mp hin
    unfold Timers at htm
    simp only [hsn] at htm
    exact htm.2.2.2.1
  refine ⟨passes_init_agree rows hv hi (k + 1) st' e hc, g1, fits_of_bounds h0 hmax, ?_, g2, g3, ?_⟩
  · intro i hin
    have a1 := harr i hin
    have a2 := hnewge i hin
    have a3 := hs.1
    exact fits_of_bounds (by omega) (by omega)
  · intro hbusy
    obtain ⟨b1, b2, b3, b4, st1, b5, b6, b7, b8⟩ := g4 hbusy
    refine ⟨b1, b2, b3, b4, ?_, ?_⟩
    · intro hne
      cases hl : st'.new_list with
      | nil => exact absurd hl hne
      | cons i l =>
        have hin : i ∈ st'.new_list := by rw [hl]; exact List.mem_cons_self _ _
        have a1 := harr i hin
        have a2 := hnewge i hin
        omega
    · intro hsum
      have a3 := hs.1
      exact ⟨st1, b5, (loopBody_agree rows hi false st' hh hs hsum).trans b5, b6,
        fits_of_bounds (by omega) (by omega), b7, b8⟩

/-- C25 as amended, on the rows of `rowsMeet` after two passes (clock 2): PID 3 is running, PID 1 is
waiting and PID 2 has not arrived; the step is 3 and the next pass is made at clock 5. -/
theorem c25_step_never_overshoots_witness :
    ValidRows rowsMeet ∧ IntRows rowsMeet ∧
    ∃ st, passes (1 + 1) (initSim rowsMeet) = some st ∧ st.cpu_clock ≤ INT_MAX ∧
      Int32.passes (1 + 1) (initSim rowsMeet) = some st ∧
      (st.running ≠ none ∨ st.new_list ≠ [] ∨ st.waiting_list ≠ []) ∧
      st.cpu_clock + st.next_step ≤ INT_MAX ∧
      1 ≤ st.next_step ∧
      (∀ i ∈ st.new_list,
        st.cpu_clock < (st.procs i).arrival_time ∧
        st.next_step ≤ (st.procs i).arrival_time - st.cpu_clock) ∧
      ∃ st1, loopBody st = some st1 ∧ Int32.loopBody st = some st1 ∧
        st1.cpu_clock = st.cpu_clock + st.next_step ∧
        FitsInt st1.cpu_clock ∧ st.cpu_clock < st1.cpu_clock ∧
        ∀ i ∈ st.new_list,
          (i ∈ st1.new_list ↔ (st.procs i).arrival_time ≠ st1.cpu_clock) := by
  obtain ⟨-, st, e, h⟩ := c25_step_never_overshoots rowsMeet (by decide) (by decide) 1
  have hd : ∀ s ∈ passes (1 + 1) (initSim rowsMeet),
      s.cpu_clock ≤ INT_MAX ∧ s.new_list ≠ [] := by decide
  obtain ⟨hc, hn⟩ := hd st (by rw [e]; exact rfl)
  obtain ⟨ha, -, -, -, -, -, h6⟩ := h hc
  obtain ⟨b1, -, -, b4, b5, b6⟩ := h6 (Or.inr (Or.inl hn))
  exact ⟨by decide, by decide, st, e, hc, ha, Or.inr (Or.inl hn), b5 hn, b1, b4, b6 (b5 hn)⟩

end Skip

namespace Links

/-! ### Lists on the heap -/

theorem isList_functional (nodes : Nodes) (l1 : List Nat) :
    ∀ (head : Option Nat) (l2 : List Nat),
      IsList nodes head l1 → IsList nodes head l2 → l1 = l2 := by
  induction l1 with
  | nil =>
    intro head l2 h1 h2
    cases l2 with
    | nil => rfl
    | cons y ys =>
      simp only [IsList] at h1 h2
      rw [h1] at h2
      exact absurd h2.1 (by simp)
  | cons x xs ih =>
    intro head l2 h1 h2
    cases l2 with
    | nil =>
      simp only [IsList] at h1 h2
      rw [h2] at h1
      exact absurd h1.1 (by simp)
    | cons y ys =>
      simp only [IsList] at h1 h2
      have hxy : x = y := by
        have := h1.1.symm.trans h2.1
        simpa using this
      subst hxy
      rw [ih _ ys h1.2 h2.2]

theorem isList_suffix (nodes : Nodes) (a : List Nat) :
    ∀ (head : Option Nat) (x : Nat) (b : List Nat),
      IsList nodes head (a ++ x :: b) → IsList nodes (some x) (x :: b) := by
  induction a with
  | nil =>
    intro head x b h
    simp only [List.nil_append, IsList] at h
    exact ⟨rfl, h.2⟩
  | cons y ys ih =>
    intro head x b h
    simp only [List.cons_append, IsList] at h
    exact ih _ x b h.2

/-- A list on the heap visits no node twice. -/
theorem isList_nodup (nodes : Nodes) (l : List Nat) :
    ∀ head : Option Nat, IsList nodes head l → l.Nodup := by
  induction l with
  | nil => intro _ _; exact List.nodup_nil
  | cons x xs ih =>
    intro head h
    have h0 := h
    simp only [IsList] at h
    refine List.nodup_cons.mpr ⟨?_, ih _ h.2⟩
    intro hx
    obtain ⟨a, b, hab⟩ := List.append_of_mem hx
    have h1 : IsList nodes (some x) (x :: b) := by
      have h2 := h.2
      rw [hab] at h2
      exact isList_suffix nodes a _ x b h2
    have h3 : IsList nodes (some x) (x :: xs) := ⟨rfl, h.2⟩
    have h4 := isList_functional nodes _ _ _ h1 h3
    have h5 : b = xs := by simpa using h4
    have h6 := congrArg List.length hab
    rw [← h5] at h6
    simp at h6
    omega

/-- A list on the heap depends only on the links of its own nodes. -/
theorem isList_congr (nodes nodes1 : Nodes) (l : List Nat) :
    ∀ head : Option Nat, (∀ i ∈ l, (nodes1 i).next = (nodes i).next) →
      IsList nodes head l → IsList nodes1 head l := by
  induction l with
  | nil => intro head _ h; exact h
  | cons x xs ih =>
    intro head hl h
    simp only [IsList] at h ⊢
    refine ⟨h.1, ?_⟩
    rw [hl x (List.mem_cons_self x xs)]
    exact ih _ (fun i hi => hl i (List.mem_cons_of_mem x hi)) h.2

/-! ### `remove_node` on the heap -/

/-- With `*head == NULL` the call dereferences `NULL`, whatever node is to be removed. -/
theorem remove_node_null_head (fuel : Nat) (nodes : Nodes) (to_be_removed : Option Nat) :
    remove_node fuel nodes none to_be_removed = Except.error Fault.null_deref := by
  unfold remove_node
  split <;> rfl

theorem remove_node_loop_absent (nodes : Nodes) (to_be_removed : Option Nat) (xs : List Nat) :
    ∀ (temp fuel : Nat), IsList nodes (some temp) (temp :: xs) →
      (∀ x ∈ xs, some x ≠ to_be_removed) → xs.length < fuel →
      remove_node_loop fuel nodes temp to_be_removed = Except.ok (-1, nodes) := by
  induction xs with
  | nil =>
    intro temp fuel hl _ hf
    simp only [IsList] at hl
    cases fuel with
    | zero => simp at hf
    | succ f =>
      unfold remove_node_loop
      rw [hl.2]
  | cons y ys ih =>
    intro temp fuel hl hn hf
    simp only [IsList] at hl
    cases fuel with
    | zero => simp at hf
    | succ f =>
      unfold remove_node_loop
      rw [hl.2.1]
      simp only
      rw [if_neg (hn y (List.mem_cons_self y ys))]
      refine ih y f ⟨rfl, hl.2.2⟩ (fun x hx => hn x (List.mem_cons_of_mem y hx)) ?_
      simp only [List.length_cons] at hf
      omega

/-- A node that is not in a non-empty list: `remove_node` returns -1 and writes nothing. -/
theorem remove_node_absent (fuel : Nat) (nodes : Nodes) (head : Option Nat) (l : List Nat)
    (to_be_removed : Nat) (hl : IsList nodes head l) (hne : l ≠ [])
    (hn : to_be_removed ∉ l) (hf : l.length ≤ fuel) :
    remove_node fuel nodes head (some to_be_removed) = Except.ok (-1, nodes, head) := by
  cases l with
  | nil => exact absurd rfl hne
  | cons x xs =>
    have hl0 := hl
    simp only [IsList] at hl
    have hx : to_be_removed ≠ x := fun h => hn (h ▸ List.mem_cons_self x xs)
    unfold remove_node
    rw [hl.1, if_neg (by simpa using hx)]
    simp only
    rw [remove_node_loop_absent nodes (some to_be_removed) xs x fuel ⟨rfl, hl.2⟩
      (fun y hy => by
        intro h
        simp only [Option.some.injEq] at h
        exact hn (h ▸ List.mem_cons_of_mem x hy))
      (by simp only [List.length_cons] at hf; omega)]

theorem remove_node_loop_present (n : Nat) (post : List Nat) (pre : List Nat) :
    ∀ (nodes : Nodes) (temp fuel : Nat),
      IsList nodes (some temp) (temp :: pre ++ n :: post) →
      (pre ++ n :: post).length ≤ fuel →
      ∃ nodes1, remove_node_loop fuel nodes temp (some n) = Except.ok (1, nodes1) ∧
        IsList nodes1 (some temp) (temp :: pre ++ post) ∧ (nodes1 n).next = none ∧
        (∀ i, (nodes1 i).p = (nodes i).p) ∧
        (∀ i, i ∉ temp :: pre ++ n :: post → nodes1 i = nodes i) := by
  induction pre with
  | nil =>
    intro nodes temp fuel hl hf
    have hnd := isList_nodup nodes _ _ hl
    simp only [List.cons_append, List.nil_append, List.nodup_cons, List.mem_cons,
      not_or] at hnd
    obtain ⟨⟨htn, htp⟩, hnp, _⟩ := hnd
    simp only [List.cons_append, List.nil_append, IsList] at hl
    cases fuel with
    | zero => simp at hf
    | succ f =>
      unfold remove_node_loop
      rw [hl.2.1]
      simp only [if_true]
      refine ⟨_, rfl, ?_, ?_, ?_, ?_⟩
      · simp only [List.cons_append, List.nil_append, IsList]
        refine ⟨trivial, ?_⟩
        rw [Function.update_noteq htn, Function.update_same]
        refine isList_congr nodes _ post _ ?_ hl.2.2
        intro i hi
        have h1 : i ≠ n := fun h => hnp (h ▸ hi)
        have h2 : i ≠ temp := fun h => htp (h ▸ hi)
        rw [Function.update_noteq h1, Function.update_noteq h2]
      · rw [Function.update_same]
      · intro i
        by_cases h1 : i = n
        · subst h1
          rw [Function.update_same]
          by_cases h2 : i = temp
          · subst h2; rw [Function.update_same]
          · rw [Function.update_noteq h2]
        · rw [Function.update_noteq h1]
          by_cases h2 : i = temp
          · subst h2; rw [Function.update_same]
          · rw [Function.update_noteq h2]
      · intro i hi
        simp only [List.cons_append, List.nil_append, List.mem_cons, not_or] at hi
        rw [Function.update_noteq hi.2.1, Function.update_noteq hi.1]
  | cons y ys ih =>
    intro nodes temp fuel hl hf
    have hnd := isList_nodup nodes _ _ hl
    have hty : temp ∉ y :: ys ++ n :: post := by
      simpa using (List.nodup_cons.mp hnd).1
    have hyn : y ≠ n := by
      have h2 : (y :: (ys ++ n :: post)).Nodup := (List.nodup_cons.mp hnd).2
      simp only [List.nodup_cons, List.mem_append, List.mem_cons, not_or] at h2
      exact h2.1.2.1
    simp only [List.cons_append, IsList] at hl
    cases fuel with
    | zero => simp at hf
    | succ f =>
      unfold remove_node_loop
      rw [hl.2.1]
      simp only
      rw [if_neg (by simpa using hyn)]
      obtain ⟨nodes1, h1, h2, h3, h4, h5⟩ := ih nodes y f ⟨rfl, hl.2.2⟩
        (by simp only [List.cons_append, List.length_cons] at hf; omega)
      refine ⟨nodes1, h1, ?_, h3, h4, ?_⟩
      · simp only [List.cons_append, IsList]
        refine ⟨trivial, ?_⟩
        rw [h5 temp hty, hl.2.1]
        exact h2
      · intro i hi
        refine h5 i ?_
        intro hc
        exact hi (List.mem_cons_of_mem temp hc)

/-- A node of the list `pre ++ n :: post`: `remove_node` returns 1, the list becomes
`pre ++ post`, the `next` link of `n` is `NULL`, no `p` field changes and no node outside
the list is written. -/
theorem remove_node_present (fuel : Nat) (nodes : Nodes) (head : Option Nat)
    (pre post : List Nat) (n : Nat) (hl : IsList nodes head (pre ++ n :: post))
    (hf : (pre ++ n :: post).length ≤ fuel) :
    ∃ nodes1 head1, remove_node fuel nodes head (some n) = Except.ok (1, nodes1, head1) ∧
      IsList nodes1 head1 (pre ++ post) ∧ (nodes1 n).next = none ∧
      (∀ i, (nodes1 i).p = (nodes i).p) ∧
      (∀ i, i ∉ pre ++ n :: post → nodes1 i = nodes i) := by
  cases pre with
  | nil =>
    have hnd := isList_nodup nodes _ _ hl
    simp only [List.nil_append, List.nodup_cons] at hnd
    simp only [List.nil_append, IsList] at hl
    unfold remove_node
    rw [hl.1]
    simp only [if_true]
    refine ⟨_, _, rfl, ?_, ?_, ?_, ?_⟩
    · simp only [List.nil_append]
      refine isList_congr nodes _ post _ ?_ hl.2
      intro i hi
      have h1 : i ≠ n := fun h => hnd.1 (h ▸ hi)
      rw [Function.update_noteq h1]
    · rw [Function.update_same]
    · intro i
      by_cases h1 : i = n
      · subst h1; rw [Function.update_same]
      · rw [Function.update_noteq h1]
    · intro i hi
      simp only [List.nil_append, List.mem_cons, not_or] at hi
      rw [Function.update_noteq hi.1]
  | cons y ys =>
    have hnd := isList_nodup nodes _ _ hl
    have hyn : n ≠ y := by
      simp only [List.cons_append, List.nodup_cons, List.mem_append, List.mem_cons,
        not_or] at hnd
      exact fun h => hnd.1.2.1 h.symm
    have hl0 := hl
    simp only [List.cons_append, IsList] at hl
    unfold remove_node
    rw [hl.1, if_neg (by simpa using hyn)]
    simp only
    obtain ⟨nodes1, h1, h2, h3, h4, h5⟩ := remove_node_loop_present n post ys nodes y fuel
      ⟨rfl, hl.2⟩ (by simp only [List.cons_append, List.length_cons] at hf; omega)
    rw [h1]
    exact ⟨nodes1, some y, rfl, h2, h3, h4, h5⟩

/-! ### `push_node` on the heap -/

theorem push_node_loop_last (nodes : Nodes) (xs : List Nat) :
    ∀ (prev fuel : Nat), IsList nodes (some prev) (prev :: xs) → xs.length < fuel →
      push_node_loop fuel nodes prev = Except.ok ((prev :: xs).getLast (by simp)) := by
  induction xs with
  | nil =>
    intro prev fuel hl hf
    simp only [IsList] at hl
    cases fuel with
    | zero => simp at hf
    | succ f =>
      unfold push_node_loop
      rw [hl.2]
      rfl
  | cons y ys ih =>
    intro prev fuel hl hf
    simp only [IsList] at hl
    cases fuel with
    | zero => simp at hf
    | succ f =>
      unfold push_node_loop
      rw [hl.2.1]
      simp only
      rw [ih y f ⟨rfl, hl.2.2⟩ (by simp only [List.length_cons] at hf; omega)]
      simp

/-- Linking `t` behind the last node of a list that does not contain it. -/
theorem isList_snoc (nodes : Nodes) (t : Nat) (xs : List Nat) :
    ∀ (x : Nat), IsList nodes (some x) (x :: xs) → t ∉ x :: xs →
      IsList
        (Function.update
          (Function.update nodes ((x :: xs).getLast (by simp))
            { (nodes ((x :: xs).getLast (by simp))) with next := some t })
          t { (Function.update nodes ((x :: xs).getLast (by simp))
            { (nodes ((x :: xs).getLast (by simp))) with next := some t } t) with
              next := none })
        (some x) (x :: xs ++ [t]) := by
  induction xs with
  | nil =>
    intro x hl ht
    have hxt : x ≠ t := fun h => ht (by simp [h])
    simp only [List.getLast_singleton, List.nil_append, IsList]
    refine ⟨trivial, ?_, ?_⟩
    · rw [Function.update_noteq hxt, Function.update_same]
    · rw [Function.update_same]
  | cons y ys ih =>
    intro x hl ht
    have hnd := isList_nodup nodes _ _ hl
    have hxt : x ≠ t := fun h => ht (by simp [h])
    have hlast : (x :: y :: ys).getLast (by simp) = (y :: ys).getLast (by simp) := by
      simp
    have hxl : x ≠ (y :: ys).getLast (by simp) := by
      intro h
      have : x ∈ y :: ys := h ▸ List.getLast_mem _
      exact (List.nodup_cons.mp hnd).1 this
    simp only [IsList] at hl
    have h1 := ih y ⟨rfl, hl.2.2⟩ (fun h => ht (List.mem_cons_of_mem x h))
    simp only [List.cons_append, IsList] at h1 ⊢
    simp only [hlast]
    refine ⟨trivial, ?_, h1.2⟩
    rw [Function.update_noteq hxt, Function.update_noteq hxl]
    exact hl.2.1

/-- `push_node` of a node that is not in the list links it behind the last node and
returns the same head (the node itself when the list was empty). -/
theorem push_node_fresh (fuel : Nat) (nodes : Nodes) (head : Option Nat) (l : List Nat)
    (t : Nat) (hl : IsList nodes head l) (ht : t ∉ l) (hf : l.length ≤ fuel) :
    ∃ nodes1 head1, push_node fuel nodes head (some t) = Except.ok (nodes1, head1) ∧
      IsList nodes1 head1 (l ++ [t]) ∧ (l ≠ [] → head1 = head) ∧
      (∀ i, (nodes1 i).p = (nodes i).p) := by
  cases l with
  | nil =>
    simp only [IsList] at hl
    subst hl
    refine ⟨_, _, rfl, ?_, fun h => absurd rfl h, ?_⟩
    · simp only [List.nil_append, IsList]
      exact ⟨trivial, by rw [Function.update_same]⟩
    · intro i
      by_cases h1 : i = t
      · subst h1; rw [Function.update_same]
      · rw [Function.update_noteq h1]
  | cons x xs =>
    have hl0 := hl
    simp only [IsList] at hl
    have hx := hl.1
    subst hx
    unfold push_node
    simp only
    rw [push_node_loop_last nodes xs x fuel hl0
      (by simp only [List.length_cons] at hf; omega)]
    simp only
    refine ⟨_, _, rfl, isList_snoc nodes t xs x hl0 ht, fun _ => rfl, ?_⟩
    intro i
    by_cases h1 : i = t
    · subst h1
      rw [Function.update_same]
      by_cases h2 : i = (x :: xs).getLast (by simp)
      · rw [h2, Function.update_same]
      · rw [Function.update_noteq h2]
    · rw [Function.update_noteq h1]
      by_cases h2 : i = (x :: xs).getLast (by simp)
      · rw [h2, Function.update_same]
      · rw [Function.update_noteq h2]

/-! ### The list operations of the event-skip engine are those of the heap -/

theorem isList_head (nodes : Nodes) (head : Option Nat) (l : List Nat)
    (h : IsList nodes head l) : head = l.head? := by
  cases l with
  | nil => exact h
  | cons x xs => exact h.1

theorem skip_remove_node_scan_absent (n : Nat) (l : List Nat) (h : n ∉ l) :
    Skip.remove_node_scan n l = none := by
  induction l with
  | nil => rfl
  | cons x xs ih =>
    simp only [List.mem_cons, not_or] at h
    unfold Skip.remove_node_scan
    rw [if_neg (fun e => h.1 e.symm), ih h.2]

/-- `Skip.remove_node` on a node that is not in a non-empty list. -/
theorem skip_remove_node_absent (n x : Nat) (xs : List Nat) (h : n ∉ x :: xs) :
    Skip.remove_node (x :: xs) n = some (-1, x :: xs) := by
  simp only [List.mem_cons, not_or] at h
  unfold Skip.remove_node
  simp only
  rw [if_neg h.1, skip_remove_node_scan_absent n xs h.2]

/-- `Skip.remove_node`, on the sequence of the nodes, is `remove_node` on the heap. -/
theorem remove_node_refines (fuel : Nat) (nodes : Nodes) (head : Option Nat) (l : List Nat)
    (n : Nat) (hl : IsList nodes head l) (hf : l.length ≤ fuel) :
    match Skip.remove_node l n with
    | none => remove_node fuel nodes head (some n) = Except.error Fault.null_deref
    | some (r, l1) =>
      ∃ nodes1 head1, remove_node fuel nodes head (some n) = Except.ok (r, nodes1, head1) ∧
        IsList nodes1 head1 l1 := by
  cases l with
  | nil =>
    simp only [IsList] at hl
    subst hl
    exact remove_node_null_head fuel nodes (some n)
  | cons x xs =>
    by_cases hn : n ∈ x :: xs
    · rw [Skip.remove_node_of_mem (x :: xs) n hn]
      simp only
      obtain ⟨pre, post, hpp⟩ := List.append_of_mem hn
      have hnd := isList_nodup nodes _ _ hl
      rw [hpp] at hl hf hnd ⊢
      have hpre : n ∉ pre := by
        intro hc
        have := List.nodup_append.mp hnd
        exact this.2.2 hc (List.mem_cons_self n post)
      obtain ⟨nodes1, head1, h1, h2, _⟩ := remove_node_present fuel nodes head pre post n hl hf
      refine ⟨nodes1, head1, h1, ?_⟩
      rw [List.erase_append_right _ hpre, List.erase_cons_head]
      exact h2
    · rw [skip_remove_node_absent n x xs hn]
      simp only
      exact ⟨nodes, head, remove_node_absent fuel nodes head (x :: xs) n hl (by simp) hn hf, hl⟩

/-- `Skip.push_node`, on the sequence of the nodes, is `push_node` on the heap, for a node
that is not in the list. -/
theorem push_node_refines (fuel : Nat) (nodes : Nodes) (head : Option Nat) (l : List Nat)
    (t : Nat) (hl : IsList nodes head l) (ht : t ∉ l) (hf : l.length ≤ fuel) :
    ∃ nodes1 head1, push_node fuel nodes head (some t) = Except.ok (nodes1, head1) ∧
      IsList nodes1 head1 (Skip.push_node l t) := by
  obtain ⟨nodes1, head1, h1, h2, _⟩ := push_node_fresh fuel nodes head l t hl ht hf
  exact ⟨nodes1, head1, h1, by rw [Skip.push_node_eq]; exact h2⟩

/-! ### The claims about `remove_node` -/

/-- C15 fails on the empty list: with `*head == NULL`, `remove_node` dereferences `NULL`
(`(*head)->next` or `temp->next`) for every node to be removed, instead of returning -1;
so does the list-level `Skip.remove_node` that the loop of `main` is modelled with. -/
theorem c15_remove_node_on_empty_list_faults (fuel : Nat) (nodes : Nodes) (n : Nat) :
    remove_node fuel nodes none (some n) = Except.error Fault.null_deref ∧
    Skip.remove_node [] n = none :=
  ⟨remove_node_null_head fuel nodes (some n), rfl⟩

/-- C16: for a list `l` on the heap and enough iterations, removing a node `n` at any
position `l = pre ++ n :: post` returns 1, leaves the list `pre ++ post`, clears the `next`
link of `n`, changes no `p` field and writes to no node outside the list; and when `n` is
not in `l`, `push_node` followed by `remove_node` gives back the list `l` with its head. -/
theorem c16_remove_node_unlinks (fuel : Nat) (nodes : Nodes) (head : Option Nat)
    (l : List Nat) (n : Nat) (hl : IsList nodes head l) (hf : l.length < fuel) :
    (∀ pre post, l = pre ++ n :: post →
      ∃ nodes1 head1, remove_node fuel nodes head (some n) = Except.ok (1, nodes1, head1) ∧
        IsList nodes1 head1 (pre ++ post) ∧ (nodes1 n).next = none ∧
        (∀ i, (nodes1 i).p = (nodes i).p) ∧ (∀ i, i ∉ l → nodes1 i = nodes i)) ∧
    (n ∉ l →
      ∃ nodes1 head1 nodes2,
        push_node fuel nodes head (some n) = Except.ok (nodes1, head1) ∧
        IsList nodes1 head1 (l ++ [n]) ∧
        remove_node fuel nodes1 head1 (some n) = Except.ok (1, nodes2, head) ∧
        IsList nodes2 head l) := by
  constructor
  · intro pre post hpp
    subst hpp
    exact remove_node_present fuel nodes head pre post n hl (le_of_lt hf)
  · intro hn
    obtain ⟨nodes1, head1, h1, h2, _⟩ :=
      push_node_fresh fuel nodes head l n hl hn (le_of_lt hf)
    obtain ⟨nodes2, head2, h3, h4, _⟩ :=
      remove_node_present fuel nodes1 head1 l [] n h2 (by simp; omega)
    rw [List.append_nil] at h4
    have hh : head2 = head := by
      rw [isList_head nodes2 head2 l h4, isList_head nodes head l hl]
    rw [hh] at h3 h4
    exact ⟨nodes1, head1, nodes2, h1, h2, h3, h4⟩

theorem c16_remove_node_unlinks_witness :
    (IsList heapThree (some 1) [1, 2, 3] ∧ [1, 2, 3].length < 4 ∧
      ∃ nodes1 head1, remove_node 4 heapThree (some 1) (some 2) = Except.ok (1, nodes1, head1) ∧
        IsList nodes1 head1 [1, 3] ∧ (nodes1 2).next = none) ∧
    (4 ∉ [1, 2, 3] ∧
      ∃ nodes1 head1 nodes2,
        push_node 4 heapThree (some 1) (some 4) = Except.ok (nodes1, head1) ∧
        IsList nodes1 head1 [1, 2, 3, 4] ∧
        remove_node 4 nodes1 head1 (some 4) = Except.ok (1, nodes2, some 1) ∧
        IsList nodes2 (some 1) [1, 2, 3]) := by
  have hl : IsList heapThree (some 1) [1, 2, 3] := ⟨rfl, rfl, rfl, rfl⟩
  have hf : [1, 2, 3].length < 4 := by decide
  refine ⟨⟨hl, hf, ?_⟩, by decide, ?_⟩
  · obtain ⟨nodes1, head1, h1, h2, h3, _⟩ :=
      (c16_remove_node_unlinks 4 heapThree (some 1) [1, 2, 3] 2 hl hf).1 [1] [3] rfl
    exact ⟨nodes1, head1, h1, h2, h3⟩
  · exact (c16_remove_node_unlinks 4 heapThree (some 1) [1, 2, 3] 4 hl hf).2 (by decide)

end Links
